import Mathlib

/-!
The storage manager of vibelog-pro.

A shallow embedding of `vibelog-pro/js/storage-manager.js` and the properties that its
specification states about it.

Modelling conventions:

* `localStorage` is an association list of key/value strings (`Store.ls`); it has no
  quota, so `setItem` never raises.
* `JSON.stringify` is `JSON.stringify` below (numbers are integers); `JSON.parse` reads
  the texts that `JSON.stringify` writes, any other text is a SyntaxError.
* Objects are member lists in insertion order, and property names are looked up among the
  own members only. JavaScript differs for the names that an object inherits
  (`JSON.inheritedNames`): a read of such a name that is no own member finds the inherited
  member, and an assignment to `__proto__` creates no own member. A theorem whose statement
  depends on this carries the condition that the key is not such a name.
  Assigning a non-numeric `length` to an array is treated as a RangeError.
* The class body is strict-mode code: adding a property to a primitive raises a TypeError,
  while an array accepts a named property and drops it when it is serialized.
* `LZString` is a parameter `lz : Option Codec`, `none` when the library is not loaded;
  what is assumed about it is `Lawful lz`.
* A method that raises is modelled by `Except.error` carrying the state reached so far.
* The sizes that `getStats()` reports are natural numbers and its ratio is an exact
  fraction; the rounding of floating-point division is left out.
* `saveEntry` of `app.js` is modelled up to its effect on the store; what it does to the
  page afterwards is left out.
* `performance.now`, `console` and `_logPerformance` have no effect on the state and are
  left out; the debounce timer is the flag `writeTimer`, and its firing is the call
  `Op.flush`.
-/

set_option linter.unusedVariables false

set_option linter.unusedTactic false
set_option linter.unreachableTactic false

inductive JSON where
  | null : JSON
  | bool (b : Bool) : JSON
  | num (n : Int) : JSON
  | str (s : String) : JSON
  | arr (items : List JSON) : JSON
  | obj (members : List (String × JSON)) : JSON
  deriving Repr

namespace JSON

mutual
def decEqJSON : (a b : JSON) → Decidable (a = b)
  | null, null => isTrue rfl
  | bool a, bool b => if h : a = b then isTrue (by rw [h]) else isFalse (by intro e; cases e; exact h rfl)
  | num a, num b => if h : a = b then isTrue (by rw [h]) else isFalse (by intro e; cases e; exact h rfl)
  | str a, str b => if h : a = b then isTrue (by rw [h]) else isFalse (by intro e; cases e; exact h rfl)
  | arr a, arr b =>
    match decEqItems a b with
    | isTrue h => isTrue (by rw [h])
    | isFalse h => isFalse (by intro e; cases e; exact h rfl)
  | obj a, obj b =>
    match decEqMembers a b with
    | isTrue h => isTrue (by rw [h])
    | isFalse h => isFalse (by intro e; cases e; exact h rfl)
  | null, bool _ | null, num _ | null, str _ | null, arr _ | null, obj _
  | bool _, null | bool _, num _ | bool _, str _ | bool _, arr _ | bool _, obj _
  | num _, null | num _, bool _ | num _, str _ | num _, arr _ | num _, obj _
  | str _, null | str _, bool _ | str _, num _ | str _, arr _ | str _, obj _
  | arr _, null | arr _, bool _ | arr _, num _ | arr _, str _ | arr _, obj _
  | obj _, null | obj _, bool _ | obj _, num _ | obj _, str _ | obj _, arr _ =>
    isFalse (by intro e; cases e)
def decEqItems : (a b : List JSON) → Decidable (a = b)
  | [], [] => isTrue rfl
  | [], _ :: _ | _ :: _, [] => isFalse (by intro e; cases e)
  | x :: xs, y :: ys =>
    match decEqJSON x y, decEqItems xs ys with
    | isTrue h, isTrue t => isTrue (by rw [h, t])
    | isFalse h, _ => isFalse (by intro e; cases e; exact h rfl)
    | _, isFalse t => isFalse (by intro e; cases e; exact t rfl)
def decEqMembers : (a b : List (String × JSON)) → Decidable (a = b)
  | [], [] => isTrue rfl
  | [], _ :: _ | _ :: _, [] => isFalse (by intro e; cases e)
  | (k, x) :: xs, (l, y) :: ys =>
    if hk : k = l then
      match decEqJSON x y, decEqMembers xs ys with
      | isTrue h, isTrue t => isTrue (by rw [hk, h, t])
      | isFalse h, _ => isFalse (by intro e; cases e; exact h rfl)
      | _, isFalse t => isFalse (by intro e; cases e; exact t rfl)
    else isFalse (by intro e; cases e; exact hk rfl)
end

instance : DecidableEq JSON := decEqJSON


/-- The double quote character. -/
def dquote : Char := '"'

/-- The backslash character. -/
def bslash : Char := '\\'

/-- Escape sequence that `JSON.stringify` emits for one character of a string. -/
def escapeChar (c : Char) : List Char :=
  if c = dquote then [bslash, dquote]
  else if c = bslash then [bslash, bslash]
  else if c = Char.ofNat 8 then [bslash, 'b']
  else if c = Char.ofNat 9 then [bslash, 't']
  else if c = Char.ofNat 10 then [bslash, 'n']
  else if c = Char.ofNat 12 then [bslash, 'f']
  else if c = Char.ofNat 13 then [bslash, 'r']
  else if c.toNat < 32 then
    [bslash, 'u', '0', '0', Nat.digitChar (c.toNat / 16), Nat.digitChar (c.toNat % 16)]
  else [c]

/-- Body of a quoted string: every character escaped, without the quotes. -/
def escape : List Char → List Char
  | [] => []
  | c :: cs => escapeChar c ++ escape cs

/-- Quoted string literal as `JSON.stringify` prints it. -/
def renderStr (s : String) : List Char :=
  dquote :: (escape s.data ++ [dquote])

/-- Decimal text of an integer. -/
def renderInt (n : Int) : List Char :=
  if n < 0 then '-' :: Nat.toDigits 10 n.natAbs else Nat.toDigits 10 n.natAbs

mutual
/-- Text of a value, as `JSON.stringify` prints it (no white space). -/
def render : JSON → List Char
  | null => ['n', 'u', 'l', 'l']
  | bool true => ['t', 'r', 'u', 'e']
  | bool false => ['f', 'a', 'l', 's', 'e']
  | num n => renderInt n
  | str s => renderStr s
  | arr items => '[' :: (renderItems items ++ [']'])
  | obj ms => '{' :: (renderMembers ms ++ ['}'])
/-- Comma separated elements of an array. -/
def renderItems : List JSON → List Char
  | [] => []
  | x :: xs => render x ++ renderItemsTail xs
/-- Elements after the first one, each preceded by a comma. -/
def renderItemsTail : List JSON → List Char
  | [] => []
  | x :: xs => ',' :: (render x ++ renderItemsTail xs)
/-- Comma separated members of an object. -/
def renderMembers : List (String × JSON) → List Char
  | [] => []
  | (k, v) :: ms => renderStr k ++ ':' :: (render v ++ renderMembersTail ms)
/-- Members after the first one, each preceded by a comma. -/
def renderMembersTail : List (String × JSON) → List Char
  | [] => []
  | (k, v) :: ms => ',' :: (renderStr k ++ ':' :: (render v ++ renderMembersTail ms))
end

/-- `JSON.stringify(value)`. -/
def stringify (j : JSON) : String := String.mk (render j)

/-- Value of a hexadecimal digit. -/
def hexVal (c : Char) : Option Nat :=
  if '0' ≤ c ∧ c ≤ '9' then some (c.toNat - 48)
  else if 'a' ≤ c ∧ c ≤ 'f' then some (c.toNat - 87)
  else if 'A' ≤ c ∧ c ≤ 'F' then some (c.toNat - 55)
  else none

/-- Character written as a four digit unicode escape. -/
def hex4 (a b c d : Char) : Option Char :=
  match hexVal a, hexVal b, hexVal c, hexVal d with
  | some w, some x, some y, some z =>
    let code := ((w * 16 + x) * 16 + y) * 16 + z
    if (Char.ofNat code).toNat = code then some (Char.ofNat code) else none
  | _, _, _, _ => none

/-- Character named by a one letter escape. -/
def unescape (e : Char) : Option Char :=
  if e = dquote then some dquote
  else if e = bslash then some bslash
  else if e = '/' then some '/'
  else if e = 'b' then some (Char.ofNat 8)
  else if e = 't' then some (Char.ofNat 9)
  else if e = 'n' then some (Char.ofNat 10)
  else if e = 'f' then some (Char.ofNat 12)
  else if e = 'r' then some (Char.ofNat 13)
  else none

/-- Reads a string body up to its closing quote; gives the characters and the rest. -/
def parseStrBody : List Char → Option (List Char × List Char)
  | [] => none
  | c :: cs =>
    if c = dquote then some ([], cs)
    else if c = bslash then
      match cs with
      | [] => none
      | e :: cs1 =>
        if e = 'u' then
          match cs1 with
          | a :: b :: x :: d :: cs2 =>
            match hex4 a b x d, parseStrBody cs2 with
            | some ch, some (body, rest) => some (ch :: body, rest)
            | _, _ => none
          | _ => none
        else
          match unescape e, parseStrBody cs1 with
          | some ch, some (body, rest) => some (ch :: body, rest)
          | _, _ => none
    else if c.toNat < 32 then none
    else
      match parseStrBody cs with
      | some (body, rest) => some (c :: body, rest)
      | none => none

/-- Splits off the longest run of decimal digits. -/
def spanDigits : List Char → List Char × List Char
  | [] => ([], [])
  | c :: cs =>
    if c.isDigit then ((c :: (spanDigits cs).1), (spanDigits cs).2) else ([], c :: cs)

/-- Number denoted by a run of decimal digits. -/
def digitsVal (ds : List Char) : Nat :=
  ds.foldl (fun acc c => 10 * acc + (c.toNat - 48)) 0

/-- Reads an unsigned integer without a leading zero; a fraction or exponent is refused. -/
def parseNat (cs : List Char) : Option (Nat × List Char) :=
  match spanDigits cs with
  | ([], _) => none
  | (d :: ds, rest) =>
    if d = '0' ∧ ds ≠ [] then none
    else
      match rest with
      | r :: _ => if r = '.' ∨ r = 'e' ∨ r = 'E' then none else some (digitsVal (d :: ds), rest)
      | [] => some (digitsVal (d :: ds), rest)

/-- Reads the given literal text. -/
def expect : List Char → List Char → Option (List Char)
  | [], cs => some cs
  | _ :: _, [] => none
  | e :: es, c :: cs => if e = c then expect es cs else none

mutual
/-- Reads one value; the first argument bounds the depth of the recursion. -/
def parseValue : Nat → List Char → Option (JSON × List Char)
  | 0, _ => none
  | _ + 1, [] => none
  | f + 1, c :: cs =>
    if c = 'n' then (expect ['u', 'l', 'l'] cs).map (fun r => (null, r))
    else if c = 't' then (expect ['r', 'u', 'e'] cs).map (fun r => (bool true, r))
    else if c = 'f' then (expect ['a', 'l', 's', 'e'] cs).map (fun r => (bool false, r))
    else if c = dquote then
      (parseStrBody cs).map (fun p => (str (String.mk p.1), p.2))
    else if c = '[' then
      match cs with
      | [] => none
      | d :: cs1 =>
        if d = ']' then some (arr [], cs1)
        else (parseItems f (d :: cs1)).map (fun p => (arr p.1, p.2))
    else if c = '{' then
      match cs with
      | [] => none
      | d :: cs1 =>
        if d = '}' then some (obj [], cs1)
        else (parseMembers f (d :: cs1)).map (fun p => (obj p.1, p.2))
    else if c = '-' then
      (parseNat cs).map (fun p => (num (-(p.1 : Int)), p.2))
    else (parseNat (c :: cs)).map (fun p => (num (p.1 : Int), p.2))
/-- Reads the elements of a non-empty array up to the closing bracket. -/
def parseItems : Nat → List Char → Option (List JSON × List Char)
  | 0, _ => none
  | f + 1, cs =>
    match parseValue f cs with
    | none => none
    | some (v, []) => none
    | some (v, d :: rest) =>
      if d = ',' then (parseItems f rest).map (fun p => (v :: p.1, p.2))
      else if d = ']' then some ([v], rest)
      else none
/-- Reads the members of a non-empty object up to the closing brace. -/
def parseMembers : Nat → List Char → Option (List (String × JSON) × List Char)
  | 0, _ => none
  | _ + 1, [] => none
  | f + 1, q :: cs =>
    if q = dquote then
      match parseStrBody cs with
      | none => none
      | some (_, []) => none
      | some (k, colon :: cs1) =>
        if colon = ':' then
          match parseValue f cs1 with
          | none => none
          | some (_, []) => none
          | some (v, d :: rest) =>
            if d = ',' then (parseMembers f rest).map (fun p => ((String.mk k, v) :: p.1, p.2))
            else if d = '}' then some ([(String.mk k, v)], rest)
            else none
        else none
    else none
end

/-- `JSON.parse(text)`; `none` stands for the SyntaxError. -/
def parse (s : String) : Option JSON :=
  match parseValue (s.length + 1) s.data with
  | some (j, []) => some j
  | _ => none

/-- What may follow a value inside a text: nothing, a comma or a closing bracket. -/
def Delim (rest : List Char) : Prop :=
  ∀ c ∈ rest.head?, c = ',' ∨ c = ']' ∨ c = '}'

end JSON

/-- `String.prototype.length`: the number of UTF-16 code units. -/
def jsLength (s : String) : Nat :=
  (s.data.map (fun c => if c.toNat < 65536 then 1 else 2)).sum

/-- Errors that the storage code can raise. -/
inductive JSError where
  | typeError : JSError
  | syntaxError : JSError
  | rangeError : JSError
  | limitReached : JSError
  deriving DecidableEq, Repr

namespace JSON

/-- ToBoolean of a value. -/
def truthy : JSON → Bool
  | null => false
  | bool b => b
  | num n => decide (n ≠ 0)
  | str s => decide (s ≠ "")
  | arr _ => true
  | obj _ => true

/-- ToBoolean of a value that may be `undefined`. -/
def truthyOpt : Option JSON → Bool
  | none => false
  | some j => truthy j

/-- Tells the null value apart. -/
def isNull : JSON → Bool
  | null => true
  | _ => false

mutual
/-- ToString of a value, as used when a value serves as a storage key. -/
def toStr : JSON → String
  | null => "null"
  | bool true => "true"
  | bool false => "false"
  | num n => String.mk (renderInt n)
  | str s => s
  | arr items => joinItems items
  | obj _ => "[object Object]"
/-- `Array.prototype.join` with a comma. -/
def joinItems : List JSON → String
  | [] => ""
  | x :: xs => (if isNull x then "" else toStr x) ++ joinTail xs
/-- Elements after the first one of a joined array. -/
def joinTail : List JSON → String
  | [] => ""
  | x :: xs => "," ++ (if isNull x then "" else toStr x) ++ joinTail xs
end

/-- ToString of a value that may be `undefined`. -/
def toStrOpt : Option JSON → String
  | none => "undefined"
  | some j => toStr j

/-- The array index that a property name denotes, if it is one: a decimal numeral without
a leading zero, below `2^32 - 1`. -/
def arrayIndex (key : String) : Option Nat :=
  match key.data with
  | [] => none
  | d :: ds =>
    if (d :: ds).all Char.isDigit ∧ ¬(d = '0' ∧ ds ≠ []) ∧ digitsVal (d :: ds) < 4294967295 then
      some (digitsVal (d :: ds))
    else none

/-- Own property of an object: the first member with that name. -/
def lookup (key : String) : List (String × JSON) → Option JSON
  | [] => none
  | (k, v) :: ms => if k = key then some v else lookup key ms

/-- Members after `o[key] = v`: updated in place or added at the end. -/
def upsert (key : String) (v : JSON) : List (String × JSON) → List (String × JSON)
  | [] => [(key, v)]
  | (k, w) :: ms => if k = key then (k, v) :: ms else (k, w) :: upsert key v ms

/-- Members after `delete o[key]`. -/
def erase (key : String) : List (String × JSON) → List (String × JSON)
  | [] => []
  | (k, w) :: ms => if k = key then erase key ms else (k, w) :: erase key ms

/-- Code unit of a string at a position, when it is a whole character. -/
def unitAt : List Char → Nat → Option Char
  | [], _ => none
  | c :: cs, 0 => if c.toNat < 65536 then some c else none
  | c :: cs, i + 1 =>
    if c.toNat < 65536 then unitAt cs i
    else match i with
      | 0 => none
      | j + 1 => unitAt cs j

/-- Array after writing position `i`, padded with null when `i` is past the end. -/
def writeAt (items : List JSON) (i : Nat) (v : JSON) : List JSON :=
  if i < items.length then items.set i v
  else items ++ List.replicate (i - items.length) null ++ [v]

/-- Array after its length is set to `n`. -/
def resize (items : List JSON) (n : Nat) : List JSON :=
  items.take n ++ List.replicate (n - items.length) null

/-- Names of the members that every object inherits from `Object.prototype`. -/
def inheritedNames : List String :=
  ["__defineGetter__", "__defineSetter__", "__lookupGetter__", "__lookupSetter__", "__proto__",
    "constructor", "hasOwnProperty", "isPrototypeOf", "propertyIsEnumerable", "toLocaleString",
    "toString", "valueOf"]

/-- Property read `o[key]` among the own members; `none` is `undefined`, reading from null
raises. A name of `inheritedNames` that is not an own member reads as `undefined` here,
while JavaScript finds the inherited member; statements about such reads carry the
condition that the key is not inherited. -/
def getProp : JSON → String → Except JSError (Option JSON)
  | null, _ => .error .typeError
  | obj ms, key => .ok (lookup key ms)
  | arr items, key =>
    match arrayIndex key with
    | some i => .ok items[i]?
    | none => if key = "length" then .ok (some (num items.length)) else .ok none
  | str s, key =>
    match arrayIndex key with
    | some i => .ok ((unitAt s.data i).map (fun c => str (String.singleton c)))
    | none => if key = "length" then .ok (some (num (jsLength s))) else .ok none
  | bool _, _ => .ok none
  | num _, _ => .ok none

/-- Strict-mode assignment `o[key] = v` as the next serialization sees it; `none` is
`undefined`. Primitives refuse new properties, an array keeps a named property only in
memory, an undefined member is left out of the text. The name `__proto__` is treated as
any other name, while JavaScript runs the inherited setter and creates no own member;
statements about what a write stores carry the condition that the key is not
`__proto__`. -/
def setProp : JSON → String → Option JSON → Except JSError JSON
  | obj ms, key, some v => .ok (obj (upsert key v ms))
  | obj ms, key, none => .ok (obj (erase key ms))
  | arr items, key, v =>
    match arrayIndex key with
    | some i => .ok (arr (writeAt items i (v.getD null)))
    | none =>
      if key = "length" then
        match v with
        | some (num n) =>
          if 0 ≤ n ∧ n < 4294967296 then .ok (arr (resize items n.toNat))
          else .error .rangeError
        | _ => .error .rangeError
      else .ok (arr items)
  | null, _, _ => .error .typeError
  | bool _, _, _ => .error .typeError
  | num _, _, _ => .error .typeError
  | str _, _, _ => .error .typeError

/-- Strict-mode `delete o[key]` as the next serialization sees it. -/
def delProp : JSON → String → Except JSError JSON
  | null, _ => .error .typeError
  | obj ms, key => .ok (obj (erase key ms))
  | arr items, key =>
    match arrayIndex key with
    | some i => .ok (arr (if i < items.length then items.set i null else items))
    | none => if key = "length" then .error .typeError else .ok (arr items)
  | str s, key =>
    match arrayIndex key with
    | some i => if i < jsLength s then .error .typeError else .ok (str s)
    | none => if key = "length" then .error .typeError else .ok (str s)
  | bool b, _ => .ok (bool b)
  | num n, _ => .ok (num n)

/-- `Object.keys(o)`, in insertion order. JavaScript lists the names that are array
indices first, in ascending order, so for such names the list given here is a permutation
of the one that the code returns. -/
def objectKeys : JSON → Except JSError (List String)
  | null => .error .typeError
  | obj ms => .ok (ms.map Prod.fst)
  | arr items => .ok ((List.range items.length).map toString)
  | str s => .ok ((List.range (jsLength s)).map toString)
  | bool _ => .ok []
  | num _ => .ok []

/-- `JSON.parse(x)` where `x` may be null, which is read as the text `null`. -/
def parseArg (x : Option String) : Option JSON :=
  parse (x.getD "null")

end JSON

namespace StorageManager

/-- The compression library `LZString`. -/
structure Codec where
  compress : String → String
  decompress : String → Option String

/-- One entry of `writeQueue`. -/
structure QueuedWrite where
  key : String
  value : JSON
  timestamp : Nat
  deriving DecidableEq, Repr

/-- A `StorageManager` together with the host it runs on: `ls` is `localStorage` as a
list of key/value pairs in key order, `now` is what `Date.now()` returns. -/
structure Store where
  ls : List (String × String)
  now : Nat
  compressionEnabled : Bool
  writeQueue : List QueuedWrite
  writeTimer : Bool
  meta : JSON
  wal : JSON
  deriving DecidableEq, Repr

/-- How a method ends: normally, or by raising with the state reached so far. -/
abbrev Outcome := Except (JSError × Store) Store

/-- Value of `this.prefix`. -/
def pfx : String := "vl_"

/-- Value of `this.version`. -/
def version : String := "1.0.0"

/-- Value of `this.chunkSize`. -/
def chunkSize : Nat := 500000

/-- Physical key of the metadata. -/
def metaKey : String := pfx ++ "meta"

/-- Physical key of the index. -/
def indexKey : String := pfx ++ "index"

/-- Physical key of the write-ahead log. -/
def walKey : String := pfx ++ "wal"

/-- Physical key of chunk number `i`. -/
def chunkKeyOf (i : Nat) : String := pfx ++ "data_" ++ toString i

/-- `localStorage.getItem`. -/
def getItem : List (String × String) → String → Option String
  | [], _ => none
  | (k, v) :: rest, key => if k = key then some v else getItem rest key

/-- `localStorage.setItem`. -/
def setItem : List (String × String) → String → String → List (String × String)
  | [], key, value => [(key, value)]
  | (k, v) :: rest, key, value =>
    if k = key then (k, value) :: rest else (k, v) :: setItem rest key value

/-- `localStorage.removeItem`. -/
def removeItem : List (String × String) → String → List (String × String)
  | [], _ => []
  | (k, v) :: rest, key =>
    if k = key then removeItem rest key else (k, v) :: removeItem rest key

/-- Truthiness of what `getItem` returned: present and not the empty string. -/
def present : Option String → Bool
  | none => false
  | some s => decide (s ≠ "")

/-- `_compress`: the identity when the library is not loaded. -/
def compress (lz : Option Codec) (str : String) : String :=
  match lz with
  | some c => c.compress str
  | none => str

/-- `_decompress`: the identity when the library is not loaded; the library answers the
empty string for a null argument. -/
def decompress (lz : Option Codec) (str : Option String) : Option String :=
  match lz with
  | some c =>
    match str with
    | some s => c.decompress s
    | none => some ""
  | none => str

/-- The text a chunk is stored as: `compressionEnabled ? _compress(s) : s`. -/
def encode (lz : Option Codec) (enabled : Bool) (serialized : String) : String :=
  if enabled then compress lz serialized else serialized

/-- The text read back from a chunk: `compressionEnabled ? _decompress(c) : c`. -/
def decode (lz : Option Codec) (enabled : Bool) (chunk : Option String) : Option String :=
  if enabled then decompress lz chunk else chunk

/-- `_getIndex`. -/
def getIndex (s : Store) : JSON :=
  match getItem s.ls indexKey with
  | some indexStr =>
    if indexStr ≠ "" then
      match JSON.parse indexStr with
      | some index => index
      | none => .obj []
    else .obj []
  | none => .obj []

/-- `_setIndex`. -/
def setIndex (s : Store) (index : JSON) : Store :=
  { s with ls := setItem s.ls indexKey (JSON.stringify index) }

/-- `_saveMeta`. -/
def saveMeta (s : Store) : Store :=
  { s with ls := setItem s.ls metaKey (JSON.stringify s.meta) }

/-- `_createDefaultMeta`. -/
def createDefaultMeta (now : Nat) : JSON :=
  .obj [("version", .str version), ("created", .num now), ("updated", .num now),
    ("chunks", .arr [])]

/-- Text whose length `_findOrCreateChunk` takes as the estimated size. -/
def entryText (key : String) (value : Option JSON) : String :=
  match value with
  | some v => JSON.stringify (.obj [(key, v)])
  | none => JSON.stringify (.obj [])

/-- Test of the loop in `_findOrCreateChunk` for chunk `i`: new chunk, or it fits. -/
def chunkFits (ls : List (String × String)) (estimatedSize : Nat) (i : Nat) : Bool :=
  match getItem ls (chunkKeyOf i) with
  | none => true
  | some chunk => !(present (some chunk)) || decide (jsLength chunk + estimatedSize < chunkSize)

/-- `_findOrCreateChunk`. -/
def findOrCreateChunk (s : Store) (key : String) (value : Option JSON) :
    Except JSError String :=
  match (List.range 100).find? (chunkFits s.ls (jsLength (entryText key value))) with
  | some i => .ok (chunkKeyOf i)
  | none => .error .limitReached

/-- The part of a write that loads the chunk: `{}` or the parsed existing chunk. -/
def loadChunk (lz : Option Codec) (s : Store) (chunkKey : String) : Except JSError JSON :=
  let existingChunk := getItem s.ls chunkKey
  if present existingChunk then
    match JSON.parseArg (decode lz s.compressionEnabled existingChunk) with
    | some chunkData => .ok chunkData
    | none => .error .syntaxError
  else .ok (.obj [])

/-- `_writeImmediate`; the value may be `undefined` when it comes from a replayed log. -/
def writeImmediate (lz : Option Codec) (s : Store) (key : String) (value : Option JSON) :
    Outcome :=
  let index := getIndex s
  match findOrCreateChunk s key value with
  | .error e => .error (e, s)
  | .ok chunkKey =>
    match loadChunk lz s chunkKey with
    | .error e => .error (e, s)
    | .ok chunkData =>
      match JSON.setProp chunkData key value with
      | .error e => .error (e, s)
      | .ok chunkData1 =>
        let compressed := encode lz s.compressionEnabled (JSON.stringify chunkData1)
        let s1 := { s with ls := setItem s.ls chunkKey compressed }
        match JSON.setProp index key (some (.str chunkKey)) with
        | .error e => .error (e, s1)
        | .ok index1 =>
          let s2 := setIndex s1 index1
          match JSON.setProp s2.meta "updated" (some (.num s2.now)) with
          | .error e => .error (e, s2)
          | .ok meta1 => .ok (saveMeta { s2 with meta := meta1 })

/-- The operation record that `_queueWrite` appends to the log. -/
def walOp (key : String) (value : JSON) : JSON :=
  .obj [("type", .str "set"), ("key", .str key), ("value", value)]

/-- `_appendWAL`: `this.wal.push` raises unless `this.wal` is an array. -/
def appendWAL (s : Store) (operation : JSON) : Outcome :=
  match s.wal with
  | .arr ops =>
    let wal1 := JSON.arr (ops ++ [operation])
    .ok { s with wal := wal1, ls := setItem s.ls walKey (JSON.stringify wal1) }
  | _ => .error (.typeError, s)

/-- `_clearWAL`. -/
def clearWAL (s : Store) : Store :=
  { s with wal := .arr [], ls := removeItem s.ls walKey }

/-- `_queueWrite`. -/
def queueWrite (s : Store) (key : String) (value : JSON) : Outcome :=
  let s1 := { s with writeQueue := s.writeQueue ++ [⟨key, value, s.now⟩] }
  match appendWAL s1 (walOp key value) with
  | .error e => .error e
  | .ok s2 => .ok { s2 with writeTimer := true }

/-- `set(key, value, immediate)`: the state afterwards and the returned flag. -/
def set (lz : Option Codec) (s : Store) (key : String) (value : JSON) (immediate : Bool) :
    Store × Bool :=
  match (if immediate then writeImmediate lz s key (some value) else queueWrite s key value) with
  | .ok s1 => (s1, true)
  | .error (_, s1) => (s1, false)

/-- `get(key)`: `none` is `undefined`. -/
def get (lz : Option Codec) (s : Store) (key : String) : Option JSON :=
  let index := getIndex s
  match JSON.getProp index key with
  | .error _ => some .null
  | .ok chunkKey =>
    if !(JSON.truthyOpt chunkKey) then some .null
    else
      let chunk := getItem s.ls (JSON.toStrOpt chunkKey)
      if !(present chunk) then some .null
      else
        match JSON.parseArg (decode lz s.compressionEnabled chunk) with
        | none => some .null
        | some chunkData =>
          match JSON.getProp chunkData key with
          | .error _ => some .null
          | .ok r => r

/-- `delete(key)`: the state afterwards and the returned flag. -/
def delete (lz : Option Codec) (s : Store) (key : String) : Store × Bool :=
  let index := getIndex s
  match JSON.getProp index key with
  | .error _ => (s, false)
  | .ok chunkKey =>
    if !(JSON.truthyOpt chunkKey) then (s, true)
    else
      let chunk := getItem s.ls (JSON.toStrOpt chunkKey)
      match JSON.parseArg (decode lz s.compressionEnabled chunk) with
      | none => (s, false)
      | some chunkData =>
        match JSON.delProp chunkData key with
        | .error _ => (s, false)
        | .ok chunkData1 =>
          let compressed := encode lz s.compressionEnabled (JSON.stringify chunkData1)
          let s1 := { s with ls := setItem s.ls (JSON.toStrOpt chunkKey) compressed }
          match JSON.delProp index key with
          | .error _ => (s1, false)
          | .ok index1 => (setIndex s1 index1, true)

/-- `keys()`: raises when the index is null. -/
def keys (s : Store) : Except JSError (List String) :=
  JSON.objectKeys (getIndex s)

/-- `String.prototype.startsWith`. -/
def startsWith (s p : String) : Bool :=
  p.data.isPrefixOf s.data

/-- `clear()`. -/
def clear (s : Store) : Store × Bool :=
  let ls1 := s.ls.filter (fun kv => !(startsWith kv.1 pfx))
  (saveMeta { s with ls := ls1, meta := createDefaultMeta s.now }, true)

/-- One entry of `writeGroups`: a chunk key and the writes collected for it. -/
abbrev WriteGroup := String × List (String × JSON)

/-- `writeGroups[chunkKey].push(w)`, creating the group at the end when it is new. -/
def addToGroup : List WriteGroup → String → String × JSON → List WriteGroup
  | [], chunkKey, w => [(chunkKey, [w])]
  | (c, ws) :: rest, chunkKey, w =>
    if c = chunkKey then (c, ws ++ [w]) :: rest else (c, ws) :: addToGroup rest chunkKey w

/-- Grouping pass of `_flushWriteQueue`: every write is placed by `_findOrCreateChunk`
against the storage as it is before the flush writes anything. -/
def groupWrites (s : Store) : List QueuedWrite → List WriteGroup →
    Except JSError (List WriteGroup)
  | [], groups => .ok groups
  | w :: ws, groups =>
    match findOrCreateChunk s w.key (some w.value) with
    | .error e => .error e
    | .ok chunkKey => groupWrites s ws (addToGroup groups chunkKey (w.key, w.value))

/-- Inner loop of `_flushWriteQueue`: `chunkData[key] = value; index[key] = chunkKey`. -/
def applyWrites (chunkKey : String) : List (String × JSON) → JSON → JSON →
    Except JSError (JSON × JSON)
  | [], chunkData, index => .ok (chunkData, index)
  | (key, value) :: ws, chunkData, index =>
    match JSON.setProp chunkData key (some value) with
    | .error e => .error e
    | .ok chunkData1 =>
      match JSON.setProp index key (some (.str chunkKey)) with
      | .error e => .error e
      | .ok index1 => applyWrites chunkKey ws chunkData1 index1

/-- Outer loop of `_flushWriteQueue` over `Object.entries(writeGroups)`; the index is the
local object that is saved only after the loop. -/
def processGroups (lz : Option Codec) : List WriteGroup → Store → JSON →
    Except (JSError × Store) (Store × JSON)
  | [], s, index => .ok (s, index)
  | (chunkKey, ws) :: rest, s, index =>
    match loadChunk lz s chunkKey with
    | .error e => .error (e, s)
    | .ok chunkData =>
      match applyWrites chunkKey ws chunkData index with
      | .error e => .error (e, s)
      | .ok (chunkData1, index1) =>
        let compressed := encode lz s.compressionEnabled (JSON.stringify chunkData1)
        processGroups lz rest { s with ls := setItem s.ls chunkKey compressed } index1

/-- `_flushWriteQueue`. -/
def flushWriteQueue (lz : Option Codec) (s : Store) : Outcome :=
  match s.writeQueue with
  | [] => .ok s
  | w :: ws =>
    let s0 := { s with writeQueue := [] }
    match groupWrites s0 (w :: ws) [] with
    | .error e => .error (e, s0)
    | .ok writeGroups =>
      match processGroups lz writeGroups s0 (getIndex s0) with
      | .error e => .error e
      | .ok (s1, index1) =>
        let s3 := clearWAL (setIndex s1 index1)
        match JSON.setProp s3.meta "updated" (some (.num s3.now)) with
        | .error e => .error (e, s3)
        | .ok meta1 => .ok (saveMeta { s3 with meta := meta1 })

/-- Loop of `_replayWAL` over the operations of the log. -/
def replayOps (lz : Option Codec) : List JSON → Store → Outcome
  | [], s => .ok s
  | operation :: ops, s =>
    match JSON.getProp operation "type" with
    | .error e => .error (e, s)
    | .ok type =>
      if type = some (.str "set") then
        match JSON.getProp operation "key", JSON.getProp operation "value" with
        | .ok key, .ok value =>
          match writeImmediate lz s (JSON.toStrOpt key) value with
          | .error e => .error e
          | .ok s1 => replayOps lz ops s1
        | _, _ => .error (.typeError, s)
      else replayOps lz ops s

/-- `_replayWAL`: `forEach` exists on arrays only. -/
def replayWAL (lz : Option Codec) (s : Store) : Outcome :=
  match s.wal with
  | .arr ops =>
    match replayOps lz ops s with
    | .error e => .error e
    | .ok s1 => .ok (clearWAL s1)
  | _ => .error (.typeError, s)

/-- `_loadWAL`: every error is caught and leaves the state reached so far. A parsed log
that is not an array either has no positive `length` or has no `forEach`; both ways the
state stays as it is after the assignment to `this.wal`. -/
def loadWAL (lz : Option Codec) (s : Store) : Store :=
  match getItem s.ls walKey with
  | none => s
  | some walStr =>
    if walStr ≠ "" then
      match JSON.parse walStr with
      | none => s
      | some wal =>
        let s1 := { s with wal := wal }
        match wal with
        | .arr (_ :: _) =>
          match replayWAL lz s1 with
          | .ok s2 => s2
          | .error (_, s2) => s2
        | _ => s1
    else s

/-- `_loadMeta`: the metadata and the storage afterwards. When no metadata can be read
the default is created and `_saveMeta` runs while `this.meta` is still unassigned, so
the text written is that of `undefined`. -/
def loadMeta (ls : List (String × String)) (now : Nat) : JSON × List (String × String) :=
  let stored :=
    match getItem ls metaKey with
    | some metaStr => if metaStr ≠ "" then JSON.parse metaStr else none
    | none => none
  match stored with
  | some m => (m, ls)
  | none => (createDefaultMeta now, setItem ls metaKey "undefined")

/-- `_runMigrations`. -/
def runMigrations (s : Store) : Outcome :=
  match JSON.getProp s.meta "version" with
  | .error e => .error (e, s)
  | .ok v =>
    if v ≠ some (.str version) then
      match JSON.setProp s.meta "version" (some (.str version)) with
      | .error e => .error (e, s)
      | .ok meta1 => .ok (saveMeta { s with meta := meta1 })
    else .ok s

/-- `new StorageManager()` on a host whose storage is `ls` and whose clock shows `now`. -/
def construct (lz : Option Codec) (ls : List (String × String)) (now : Nat) :
    Except JSError Store :=
  let loaded := loadMeta ls now
  let s0 : Store :=
    { ls := loaded.2, now := now, compressionEnabled := true, writeQueue := [],
      writeTimer := false, meta := loaded.1, wal := .arr [] }
  match runMigrations s0 with
  | .error (e, _) => .error e
  | .ok s1 => .ok (loadWAL lz s1)

/-- A call made on the store, or the clock moving on. -/
inductive Op where
  | get (key : String) : Op
  | set (key : String) (value : JSON) (immediate : Bool) : Op
  | delete (key : String) : Op
  | keys : Op
  | clear : Op
  | getStats : Op
  | flush : Op
  | tick (dt : Nat) : Op
  deriving DecidableEq, Repr

/-- State after one call; a call that raises leaves the state it had reached. -/
def step (lz : Option Codec) (s : Store) : Op → Store
  | .get _ => s
  | .set key value immediate => (set lz s key value immediate).1
  | .delete key => (delete lz s key).1
  | .keys => s
  | .clear => (clear s).1
  | .getStats => s
  | .flush =>
    match flushWriteQueue lz s with
    | .ok s1 => s1
    | .error (_, s1) => s1
  | .tick dt => { s with now := s.now + dt }

/-- State after a sequence of calls. -/
def run (lz : Option Codec) (s : Store) (ops : List Op) : Store :=
  ops.foldl (step lz) s

/-- The store that `new StorageManager()` gives on an empty host storage. -/
def freshStore (now : Nat) : Store :=
  { ls := [(metaKey, "undefined")], now := now, compressionEnabled := true, writeQueue := [],
    writeTimer := false, meta := createDefaultMeta now, wal := .arr [] }

/-- The assumption on the compression library: decompressing undoes compressing, and
compressed text is never the empty string. Nothing is assumed when it is not loaded. -/
def Lawful (lz : Option Codec) : Prop :=
  ∀ c, lz = some c → ∀ s : String, c.decompress (c.compress s) = some s ∧ c.compress s ≠ ""

/-- A small lawful codec used to exercise the compressed paths: it appends one blank. -/
def markCodec : Codec where
  compress := fun s => String.mk (s.data ++ [' '])
  decompress := fun s =>
    match s.data.reverse with
    | c :: r => if c = ' ' then some (String.mk r.reverse) else none
    | [] => none

/-- What a read of the chunk stored under a physical key sees: nothing when the slot is
missing, empty or not parsable, else the parsed value. -/
def readChunk (lz : Option Codec) (s : Store) (chunkKey : String) : Option JSON :=
  if present (getItem s.ls chunkKey) then
    JSON.parseArg (decode lz s.compressionEnabled (getItem s.ls chunkKey))
  else none

/-- Chunk object after the writes of one group: the `chunkData[key] = value` part of the
inner loop of `_flushWriteQueue`. -/
def applyChunk : List (String × JSON) → JSON → Except JSError JSON
  | [], chunkData => .ok chunkData
  | (key, value) :: ws, chunkData =>
    match JSON.setProp chunkData key (some value) with
    | .error e => .error e
    | .ok chunkData1 => applyChunk ws chunkData1

/-- Index members after the writes of one group: the `index[key] = chunkKey` part. -/
def indexGroup (chunkKey : String) (ws : List (String × JSON))
    (idx : List (String × JSON)) : List (String × JSON) :=
  ws.foldl (fun m w => JSON.upsert w.1 (.str chunkKey) m) idx

/-- Index members after all groups, in the order of `Object.entries(writeGroups)`. -/
def indexGroups (groups : List WriteGroup) (idx : List (String × JSON)) :
    List (String × JSON) :=
  groups.foldl (fun m g => indexGroup g.1 g.2 m) idx

/-- Members of a chunk object after the writes of one group. -/
def applyAll (ws : List (String × JSON)) (ms : List (String × JSON)) :
    List (String × JSON) :=
  ws.foldl (fun m w => JSON.upsert w.1 w.2 m) ms

/-- Value of the last write to `key` in a list of writes. -/
def lastWrite (key : String) : List (String × JSON) → Option JSON
  | [] => none
  | (k, v) :: ws =>
    match lastWrite key ws with
    | some r => some r
    | none => if k = key then some v else none

/-- Chunk key of the last group, in processing order, that holds a write to `key`. -/
def lastGroup (key : String) : List WriteGroup → Option String
  | [] => none
  | (c, ws) :: gs =>
    match lastGroup key gs with
    | some r => some r
    | none => if (lastWrite key ws).isSome then some c else none

/-- The writes collected for a chunk key, empty when it has no group. -/
def groupOf (chunkKey : String) : List WriteGroup → List (String × JSON)
  | [] => []
  | (c, ws) :: gs => if c = chunkKey then ws else groupOf chunkKey gs

/-- Tells whether `_findOrCreateChunk` places a queued write in the given chunk. -/
def routedTo (s : Store) (chunkKey : String) (w : QueuedWrite) : Bool :=
  match findOrCreateChunk s w.key (some w.value) with
  | .ok c => decide (c = chunkKey)
  | .error _ => false

/-- The queued writes that `_findOrCreateChunk` places in the given chunk, in order. -/
def routed (s : Store) (chunkKey : String) (q : List QueuedWrite) : List (String × JSON) :=
  (q.filter (routedTo s chunkKey)).map (fun w => (w.key, w.value))

/-- Members of the object that a chunk decodes to; none when it does not decode to one. -/
def membersOf (lz : Option Codec) (s : Store) (chunkKey : String) : List (String × JSON) :=
  match readChunk lz s chunkKey with
  | some (.obj ms) => ms
  | _ => []

/-- Well-formed store, with a property `P` of all stored values: the index is an object,
every chunk that is present decodes to an object whose values satisfy `P`, every index
entry names a chunk that is present and holds the key, the metadata is an object, and the
queued values satisfy `P`. -/
structure Inv (P : JSON → Prop) (lz : Option Codec) (s : Store) : Prop where
  index : ∃ idx, getIndex s = .obj idx
  chunks : ∀ i, present (getItem s.ls (chunkKeyOf i)) = true →
    readChunk lz s (chunkKeyOf i) = some (.obj (membersOf lz s (chunkKeyOf i))) ∧
    ∀ k v, JSON.lookup k (membersOf lz s (chunkKeyOf i)) = some v → P v
  sound : ∀ idx k cv, getIndex s = .obj idx → JSON.lookup k idx = some cv →
    ∃ i, cv = .str (chunkKeyOf i) ∧ present (getItem s.ls (chunkKeyOf i)) = true ∧
      (JSON.lookup k (membersOf lz s (chunkKeyOf i))).isSome = true
  metaObj : ∃ mm, s.meta = .obj mm
  queue : ∀ w, w ∈ s.writeQueue → P w.value

/-- Every value passed to a `set` call of the sequence satisfies `P`. -/
def SetsSatisfy (P : JSON → Prop) (ops : List Op) : Prop :=
  ∀ key value immediate, Op.set key value immediate ∈ ops → P value

/-- A store over a host storage whose first chunk slot holds the text of an empty JSON
array instead of an object. -/
def arrayChunkStore : Store :=
  { freshStore 0 with ls := [(chunkKeyOf 0, "[]")] }

/-- State after `_flushWriteQueue`, whether it completed or raised. -/
def afterFlush (lz : Option Codec) (s : Store) : Store :=
  step lz s .flush

/-- The log records of a queue, in enqueue order. -/
def walOps (q : List QueuedWrite) : List JSON :=
  q.map (fun w => walOp w.key w.value)

/-- The log mirrors the queue: in memory it is the array of the pending records, and the
persisted log is absent for an empty queue and the text of that array otherwise. -/
structure WalInv (s : Store) : Prop where
  mem : s.wal = .arr (walOps s.writeQueue)
  slot : getItem s.ls walKey =
    if s.writeQueue = [] then none else some (JSON.stringify (.arr (walOps s.writeQueue)))

/-- A sequence of calls without `clear()` in which every flush completes. -/
def Quiet (lz : Option Codec) : Store → List Op → Prop
  | _, [] => True
  | s, op :: ops =>
    op ≠ .clear ∧ (op = .flush → ∃ s1, flushWriteQueue lz s = .ok s1) ∧
      Quiet lz (step lz s op) ops

/-- A string of `n` letters `x`. -/
def bigText (n : Nat) : String :=
  String.mk (List.replicate n 'x')

/-- Number of chunk slots, among the hundred that the allocator scans, that are present. -/
def usedSlots (ls : List (String × String)) : Nat :=
  ((List.range 100).filter (fun i => present (getItem ls (chunkKeyOf i)))).length

/-- A sequence of non-immediate `set` calls. -/
def queueSets (ws : List (String × JSON)) : List Op :=
  ws.map (fun w => Op.set w.1 w.2 false)

/-- The metadata slot as a session leaves it: the text written by the first construction,
or the text of a metadata object. -/
def MetaSlotOk (ls : List (String × String)) : Prop :=
  getItem ls metaKey = some "undefined" ∨
    ∃ mm, getItem ls metaKey = some (JSON.stringify (.obj mm))

/-- A session whose compression flag was switched off before an immediate write. -/
def uncompressedSession : Store :=
  run (some markCodec) { freshStore 0 with compressionEnabled := false }
    [.set "a" (.num 1) true]

/-- One entry of `stats.chunks`. -/
structure ChunkStat where
  key : String
  compressedSize : Nat
  deriving DecidableEq

/-- The object that `getStats()` returns; the sizes are whole numbers and the ratio is an
exact fraction. -/
structure Stats where
  version : String
  totalKeys : Nat
  chunks : List ChunkStat
  totalSize : Nat
  compressedSize : Nat
  compressionRatio : ℚ
  deriving DecidableEq

/-- Body of the loop of `getStats()` for one data chunk. A decompression that answers null
makes `decompressed.length` raise, which the inner `catch` turns into the compressed
size. -/
def statsChunk (lz : Option Codec) (enabled : Bool) (stats : Stats) (key chunk : String) :
    Stats :=
  let compressedSize := jsLength chunk * 2
  let stats1 := { stats with
    chunks := stats.chunks ++ [ChunkStat.mk key compressedSize],
    compressedSize := stats.compressedSize + compressedSize }
  if enabled then
    match decompress lz (some chunk) with
    | some decompressed => { stats1 with totalSize := stats1.totalSize + jsLength decompressed * 2 }
    | none => { stats1 with totalSize := stats1.totalSize + compressedSize }
  else { stats1 with totalSize := stats1.compressedSize }

/-- Loop of `getStats()` over the entries of `localStorage`; `all` is the whole storage,
which `getItem` reads. -/
def statsLoop (lz : Option Codec) (enabled : Bool) (all : List (String × String)) :
    List (String × String) → Stats → Except JSError Stats
  | [], stats => .ok stats
  | (key, _) :: rest, stats =>
    if key ≠ "" ∧ startsWith key (pfx ++ "data_") = true then
      match getItem all key with
      | none => .error .typeError
      | some chunk => statsLoop lz enabled all rest (statsChunk lz enabled stats key chunk)
    else statsLoop lz enabled all rest stats

/-- `getStats()`: it has no `try`, so an error of `keys()` is raised to the caller. -/
def getStats (lz : Option Codec) (s : Store) : Except JSError Stats :=
  match keys s with
  | .error e => .error e
  | .ok ks =>
    match statsLoop lz s.compressionEnabled s.ls s.ls
        { version := version, totalKeys := ks.length, chunks := [], totalSize := 0,
          compressedSize := 0, compressionRatio := 0 } with
    | .error e => .error e
    | .ok stats =>
      .ok { stats with
        compressionRatio :=
          if stats.totalSize > 0 then
            (1 - (stats.compressedSize : ℚ) / (stats.totalSize : ℚ)) * 100
          else 0 }

/-- Reference for `getStats()`: the physical keys that start with the prefix followed by
`data_`, in storage order. -/
def dataKeys (ls : List (String × String)) : List String :=
  (ls.map Prod.fst).filter (fun key => startsWith key (pfx ++ "data_"))

/-- Reference for `getStats()`: length of the string stored under a physical key. -/
def storedLength (ls : List (String × String)) (key : String) : Nat :=
  jsLength ((getItem ls key).getD "")

/-- Reference for `getStats()`: the estimate of the decompressed size of a stored string,
which falls back to the compressed size when decompression fails or is switched off. -/
def sizeEstimateRef (lz : Option Codec) (enabled : Bool) (chunk : String) : Nat :=
  if enabled then
    match decompress lz (some chunk) with
    | some decompressed => 2 * jsLength decompressed
    | none => 2 * jsLength chunk
  else 2 * jsLength chunk

/-- Reference for `getStats()`: the compression ratio in percent. -/
def ratioRef (compressedSize totalSize : Nat) : ℚ :=
  if totalSize > 0 then (1 - (compressedSize : ℚ) / (totalSize : ℚ)) * 100 else 0

/-- A store over a host storage in which all hundred chunk slots hold 500000 letters. -/
def fullStore : Store :=
  { freshStore 0 with ls := (List.range 100).map (fun i => (chunkKeyOf i, bigText 500000)) }

/-- The store that the constructor gives over a host storage whose `vl_wal` slot holds the
text of a number. -/
def strayWalStore : Store :=
  match construct none [(walKey, "5")] 0 with
  | .ok s => s
  | .error _ => freshStore 0

/-- A store over a host storage whose first chunk slot holds the empty string. -/
def emptySlotStore : Store :=
  { freshStore 0 with ls := [(chunkKeyOf 0, "")] }

/-- The allocator's test in the words of the specification: chunk `i` is physically absent,
or its stored length plus the estimated size stays below the chunk size. -/
def fitsAsStated (ls : List (String × String)) (estimatedSize : Nat) (i : Nat) : Bool :=
  match getItem ls (chunkKeyOf i) with
  | none => true
  | some chunk => decide (jsLength chunk + estimatedSize < chunkSize)

/-- Keys given to `localStorage.setItem` by the loop of `_flushWriteQueue` over the groups,
in order; the loop stops where it raises. -/
def processGroupsLog (lz : Option Codec) : List WriteGroup → Store → JSON → List String
  | [], _, _ => []
  | (chunkKey, ws) :: rest, s, index =>
    match loadChunk lz s chunkKey with
    | .error _ => []
    | .ok chunkData =>
      match applyWrites chunkKey ws chunkData index with
      | .error _ => []
      | .ok (chunkData1, index1) =>
        let compressed := encode lz s.compressionEnabled (JSON.stringify chunkData1)
        chunkKey :: processGroupsLog lz rest { s with ls := setItem s.ls chunkKey compressed } index1

/-- Keys given to `localStorage.setItem` during one call of `_flushWriteQueue`, in order:
the chunks, then the index in `_setIndex`, then the metadata in `_saveMeta`. -/
def flushLog (lz : Option Codec) (s : Store) : List String :=
  match s.writeQueue with
  | [] => []
  | w :: ws =>
    let s0 := { s with writeQueue := [] }
    match groupWrites s0 (w :: ws) [] with
    | .error _ => []
    | .ok writeGroups =>
      processGroupsLog lz writeGroups s0 (getIndex s0) ++
        match processGroups lz writeGroups s0 (getIndex s0) with
        | .error _ => []
        | .ok (s1, index1) =>
          let s3 := clearWAL (setIndex s1 index1)
          match JSON.setProp s3.meta "updated" (some (.num s3.now)) with
          | .error _ => [indexKey]
          | .ok _ => [indexKey, metaKey]

/-- The session of `uncompressedSession` after compression is switched on again. -/
def toggledSession : Store :=
  { uncompressedSession with compressionEnabled := true }

/-- A field of the in-memory metadata; none when the metadata is not an object or lacks the
field. -/
def metaField (s : Store) (name : String) : Option JSON :=
  match s.meta with
  | .obj mm => JSON.lookup name mm
  | _ => none

/-- The metadata is an object whose `created` and `updated` fields are numbers with
`created ≤ updated`, and `updated` is not ahead of the clock. -/
def TimesOk (s : Store) : Prop :=
  ∃ c u : Int, metaField s "created" = some (.num c) ∧ metaField s "updated" = some (.num u) ∧
    c ≤ u ∧ u ≤ (s.now : Int)

/-- `saveEntry(entry)` of `app.js`, with its `try`: the list stored for the day of the
entry is read with `get`, the entry is pushed, and the list is handed to a non-immediate
`set`. A stored value that is truthy and not an array has no `push`, which raises. -/
def saveEntry (lz : Option Codec) (s : Store) (entry : JSON) : Store :=
  match JSON.getProp entry "date" with
  | .error _ => s
  | .ok date =>
    let todayKey := "entries_" ++ JSON.toStrOpt date
    let stored := get lz s todayKey
    let todayEntries := if JSON.truthyOpt stored then stored else some (.arr [])
    match todayEntries with
    | some (.arr items) => (set lz s todayKey (.arr (items ++ [entry])) false).1
    | _ => s

/-- The index invariant: the index is an object, and every key that it lists is mapped to
a chunk that is physically present and decodes to an object containing the key. -/
def IndexSound (lz : Option Codec) (s : Store) : Prop :=
  ∃ idx, getIndex s = .obj idx ∧
    ∀ k cv, JSON.lookup k idx = some cv →
      ∃ i ms, cv = .str (chunkKeyOf i) ∧ present (getItem s.ls (chunkKeyOf i)) = true ∧
        readChunk lz s (chunkKeyOf i) = some (.obj ms) ∧ k ∈ ms.map Prod.fst

/-- Compression is inactive: it is switched off, or the library is not loaded. -/
def CompressionInactive (lz : Option Codec) (s : Store) : Prop :=
  s.compressionEnabled = false ∨ lz = none

/-- Every chunk slot that is present holds the text of a JSON object. -/
def ChunksAreObjects (s : Store) : Prop :=
  ∀ i chunk, getItem s.ls (chunkKeyOf i) = some chunk → chunk ≠ "" →
    ∃ ms, chunk = JSON.stringify (.obj ms)

/-- All queued writes to one key are placed in the same chunk by `_findOrCreateChunk`. -/
def SameRoute (s : Store) : Prop :=
  ∀ w1 ∈ s.writeQueue, ∀ w2 ∈ s.writeQueue, w1.key = w2.key →
    findOrCreateChunk s w1.key (some w1.value) = findOrCreateChunk s w2.key (some w2.value)

/-- The stored index is an object whose entries name data chunks. -/
def IndexNamesChunks (s : Store) : Prop :=
  ∃ idx, getIndex s = .obj idx ∧
    ∀ k cv, JSON.lookup k idx = some cv → ∃ i, cv = .str (chunkKeyOf i)

/-- The state that a method leaves, whether it returned or raised. -/
def stateOf : Outcome → Store
  | .ok s => s
  | .error (_, s) => s

/-- None of the `set` calls of the sequence uses the key `__proto__`. -/
def PlainKeys (ops : List Op) : Prop :=
  ∀ key value immediate, Op.set key value immediate ∈ ops → key ≠ "__proto__"

/-- A write of `value` under `key` is not re-routed in the state `s`: when the key has an
index entry, the chunk that `_findOrCreateChunk` picks for the write is the one that the
entry names. -/
def KeepsChunk (s : Store) (key : String) (value : JSON) : Prop :=
  ∀ c idx cv, findOrCreateChunk s key (some value) = .ok c → getIndex s = .obj idx →
    JSON.lookup key idx = some cv → cv = .str c

/-- The call `op` made in the state `s` does not re-route `key`: an immediate write of the
key is not re-routed, and a flush re-routes no queued write of the key and places all the
queued writes of the key in one chunk. -/
def KeepsKey (s : Store) (key : String) : Op → Prop
  | .set k value true => k = key → KeepsChunk s key value
  | .flush =>
    (∀ w ∈ s.writeQueue, w.key = key → KeepsChunk s key w.value) ∧
    ∀ w1 ∈ s.writeQueue, ∀ w2 ∈ s.writeQueue, w1.key = key → w2.key = key →
      findOrCreateChunk s w1.key (some w1.value) = findOrCreateChunk s w2.key (some w2.value)
  | _ => True

/-- No call of the sequence re-routes `key`, the calls that a later `clear()` undoes left
aside. -/
def NeverRerouted (lz : Option Codec) (key : String) : Store → List Op → Prop
  | _, [] => True
  | s, op :: ops =>
    (Op.clear ∈ ops ∨ KeepsKey s key op) ∧ NeverRerouted lz key (step lz s op) ops

/-- Every chunk that holds `key` is the chunk that the index names for it. -/
def HeldWhereIndexed (lz : Option Codec) (key : String) (s : Store) : Prop :=
  ∀ idx i, getIndex s = .obj idx →
    (JSON.lookup key (membersOf lz s (chunkKeyOf i))).isSome = true →
    JSON.lookup key idx = some (.str (chunkKeyOf i))

/-- A replay of the writes `ws` stops in the state `s` for lack of room: for one of them
`_findOrCreateChunk` finds no chunk among the hundred and raises. -/
def NoRoom (s : Store) (ws : List (String × JSON)) : Prop :=
  ∃ w ∈ ws, findOrCreateChunk s w.1 (some w.2) = .error .limitReached

/-- Immediate writes of 500000 letters under one key on a store without the compression
library: each takes a new chunk, so `n` of them fill `n` chunk slots. -/
def fillOps (n : Nat) : List Op :=
  List.replicate n (Op.set "k" (.str (bigText 500000)) true)

/-- The store reached from an empty one by `fillOps n`. -/
def filledStore (n : Nat) : Store :=
  run none (freshStore 0) (fillOps n)

/-- Two writes of 300000 letters, queued when one chunk slot is left: the flush places both
in that chunk, while a replay finds no room for the second. -/
def lastSlotOps : List Op :=
  [.set "a" (.str (bigText 300000)) false, .set "b" (.str (bigText 300000)) false]

/-- Three immediate writes that use two chunks: 500000 letters under `a` fill the first
chunk, so `b` is written to the second one and then updated there. -/
def twoChunkOps : List Op :=
  [.set "a" (.str (bigText 500000)) true, .set "b" (.num 1) true, .set "b" (.num 2) true]

/-- A session that ended with one write stored and one write pending in the log. -/
def crashedSession : Store :=
  run (some markCodec) (freshStore 0) [.set "a" (.num 1) true, .set "b" (.num 2) false]

/-- The store that a new instance builds over the storage of `crashedSession`. -/
def recoveredStore : Store :=
  match construct (some markCodec) crashedSession.ls 3 with
  | .ok s => s
  | .error _ => freshStore 3

end StorageManager

namespace JSON

theorem toDigitsCore_split (n : Nat) : ∀ (fuel : Nat) (ds : List Char), n < fuel →
    Nat.toDigitsCore 10 fuel n ds =
      (if n < 10 then [] else Nat.toDigits 10 (n / 10)) ++ Nat.digitChar (n % 10) :: ds := by
  induction n using Nat.strong_induction_on with
  | _ n ih =>
    intro fuel ds hf
    obtain ⟨f, rfl⟩ : ∃ f, fuel = f + 1 := ⟨fuel - 1, by omega⟩
    unfold Nat.toDigitsCore
    by_cases h0 : n / 10 = 0
    · have : n < 10 := by omega
      simp [h0, this]
    · have hlt : n / 10 < n := by omega
      have hge : ¬ n < 10 := by omega
      simp only [h0, hge, if_false]
      rw [ih (n / 10) hlt f _ (by omega)]
      have e : Nat.toDigits 10 (n / 10) = _ := ih (n / 10) hlt (n / 10 + 1) [] (by omega)
      conv_rhs => rw [e]
      simp

theorem toDigits_split (n : Nat) :
    Nat.toDigits 10 n =
      (if n < 10 then [] else Nat.toDigits 10 (n / 10)) ++ [Nat.digitChar (n % 10)] := by
  rw [Nat.toDigits, toDigitsCore_split n (n + 1) [] (by omega)]

theorem digitChar_isDigit (d : Nat) (h : d < 10) :
    (Nat.digitChar d).isDigit = true ∧ (Nat.digitChar d).toNat - 48 = d := by
  interval_cases d <;> decide

theorem digitChar_zero_iff (d : Nat) (h : d < 10) : Nat.digitChar d = '0' ↔ d = 0 := by
  interval_cases d <;> decide

theorem spanDigits_append (ds rest : List Char) (hd : ∀ c ∈ ds, c.isDigit = true)
    (hr : ∀ c ∈ rest.head?, c.isDigit = false) : spanDigits (ds ++ rest) = (ds, rest) := by
  induction ds with
  | nil =>
    cases rest with
    | nil => rfl
    | cons r rs =>
      have := hr r (by simp)
      simp [spanDigits, this]
  | cons d ds ih =>
    have h1 := hd d (by simp)
    have h2 := ih (fun c hc => hd c (by simp [hc]))
    simp [spanDigits, h1, h2]

theorem digitsVal_snoc (ds : List Char) (c : Char) :
    digitsVal (ds ++ [c]) = 10 * digitsVal ds + (c.toNat - 48) := by
  simp [digitsVal, List.foldl_append]

theorem toDigits_spec (n : Nat) :
    (∀ c ∈ Nat.toDigits 10 n, c.isDigit = true) ∧ digitsVal (Nat.toDigits 10 n) = n ∧
      (∃ d ds, Nat.toDigits 10 n = d :: ds ∧ (d = '0' → ds = [])) := by
  induction n using Nat.strong_induction_on with
  | _ n ih =>
    rw [toDigits_split]
    have hm := digitChar_isDigit (n % 10) (Nat.mod_lt _ (by decide))
    by_cases h : n < 10
    · have hn : n % 10 = n := Nat.mod_eq_of_lt h
      simp only [h, if_true, List.nil_append]
      rw [hn] at hm ⊢
      refine ⟨?_, ?_, ?_⟩
      · intro c hc
        simp at hc
        rw [hc]; exact hm.1
      · simp [digitsVal, hm.2]
      · exact ⟨_, [], rfl, fun _ => rfl⟩
    · simp only [h, if_false]
      have hlt : n / 10 < n := by omega
      obtain ⟨i1, i2, d, ds, i3, i4⟩ := ih (n / 10) hlt
      refine ⟨?_, ?_, ?_⟩
      · intro c hc
        rcases List.mem_append.1 hc with hc | hc
        · exact i1 c hc
        · simp at hc
          rw [hc]; exact hm.1
      · rw [digitsVal_snoc, i2, hm.2]; omega
      · refine ⟨d, ds ++ [Nat.digitChar (n % 10)], by rw [i3]; rfl, ?_⟩
        intro hd
        exfalso
        have := i4 hd
        rw [this] at i3
        rw [i3, hd] at i2
        have : digitsVal ['0'] = 0 := by decide
        omega

theorem parseNat_toDigits (n : Nat) (rest : List Char) (hr : Delim rest) :
    parseNat (Nat.toDigits 10 n ++ rest) = some (n, rest) := by
  obtain ⟨h1, h2, d, ds, h3, h4⟩ := toDigits_spec n
  have hsp : spanDigits (Nat.toDigits 10 n ++ rest) = (Nat.toDigits 10 n, rest) := by
    apply spanDigits_append _ _ h1
    intro c hc
    rcases hr c hc with h | h | h <;> rw [h] <;> decide
  unfold parseNat
  rw [hsp, h3]
  have hz : ¬ (d = '0' ∧ ds ≠ []) := fun h => h.2 (h4 h.1)
  simp only [hz, if_false]
  rw [← h3, h2]
  cases rest with
  | nil => rfl
  | cons r rs =>
    have : ¬ (r = '.' ∨ r = 'e' ∨ r = 'E') := by
      rcases hr r (by simp) with h | h | h <;> rw [h] <;> decide
    simp only [this, if_false]

end JSON

namespace JSON

theorem hex4_control (c : Char) (h : c.toNat < 32) :
    hex4 '0' '0' (Nat.digitChar (c.toNat / 16)) (Nat.digitChar (c.toNat % 16)) = some c := by
  have hc : c = Char.ofNat c.toNat := (Char.ofNat_toNat c).symm
  generalize c.toNat = n at h hc
  subst hc
  interval_cases n <;> decide

theorem parseStrBody_plain (c : Char) (tl : List Char) (h1 : c ≠ dquote) (h2 : c ≠ bslash)
    (h3 : ¬ c.toNat < 32) :
    parseStrBody (c :: tl) =
      match parseStrBody tl with
      | some (body, rest) => some (c :: body, rest)
      | none => none := by
  conv_lhs => unfold parseStrBody
  simp only [h1, h2, h3, if_false]

theorem parseStrBody_named (e : Char) (tl : List Char) (h : e ≠ 'u') :
    parseStrBody (bslash :: e :: tl) =
      match unescape e, parseStrBody tl with
      | some ch, some (body, rest) => some (ch :: body, rest)
      | _, _ => none := by
  conv_lhs => unfold parseStrBody
  have hb : bslash ≠ dquote := by decide
  simp only [hb, h, if_false, if_true]

theorem parseStrBody_unicode (a b x d : Char) (tl : List Char) :
    parseStrBody (bslash :: 'u' :: a :: b :: x :: d :: tl) =
      match hex4 a b x d, parseStrBody tl with
      | some ch, some (body, rest) => some (ch :: body, rest)
      | _, _ => none := by
  conv_lhs => unfold parseStrBody
  have hb : bslash ≠ dquote := by decide
  simp only [hb, if_false, if_true]

theorem parseStrBody_cons (c : Char) (tl : List Char) (body rest : List Char)
    (h : parseStrBody tl = some (body, rest)) :
    parseStrBody (escapeChar c ++ tl) = some (c :: body, rest) := by
  unfold escapeChar
  split_ifs with h1 h2 h3 h4 h5 h6 h7 h8
  · subst h1
    rw [List.cons_append, List.cons_append, List.nil_append,
      parseStrBody_named _ _ (by decide), h]; rfl
  · subst h2
    rw [List.cons_append, List.cons_append, List.nil_append,
      parseStrBody_named _ _ (by decide), h]; rfl
  · subst h3
    rw [List.cons_append, List.cons_append, List.nil_append,
      parseStrBody_named _ _ (by decide), h]; rfl
  · subst h4
    rw [List.cons_append, List.cons_append, List.nil_append,
      parseStrBody_named _ _ (by decide), h]; rfl
  · subst h5
    rw [List.cons_append, List.cons_append, List.nil_append,
      parseStrBody_named _ _ (by decide), h]; rfl
  · subst h6
    rw [List.cons_append, List.cons_append, List.nil_append,
      parseStrBody_named _ _ (by decide), h]; rfl
  · subst h7
    rw [List.cons_append, List.cons_append, List.nil_append,
      parseStrBody_named _ _ (by decide), h]; rfl
  · simp only [List.cons_append, List.nil_append]
    rw [parseStrBody_unicode, h, hex4_control c h8]
  · rw [List.cons_append, List.nil_append, parseStrBody_plain c tl h1 h2 h8, h]

theorem parseStrBody_escape (cs rest : List Char) :
    parseStrBody (escape cs ++ dquote :: rest) = some (cs, rest) := by
  induction cs with
  | nil =>
    rw [escape, List.nil_append]
    conv_lhs => unfold parseStrBody
    simp
  | cons c cs ih =>
    rw [escape, List.append_assoc]
    exact parseStrBody_cons c _ cs rest ih

end JSON

namespace JSON

theorem parseValue_digit (f : Nat) (d : Char) (cs : List Char) (hd : d.isDigit = true) :
    parseValue (f + 1) (d :: cs) = (parseNat (d :: cs)).map (fun p => (num (p.1 : Int), p.2)) := by
  have hc : d = Char.ofNat d.toNat := (Char.ofNat_toNat d).symm
  have hb : 48 ≤ d.toNat ∧ d.toNat ≤ 57 := by
    simpa [Char.isDigit, Char.toNat, UInt32.le_def, Nat.le_antisymm_iff] using hd
  have h1 : d ≠ 'n' := by rintro rfl; revert hd; decide
  have h2 : d ≠ 't' := by rintro rfl; revert hd; decide
  have h3 : d ≠ 'f' := by rintro rfl; revert hd; decide
  have h4 : d ≠ dquote := by rintro rfl; revert hd; decide
  have h5 : d ≠ '[' := by rintro rfl; revert hd; decide
  have h6 : d ≠ '{' := by rintro rfl; revert hd; decide
  have h7 : d ≠ '-' := by rintro rfl; revert hd; decide
  rw [parseValue.eq_def]
  simp only [h1, h2, h3, h4, h5, h7, if_false]
  rw [if_neg h6]

theorem render_num_parse (n : Int) (f : Nat) (rest : List Char) (hr : Delim rest) :
    parseValue (f + 1) (renderInt n ++ rest) = some (num n, rest) := by
  unfold renderInt
  split_ifs with hn
  · rw [List.cons_append, parseValue.eq_def]
    simp only [show ('-' : Char) ≠ 'n' by decide, show ('-' : Char) ≠ 't' by decide,
      show ('-' : Char) ≠ 'f' by decide, show ('-' : Char) ≠ dquote by decide,
      show ('-' : Char) ≠ '[' by decide, show ('-' : Char) ≠ '{' by decide,
      if_false, if_true]
    rw [parseNat_toDigits _ _ hr]
    simp only [Option.map_some']
    have e : -(n.natAbs : Int) = n := by omega
    rw [e]
  · obtain ⟨h1, _, d, ds, h3, _⟩ := toDigits_spec n.natAbs
    have hp := parseNat_toDigits n.natAbs rest hr
    rw [h3] at hp h1
    rw [h3, List.cons_append, parseValue_digit f d _ (h1 d (by simp)), ← List.cons_append, hp]
    simp only [Option.map_some']
    rw [Int.natAbs_of_nonneg (by omega)]

theorem renderStr_length (s : String) : 2 ≤ (renderStr s).length := by
  simp [renderStr]

theorem render_length_pos : ∀ j : JSON, 1 ≤ (render j).length
  | null => by simp [render]
  | bool true => by simp [render]
  | bool false => by simp [render]
  | num n => by
    obtain ⟨_, _, d, ds, h3, _⟩ := toDigits_spec n.natAbs
    simp only [render, renderInt]
    split_ifs <;> simp [h3]
  | str s => by simp [render, renderStr]
  | arr _ => by simp [render]
  | obj _ => by simp [render]

end JSON

namespace JSON

theorem delim_comma (cs : List Char) : Delim (',' :: cs) := by
  intro c hc; simp at hc; exact Or.inl hc.symm

theorem delim_bracket (cs : List Char) : Delim (']' :: cs) := by
  intro c hc; simp at hc; exact Or.inr (Or.inl hc.symm)

theorem delim_brace (cs : List Char) : Delim ('}' :: cs) := by
  intro c hc; simp at hc; exact Or.inr (Or.inr hc.symm)

theorem delim_nil : Delim [] := by
  intro c hc; simp at hc

theorem delim_itemsTail (xs : List JSON) (rest : List Char) :
    Delim (renderItemsTail xs ++ ']' :: rest) := by
  cases xs with
  | nil => exact delim_bracket _
  | cons y ys => rw [renderItemsTail]; exact delim_comma _

theorem delim_membersTail (ms : List (String × JSON)) (rest : List Char) :
    Delim (renderMembersTail ms ++ '}' :: rest) := by
  cases ms with
  | nil => exact delim_brace _
  | cons m ms => obtain ⟨k, v⟩ := m; rw [renderMembersTail]; exact delim_comma _

theorem render_head_ne (j : JSON) (c : Char) (hc : c = ']' ∨ c = '}') :
    ∀ d tl, render j = d :: tl → d ≠ c := by
  intro d tl h
  cases j with
  | null => simp [render] at h; rcases hc with rfl | rfl <;> rw [← h.1] <;> decide
  | bool b =>
    cases b <;> simp [render] at h <;> rcases hc with rfl | rfl <;> rw [← h.1] <;> decide
  | num n =>
    obtain ⟨h1, _, e, ds, h3, _⟩ := toDigits_spec n.natAbs
    simp only [render, renderInt] at h
    split_ifs at h
    · simp at h; rcases hc with rfl | rfl <;> rw [← h.1] <;> decide
    · rw [h3] at h1 h
      simp at h
      have := h1 e (by simp)
      rw [h.1] at this
      rcases hc with rfl | rfl <;> (rintro rfl; revert this; decide)
  | str s => simp [render, renderStr] at h; rcases hc with rfl | rfl <;> rw [← h.1] <;> decide
  | arr _ => simp [render] at h; rcases hc with rfl | rfl <;> rw [← h.1] <;> decide
  | obj _ => simp [render] at h; rcases hc with rfl | rfl <;> rw [← h.1] <;> decide

mutual
theorem parseValue_render : ∀ (j : JSON) (f : Nat) (rest : List Char),
    (render j).length ≤ f → Delim rest → parseValue f (render j ++ rest) = some (j, rest)
  | null, f, rest, hf, _ => by
    obtain ⟨g, rfl⟩ : ∃ g, f = g + 1 := ⟨f - 1, by simp [render] at hf; omega⟩
    rw [parseValue.eq_def]; simp [render, expect]
  | bool true, f, rest, hf, _ => by
    obtain ⟨g, rfl⟩ : ∃ g, f = g + 1 := ⟨f - 1, by simp [render] at hf; omega⟩
    rw [parseValue.eq_def]; simp [render, expect]
  | bool false, f, rest, hf, _ => by
    obtain ⟨g, rfl⟩ : ∃ g, f = g + 1 := ⟨f - 1, by simp [render] at hf; omega⟩
    rw [parseValue.eq_def]; simp [render, expect]
  | num n, f, rest, hf, hr => by
    obtain ⟨g, rfl⟩ : ∃ g, f = g + 1 := ⟨f - 1, by have := render_length_pos (num n); omega⟩
    rw [render]; exact render_num_parse n g rest hr
  | str s, f, rest, hf, _ => by
    obtain ⟨g, rfl⟩ : ∃ g, f = g + 1 := ⟨f - 1, by have := render_length_pos (str s); omega⟩
    rw [parseValue.eq_def]
    simp only [render, renderStr, List.cons_append, List.append_assoc, List.singleton_append]
    simp only [show dquote ≠ 'n' by decide, show dquote ≠ 't' by decide,
      show dquote ≠ 'f' by decide, if_false, if_true, parseStrBody_escape, Option.map_some',
      List.nil_append]
  | arr [], f, rest, hf, _ => by
    obtain ⟨g, rfl⟩ : ∃ g, f = g + 1 := ⟨f - 1, by simp [render] at hf; omega⟩
    rw [parseValue.eq_def]; simp [render, renderItems, dquote]
  | arr (x :: xs), f, rest, hf, _ => by
    obtain ⟨g, rfl⟩ : ∃ g, f = g + 1 := ⟨f - 1, by simp [render] at hf; omega⟩
    have ih := parseItems_render (x :: xs) g rest (by simp)
      (by simp [render] at hf; omega)
    obtain ⟨d, tl, hd⟩ : ∃ d tl, render x = d :: tl := by
      have := render_length_pos x
      cases h : render x with
      | nil => simp [h] at this
      | cons d tl => exact ⟨d, tl, rfl⟩
    have hne := render_head_ne x ']' (Or.inl rfl) d tl hd
    rw [parseValue.eq_def]
    simp only [render, renderItems, hd, List.cons_append, List.append_assoc,
      List.singleton_append, List.nil_append] at ih ⊢
    simp only [show ('[' : Char) ≠ 'n' by decide, show ('[' : Char) ≠ 't' by decide,
      show ('[' : Char) ≠ 'f' by decide, show ('[' : Char) ≠ dquote by decide,
      if_false, if_true, hne, ih, Option.map_some']
  | obj [], f, rest, hf, _ => by
    obtain ⟨g, rfl⟩ : ∃ g, f = g + 1 := ⟨f - 1, by simp [render] at hf; omega⟩
    rw [parseValue.eq_def]; simp [render, renderMembers, dquote]
  | obj ((k, v) :: ms), f, rest, hf, _ => by
    obtain ⟨g, rfl⟩ : ∃ g, f = g + 1 := ⟨f - 1, by simp [render] at hf; omega⟩
    have ih := parseMembers_render ((k, v) :: ms) g rest (by simp)
      (by simp [render] at hf; omega)
    rw [parseValue.eq_def]
    simp only [render, renderMembers, renderStr, List.cons_append, List.append_assoc,
      List.singleton_append, List.nil_append] at ih ⊢
    simp only [show ('{' : Char) ≠ 'n' by decide,
      show ('{' : Char) ≠ 't' by decide,
      show ('{' : Char) ≠ 'f' by decide,
      show ('{' : Char) ≠ dquote by decide,
      show ('{' : Char) ≠ '[' by decide,
      show dquote ≠ '}' by decide,
      if_false, if_true, ih, Option.map_some']
theorem parseItems_render : ∀ (l : List JSON) (f : Nat) (rest : List Char), l ≠ [] →
    (renderItems l).length + 1 ≤ f →
    parseItems f (renderItems l ++ ']' :: rest) = some (l, rest)
  | [], _, _, h, _ => absurd rfl h
  | x :: xs, f, rest, _, hf => by
    obtain ⟨g, rfl⟩ : ∃ g, f = g + 1 := ⟨f - 1, by omega⟩
    have hx := parseValue_render x g (renderItemsTail xs ++ ']' :: rest)
      (by simp [renderItems] at hf; omega) (delim_itemsTail xs rest)
    rw [parseItems, renderItems, List.append_assoc, hx]
    match xs, hf with
    | [], _ => simp [renderItemsTail]
    | y :: ys, hf =>
      have hl := render_length_pos x
      have ih := parseItems_render (y :: ys) g rest (by simp)
        (by simp [renderItems, renderItemsTail] at hf ⊢; omega)
      simp only [renderItems, List.append_assoc] at ih
      simp only [renderItemsTail, List.cons_append, List.append_assoc, if_true, ih,
        Option.map_some']
theorem parseMembers_render : ∀ (l : List (String × JSON)) (f : Nat) (rest : List Char),
    l ≠ [] → (renderMembers l).length + 1 ≤ f →
    parseMembers f (renderMembers l ++ '}' :: rest) = some (l, rest)
  | [], _, _, h, _ => absurd rfl h
  | (k, v) :: ms, f, rest, _, hf => by
    obtain ⟨g, rfl⟩ : ∃ g, f = g + 1 := ⟨f - 1, by omega⟩
    have hk := renderStr_length k
    have hv := parseValue_render v g (renderMembersTail ms ++ '}' :: rest)
      (by simp [renderMembers] at hf; omega) (delim_membersTail ms rest)
    rw [parseMembers.eq_def]
    simp only [renderMembers, renderStr, List.cons_append, List.append_assoc,
      List.singleton_append, List.nil_append, if_true, parseStrBody_escape, hv]
    match ms, hf, hv with
    | [], _, hv =>
      simp only [renderMembersTail, List.nil_append] at hv ⊢
      simp [hv]
    | (k2, v2) :: ms2, hf, hv =>
      have hl := render_length_pos v
      have ih := parseMembers_render ((k2, v2) :: ms2) g rest (by simp)
        (by simp [renderMembers, renderMembersTail] at hf ⊢; omega)
      simp only [renderMembers, renderStr, List.cons_append, List.append_assoc,
        List.singleton_append, List.nil_append] at ih
      simp only [renderMembersTail, renderStr, List.cons_append, List.append_assoc,
        List.singleton_append, List.nil_append] at hv ⊢
      simp only [hv, if_true, ih, Option.map_some']
end

/-- Parsing the text of a value gives the value back. -/
theorem parse_stringify (j : JSON) : parse (stringify j) = some j := by
  have := parseValue_render j ((render j).length + 1) [] (by omega) delim_nil
  simp only [List.append_nil] at this
  simp [parse, stringify, String.length, this]

end JSON

namespace StorageManager

/-! ## Host storage -/

theorem getItem_setItem_same (ls : List (String × String)) (k v : String) :
    getItem (setItem ls k v) k = some v := by
  induction ls with
  | nil => simp [setItem, getItem]
  | cons p ls ih =>
    obtain ⟨a, b⟩ := p
    by_cases h : a = k
    · simp [setItem, getItem, h]
    · simp [setItem, getItem, h, ih]

theorem getItem_setItem_ne (ls : List (String × String)) (k v k2 : String) (h : k2 ≠ k) :
    getItem (setItem ls k v) k2 = getItem ls k2 := by
  induction ls with
  | nil => simp [setItem, getItem, Ne.symm h]
  | cons p ls ih =>
    obtain ⟨a, b⟩ := p
    by_cases h1 : a = k
    · subst h1
      simp [setItem, getItem, Ne.symm h]
    · by_cases h2 : a = k2
      · subst h2
        simp [setItem, getItem, h]
      · simp [setItem, getItem, h1, h2, ih]

theorem getItem_removeItem_same (ls : List (String × String)) (k : String) :
    getItem (removeItem ls k) k = none := by
  induction ls with
  | nil => simp [removeItem, getItem]
  | cons p ls ih =>
    obtain ⟨a, b⟩ := p
    by_cases h : a = k
    · simp [removeItem, h, ih]
    · simp [removeItem, getItem, h, ih]

theorem getItem_removeItem_ne (ls : List (String × String)) (k k2 : String) (h : k2 ≠ k) :
    getItem (removeItem ls k) k2 = getItem ls k2 := by
  induction ls with
  | nil => simp [removeItem, getItem]
  | cons p ls ih =>
    obtain ⟨a, b⟩ := p
    by_cases h1 : a = k
    · subst h1
      simp [removeItem, getItem, Ne.symm h, ih]
    · by_cases h2 : a = k2
      · subst h2
        simp [removeItem, getItem, h]
      · simp [removeItem, getItem, h1, h2, ih]

/-! ## Physical key names -/

theorem chunkKeyOf_data (i : Nat) :
    (chunkKeyOf i).data = ['v', 'l', '_', 'd', 'a', 't', 'a', '_'] ++ Nat.toDigits 10 i := by
  simp [chunkKeyOf, pfx, toString, Nat.repr, List.asString]

theorem chunkKeyOf_ne_indexKey (i : Nat) : chunkKeyOf i ≠ indexKey := by
  intro h
  have := congrArg String.data h
  rw [chunkKeyOf_data] at this
  simp [indexKey, pfx] at this

theorem chunkKeyOf_ne_metaKey (i : Nat) : chunkKeyOf i ≠ metaKey := by
  intro h
  have := congrArg String.data h
  rw [chunkKeyOf_data] at this
  simp [metaKey, pfx] at this

theorem chunkKeyOf_ne_walKey (i : Nat) : chunkKeyOf i ≠ walKey := by
  intro h
  have := congrArg String.data h
  rw [chunkKeyOf_data] at this
  simp [walKey, pfx] at this

theorem chunkKeyOf_ne_empty (i : Nat) : chunkKeyOf i ≠ "" := by
  intro h
  have := congrArg String.data h
  rw [chunkKeyOf_data] at this
  simp at this

theorem chunkKeyOf_injective (i j : Nat) (h : chunkKeyOf i = chunkKeyOf j) : i = j := by
  have := congrArg String.data h
  rw [chunkKeyOf_data, chunkKeyOf_data] at this
  have e := List.append_cancel_left this
  have hi := (JSON.toDigits_spec i).2.1
  have hj := (JSON.toDigits_spec j).2.1
  rw [e] at hi
  omega

theorem indexKey_ne_metaKey : indexKey ≠ metaKey := by decide

theorem indexKey_ne_walKey : indexKey ≠ walKey := by decide

theorem metaKey_ne_walKey : metaKey ≠ walKey := by decide

/-! ## Encoding of chunks -/

theorem stringify_ne_empty (j : JSON) : JSON.stringify j ≠ "" := by
  intro h
  have := congrArg String.data h
  have hp := JSON.render_length_pos j
  simp only [JSON.stringify] at this
  rw [this] at hp
  simp at hp

theorem encode_ne_empty (lz : Option Codec) (hz : Lawful lz) (e : Bool) (j : JSON) :
    encode lz e (JSON.stringify j) ≠ "" := by
  unfold encode compress
  split_ifs
  · cases lz with
    | none => exact stringify_ne_empty j
    | some c => exact (hz c rfl _).2
  · exact stringify_ne_empty j

theorem decode_encode (lz : Option Codec) (hz : Lawful lz) (e : Bool) (t : String) :
    decode lz e (some (encode lz e t)) = some t := by
  unfold decode encode compress decompress
  cases e with
  | false => simp
  | true =>
    cases lz with
    | none => simp
    | some c => simp [(hz c rfl t).1]

theorem parseArg_decode_encode (lz : Option Codec) (hz : Lawful lz) (e : Bool) (j : JSON) :
    JSON.parseArg (decode lz e (some (encode lz e (JSON.stringify j)))) = some j := by
  rw [decode_encode lz hz]
  simp [JSON.parseArg, JSON.parse_stringify]

theorem markCodec_lawful : Lawful (some markCodec) := by
  intro c hc s
  cases hc
  constructor
  · simp [markCodec]
  · intro h
    have := congrArg String.data h
    simp [markCodec] at this

theorem none_lawful : Lawful none := by
  intro c hc
  cases hc

end StorageManager

/-! ## Members of objects -/

namespace JSON

theorem lookup_upsert_same (k : String) (v : JSON) (ms : List (String × JSON)) :
    lookup k (upsert k v ms) = some v := by
  induction ms with
  | nil => simp [upsert, lookup]
  | cons p ms ih =>
    obtain ⟨a, b⟩ := p
    by_cases h : a = k
    · simp [upsert, lookup, h]
    · simp [upsert, lookup, h, ih]

theorem lookup_upsert_ne (k k2 : String) (v : JSON) (ms : List (String × JSON)) (h : k2 ≠ k) :
    lookup k2 (upsert k v ms) = lookup k2 ms := by
  induction ms with
  | nil => simp [upsert, lookup, Ne.symm h]
  | cons p ms ih =>
    obtain ⟨a, b⟩ := p
    by_cases h1 : a = k
    · subst h1
      simp [upsert, lookup, Ne.symm h]
    · by_cases h2 : a = k2
      · subst h2
        simp [upsert, lookup, h]
      · simp [upsert, lookup, h1, h2, ih]

theorem lookup_erase_same (k : String) (ms : List (String × JSON)) :
    lookup k (erase k ms) = none := by
  induction ms with
  | nil => simp [erase, lookup]
  | cons p ms ih =>
    obtain ⟨a, b⟩ := p
    by_cases h : a = k
    · simp [erase, h, ih]
    · simp [erase, lookup, h, ih]

theorem lookup_erase_ne (k k2 : String) (ms : List (String × JSON)) (h : k2 ≠ k) :
    lookup k2 (erase k ms) = lookup k2 ms := by
  induction ms with
  | nil => simp [erase, lookup]
  | cons p ms ih =>
    obtain ⟨a, b⟩ := p
    by_cases h1 : a = k
    · subst h1
      simp [erase, lookup, Ne.symm h, ih]
    · by_cases h2 : a = k2
      · subst h2
        simp [erase, lookup, h]
      · simp [erase, lookup, h1, h2, ih]

theorem mem_keys_iff (k : String) (ms : List (String × JSON)) :
    k ∈ ms.map Prod.fst ↔ ∃ v, lookup k ms = some v := by
  induction ms with
  | nil => simp [lookup]
  | cons p ms ih =>
    obtain ⟨a, b⟩ := p
    by_cases h : a = k
    · simp [lookup, h]
    · simp only [List.map_cons, List.mem_cons, lookup, h, if_false, ih]
      constructor
      · rintro (h1 | h1)
        · exact absurd h1.symm h
        · exact h1
      · intro h1
        exact Or.inr h1

theorem setProp_obj_of_ok (o : JSON) (k : String) (v : JSON) (o1 : JSON)
    (h : setProp o k (some v) = .ok o1) (hna : ∀ l, o ≠ arr l) :
    ∃ ms, o = obj ms ∧ o1 = obj (upsert k v ms) := by
  cases o with
  | obj ms =>
    simp only [setProp, Except.ok.injEq] at h
    exact ⟨ms, rfl, h.symm⟩
  | arr l => exact absurd rfl (hna l)
  | null => simp [setProp] at h
  | bool b => simp [setProp] at h
  | num n => simp [setProp] at h
  | str s => simp [setProp] at h

theorem setProp_ok_shape (j : JSON) (k : String) (v : Option JSON) (j1 : JSON)
    (h : setProp j k v = .ok j1) : (∃ m, j = obj m) ∨ (∃ l, j = arr l) := by
  cases j with
  | obj ms => exact Or.inl ⟨ms, rfl⟩
  | arr l => exact Or.inr ⟨l, rfl⟩
  | null => simp [setProp] at h
  | bool _ => simp [setProp] at h
  | num _ => simp [setProp] at h
  | str _ => simp [setProp] at h

theorem setProp_arr_ok (l : List JSON) (k : String) (v : Option JSON) (j : JSON)
    (h : setProp (.arr l) k v = .ok j) : ∃ l1, j = .arr l1 := by
  simp only [setProp] at h
  split at h
  · exact ⟨_, by simpa using h.symm⟩
  · split at h
    · split at h
      · split at h
        · exact ⟨_, by simpa using h.symm⟩
        · simp at h
      · simp at h
    · exact ⟨_, by simpa using h.symm⟩

end JSON

namespace StorageManager

/-! ## The allocator -/

theorem findOrCreateChunk_ok (s : Store) (k : String) (v : Option JSON) (c : String)
    (h : findOrCreateChunk s k v = .ok c) :
    ∃ i, i < 100 ∧ c = chunkKeyOf i ∧ chunkFits s.ls (jsLength (entryText k v)) i = true ∧
      ∀ j, j < i → chunkFits s.ls (jsLength (entryText k v)) j = false := by
  unfold findOrCreateChunk at h
  split at h
  · rename_i i hi
    simp only [Except.ok.injEq] at h
    have hmem := List.mem_of_find?_eq_some hi
    have hp := List.find?_some hi
    refine ⟨i, by simpa using hmem, h.symm, hp, ?_⟩
    intro j hj
    have hr : List.range 100 = List.range' 0 100 := by simp [List.range_eq_range']
    rw [hr] at hi
    have := List.find?_range'_eq_some.1 hi
    have h2 := this.2.2 j (by omega) hj
    simpa using h2
  · simp at h

/-! ## Reading through the index -/

theorem get_eq (lz : Option Codec) (s : Store) (key : String) :
    get lz s key =
      match JSON.getProp (getIndex s) key with
      | .error _ => some .null
      | .ok chunkKey =>
        if !(JSON.truthyOpt chunkKey) then some .null
        else
          match readChunk lz s (JSON.toStrOpt chunkKey) with
          | none => some .null
          | some chunkData =>
            match JSON.getProp chunkData key with
            | .error _ => some .null
            | .ok r => r := by
  unfold get readChunk
  simp only
  generalize JSON.getProp (getIndex s) key = g
  cases g with
  | error e => rfl
  | ok cv =>
    simp only
    by_cases ht : JSON.truthyOpt cv = true
    · by_cases hp : present (getItem s.ls (JSON.toStrOpt cv)) = true
      · simp only [ht, hp, Bool.not_true, Bool.false_eq_true, if_false, if_true]
        try
          cases JSON.parseArg
              (decode lz s.compressionEnabled (getItem s.ls (JSON.toStrOpt cv))) with
          | none => rfl
          | some cd => simp only; cases JSON.getProp cd key <;> rfl
      · simp [ht, hp]
    · simp [ht]

theorem getIndex_of_slot (s : Store) (j : JSON)
    (h : getItem s.ls indexKey = some (JSON.stringify j)) : getIndex s = j := by
  unfold getIndex
  rw [h]
  simp [stringify_ne_empty, JSON.parse_stringify]

theorem readChunk_of_slot (lz : Option Codec) (hz : Lawful lz) (s : Store) (c : String)
    (j : JSON) (h : getItem s.ls c = some (encode lz s.compressionEnabled (JSON.stringify j))) :
    readChunk lz s c = some j := by
  unfold readChunk
  rw [h, parseArg_decode_encode lz hz]
  simp [present, encode_ne_empty lz hz]

end StorageManager

namespace StorageManager

/-! ## Immediate writes -/

theorem loadChunk_eq (lz : Option Codec) (s : Store) (c : String) :
    loadChunk lz s c =
      if present (getItem s.ls c) then
        match readChunk lz s c with
        | some cd => .ok cd
        | none => .error .syntaxError
      else .ok (.obj []) := by
  unfold loadChunk readChunk
  by_cases hp : present (getItem s.ls c) = true
  · simp only [hp, if_true]
    try (cases JSON.parseArg (decode lz s.compressionEnabled (getItem s.ls c)) <;> rfl)
  · simp [hp]

/-- What a completed `_writeImmediate` did. -/
theorem writeImmediate_ok (lz : Option Codec) (s s1 : Store) (k : String) (v : Option JSON)
    (h : writeImmediate lz s k v = .ok s1) :
    ∃ i cd cd1 idx1 m1, i < 100 ∧ findOrCreateChunk s k v = .ok (chunkKeyOf i) ∧
      loadChunk lz s (chunkKeyOf i) = .ok cd ∧ JSON.setProp cd k v = .ok cd1 ∧
      JSON.setProp (getIndex s) k (some (.str (chunkKeyOf i))) = .ok idx1 ∧
      JSON.setProp s.meta "updated" (some (.num s.now)) = .ok m1 ∧
      s1 = { s with
        ls := setItem (setItem (setItem s.ls (chunkKeyOf i)
          (encode lz s.compressionEnabled (JSON.stringify cd1))) indexKey (JSON.stringify idx1))
          metaKey (JSON.stringify m1),
        meta := m1 } := by
  unfold writeImmediate at h
  simp only at h
  split at h
  · simp at h
  · rename_i c hc
    obtain ⟨i, hi, rfl, -, -⟩ := findOrCreateChunk_ok s k v c hc
    split at h
    · simp at h
    · rename_i cd hcd
      split at h
      · simp at h
      · rename_i cd1 hcd1
        split at h
        · simp at h
        · rename_i idx1 hidx1
          split at h
          · simp at h
          · rename_i m1 hm1
            simp only [Except.ok.injEq] at h
            refine ⟨i, cd, cd1, idx1, m1, hi, hc, hcd, hcd1, hidx1, ?_, ?_⟩
            · simpa [setIndex] using hm1
            · rw [← h]; rfl

/-- Storage after a completed `_writeImmediate`, slot by slot. -/
theorem writeImmediate_slots (lz : Option Codec) (s s1 : Store) (k : String)
    (v : Option JSON) (h : writeImmediate lz s k v = .ok s1) :
    ∃ i cd cd1 idx1, i < 100 ∧ findOrCreateChunk s k v = .ok (chunkKeyOf i) ∧
      loadChunk lz s (chunkKeyOf i) = .ok cd ∧ JSON.setProp cd k v = .ok cd1 ∧
      JSON.setProp (getIndex s) k (some (.str (chunkKeyOf i))) = .ok idx1 ∧
      s1.compressionEnabled = s.compressionEnabled ∧ s1.writeQueue = s.writeQueue ∧
      s1.wal = s.wal ∧ s1.now = s.now ∧
      getItem s1.ls indexKey = some (JSON.stringify idx1) ∧
      getItem s1.ls (chunkKeyOf i) =
        some (encode lz s.compressionEnabled (JSON.stringify cd1)) ∧
      (∀ key, key ≠ chunkKeyOf i → key ≠ indexKey → key ≠ metaKey →
        getItem s1.ls key = getItem s.ls key) := by
  obtain ⟨i, cd, cd1, idx1, m1, hi, h1, h2, h3, h4, -, rfl⟩ := writeImmediate_ok lz s s1 k v h
  refine ⟨i, cd, cd1, idx1, hi, h1, h2, h3, h4, rfl, rfl, rfl, rfl, ?_, ?_, ?_⟩
  · simp only
    rw [getItem_setItem_ne _ _ _ _ indexKey_ne_metaKey, getItem_setItem_same]
  · simp only
    rw [getItem_setItem_ne _ _ _ _ (chunkKeyOf_ne_metaKey i),
      getItem_setItem_ne _ _ _ _ (chunkKeyOf_ne_indexKey i), getItem_setItem_same]
  · intro key hk1 hk2 hk3
    simp only
    rw [getItem_setItem_ne _ _ _ _ hk3, getItem_setItem_ne _ _ _ _ hk2,
      getItem_setItem_ne _ _ _ _ hk1]

theorem set_immediate_eq (lz : Option Codec) (s : Store) (k : String) (v : JSON)
    (h : (set lz s k v true).2 = true) :
    writeImmediate lz s k (some v) = .ok (set lz s k v true).1 := by
  unfold set at h ⊢
  simp only [if_true] at h ⊢
  cases hw : writeImmediate lz s k (some v) with
  | ok s1 => rfl
  | error e => rw [hw] at h; simp at h

/-- C1 (amended): for a key other than `__proto__`, after `set(k, v, true)` returned true,
`get(k)` returns `v`, provided neither the index nor the chunk chosen for the write holds a
JSON array. -/
theorem set_immediate_get (lz : Option Codec) (hz : Lawful lz) (s : Store) (k : String)
    (v : JSON) (hk : k ≠ "__proto__") (hidx : ∀ l, getIndex s ≠ .arr l)
    (hchunk : ∀ c l, findOrCreateChunk s k (some v) = .ok c → loadChunk lz s c ≠ .ok (.arr l))
    (hset : (set lz s k v true).2 = true) :
    get lz (set lz s k v true).1 k = some v := by
  have hw := set_immediate_eq lz s k v hset
  generalize (set lz s k v true).1 = s1 at hw
  obtain ⟨i, cd, cd1, idx1, _, h1, h2, h3, h4, he, _, _, _, g1, g2, _⟩ :=
    writeImmediate_slots lz s s1 k (some v) hw
  obtain ⟨ms, rfl, rfl⟩ := JSON.setProp_obj_of_ok cd k v cd1 h3
    (fun l hl => hchunk _ l h1 (by rw [h2, hl]))
  obtain ⟨idx, hi0, rfl⟩ := JSON.setProp_obj_of_ok _ k _ idx1 h4 hidx
  rw [get_eq, getIndex_of_slot s1 _ g1]
  rw [← he] at g2
  have hr := readChunk_of_slot lz hz s1 _ _ g2
  simp [JSON.getProp, JSON.lookup_upsert_same, JSON.truthyOpt, JSON.truthy, JSON.toStrOpt,
    JSON.toStr, chunkKeyOf_ne_empty, hr]

end StorageManager

namespace StorageManager

/-! ## Flushing the queue -/

theorem lookup_applyAll (k : String) (ws : List (String × JSON)) :
    ∀ ms, JSON.lookup k (applyAll ws ms) =
      match lastWrite k ws with
      | some r => some r
      | none => JSON.lookup k ms := by
  induction ws with
  | nil => intro ms; simp [applyAll, lastWrite]
  | cons w ws ih =>
    intro ms
    obtain ⟨a, b⟩ := w
    have := ih (JSON.upsert a b ms)
    simp only [applyAll, List.foldl_cons] at this ⊢
    rw [this, lastWrite]
    cases lastWrite k ws with
    | some r => rfl
    | none =>
      by_cases h : a = k
      · subst h; simp [JSON.lookup_upsert_same]
      · simp [h, JSON.lookup_upsert_ne _ _ _ _ (Ne.symm h)]

theorem lookup_indexGroup (k c : String) (ws : List (String × JSON)) :
    ∀ idx, JSON.lookup k (indexGroup c ws idx) =
      if (lastWrite k ws).isSome then some (.str c) else JSON.lookup k idx := by
  induction ws with
  | nil => intro idx; simp [indexGroup, lastWrite]
  | cons w ws ih =>
    intro idx
    obtain ⟨a, b⟩ := w
    have := ih (JSON.upsert a (.str c) idx)
    simp only [indexGroup, List.foldl_cons] at this ⊢
    rw [this, lastWrite]
    cases lastWrite k ws with
    | some r => rfl
    | none =>
      by_cases h : a = k
      · subst h; simp [JSON.lookup_upsert_same]
      · simp [h, JSON.lookup_upsert_ne _ _ _ _ (Ne.symm h)]

theorem applyWrites_ok (c : String) (ws : List (String × JSON)) :
    ∀ (cd idx cd1 idx1 : JSON), applyWrites c ws cd idx = .ok (cd1, idx1) →
      applyChunk ws cd = .ok cd1 ∧
      (∀ m, idx = .obj m → idx1 = .obj (indexGroup c ws m)) ∧
      (∀ l, idx = .arr l → ∃ l1, idx1 = .arr l1) ∧
      (ws ≠ [] → (∃ m, idx = .obj m) ∨ (∃ l, idx = .arr l)) ∧
      (ws = [] → idx1 = idx) := by
  induction ws with
  | nil =>
    intro cd idx cd1 idx1 h
    simp only [applyWrites, Except.ok.injEq, Prod.mk.injEq] at h
    obtain ⟨rfl, rfl⟩ := h
    exact ⟨rfl, fun m hm => by simpa [indexGroup] using hm, fun l hl => ⟨l, hl⟩,
      fun hne => absurd rfl hne, fun _ => rfl⟩
  | cons w ws ih =>
    intro cd idx cd1 idx1 h
    obtain ⟨a, b⟩ := w
    simp only [applyWrites] at h
    split at h
    · simp at h
    · rename_i cd2 hcd2
      split at h
      · simp at h
      · rename_i idx2 hidx2
        obtain ⟨h1, h2, h3, -, -⟩ := ih cd2 idx2 cd1 idx1 h
        refine ⟨by simp [applyChunk, hcd2, h1], ?_, ?_,
          fun _ => JSON.setProp_ok_shape _ _ _ _ hidx2, fun hnil => by simp at hnil⟩
        · intro m hm
          subst hm
          simp only [JSON.setProp, Except.ok.injEq] at hidx2
          have := h2 _ hidx2.symm
          simpa [indexGroup] using this
        · intro l hl
          subst hl
          obtain ⟨l2, rfl⟩ := JSON.setProp_arr_ok l a _ idx2 hidx2
          exact h3 l2 rfl

theorem applyChunk_obj (ws : List (String × JSON)) :
    ∀ ms, applyChunk ws (.obj ms) = .ok (.obj (applyAll ws ms)) := by
  induction ws with
  | nil => intro ms; rfl
  | cons w ws ih =>
    intro ms
    obtain ⟨a, b⟩ := w
    simp [applyChunk, JSON.setProp, ih, applyAll]

end StorageManager

namespace StorageManager

theorem loadChunk_congr (lz : Option Codec) (s t : Store) (c : String)
    (h1 : getItem t.ls c = getItem s.ls c) (h2 : t.compressionEnabled = s.compressionEnabled) :
    loadChunk lz t c = loadChunk lz s c := by
  unfold loadChunk
  simp only [h1, h2]

theorem readChunk_congr (lz : Option Codec) (s t : Store) (c : String)
    (h1 : getItem t.ls c = getItem s.ls c) (h2 : t.compressionEnabled = s.compressionEnabled) :
    readChunk lz t c = readChunk lz s c := by
  unfold readChunk
  simp only [h1, h2]

theorem getIndex_congr (s t : Store) (h : getItem t.ls indexKey = getItem s.ls indexKey) :
    getIndex t = getIndex s := by
  unfold getIndex
  simp only [h]

theorem chunkFits_congr (ls ls2 : List (String × String)) (est i : Nat)
    (h : getItem ls2 (chunkKeyOf i) = getItem ls (chunkKeyOf i)) :
    chunkFits ls2 est i = chunkFits ls est i := by
  unfold chunkFits
  simp only [h]

theorem findOrCreateChunk_congr (s t : Store) (k : String) (v : Option JSON)
    (h : ∀ i, getItem t.ls (chunkKeyOf i) = getItem s.ls (chunkKeyOf i)) :
    findOrCreateChunk t k v = findOrCreateChunk s k v := by
  unfold findOrCreateChunk
  have : chunkFits t.ls (jsLength (entryText k v)) = chunkFits s.ls (jsLength (entryText k v)) :=
    funext fun i => chunkFits_congr _ _ _ _ (h i)
  rw [this]

/-- What a completed outer loop of a flush did. -/
theorem processGroups_ok (lz : Option Codec) (gs : List WriteGroup) :
    ∀ (s : Store) (idx : JSON) (s1 : Store) (idx1 : JSON),
      processGroups lz gs s idx = .ok (s1, idx1) → (gs.map Prod.fst).Nodup →
      s1.compressionEnabled = s.compressionEnabled ∧ s1.writeQueue = s.writeQueue ∧
      s1.wal = s.wal ∧ s1.meta = s.meta ∧ s1.now = s.now ∧ s1.writeTimer = s.writeTimer ∧
      (∀ key, key ∉ gs.map Prod.fst → getItem s1.ls key = getItem s.ls key) ∧
      (∀ c ws, (c, ws) ∈ gs → ∃ cd cd1, loadChunk lz s c = .ok cd ∧
        applyChunk ws cd = .ok cd1 ∧
        getItem s1.ls c = some (encode lz s.compressionEnabled (JSON.stringify cd1))) ∧
      (∀ m, idx = .obj m → idx1 = .obj (indexGroups gs m)) ∧
      (∀ l, idx = .arr l → ∃ l1, idx1 = .arr l1) ∧
      ((∃ c w ws, (c, w :: ws) ∈ gs) → (∃ m, idx = .obj m) ∨ (∃ l, idx = .arr l)) := by
  induction gs with
  | nil =>
    intro s idx s1 idx1 h _
    simp only [processGroups, Except.ok.injEq, Prod.mk.injEq] at h
    obtain ⟨rfl, rfl⟩ := h
    refine ⟨rfl, rfl, rfl, rfl, rfl, rfl, fun _ _ => rfl, ?_, ?_, ?_, ?_⟩
    · intro c ws hmem; simp at hmem
    · intro m hm; simpa [indexGroups] using hm
    · intro l hl; exact ⟨l, hl⟩
    · rintro ⟨c, w, ws, hmem⟩; simp at hmem
  | cons g gs ih =>
    intro s idx s1 idx1 h hnd
    obtain ⟨c, ws⟩ := g
    simp only [List.map_cons, List.nodup_cons] at hnd
    simp only [processGroups] at h
    split at h
    · simp at h
    · rename_i cd hcd
      split at h
      · simp at h
      · rename_i cd1 idx2 haw
        obtain ⟨a1, a2, a3, a4, a5⟩ := applyWrites_ok c ws cd idx cd1 idx2 haw
        obtain ⟨b1, b2, b3, b4, b5, b6, b7, b8, b9, b10, b11⟩ := ih _ idx2 s1 idx1 h hnd.2
        refine ⟨b1, b2, b3, b4, b5, b6, ?_, ?_, ?_, ?_, ?_⟩
        · intro key hkey
          simp only [List.map_cons, List.mem_cons, not_or] at hkey
          rw [b7 key hkey.2]
          exact getItem_setItem_ne _ _ _ _ hkey.1
        · intro c2 ws2 hmem
          rcases List.mem_cons.1 hmem with hm | hm
          · obtain ⟨rfl, rfl⟩ := Prod.mk.inj hm
            refine ⟨cd, cd1, hcd, a1, ?_⟩
            rw [b7 _ hnd.1]
            exact getItem_setItem_same _ _ _
          · obtain ⟨cd2, cd3, e1, e2, e3⟩ := b8 c2 ws2 hm
            have hne : c2 ≠ c := by
              rintro rfl
              exact hnd.1 (List.mem_map.2 ⟨(c2, ws2), hm, rfl⟩)
            refine ⟨cd2, cd3, ?_, e2, e3⟩
            rw [← e1]
            exact (loadChunk_congr lz s { s with ls := setItem s.ls c _ } c2
              (getItem_setItem_ne _ _ _ _ hne) rfl).symm
        · intro m hm
          have := b9 _ (a2 m hm)
          simpa [indexGroups] using this
        · intro l hl
          obtain ⟨l2, hl2⟩ := a3 l hl
          exact b10 l2 hl2
        · rintro ⟨c2, w2, ws2, hmem⟩
          by_cases hws : ws = []
          · rw [a5 hws] at b11
            rcases List.mem_cons.1 hmem with hm | hm
            · obtain ⟨-, h2⟩ := Prod.mk.inj hm
              rw [hws] at h2; simp at h2
            · exact b11 ⟨c2, w2, ws2, hm⟩
          · exact a4 hws

theorem lookup_indexGroups (k : String) (gs : List WriteGroup) :
    ∀ idx, JSON.lookup k (indexGroups gs idx) =
      match lastGroup k gs with
      | some c => some (.str c)
      | none => JSON.lookup k idx := by
  induction gs with
  | nil => intro idx; simp [indexGroups, lastGroup]
  | cons g gs ih =>
    intro idx
    obtain ⟨c, ws⟩ := g
    have := ih (indexGroup c ws idx)
    simp only [indexGroups, List.foldl_cons] at this ⊢
    rw [this, lastGroup]
    cases lastGroup k gs with
    | some r => rfl
    | none =>
      simp only [lookup_indexGroup]
      split_ifs <;> rfl

/-! ### Grouping -/

theorem addToGroup_keys (gs : List WriteGroup) (c : String) (w : String × JSON) :
    (addToGroup gs c w).map Prod.fst =
      if c ∈ gs.map Prod.fst then gs.map Prod.fst else gs.map Prod.fst ++ [c] := by
  induction gs with
  | nil => simp [addToGroup]
  | cons g gs ih =>
    obtain ⟨a, ws⟩ := g
    by_cases h : a = c
    · subst h; simp [addToGroup]
    · simp only [addToGroup, h, if_false, List.map_cons, ih, List.mem_cons]
      have hc : ¬ c = a := fun e => h e.symm
      simp only [hc, false_or]
      split_ifs <;> simp

theorem addToGroup_nodup (gs : List WriteGroup) (c : String) (w : String × JSON)
    (h : (gs.map Prod.fst).Nodup) : ((addToGroup gs c w).map Prod.fst).Nodup := by
  rw [addToGroup_keys]
  split_ifs with hc
  · exact h
  · exact List.Nodup.append h (by simp) (by simpa using hc)

theorem groupOf_addToGroup (gs : List WriteGroup) (c c2 : String) (w : String × JSON) :
    groupOf c2 (addToGroup gs c w) = if c2 = c then groupOf c2 gs ++ [w] else groupOf c2 gs := by
  induction gs with
  | nil =>
    by_cases h : c2 = c
    · subst h; simp [addToGroup, groupOf]
    · simp [addToGroup, groupOf, h, Ne.symm h]
  | cons g gs ih =>
    obtain ⟨a, ws⟩ := g
    by_cases h : a = c
    · subst h
      by_cases h2 : c2 = a
      · subst h2; simp [addToGroup, groupOf]
      · simp [addToGroup, groupOf, h2, Ne.symm h2]
    · by_cases h2 : a = c2
      · subst h2
        simp [addToGroup, groupOf, h]
      · simp [addToGroup, groupOf, h, h2, ih]

theorem groupOf_of_mem (gs : List WriteGroup) (c : String) (ws : List (String × JSON))
    (hnd : (gs.map Prod.fst).Nodup) (h : (c, ws) ∈ gs) : groupOf c gs = ws := by
  induction gs with
  | nil => simp at h
  | cons g gs ih =>
    obtain ⟨a, ws2⟩ := g
    simp only [List.map_cons, List.nodup_cons] at hnd
    rcases List.mem_cons.1 h with hm | hm
    · obtain ⟨rfl, rfl⟩ := Prod.mk.inj hm
      simp [groupOf]
    · have hne : a ≠ c := by
        rintro rfl
        exact hnd.1 (List.mem_map.2 ⟨(a, ws), hm, rfl⟩)
      simp [groupOf, hne, ih hnd.2 hm]

theorem groupOf_eq_nil (gs : List WriteGroup) (c : String) (h : c ∉ gs.map Prod.fst) :
    groupOf c gs = [] := by
  induction gs with
  | nil => rfl
  | cons g gs ih =>
    obtain ⟨a, ws⟩ := g
    simp only [List.map_cons, List.mem_cons, not_or] at h
    simp [groupOf, Ne.symm h.1, ih h.2]

end StorageManager

namespace StorageManager

theorem groupWrites_ok (s : Store) (q : List QueuedWrite) :
    ∀ (acc gs : List WriteGroup), groupWrites s q acc = .ok gs →
      ((acc.map Prod.fst).Nodup → (gs.map Prod.fst).Nodup) ∧
      (∀ c, groupOf c gs = groupOf c acc ++ routed s c q) ∧
      (∀ c, c ∈ gs.map Prod.fst → c ∈ acc.map Prod.fst ∨ ∃ i, i < 100 ∧ c = chunkKeyOf i ∧
        ∃ w, w ∈ q ∧ findOrCreateChunk s w.key (some w.value) = .ok c) ∧
      (∀ w, w ∈ q → ∃ c, findOrCreateChunk s w.key (some w.value) = .ok c ∧
        c ∈ gs.map Prod.fst) ∧
      (∀ c, c ∈ acc.map Prod.fst → c ∈ gs.map Prod.fst) := by
  induction q with
  | nil =>
    intro acc gs h
    simp only [groupWrites, Except.ok.injEq] at h
    subst h
    exact ⟨id, fun c => by simp [routed], fun c hc => Or.inl hc, fun w hw => by simp at hw,
      fun c hc => hc⟩
  | cons w q ih =>
    intro acc gs h
    simp only [groupWrites] at h
    split at h
    · simp at h
    · rename_i c hc
      obtain ⟨i, hi, rfl, -, -⟩ := findOrCreateChunk_ok s _ _ c hc
      obtain ⟨h1, h2, h3, h4, h5⟩ := ih _ gs h
      have hkeys := addToGroup_keys acc (chunkKeyOf i) (w.key, w.value)
      refine ⟨fun hnd => h1 (addToGroup_nodup _ _ _ hnd), ?_, ?_, ?_, ?_⟩
      · intro c2
        rw [h2 c2, groupOf_addToGroup]
        by_cases hc2 : c2 = chunkKeyOf i
        · subst hc2
          simp [routed, routedTo, hc, List.filter_cons]
        · have : (chunkKeyOf i = c2) = False := by simpa using Ne.symm hc2
          simp [routed, routedTo, hc, List.filter_cons, hc2, this]
      · intro c2 hc2
        rcases h3 c2 hc2 with h6 | ⟨j, hj, hcj, w2, hw2, hf2⟩
        · rw [hkeys] at h6
          split_ifs at h6
          · exact Or.inl h6
          · rcases List.mem_append.1 h6 with h7 | h7
            · exact Or.inl h7
            · simp at h7
              exact Or.inr ⟨i, hi, h7, w, by simp, by rw [h7]; exact hc⟩
        · exact Or.inr ⟨j, hj, hcj, w2, List.mem_cons_of_mem _ hw2, hf2⟩
      · intro w2 hw2
        rcases List.mem_cons.1 hw2 with rfl | hw2
        · refine ⟨_, hc, h5 _ ?_⟩
          rw [hkeys]
          split_ifs with h8
          · exact h8
          · simp
        · exact h4 w2 hw2
      · intro c2 hc2
        apply h5
        rw [hkeys]
        split_ifs
        · exact hc2
        · exact List.mem_append_left _ hc2

/-- What a completed `_flushWriteQueue` of a non-empty queue did. -/
theorem flush_ok (lz : Option Codec) (s s1 : Store) (hq : s.writeQueue ≠ [])
    (h : flushWriteQueue lz s = .ok s1) :
    ∃ gs idx1 m1, groupWrites { s with writeQueue := [] } s.writeQueue [] = .ok gs ∧
      (gs.map Prod.fst).Nodup ∧
      (∀ c, groupOf c gs = routed s c s.writeQueue) ∧
      (∀ c, c ∈ gs.map Prod.fst → ∃ i, i < 100 ∧ c = chunkKeyOf i ∧
        ∃ w, w ∈ s.writeQueue ∧ findOrCreateChunk s w.key (some w.value) = .ok c) ∧
      (∀ w, w ∈ s.writeQueue → ∃ c, findOrCreateChunk s w.key (some w.value) = .ok c ∧
        c ∈ gs.map Prod.fst) ∧
      s1.compressionEnabled = s.compressionEnabled ∧ s1.writeQueue = [] ∧
      s1.wal = .arr [] ∧ s1.now = s.now ∧ s1.meta = m1 ∧
      JSON.setProp s.meta "updated" (some (.num s.now)) = .ok m1 ∧
      getItem s1.ls indexKey = some (JSON.stringify idx1) ∧
      getItem s1.ls walKey = none ∧
      getItem s1.ls metaKey = some (JSON.stringify m1) ∧
      (∀ m, getIndex s = .obj m → idx1 = .obj (indexGroups gs m)) ∧
      (∀ l, getIndex s = .arr l → ∃ l1, idx1 = .arr l1) ∧
      ((∃ c w ws, (c, w :: ws) ∈ gs) → (∃ m, getIndex s = .obj m) ∨ (∃ l, getIndex s = .arr l)) ∧
      (∀ c ws, (c, ws) ∈ gs → ∃ cd cd1, loadChunk lz s c = .ok cd ∧
        applyChunk ws cd = .ok cd1 ∧
        getItem s1.ls c = some (encode lz s.compressionEnabled (JSON.stringify cd1))) ∧
      (∀ key, key ∉ gs.map Prod.fst → key ≠ indexKey → key ≠ walKey → key ≠ metaKey →
        getItem s1.ls key = getItem s.ls key) := by
  unfold flushWriteQueue at h
  split at h
  · rename_i hnil; exact absurd hnil hq
  · rename_i w ws hw
    simp only at h
    split at h
    · simp at h
    · rename_i gs hgs
      split at h
      · simp at h
      · rename_i s2 idx1 hpg
        split at h
        · simp at h
        · rename_i m1 hm1
          simp only [Except.ok.injEq] at h
          rw [← hw] at hgs
          obtain ⟨g1, g2, g3, g4, -⟩ := groupWrites_ok _ _ _ _ hgs
          have hnd := g1 (by simp)
          obtain ⟨b1, b2, b3, b4, b5, b6, b7, b8, b9, b10, b11⟩ :=
            processGroups_ok lz gs _ _ _ _ hpg hnd
          have hkeymem : ∀ c, c ∈ gs.map Prod.fst → ∃ i, i < 100 ∧ c = chunkKeyOf i ∧
              ∃ w, w ∈ s.writeQueue ∧ findOrCreateChunk s w.key (some w.value) = .ok c := by
            intro c hc
            rcases g3 c hc with h6 | h6
            · simp at h6
            · exact h6
          have hm1' : JSON.setProp s.meta "updated" (some (.num s.now)) = .ok m1 := by
            simpa [clearWAL, setIndex, b4, b5] using hm1
          refine ⟨gs, idx1, m1, hgs, hnd, ?_, hkeymem, ?_, ?_, ?_, ?_, ?_, ?_, hm1', ?_, ?_, ?_, ?_,
            ?_, b11, ?_, ?_⟩
          · intro c; simpa [groupOf] using g2 c
          · intro w2 hw2; exact g4 w2 hw2
          · rw [← h]; simpa [saveMeta, clearWAL, setIndex] using b1
          · rw [← h]; simpa [saveMeta, clearWAL, setIndex] using b2
          · rw [← h]; simp [saveMeta, clearWAL]
          · rw [← h]; simpa [saveMeta, clearWAL, setIndex] using b5
          · rw [← h]; rfl
          · rw [← h]
            simp only [saveMeta, clearWAL, setIndex]
            rw [getItem_setItem_ne _ _ _ _ indexKey_ne_metaKey,
              getItem_removeItem_ne _ _ _ indexKey_ne_walKey, getItem_setItem_same]
          · rw [← h]
            simp only [saveMeta, clearWAL, setIndex]
            rw [getItem_setItem_ne _ _ _ _ (Ne.symm metaKey_ne_walKey),
              getItem_removeItem_same]
          · rw [← h]
            simp only [saveMeta, clearWAL, setIndex]
            rw [getItem_setItem_same]
          · intro m hm; exact b9 m hm
          · intro l hl; exact b10 l hl
          · intro c ws2 hmem
            obtain ⟨cd, cd1, e1, e2, e3⟩ := b8 c ws2 hmem
            obtain ⟨i, -, rfl, -⟩ := hkeymem _ (List.mem_map.2 ⟨_, hmem, rfl⟩)
            refine ⟨cd, cd1, e1, e2, ?_⟩
            rw [← h]
            simp only [saveMeta, clearWAL, setIndex]
            rw [getItem_setItem_ne _ _ _ _ (chunkKeyOf_ne_metaKey i),
              getItem_removeItem_ne _ _ _ (chunkKeyOf_ne_walKey i),
              getItem_setItem_ne _ _ _ _ (chunkKeyOf_ne_indexKey i)]
            exact e3
          · intro key hk1 hk2 hk3 hk4
            rw [← h]
            simp only [saveMeta, clearWAL, setIndex]
            rw [getItem_setItem_ne _ _ _ _ hk4, getItem_removeItem_ne _ _ _ hk3,
              getItem_setItem_ne _ _ _ _ hk2]
            exact b7 key hk1

end StorageManager

namespace StorageManager

theorem lastWrite_append (k k2 : String) (v2 : JSON) (ws : List (String × JSON)) :
    lastWrite k (ws ++ [(k2, v2)]) = if k2 = k then some v2 else lastWrite k ws := by
  induction ws with
  | nil => simp [lastWrite]
  | cons w ws ih =>
    obtain ⟨a, b⟩ := w
    rw [List.cons_append, lastWrite, ih, lastWrite]
    by_cases h : k2 = k
    · simp [h]
    · simp [h]

theorem lastWrite_none (k : String) (ws : List (String × JSON)) (h : ∀ w ∈ ws, w.1 ≠ k) :
    lastWrite k ws = none := by
  induction ws with
  | nil => rfl
  | cons w ws ih =>
    obtain ⟨a, b⟩ := w
    have h1 : a ≠ k := h (a, b) (by simp)
    simp [lastWrite, ih (fun w hw => h w (by simp [hw])), h1]

theorem lastGroup_some (k c : String) (gs : List WriteGroup) (hnd : (gs.map Prod.fst).Nodup)
    (h : lastGroup k gs = some c) :
    c ∈ gs.map Prod.fst ∧ (lastWrite k (groupOf c gs)).isSome = true := by
  induction gs with
  | nil => simp [lastGroup] at h
  | cons g gs ih =>
    obtain ⟨a, ws⟩ := g
    simp only [List.map_cons, List.nodup_cons] at hnd
    simp only [lastGroup] at h
    cases hl : lastGroup k gs with
    | some r =>
      rw [hl] at h
      simp only [Option.some.injEq] at h
      subst h
      obtain ⟨h1, h2⟩ := ih hnd.2 hl
      have hne : a ≠ r := by rintro rfl; exact hnd.1 h1
      exact ⟨by simp [h1], by simpa [groupOf, hne] using h2⟩
    | none =>
      rw [hl] at h
      simp only at h
      split_ifs at h with h3
      simp only [Option.some.injEq] at h
      subst h
      exact ⟨by simp, by simpa [groupOf] using h3⟩

theorem lastGroup_none (k : String) (gs : List WriteGroup) (hnd : (gs.map Prod.fst).Nodup)
    (h : lastGroup k gs = none) : ∀ c, lastWrite k (groupOf c gs) = none := by
  induction gs with
  | nil => intro c; simp [groupOf, lastWrite]
  | cons g gs ih =>
    obtain ⟨a, ws⟩ := g
    simp only [List.map_cons, List.nodup_cons] at hnd
    simp only [lastGroup] at h
    cases hl : lastGroup k gs with
    | some r => rw [hl] at h; simp at h
    | none =>
      rw [hl] at h
      simp only at h
      split_ifs at h with h3
      intro c
      by_cases hc : a = c
      · subst hc
        simpa [groupOf] using h3
      · simpa [groupOf, hc] using ih hnd.2 hl c

theorem routed_append (s : Store) (c : String) (q : List QueuedWrite) (w : QueuedWrite) :
    routed s c (q ++ [w]) =
      routed s c q ++ (if routedTo s c w = true then [(w.key, w.value)] else []) := by
  unfold routed
  rw [List.filter_append, List.map_append]
  by_cases h : routedTo s c w = true
  · simp [List.filter_cons, h]
  · simp [List.filter_cons, h]

theorem routed_keys (s : Store) (c : String) (q : List QueuedWrite) :
    ∀ p ∈ routed s c q, ∃ w ∈ q, w.key = p.1 := by
  intro p hp
  unfold routed at hp
  obtain ⟨w, hw, rfl⟩ := List.mem_map.1 hp
  exact ⟨w, (List.mem_filter.1 hw).1, rfl⟩

theorem applyChunk_cons_shape (w : String × JSON) (ws : List (String × JSON)) (cd cd1 : JSON)
    (h : applyChunk (w :: ws) cd = .ok cd1) : (∃ ms, cd = .obj ms) ∨ (∃ l, cd = .arr l) := by
  obtain ⟨a, b⟩ := w
  cases cd with
  | obj ms => exact Or.inl ⟨ms, rfl⟩
  | arr l => exact Or.inr ⟨l, rfl⟩
  | null => simp [applyChunk, JSON.setProp] at h
  | bool _ => simp [applyChunk, JSON.setProp] at h
  | num _ => simp [applyChunk, JSON.setProp] at h
  | str _ => simp [applyChunk, JSON.setProp] at h

/-- State after a queued `set`, whether or not appending to the log raised. -/
theorem set_queued_effect (lz : Option Codec) (s : Store) (k : String) (v : JSON) :
    (set lz s k v false).1.writeQueue = s.writeQueue ++ [⟨k, v, s.now⟩] ∧
    (set lz s k v false).1.compressionEnabled = s.compressionEnabled ∧
    (set lz s k v false).1.meta = s.meta ∧
    (set lz s k v false).1.now = s.now ∧
    (∀ key, key ≠ walKey → getItem (set lz s k v false).1.ls key = getItem s.ls key) := by
  unfold set queueWrite appendWAL
  simp only [Bool.false_eq_true, if_false]
  cases hw : s.wal <;>
    first
    | exact ⟨rfl, rfl, rfl, rfl, fun key hk => rfl⟩
    | exact ⟨rfl, rfl, rfl, rfl, fun key hk => getItem_setItem_ne _ _ _ _ hk⟩

/-- C2 (amended): for a key other than `__proto__`, after a queued `set(k, v)` and a
completed flush, `get(k)` returns `v`, provided the queue held no other write to `k` and
neither the index nor the chunk chosen for the write holds a JSON array. -/
theorem queued_set_flush_get (lz : Option Codec) (hz : Lawful lz) (s s1 : Store) (k : String)
    (v : JSON) (hk : k ≠ "__proto__") (hq : ∀ w ∈ s.writeQueue, w.key ≠ k)
    (hidx : ∀ l, getIndex s ≠ .arr l)
    (hchunk : ∀ c l, findOrCreateChunk s k (some v) = .ok c → loadChunk lz s c ≠ .ok (.arr l))
    (hflush : flushWriteQueue lz (set lz s k v false).1 = .ok s1) :
    get lz s1 k = some v := by
  obtain ⟨q1, q2, q3, q4, q5⟩ := set_queued_effect lz s k v
  generalize (set lz s k v false).1 = t at hflush q1 q2 q3 q4 q5
  have hslots : ∀ i, getItem t.ls (chunkKeyOf i) = getItem s.ls (chunkKeyOf i) :=
    fun i => q5 _ (chunkKeyOf_ne_walKey i)
  have hfind : ∀ k2 v2, findOrCreateChunk t k2 v2 = findOrCreateChunk s k2 v2 :=
    fun k2 v2 => findOrCreateChunk_congr s t k2 v2 hslots
  have hgi : getIndex t = getIndex s := getIndex_congr s t (q5 _ indexKey_ne_walKey)
  obtain ⟨gs, idx1, m1, -, f1, f2, f3, f4, f5, -, -, -, -, -, f11, -, -, f14, f15, f15b, f16,
    -⟩ := flush_ok lz t s1 (by rw [q1]; simp) hflush
  -- the chunk chosen for the new write
  obtain ⟨c, hc, hcmem⟩ := f4 ⟨k, v, s.now⟩ (by rw [q1]; simp)
  simp only at hc
  obtain ⟨i, -, rfl, -⟩ := f3 _ hcmem
  have hrt : routedTo t (chunkKeyOf i) ⟨k, v, s.now⟩ = true := by simp [routedTo, hc]
  -- the writes to k per group
  have hlw : ∀ c2, lastWrite k (groupOf c2 gs) = if c2 = chunkKeyOf i then some v else none := by
    intro c2
    rw [f2 c2, q1, routed_append]
    have hnone : lastWrite k (routed t c2 s.writeQueue) = none := by
      apply lastWrite_none
      intro p hp
      obtain ⟨w, hw, hwk⟩ := routed_keys t c2 _ p hp
      rw [← hwk]; exact hq w hw
    by_cases h2 : c2 = chunkKeyOf i
    · subst h2
      simp only [hrt, if_true]
      rw [lastWrite_append]; simp
    · have : routedTo t c2 ⟨k, v, s.now⟩ = false := by simp [routedTo, hc, Ne.symm h2]
      simp [this, hnone, h2]
  have hlg : lastGroup k gs = some (chunkKeyOf i) := by
    cases hl : lastGroup k gs with
    | none =>
      have := lastGroup_none k gs f1 hl (chunkKeyOf i)
      rw [hlw] at this; simp at this
    | some r =>
      obtain ⟨-, h2⟩ := lastGroup_some k r gs f1 hl
      rw [hlw] at h2
      by_cases hr : r = chunkKeyOf i
      · rw [hr]
      · simp [hr] at h2
  -- the group of the chosen chunk
  obtain ⟨ws, hws⟩ : ∃ ws, (chunkKeyOf i, ws) ∈ gs := by
    obtain ⟨g, hg, hge⟩ := List.mem_map.1 hcmem
    exact ⟨g.2, by rw [← hge]; exact hg⟩
  have hgo := groupOf_of_mem gs _ ws f1 hws
  obtain ⟨cd, cd1, e1, e2, e3⟩ := f16 _ ws hws
  have hwsne : ws ≠ [] := by
    rintro rfl
    have := hlw (chunkKeyOf i)
    rw [hgo] at this; simp [lastWrite] at this
  obtain ⟨w0, ws0, rfl⟩ := List.exists_cons_of_ne_nil hwsne
  have hload : loadChunk lz t (chunkKeyOf i) = loadChunk lz s (chunkKeyOf i) :=
    loadChunk_congr lz s t _ (hslots i) q2
  obtain ⟨ms, rfl⟩ : ∃ ms, cd = .obj ms := by
    rcases applyChunk_cons_shape w0 ws0 cd cd1 e2 with h1 | ⟨l, rfl⟩
    · exact h1
    · exact absurd (hload ▸ e1) (hchunk _ l (hfind k (some v) ▸ hc))
  rw [applyChunk_obj] at e2
  simp only [Except.ok.injEq] at e2
  subst e2
  -- the index
  obtain ⟨m, hm⟩ : ∃ m, getIndex t = .obj m := by
    rcases f15b ⟨_, w0, ws0, hws⟩ with h1 | ⟨l, hl⟩
    · exact h1
    · exact absurd (hgi ▸ hl) (hidx l)
  have hidx1 := f14 m hm
  subst hidx1
  rw [get_eq, getIndex_of_slot s1 _ f11]
  rw [← f5] at e3
  have hr := readChunk_of_slot lz hz s1 _ _ e3
  have hl2 := hlw (chunkKeyOf i)
  rw [hgo] at hl2
  simp [JSON.getProp, lookup_indexGroups, hlg, JSON.truthyOpt, JSON.truthy, JSON.toStrOpt,
    JSON.toStr, chunkKeyOf_ne_empty, hr, lookup_applyAll, hl2]

end StorageManager

namespace StorageManager

/-! ## Well-formed stores -/

theorem membersOf_of_slot (lz : Option Codec) (hz : Lawful lz) (s : Store) (c : String)
    (ms : List (String × JSON))
    (h : getItem s.ls c = some (encode lz s.compressionEnabled (JSON.stringify (.obj ms)))) :
    present (getItem s.ls c) = true ∧ readChunk lz s c = some (.obj ms) ∧
      membersOf lz s c = ms := by
  have hr := readChunk_of_slot lz hz s c _ h
  refine ⟨?_, hr, by simp [membersOf, hr]⟩
  rw [h]; simp [present, encode_ne_empty lz hz]

theorem membersOf_congr (lz : Option Codec) (s t : Store) (c : String)
    (h1 : getItem t.ls c = getItem s.ls c) (h2 : t.compressionEnabled = s.compressionEnabled) :
    membersOf lz t c = membersOf lz s c := by
  unfold membersOf
  rw [readChunk_congr lz s t c h1 h2]

theorem membersOf_absent (lz : Option Codec) (s : Store) (c : String)
    (h : present (getItem s.ls c) = false) : membersOf lz s c = [] := by
  simp [membersOf, readChunk, h]

theorem inv_loadChunk (P : JSON → Prop) (lz : Option Codec) (s : Store) (hI : Inv P lz s)
    (i : Nat) : loadChunk lz s (chunkKeyOf i) = .ok (.obj (membersOf lz s (chunkKeyOf i))) := by
  rw [loadChunk_eq]
  by_cases hp : present (getItem s.ls (chunkKeyOf i)) = true
  · simp [hp, (hI.chunks i hp).1]
  · have hp2 : present (getItem s.ls (chunkKeyOf i)) = false := by simpa using hp
    rw [membersOf_absent lz s _ hp2]
    simp [hp2]

theorem inv_members_P (P : JSON → Prop) (lz : Option Codec) (s : Store) (hI : Inv P lz s)
    (i : Nat) (k : String) (v : JSON)
    (h : JSON.lookup k (membersOf lz s (chunkKeyOf i)) = some v) : P v := by
  by_cases hp : present (getItem s.ls (chunkKeyOf i)) = true
  · exact (hI.chunks i hp).2 k v h
  · rw [membersOf_absent lz s _ (by simpa using hp)] at h
    simp [JSON.lookup] at h

/-- A store is well formed as soon as its slots are: a general way to re-establish the
invariant after some chunks and the index were rewritten. -/
theorem Inv.of_slots (P : JSON → Prop) (lz : Option Codec) (hz : Lawful lz) (s t : Store)
    (hI : Inv P lz s) (idx idx1 : List (String × JSON)) (hidx : getIndex s = .obj idx)
    (hidx1 : getIndex t = .obj idx1) (hce : t.compressionEnabled = s.compressionEnabled)
    (hmeta : ∃ mm, t.meta = .obj mm) (hqueue : ∀ w, w ∈ t.writeQueue → P w.value)
    (hch : ∀ i, getItem t.ls (chunkKeyOf i) = getItem s.ls (chunkKeyOf i) ∨
      ∃ ms, getItem t.ls (chunkKeyOf i) =
          some (encode lz t.compressionEnabled (JSON.stringify (.obj ms))) ∧
        (∀ k v, JSON.lookup k ms = some v → P v) ∧
        (∀ k cv, JSON.lookup k idx1 = some cv → JSON.lookup k idx = some cv →
          (JSON.lookup k (membersOf lz s (chunkKeyOf i))).isSome = true →
          (JSON.lookup k ms).isSome = true))
    (hnew : ∀ k cv, JSON.lookup k idx1 = some cv → JSON.lookup k idx = some cv ∨
      ∃ i ms, cv = .str (chunkKeyOf i) ∧ getItem t.ls (chunkKeyOf i) =
          some (encode lz t.compressionEnabled (JSON.stringify (.obj ms))) ∧
        (JSON.lookup k ms).isSome = true) :
    Inv P lz t := by
  refine ⟨⟨idx1, hidx1⟩, ?_, ?_, hmeta, hqueue⟩
  · intro i hp
    rcases hch i with h | ⟨ms, h, hP, -⟩
    · rw [h] at hp
      have := hI.chunks i hp
      rw [readChunk_congr lz s t _ h hce, membersOf_congr lz s t _ h hce]
      exact this
    · obtain ⟨-, h2, h3⟩ := membersOf_of_slot lz hz t _ ms h
      rw [h2, h3]
      exact ⟨rfl, hP⟩
  · intro idx2 k cv hi2 hl
    rw [hidx1] at hi2
    cases hi2
    rcases hnew k cv hl with hold | ⟨i, ms, rfl, h, hk⟩
    · obtain ⟨i, rfl, hp, hk⟩ := hI.sound idx k cv hidx hold
      refine ⟨i, rfl, ?_⟩
      rcases hch i with h | ⟨ms, h, -, hkeep⟩
      · rw [h, membersOf_congr lz s t _ h hce]
        exact ⟨hp, hk⟩
      · obtain ⟨h1, -, h3⟩ := membersOf_of_slot lz hz t _ ms h
        rw [h3]
        exact ⟨h1, hkeep k _ hl hold hk⟩
    · obtain ⟨h1, -, h3⟩ := membersOf_of_slot lz hz t _ ms h
      refine ⟨i, rfl, h1, ?_⟩
      rw [h3]; exact hk

end StorageManager

namespace StorageManager

/-- An immediate write on a well-formed store either finds no chunk and changes nothing,
or completes; then the store is well formed again, the key is indexed in the chosen chunk
with the new value, and no other chunk slot, nor the log, has changed. -/
theorem inv_writeImmediate (P : JSON → Prop) (lz : Option Codec) (hz : Lawful lz) (s : Store)
    (hI : Inv P lz s) (k : String) (v : JSON) (hv : P v) (idx : List (String × JSON))
    (hidx : getIndex s = .obj idx) :
    (findOrCreateChunk s k (some v) = .error .limitReached ∧
      writeImmediate lz s k (some v) = .error (.limitReached, s)) ∨
    ∃ s1 i, i < 100 ∧ findOrCreateChunk s k (some v) = .ok (chunkKeyOf i) ∧
      writeImmediate lz s k (some v) = .ok s1 ∧ Inv P lz s1 ∧
      getIndex s1 = .obj (JSON.upsert k (.str (chunkKeyOf i)) idx) ∧
      present (getItem s1.ls (chunkKeyOf i)) = true ∧
      membersOf lz s1 (chunkKeyOf i) = JSON.upsert k v (membersOf lz s (chunkKeyOf i)) ∧
      (∀ j, j ≠ i → getItem s1.ls (chunkKeyOf j) = getItem s.ls (chunkKeyOf j)) ∧
      getItem s1.ls walKey = getItem s.ls walKey ∧
      s1.compressionEnabled = s.compressionEnabled ∧ s1.writeQueue = s.writeQueue ∧
      s1.wal = s.wal ∧ s1.now = s.now ∧ s1.writeTimer = s.writeTimer := by
  obtain ⟨mm, hmm⟩ := hI.metaObj
  cases hf : findOrCreateChunk s k (some v) with
  | error e =>
    left
    have he : e = .limitReached := by
      unfold findOrCreateChunk at hf
      split at hf <;> simp at hf
      exact hf.symm
    subst he
    exact ⟨rfl, by simp [writeImmediate, hf]⟩
  | ok c =>
    right
    obtain ⟨i, hi, rfl, -, -⟩ := findOrCreateChunk_ok s k _ c hf
    have hload := inv_loadChunk P lz s hI i
    have hw : writeImmediate lz s k (some v) = .ok
        { s with
          ls := setItem (setItem (setItem s.ls (chunkKeyOf i)
            (encode lz s.compressionEnabled
              (JSON.stringify (.obj (JSON.upsert k v (membersOf lz s (chunkKeyOf i)))))))
            indexKey (JSON.stringify (.obj (JSON.upsert k (.str (chunkKeyOf i)) idx))))
            metaKey (JSON.stringify (.obj (JSON.upsert "updated" (.num s.now) mm))),
          meta := .obj (JSON.upsert "updated" (.num s.now) mm) } := by
      simp [writeImmediate, hf, hload, JSON.setProp, hidx, setIndex, saveMeta, hmm]
    refine ⟨_, i, hi, rfl, hw, ?_⟩
    generalize hs1 : ({ s with
          ls := setItem (setItem (setItem s.ls (chunkKeyOf i)
            (encode lz s.compressionEnabled
              (JSON.stringify (.obj (JSON.upsert k v (membersOf lz s (chunkKeyOf i)))))))
            indexKey (JSON.stringify (.obj (JSON.upsert k (.str (chunkKeyOf i)) idx))))
            metaKey (JSON.stringify (.obj (JSON.upsert "updated" (.num s.now) mm))),
          meta := .obj (JSON.upsert "updated" (.num s.now) mm) } : Store) = s1
    have hce : s1.compressionEnabled = s.compressionEnabled := by rw [← hs1]
    have g1 : getItem s1.ls indexKey =
        some (JSON.stringify (.obj (JSON.upsert k (.str (chunkKeyOf i)) idx))) := by
      rw [← hs1]; simp only
      rw [getItem_setItem_ne _ _ _ _ indexKey_ne_metaKey, getItem_setItem_same]
    have g2 : getItem s1.ls (chunkKeyOf i) = some (encode lz s1.compressionEnabled
        (JSON.stringify (.obj (JSON.upsert k v (membersOf lz s (chunkKeyOf i)))))) := by
      rw [← hs1]; simp only
      rw [getItem_setItem_ne _ _ _ _ (chunkKeyOf_ne_metaKey i),
        getItem_setItem_ne _ _ _ _ (chunkKeyOf_ne_indexKey i), getItem_setItem_same]
    have g3 : ∀ key, key ≠ chunkKeyOf i → key ≠ indexKey → key ≠ metaKey →
        getItem s1.ls key = getItem s.ls key := by
      intro key hk1 hk2 hk3
      rw [← hs1]; simp only
      rw [getItem_setItem_ne _ _ _ _ hk3, getItem_setItem_ne _ _ _ _ hk2,
        getItem_setItem_ne _ _ _ _ hk1]
    have g4 : ∀ j, j ≠ i → getItem s1.ls (chunkKeyOf j) = getItem s.ls (chunkKeyOf j) :=
      fun j hj => g3 _ (fun e => hj (chunkKeyOf_injective _ _ e)) (chunkKeyOf_ne_indexKey j)
        (chunkKeyOf_ne_metaKey j)
    have hidx1 := getIndex_of_slot s1 _ g1
    obtain ⟨hp, -, hm⟩ := membersOf_of_slot lz hz s1 _ _ g2
    refine ⟨?_, hidx1, hp, hm, g4, ?_, hce, ?_, ?_, ?_, ?_⟩
    · apply Inv.of_slots P lz hz s s1 hI idx _ hidx hidx1 hce
      · rw [← hs1]; exact ⟨_, rfl⟩
      · rw [← hs1]; exact hI.queue
      · intro j
        by_cases hj : j = i
        · subst hj
          right
          refine ⟨_, g2, ?_, ?_⟩
          · intro k2 v2 hl
            by_cases hk : k2 = k
            · subst hk
              rw [JSON.lookup_upsert_same] at hl
              cases hl; exact hv
            · rw [JSON.lookup_upsert_ne _ _ _ _ hk] at hl
              exact inv_members_P P lz s hI j k2 v2 hl
          · intro k2 cv _ _ hm2
            by_cases hk : k2 = k
            · subst hk; simp [JSON.lookup_upsert_same]
            · rw [JSON.lookup_upsert_ne _ _ _ _ hk]; exact hm2
        · exact Or.inl (g4 j hj)
      · intro k2 cv hl
        by_cases hk : k2 = k
        · subst hk
          rw [JSON.lookup_upsert_same] at hl
          cases hl
          exact Or.inr ⟨i, _, rfl, g2, by simp [JSON.lookup_upsert_same]⟩
        · rw [JSON.lookup_upsert_ne _ _ _ _ hk] at hl
          exact Or.inl hl
    · exact g3 _ (Ne.symm (chunkKeyOf_ne_walKey i)) (Ne.symm indexKey_ne_walKey)
        (Ne.symm metaKey_ne_walKey)
    · rw [← hs1]
    · rw [← hs1]
    · rw [← hs1]
    · rw [← hs1]

end StorageManager

namespace StorageManager

theorem readChunk_present_eq (lz : Option Codec) (s : Store) (c : String)
    (hp : present (getItem s.ls c) = true) :
    JSON.parseArg (decode lz s.compressionEnabled (getItem s.ls c)) = readChunk lz s c := by
  simp [readChunk, hp]

/-- A `delete` on a well-formed store returns true and leaves a well-formed store: either
the key had no index entry and nothing changed, or its entry and its member of the indexed
chunk are gone and no other chunk slot, nor the log, has changed. -/
theorem inv_delete (P : JSON → Prop) (lz : Option Codec) (hz : Lawful lz) (s : Store)
    (hI : Inv P lz s) (k : String) (idx : List (String × JSON))
    (hidx : getIndex s = .obj idx) :
    (delete lz s k).2 = true ∧ Inv P lz (delete lz s k).1 ∧
    getIndex (delete lz s k).1 = .obj (JSON.erase k idx) ∧
    getItem (delete lz s k).1.ls walKey = getItem s.ls walKey ∧
    (delete lz s k).1.compressionEnabled = s.compressionEnabled ∧
    (delete lz s k).1.writeQueue = s.writeQueue ∧ (delete lz s k).1.wal = s.wal ∧
    (delete lz s k).1.meta = s.meta ∧
    ((JSON.lookup k idx = none ∧
        ∀ j, getItem (delete lz s k).1.ls (chunkKeyOf j) = getItem s.ls (chunkKeyOf j)) ∨
      ∃ i, JSON.lookup k idx = some (.str (chunkKeyOf i)) ∧
        present (getItem (delete lz s k).1.ls (chunkKeyOf i)) = true ∧
        membersOf lz (delete lz s k).1 (chunkKeyOf i) =
          JSON.erase k (membersOf lz s (chunkKeyOf i)) ∧
        ∀ j, j ≠ i →
          getItem (delete lz s k).1.ls (chunkKeyOf j) = getItem s.ls (chunkKeyOf j)) := by
  cases hl : JSON.lookup k idx with
  | none =>
    have hd : delete lz s k = (s, true) := by
      simp [delete, hidx, JSON.getProp, hl, JSON.truthyOpt]
    rw [hd]
    refine ⟨rfl, hI, ?_, rfl, rfl, rfl, rfl, rfl, Or.inl ⟨rfl, fun j => rfl⟩⟩
    simp only [hidx, JSON.obj.injEq]
    clear hd hidx hI
    induction idx with
    | nil => rfl
    | cons p idx ih =>
      obtain ⟨a, b⟩ := p
      by_cases h : a = k
      · simp [JSON.lookup, h] at hl
      · simp only [JSON.lookup, h, if_false] at hl
        simp [JSON.erase, h, ← ih hl]
  | some cv =>
    obtain ⟨i, rfl, hp, hk⟩ := hI.sound idx k cv hidx hl
    have hrc := (hI.chunks i hp).1
    have hd : delete lz s k =
        ({ s with
          ls := setItem (setItem s.ls (chunkKeyOf i)
            (encode lz s.compressionEnabled
              (JSON.stringify (.obj (JSON.erase k (membersOf lz s (chunkKeyOf i))))))) indexKey
            (JSON.stringify (.obj (JSON.erase k idx))) }, true) := by
      simp [delete, hidx, JSON.getProp, hl, JSON.truthyOpt, JSON.truthy,
        chunkKeyOf_ne_empty, JSON.toStrOpt, JSON.toStr, readChunk_present_eq lz s _ hp, hrc,
        JSON.delProp, setIndex]
    obtain ⟨s1, hs1⟩ : ∃ s1 : Store, s1 = { s with
          ls := setItem (setItem s.ls (chunkKeyOf i)
            (encode lz s.compressionEnabled
              (JSON.stringify (.obj (JSON.erase k (membersOf lz s (chunkKeyOf i))))))) indexKey
            (JSON.stringify (.obj (JSON.erase k idx))) } := ⟨_, rfl⟩
    rw [hd, ← hs1]
    replace hs1 := hs1.symm
    have hce : s1.compressionEnabled = s.compressionEnabled := by rw [← hs1]
    have g1 : getItem s1.ls indexKey = some (JSON.stringify (.obj (JSON.erase k idx))) := by
      rw [← hs1]; simp only
      rw [getItem_setItem_same]
    have g2 : getItem s1.ls (chunkKeyOf i) = some (encode lz s1.compressionEnabled
        (JSON.stringify (.obj (JSON.erase k (membersOf lz s (chunkKeyOf i)))))) := by
      rw [← hs1]; simp only
      rw [getItem_setItem_ne _ _ _ _ (chunkKeyOf_ne_indexKey i), getItem_setItem_same]
    have g3 : ∀ key, key ≠ chunkKeyOf i → key ≠ indexKey →
        getItem s1.ls key = getItem s.ls key := by
      intro key hk1 hk2
      rw [← hs1]; simp only
      rw [getItem_setItem_ne _ _ _ _ hk2, getItem_setItem_ne _ _ _ _ hk1]
    have g4 : ∀ j, j ≠ i → getItem s1.ls (chunkKeyOf j) = getItem s.ls (chunkKeyOf j) :=
      fun j hj => g3 _ (fun e => hj (chunkKeyOf_injective _ _ e)) (chunkKeyOf_ne_indexKey j)
    have hidx1 := getIndex_of_slot s1 _ g1
    obtain ⟨hp1, -, hm⟩ := membersOf_of_slot lz hz s1 _ _ g2
    refine ⟨rfl, ?_, hidx1, ?_, hce, ?_, ?_, ?_, Or.inr ⟨i, rfl, hp1, hm, g4⟩⟩
    · apply Inv.of_slots P lz hz s s1 hI idx _ hidx hidx1 hce
      · rw [← hs1]; exact hI.metaObj
      · rw [← hs1]; exact hI.queue
      · intro j
        by_cases hj : j = i
        · subst hj
          right
          refine ⟨_, g2, ?_, ?_⟩
          · intro k2 v2 hl2
            by_cases hk2 : k2 = k
            · subst hk2; rw [JSON.lookup_erase_same] at hl2; cases hl2
            · rw [JSON.lookup_erase_ne _ _ _ hk2] at hl2
              exact inv_members_P P lz s hI j k2 v2 hl2
          · intro k2 cv hl1 _ hm2
            by_cases hk2 : k2 = k
            · subst hk2; rw [JSON.lookup_erase_same] at hl1; cases hl1
            · rw [JSON.lookup_erase_ne _ _ _ hk2]; exact hm2
        · exact Or.inl (g4 j hj)
      · intro k2 cv hl2
        by_cases hk2 : k2 = k
        · subst hk2; rw [JSON.lookup_erase_same] at hl2; cases hl2
        · rw [JSON.lookup_erase_ne _ _ _ hk2] at hl2
          exact Or.inl hl2
    · exact g3 _ (Ne.symm (chunkKeyOf_ne_walKey i)) (Ne.symm indexKey_ne_walKey)
    · rw [← hs1]
    · rw [← hs1]
    · rw [← hs1]

end StorageManager

namespace StorageManager

theorem lastWrite_mem (k : String) (v : JSON) (ws : List (String × JSON))
    (h : lastWrite k ws = some v) : (k, v) ∈ ws := by
  induction ws with
  | nil => simp [lastWrite] at h
  | cons w ws ih =>
    obtain ⟨a, b⟩ := w
    simp only [lastWrite] at h
    cases hl : lastWrite k ws with
    | some r =>
      rw [hl] at h
      simp only [Option.some.injEq] at h
      subst h
      exact List.mem_cons_of_mem _ (ih hl)
    | none =>
      rw [hl] at h
      simp only at h
      split_ifs at h with hk
      simp only [Option.some.injEq] at h
      subst h hk
      exact List.mem_cons_self _ _

theorem routed_values (s : Store) (c : String) (q : List QueuedWrite) :
    ∀ p ∈ routed s c q, ∃ w ∈ q, w.key = p.1 ∧ w.value = p.2 := by
  intro p hp
  unfold routed at hp
  obtain ⟨w, hw, rfl⟩ := List.mem_map.1 hp
  exact ⟨w, (List.mem_filter.1 hw).1, rfl, rfl⟩

theorem applyWrites_obj (c : String) (ws : List (String × JSON)) :
    ∀ ms idx, applyWrites c ws (.obj ms) (.obj idx) =
      .ok (.obj (applyAll ws ms), .obj (indexGroup c ws idx)) := by
  induction ws with
  | nil => intro ms idx; rfl
  | cons w ws ih =>
    intro ms idx
    obtain ⟨a, b⟩ := w
    simp [applyWrites, JSON.setProp, ih, applyAll, indexGroup]

theorem processGroups_total (lz : Option Codec) (hz : Lawful lz) (gs : List WriteGroup) :
    ∀ (s : Store) (idx : List (String × JSON)),
      (∀ c, c ∈ gs.map Prod.fst → ∃ i, c = chunkKeyOf i) →
      (∀ i, present (getItem s.ls (chunkKeyOf i)) = true →
        ∃ ms, readChunk lz s (chunkKeyOf i) = some (.obj ms)) →
      ∃ s1 idx1, processGroups lz gs s (.obj idx) = .ok (s1, idx1) := by
  induction gs with
  | nil => intro s idx _ _; exact ⟨s, _, rfl⟩
  | cons g gs ih =>
    intro s idx hk hch
    obtain ⟨c, ws⟩ := g
    obtain ⟨i, rfl⟩ := hk c (by simp)
    obtain ⟨ms, hload⟩ : ∃ ms, loadChunk lz s (chunkKeyOf i) = .ok (.obj ms) := by
      rw [loadChunk_eq]
      by_cases hp : present (getItem s.ls (chunkKeyOf i)) = true
      · obtain ⟨ms, hms⟩ := hch i hp
        exact ⟨ms, by simp [hp, hms]⟩
      · exact ⟨[], by simp [hp]⟩
    simp only [processGroups, hload, applyWrites_obj]
    apply ih
    · intro c2 hc2; exact hk c2 (by simp [hc2])
    · intro j hp
      by_cases hj : j = i
      · subst hj
        exact ⟨_, readChunk_of_slot lz hz _ _ _ (getItem_setItem_same _ _ _)⟩
      · have hne : chunkKeyOf j ≠ chunkKeyOf i := fun e => hj (chunkKeyOf_injective _ _ e)
        simp only [getItem_setItem_ne _ _ _ _ hne] at hp
        obtain ⟨ms2, hms2⟩ := hch j hp
        refine ⟨ms2, ?_⟩
        rw [← hms2]
        exact readChunk_congr lz s _ _ (getItem_setItem_ne _ _ _ _ hne) rfl

theorem groupWrites_error (s : Store) (q : List QueuedWrite) :
    ∀ (acc : List WriteGroup) (e : JSError), groupWrites s q acc = .error e →
      e = .limitReached ∧
      ∃ w, w ∈ q ∧ findOrCreateChunk s w.key (some w.value) = .error .limitReached := by
  induction q with
  | nil => intro acc e h; simp [groupWrites] at h
  | cons w q ih =>
    intro acc e h
    simp only [groupWrites] at h
    split at h
    · rename_i e2 he2
      simp only [Except.error.injEq] at h
      subst h
      have he : e2 = .limitReached := by
        unfold findOrCreateChunk at he2
        split at he2 <;> simp at he2
        exact he2.symm
      subst he
      exact ⟨rfl, w, by simp, he2⟩
    · obtain ⟨h1, w2, hw2, hf2⟩ := ih _ e h
      exact ⟨h1, w2, List.mem_cons_of_mem _ hw2, hf2⟩

/-- A flush on a well-formed store does nothing on an empty queue, drops the queue when a
write finds no chunk, and otherwise completes as the grouping prescribes and leaves a
well-formed store with an empty log. -/
theorem inv_flush (P : JSON → Prop) (lz : Option Codec) (hz : Lawful lz) (s : Store)
    (hI : Inv P lz s) (idx : List (String × JSON)) (hidx : getIndex s = .obj idx) :
    (s.writeQueue = [] ∧ flushWriteQueue lz s = .ok s) ∨
    (s.writeQueue ≠ [] ∧
      flushWriteQueue lz s = .error (.limitReached, { s with writeQueue := [] }) ∧
      ∃ w, w ∈ s.writeQueue ∧
        findOrCreateChunk s w.key (some w.value) = .error .limitReached) ∨
    ∃ s1 gs, s.writeQueue ≠ [] ∧ flushWriteQueue lz s = .ok s1 ∧ Inv P lz s1 ∧
      groupWrites { s with writeQueue := [] } s.writeQueue [] = .ok gs ∧
      (gs.map Prod.fst).Nodup ∧ (∀ c, groupOf c gs = routed s c s.writeQueue) ∧
      (∀ c, c ∈ gs.map Prod.fst → ∃ i, i < 100 ∧ c = chunkKeyOf i ∧
        ∃ w, w ∈ s.writeQueue ∧ findOrCreateChunk s w.key (some w.value) = .ok c) ∧
      (∀ w, w ∈ s.writeQueue → ∃ c, findOrCreateChunk s w.key (some w.value) = .ok c ∧
        c ∈ gs.map Prod.fst) ∧
      getIndex s1 = .obj (indexGroups gs idx) ∧
      (∀ i, chunkKeyOf i ∈ gs.map Prod.fst →
        present (getItem s1.ls (chunkKeyOf i)) = true ∧
        membersOf lz s1 (chunkKeyOf i) =
          applyAll (groupOf (chunkKeyOf i) gs) (membersOf lz s (chunkKeyOf i))) ∧
      (∀ i, chunkKeyOf i ∉ gs.map Prod.fst →
        getItem s1.ls (chunkKeyOf i) = getItem s.ls (chunkKeyOf i)) ∧
      getItem s1.ls walKey = none ∧ s1.wal = .arr [] ∧ s1.writeQueue = [] ∧
      s1.compressionEnabled = s.compressionEnabled ∧ s1.now = s.now := by
  by_cases hq : s.writeQueue = []
  · left
    exact ⟨hq, by simp [flushWriteQueue, hq]⟩
  · right
    obtain ⟨w, ws, hw⟩ := List.exists_cons_of_ne_nil hq
    obtain ⟨mm, hmm⟩ := hI.metaObj
    cases hg : groupWrites { s with writeQueue := [] } s.writeQueue [] with
    | error e =>
      left
      obtain ⟨he, hwit⟩ := groupWrites_error _ _ _ _ hg
      subst he
      refine ⟨hq, ?_, hwit⟩
      rw [hw] at hg
      simp [flushWriteQueue, hw, hg]
    | ok gs =>
      right
      obtain ⟨g1, -, g3, -, -⟩ := groupWrites_ok _ _ _ _ hg
      have hkeys : ∀ c, c ∈ gs.map Prod.fst → ∃ i, c = chunkKeyOf i := by
        intro c hc
        rcases g3 c hc with h | ⟨i, -, h, -⟩
        · simp at h
        · exact ⟨i, h⟩
      obtain ⟨s2, idx2, hpg⟩ := processGroups_total lz hz gs { s with writeQueue := [] } idx hkeys
        (fun i hp => ⟨_, (hI.chunks i hp).1⟩)
      obtain ⟨-, -, -, b4, -⟩ := processGroups_ok lz gs _ _ _ _ hpg (g1 (by simp))
      have hidx0 : getIndex { s with writeQueue := [] } = .obj idx := hidx
      obtain ⟨s1, hfl⟩ : ∃ s1, flushWriteQueue lz s = .ok s1 := by
        rw [hw] at hg
        simp only [flushWriteQueue, hw, hg, hidx0, hpg]
        have : (clearWAL (setIndex s2 idx2)).meta = .obj mm := by
          simp [clearWAL, setIndex, b4, hmm]
        simp [this, JSON.setProp]
      obtain ⟨gs2, idx1, m1, f0, f1, f2, f3, f4, f5, f6, f7, f8, f9, f10, f11, f12, f13, f14, -,
        -, f16, f17⟩ := flush_ok lz s s1 hq hfl
      have hgs : ∀ c, groupOf c gs2 = routed s c s.writeQueue := f2
      have hidx1 := getIndex_of_slot s1 _ f11
      rw [f14 idx hidx] at hidx1
      -- slots of the chunks that were written
      have hslot : ∀ i, chunkKeyOf i ∈ gs2.map Prod.fst →
          getItem s1.ls (chunkKeyOf i) = some (encode lz s1.compressionEnabled
            (JSON.stringify (.obj (applyAll (groupOf (chunkKeyOf i) gs2)
              (membersOf lz s (chunkKeyOf i)))))) := by
        intro i hi
        obtain ⟨g, hg1, hg2⟩ := List.mem_map.1 hi
        obtain ⟨c, ws2⟩ := g
        simp only at hg2
        subst hg2
        obtain ⟨cd, cd1, e1, e2, e3⟩ := f16 _ ws2 hg1
        rw [inv_loadChunk P lz s hI i] at e1
        simp only [Except.ok.injEq] at e1
        subst e1
        rw [applyChunk_obj] at e2
        simp only [Except.ok.injEq] at e2
        subst e2
        rw [groupOf_of_mem gs2 _ ws2 f1 hg1, f5]
        exact e3
      have hother : ∀ i, chunkKeyOf i ∉ gs2.map Prod.fst →
          getItem s1.ls (chunkKeyOf i) = getItem s.ls (chunkKeyOf i) :=
        fun i hi => f17 _ hi (chunkKeyOf_ne_indexKey i) (chunkKeyOf_ne_walKey i)
          (chunkKeyOf_ne_metaKey i)
      refine ⟨s1, gs2, hq, hfl, ?_, hg.symm.trans f0, f1, hgs, f3, f4, hidx1, ?_, hother, f12, f7,
        f6, f5, f8⟩
      · apply Inv.of_slots P lz hz s s1 hI idx _ hidx hidx1 f5
        · obtain ⟨mm, hmm⟩ := hI.metaObj
          rw [hmm] at f10
          simp only [JSON.setProp, Except.ok.injEq] at f10
          exact ⟨_, by rw [f9, ← f10]⟩
        · rw [f6]; intro w hw; simp at hw
        · intro i
          by_cases hi : chunkKeyOf i ∈ gs2.map Prod.fst
          · right
            refine ⟨_, hslot i hi, ?_, ?_⟩
            · intro k v hl
              rw [lookup_applyAll] at hl
              cases hlw : lastWrite k (groupOf (chunkKeyOf i) gs2) with
              | some r =>
                rw [hlw] at hl
                simp only [Option.some.injEq] at hl
                subst hl
                have hmem := lastWrite_mem k r _ hlw
                rw [hgs] at hmem
                obtain ⟨w, hw1, -, hw3⟩ := routed_values s _ _ _ hmem
                simp only at hw3
                rw [← hw3]
                exact hI.queue w hw1
              | none =>
                rw [hlw] at hl
                exact inv_members_P P lz s hI i k v hl
            · intro k cv _ _ hm
              rw [lookup_applyAll]
              cases hlw : lastWrite k (groupOf (chunkKeyOf i) gs2) with
              | some r => rfl
              | none => exact hm
          · exact Or.inl (hother i hi)
        · intro k cv hl
          rw [lookup_indexGroups] at hl
          cases hlg : lastGroup k gs2 with
          | none => rw [hlg] at hl; exact Or.inl hl
          | some c =>
            rw [hlg] at hl
            simp only [Option.some.injEq] at hl
            subst hl
            obtain ⟨hc1, hc2⟩ := lastGroup_some k c gs2 f1 hlg
            obtain ⟨i, -, rfl, -⟩ := f3 c hc1
            refine Or.inr ⟨i, _, rfl, hslot i hc1, ?_⟩
            rw [lookup_applyAll]
            cases hlw : lastWrite k (groupOf (chunkKeyOf i) gs2) with
            | some r => rfl
            | none => rw [hlw] at hc2; simp at hc2
      · intro i hi
        obtain ⟨h1, -, h3⟩ := membersOf_of_slot lz hz s1 _ _ (hslot i hi)
        exact ⟨h1, h3⟩

end StorageManager

namespace StorageManager

/-! ## Reachable states -/

theorem getItem_filter_startsWith (ls : List (String × String)) (key : String)
    (h : startsWith key pfx = true) :
    getItem (ls.filter (fun kv => !(startsWith kv.1 pfx))) key = none := by
  induction ls with
  | nil => rfl
  | cons p ls ih =>
    obtain ⟨a, b⟩ := p
    by_cases ha : startsWith a pfx = true
    · simp [List.filter_cons, ha, ih]
    · have hne : a ≠ key := by rintro rfl; exact ha h
      simp [List.filter_cons, ha, getItem, hne, ih]

theorem chunkKeyOf_startsWith (i : Nat) : startsWith (chunkKeyOf i) pfx = true := by
  simp [startsWith, chunkKeyOf_data, pfx]

theorem indexKey_startsWith : startsWith indexKey pfx = true := by decide

theorem walKey_startsWith : startsWith walKey pfx = true := by decide

/-- A store whose chunk slots and index slot are all empty is well formed. -/
theorem inv_of_empty (P : JSON → Prop) (lz : Option Codec) (s : Store)
    (hidx : getItem s.ls indexKey = none) (hch : ∀ i, getItem s.ls (chunkKeyOf i) = none)
    (hmeta : ∃ mm, s.meta = .obj mm) (hq : ∀ w, w ∈ s.writeQueue → P w.value) :
    Inv P lz s := by
  have hgi : getIndex s = .obj [] := by simp [getIndex, hidx]
  refine ⟨⟨[], hgi⟩, ?_, ?_, hmeta, hq⟩
  · intro i hp; rw [hch i] at hp; simp [present] at hp
  · intro idx k cv hi hl
    rw [hgi] at hi; cases hi
    simp [JSON.lookup] at hl

theorem inv_freshStore (P : JSON → Prop) (lz : Option Codec) (now : Nat) :
    Inv P lz (freshStore now) := by
  apply inv_of_empty
  · simp [freshStore, getItem, Ne.symm indexKey_ne_metaKey]
  · intro i
    simp [freshStore, getItem, Ne.symm (chunkKeyOf_ne_metaKey i)]
  · exact ⟨_, rfl⟩
  · intro w hw; simp [freshStore] at hw

theorem getIndex_freshStore (now : Nat) : getIndex (freshStore now) = .obj [] := by
  simp [getIndex, freshStore, getItem, Ne.symm indexKey_ne_metaKey]

/-- Well-formedness only looks at the chunk slots, the index slot, the compression flag,
the metadata object and the queue. -/
theorem inv_congr (P : JSON → Prop) (lz : Option Codec) (hz : Lawful lz) (s t : Store)
    (hI : Inv P lz s) (hidx : getItem t.ls indexKey = getItem s.ls indexKey)
    (hch : ∀ i, getItem t.ls (chunkKeyOf i) = getItem s.ls (chunkKeyOf i))
    (hce : t.compressionEnabled = s.compressionEnabled) (hmeta : ∃ mm, t.meta = .obj mm)
    (hq : ∀ w, w ∈ t.writeQueue → P w.value) : Inv P lz t := by
  obtain ⟨idx, hi⟩ := hI.index
  exact Inv.of_slots P lz hz s t hI idx idx hi (by rw [getIndex_congr s t hidx, hi]) hce hmeta hq
    (fun i => Or.inl (hch i)) (fun k cv hl => Or.inl hl)

theorem inv_step (P : JSON → Prop) (lz : Option Codec) (hz : Lawful lz) (s : Store)
    (hI : Inv P lz s) (op : Op) (hop : ∀ k v im, op = .set k v im → P v) :
    Inv P lz (step lz s op) := by
  obtain ⟨idx, hidx⟩ := hI.index
  cases op with
  | get k => exact hI
  | keys => exact hI
  | getStats => exact hI
  | tick dt =>
    exact inv_congr P lz hz s _ hI rfl (fun _ => rfl) rfl hI.metaObj hI.queue
  | clear =>
    simp only [step, clear, saveMeta]
    apply inv_of_empty
    · simp only
      rw [getItem_setItem_ne _ _ _ _ indexKey_ne_metaKey,
        getItem_filter_startsWith _ _ indexKey_startsWith]
    · intro i
      simp only
      rw [getItem_setItem_ne _ _ _ _ (chunkKeyOf_ne_metaKey i),
        getItem_filter_startsWith _ _ (chunkKeyOf_startsWith i)]
    · exact ⟨_, rfl⟩
    · exact hI.queue
  | delete k => exact (inv_delete P lz hz s hI k idx hidx).2.1
  | flush =>
    simp only [step]
    rcases inv_flush P lz hz s hI idx hidx with ⟨-, h⟩ | ⟨-, h, -⟩ | ⟨s1, gs, -, h, hI1, -⟩
    · rw [h]; exact hI
    · rw [h]
      exact inv_congr P lz hz s _ hI rfl (fun _ => rfl) rfl hI.metaObj
        (fun w hw => by simp at hw)
    · rw [h]; exact hI1
  | set k v im =>
    have hv := hop k v im rfl
    cases im with
    | true =>
      simp only [step, set, if_true]
      rcases inv_writeImmediate P lz hz s hI k v hv idx hidx with ⟨-, h⟩ | ⟨s1, i, -, -, h, hI1, -⟩
      · rw [h]; exact hI
      · rw [h]; exact hI1
    | false =>
      obtain ⟨q1, q2, q3, q4, q5⟩ := set_queued_effect lz s k v
      simp only [step]
      apply inv_congr P lz hz s _ hI (q5 _ indexKey_ne_walKey)
        (fun i => q5 _ (chunkKeyOf_ne_walKey i)) q2
      · rw [q3]; exact hI.metaObj
      · rw [q1]
        intro w hw
        rcases List.mem_append.1 hw with h | h
        · exact hI.queue w h
        · simp at h; rw [h]; exact hv

theorem inv_run (P : JSON → Prop) (lz : Option Codec) (hz : Lawful lz) (ops : List Op) :
    ∀ s, Inv P lz s → SetsSatisfy P ops → Inv P lz (run lz s ops) := by
  induction ops with
  | nil => intro s hI _; exact hI
  | cons op ops ih =>
    intro s hI hP
    simp only [run, List.foldl_cons]
    apply ih
    · exact inv_step P lz hz s hI op (fun k v im h => hP k v im (by simp [h]))
    · intro k v im hmem
      exact hP k v im (List.mem_cons_of_mem _ hmem)

/-- C6: in every state reached from an empty store, `keys()` returns, and every key it
lists is mapped by the index to a chunk that is physically present and decodes to an
object containing the key. -/
theorem index_sound (lz : Option Codec) (hz : Lawful lz) (now : Nat) (ops : List Op) :
    ∃ ks, keys (run lz (freshStore now) ops) = .ok ks ∧
      ∀ k, k ∈ ks → ∃ c ms,
        JSON.getProp (getIndex (run lz (freshStore now) ops)) k = .ok (some (.str c)) ∧
        present (getItem (run lz (freshStore now) ops).ls c) = true ∧
        readChunk lz (run lz (freshStore now) ops) c = some (.obj ms) ∧
        k ∈ ms.map Prod.fst := by
  have hI := inv_run (fun _ => True) lz hz ops _ (inv_freshStore _ lz now)
    (fun _ _ _ _ => trivial)
  generalize run lz (freshStore now) ops = s at hI
  obtain ⟨idx, hidx⟩ := hI.index
  refine ⟨idx.map Prod.fst, by simp [keys, hidx, JSON.objectKeys], ?_⟩
  intro k hk
  obtain ⟨cv, hcv⟩ := (JSON.mem_keys_iff k idx).1 hk
  obtain ⟨i, rfl, hp, hm⟩ := hI.sound idx k cv hidx hcv
  refine ⟨chunkKeyOf i, _, by simp [hidx, JSON.getProp, hcv], hp, (hI.chunks i hp).1, ?_⟩
  rw [JSON.mem_keys_iff]
  exact Option.isSome_iff_exists.1 hm

end StorageManager

namespace StorageManager

/-! ## Sizes of texts -/

theorem jsLength_mk_append (a b : List Char) :
    jsLength (String.mk (a ++ b)) = jsLength (String.mk a) + jsLength (String.mk b) := by
  simp [jsLength, List.map_append, List.sum_append]

theorem jsLength_mk_cons (c : Char) (a : List Char) :
    jsLength (String.mk (c :: a)) = (if c.toNat < 65536 then 1 else 2) + jsLength (String.mk a) := by
  simp [jsLength]

theorem jsLength_mk_nil : jsLength (String.mk []) = 0 := rfl

theorem escape_replicate (n : Nat) : JSON.escape (List.replicate n 'x') = List.replicate n 'x' := by
  induction n with
  | zero => rfl
  | succ n ih =>
    rw [List.replicate_succ, JSON.escape, ih]
    rfl

theorem jsLength_replicate (n : Nat) : jsLength (String.mk (List.replicate n 'x')) = n := by
  induction n with
  | zero => rfl
  | succ n ih =>
    rw [List.replicate_succ, jsLength_mk_cons, ih]
    simp
    omega

theorem jsLength_mk_small (c : Char) (a : List Char) (h : c.toNat < 65536) :
    jsLength (String.mk (c :: a)) = 1 + jsLength (String.mk a) := by
  rw [jsLength_mk_cons, if_pos h]

theorem jsLength_renderStr_bigText (n : Nat) :
    jsLength (String.mk (JSON.renderStr (bigText n))) = n + 2 := by
  simp only [JSON.renderStr, bigText, escape_replicate]
  rw [jsLength_mk_small _ _ (by decide), jsLength_mk_append, jsLength_replicate,
    jsLength_mk_small _ _ (by decide), jsLength_mk_nil]
  omega

/-- Size of the text of an object with one member whose value is a string of `n` letters. -/
theorem jsLength_entry_bigText (k : String) (n : Nat) :
    jsLength (JSON.stringify (.obj [(k, .str (bigText n))])) =
      jsLength (String.mk (JSON.renderStr k)) + n + 5 := by
  simp only [JSON.stringify, JSON.render, JSON.renderMembers, JSON.renderMembersTail,
    List.append_nil]
  rw [jsLength_mk_small _ _ (by decide), jsLength_mk_append, jsLength_mk_append,
    jsLength_mk_small _ _ (by decide), jsLength_renderStr_bigText,
    jsLength_mk_small _ _ (by decide), jsLength_mk_nil]
  omega

/-- Size of the text of an object with two members whose values are strings of letters. -/
theorem jsLength_two_bigText (k1 k2 : String) (n1 n2 : Nat) :
    jsLength (JSON.stringify (.obj [(k1, .str (bigText n1)), (k2, .str (bigText n2))])) =
      jsLength (String.mk (JSON.renderStr k1)) + jsLength (String.mk (JSON.renderStr k2)) +
        n1 + n2 + 9 := by
  simp only [JSON.stringify, JSON.render, JSON.renderMembers, JSON.renderMembersTail,
    List.append_nil]
  rw [jsLength_mk_small _ _ (by decide), jsLength_mk_append, jsLength_mk_append,
    jsLength_mk_small _ _ (by decide), jsLength_mk_append, jsLength_mk_small _ _ (by decide),
    jsLength_mk_append, jsLength_mk_small _ _ (by decide), jsLength_renderStr_bigText,
    jsLength_renderStr_bigText, jsLength_mk_small _ _ (by decide), jsLength_mk_nil]
  omega

/-! ## The allocator, continued -/

theorem chunkFits_of_absent (ls : List (String × String)) (est i : Nat)
    (h : present (getItem ls (chunkKeyOf i)) = false) : chunkFits ls est i = true := by
  unfold chunkFits
  cases hg : getItem ls (chunkKeyOf i) with
  | none => rfl
  | some c => rw [hg] at h; simp [h]



theorem findOrCreateChunk_of_fits (s : Store) (k : String) (v : Option JSON) (i : Nat)
    (hi : i < 100) (hfit : chunkFits s.ls (jsLength (entryText k v)) i = true)
    (hmin : ∀ j, j < i → chunkFits s.ls (jsLength (entryText k v)) j = false) :
    findOrCreateChunk s k v = .ok (chunkKeyOf i) := by
  unfold findOrCreateChunk
  have hr : List.range 100 = List.range' 0 100 := by simp [List.range_eq_range']
  have : (List.range 100).find? (chunkFits s.ls (jsLength (entryText k v))) = some i := by
    rw [hr, List.find?_range'_eq_some]
    refine ⟨hfit, by simp; omega, ?_⟩
    intro j _ hj
    simp [hmin j hj]
  rw [this]

theorem findOrCreateChunk_first (s : Store) (k : String) (v : Option JSON)
    (h : present (getItem s.ls (chunkKeyOf 0)) = false) :
    findOrCreateChunk s k v = .ok (chunkKeyOf 0) :=
  findOrCreateChunk_of_fits s k v 0 (by omega) (chunkFits_of_absent _ _ _ h)
    (fun j hj => by omega)

theorem chunkFits_of_slot (ls : List (String × String)) (est i : Nat) (text : String)
    (h : getItem ls (chunkKeyOf i) = some text) (hne : text ≠ "") :
    chunkFits ls est i = decide (jsLength text + est < chunkSize) := by
  simp [chunkFits, h, present, hne]

/-! ## Reading on a well-formed store -/

theorem get_of_inv (P : JSON → Prop) (lz : Option Codec) (s : Store) (hI : Inv P lz s)
    (idx : List (String × JSON)) (hidx : getIndex s = .obj idx) (k : String) :
    get lz s k =
      match JSON.lookup k idx with
      | none => some .null
      | some (.str c) => JSON.lookup k (membersOf lz s c)
      | some _ => some .null := by
  rw [get_eq, hidx]
  cases hl : JSON.lookup k idx with
  | none => simp [JSON.getProp, hl, JSON.truthyOpt]
  | some cv =>
    obtain ⟨i, rfl, hp, hm⟩ := hI.sound idx k cv hidx hl
    simp [JSON.getProp, hl, JSON.truthyOpt, JSON.truthy, chunkKeyOf_ne_empty, JSON.toStrOpt,
      JSON.toStr, (hI.chunks i hp).1]

end StorageManager

namespace StorageManager

/-! ## Claims C1 and C2: round trips -/

/-- Witness of C1 (amended): on a fresh store with the marking codec, an immediate write of
`1` under `k` returns true and is read back. -/
theorem set_immediate_get_witness :
    Lawful (some markCodec) ∧ "k" ≠ "__proto__" ∧
    (∀ l, getIndex (freshStore 0) ≠ .arr l) ∧
    (set (some markCodec) (freshStore 0) "k" (.num 1) true).2 = true ∧
    get (some markCodec) (set (some markCodec) (freshStore 0) "k" (.num 1) true).1 "k" =
      some (.num 1) :=
  ⟨markCodec_lawful, (by decide), (fun l h => by rw [getIndex_freshStore] at h; cases h),
    (by decide),
    set_immediate_get (some markCodec) markCodec_lawful (freshStore 0) "k" (.num 1) (by decide)
      (fun l h => by rw [getIndex_freshStore] at h; cases h)
      (fun c l hc => by
        have h0 : findOrCreateChunk (freshStore 0) "k" (some (.num 1)) = .ok (chunkKeyOf 0) := by
          rfl
        rw [h0] at hc
        cases hc
        have h1 : loadChunk (some markCodec) (freshStore 0) (chunkKeyOf 0) = .ok (.obj []) := by
          rfl
        rw [h1]
        intro h; cases h)
      (by decide)⟩

/-- Counterexample to C1 as stated: when the first chunk slot holds a JSON array, an
immediate `set` returns true but the value is dropped, so `get` does not return it. -/
theorem set_immediate_get_refuted :
    ¬ (∀ (lz : Option Codec), Lawful lz → ∀ (s : Store) (k : String) (v : JSON),
      (set lz s k v true).2 = true → get lz (set lz s k v true).1 k = some v) := by
  intro h
  have := h none none_lawful arrayChunkStore "k" (.num 1) (by decide)
  revert this
  decide

/-- Witness of C2 (amended): on a fresh store a queued write of `1` under `k` followed by
a flush is read back. -/
theorem queued_set_flush_get_witness :
    Lawful (some markCodec) ∧ "k" ≠ "__proto__" ∧
    flushWriteQueue (some markCodec) (set (some markCodec) (freshStore 0) "k" (.num 1) false).1 =
      .ok (afterFlush (some markCodec) (set (some markCodec) (freshStore 0) "k" (.num 1) false).1) ∧
    get (some markCodec)
      (afterFlush (some markCodec) (set (some markCodec) (freshStore 0) "k" (.num 1) false).1) "k" =
      some (.num 1) :=
  ⟨markCodec_lawful, (by decide), by rfl,
    queued_set_flush_get (some markCodec) markCodec_lawful (freshStore 0) _ "k" (.num 1)
      (by decide) (fun w hw => by simp [freshStore] at hw)
      (fun l h => by rw [getIndex_freshStore] at h; cases h)
      (fun c l hc => by
        have h0 : findOrCreateChunk (freshStore 0) "k" (some (.num 1)) = .ok (chunkKeyOf 0) := by
          rfl
        rw [h0] at hc
        cases hc
        have h1 : loadChunk (some markCodec) (freshStore 0) (chunkKeyOf 0) = .ok (.obj []) := by
          rfl
        rw [h1]
        intro h; cases h)
      (by rfl)⟩

/-- Counterexample to C2 as stated: when the first chunk slot holds a JSON array, a queued
`set` followed by a completed flush leaves nothing to read back. -/
theorem queued_set_flush_get_refuted :
    ¬ (∀ (lz : Option Codec), Lawful lz → ∀ (s s1 : Store) (k : String) (v : JSON),
      flushWriteQueue lz (set lz s k v false).1 = .ok s1 → get lz s1 k = some v) := by
  intro h
  have := h none none_lawful arrayChunkStore
    (afterFlush none (set none arrayChunkStore "k" (.num 1) false).1) "k" (.num 1) (by rfl)
  revert this
  decide

/-- Witness of C6: after an immediate write, a queued write, a flush and a delete on a
fresh store, `keys()` lists exactly the surviving key. -/
theorem index_sound_witness :
    Lawful (some markCodec) ∧
    keys (run (some markCodec) (freshStore 0)
      [.set "a" (.num 1) true, .set "b" (.str "x") false, .flush, .delete "a"]) = .ok ["b"] ∧
    ∃ ks, keys (run (some markCodec) (freshStore 0)
        [.set "a" (.num 1) true, .set "b" (.str "x") false, .flush, .delete "a"]) = .ok ks ∧
      ∀ k, k ∈ ks → ∃ c ms,
        JSON.getProp (getIndex (run (some markCodec) (freshStore 0)
          [.set "a" (.num 1) true, .set "b" (.str "x") false, .flush, .delete "a"])) k =
          .ok (some (.str c)) ∧
        present (getItem (run (some markCodec) (freshStore 0)
          [.set "a" (.num 1) true, .set "b" (.str "x") false, .flush, .delete "a"]).ls c) = true ∧
        readChunk (some markCodec) (run (some markCodec) (freshStore 0)
          [.set "a" (.num 1) true, .set "b" (.str "x") false, .flush, .delete "a"]) c =
          some (.obj ms) ∧
        k ∈ ms.map Prod.fst :=
  ⟨markCodec_lawful, by rfl,
    index_sound (some markCodec) markCodec_lawful 0
      [.set "a" (.num 1) true, .set "b" (.str "x") false, .flush, .delete "a"]⟩

end StorageManager

namespace StorageManager

/-! ## Claim C7: `keys()` against `get` -/

/-- C7 (amended): when no `set` stores the value null, in every state reached from an
empty store `keys()` lists exactly the keys for which `get` returns a value other than
null. -/
theorem keys_iff_get (lz : Option Codec) (hz : Lawful lz) (now : Nat) (ops : List Op)
    (hnn : SetsSatisfy (fun v => v ≠ .null) ops) :
    ∃ ks, keys (run lz (freshStore now) ops) = .ok ks ∧
      ∀ k, k ∈ ks ↔ ∃ v, get lz (run lz (freshStore now) ops) k = some v ∧ v ≠ .null := by
  have hI := inv_run (fun v => v ≠ .null) lz hz ops _ (inv_freshStore _ lz now) hnn
  generalize run lz (freshStore now) ops = s at hI
  obtain ⟨idx, hidx⟩ := hI.index
  refine ⟨idx.map Prod.fst, by simp [keys, hidx, JSON.objectKeys], ?_⟩
  intro k
  rw [JSON.mem_keys_iff, get_eq, hidx]
  cases hl : JSON.lookup k idx with
  | none =>
    simp [JSON.getProp, hl, JSON.truthyOpt]
  | some cv =>
    obtain ⟨i, rfl, hp, hm⟩ := hI.sound idx k cv hidx hl
    obtain ⟨v, hv⟩ := Option.isSome_iff_exists.1 hm
    have hne := (hI.chunks i hp).2 k v hv
    simp [JSON.getProp, hl, JSON.truthyOpt, JSON.truthy, chunkKeyOf_ne_empty, JSON.toStrOpt,
      JSON.toStr, (hI.chunks i hp).1, hv, hne]

/-- Witness of C7 (amended): with non-null values, after two writes and a delete, `keys()`
lists the key that `get` still returns. -/
theorem keys_iff_get_witness :
    Lawful (some markCodec) ∧
    SetsSatisfy (fun v => v ≠ .null) [.set "a" (.num 1) true, .set "b" (.str "x") true,
      .delete "a"] ∧
    ∃ ks, keys (run (some markCodec) (freshStore 0)
        [.set "a" (.num 1) true, .set "b" (.str "x") true, .delete "a"]) = .ok ks ∧
      ∀ k, k ∈ ks ↔ ∃ v, get (some markCodec) (run (some markCodec) (freshStore 0)
        [.set "a" (.num 1) true, .set "b" (.str "x") true, .delete "a"]) k = some v ∧
        v ≠ .null :=
  have hs : SetsSatisfy (fun v => v ≠ .null)
      [.set "a" (.num 1) true, .set "b" (.str "x") true, .delete "a"] := by
    intro k v im h
    simp at h
    rcases h with ⟨-, rfl, -⟩ | ⟨-, rfl, -⟩ <;> simp
  ⟨markCodec_lawful, hs, keys_iff_get (some markCodec) markCodec_lawful 0 _ hs⟩

/-- Counterexample to C7 as stated: after `set("x", null, true)` on an empty store,
`keys()` lists `x` although `get("x")` returns null. -/
theorem keys_iff_get_refuted :
    ¬ (∀ (lz : Option Codec), Lawful lz → ∀ (now : Nat) (ops : List Op),
      ∃ ks, keys (run lz (freshStore now) ops) = .ok ks ∧
        ∀ k, k ∈ ks ↔ ∃ v, get lz (run lz (freshStore now) ops) k = some v ∧ v ≠ .null) := by
  intro h
  obtain ⟨ks, hk, hiff⟩ := h none none_lawful 0 [.set "x" .null true]
  have e1 : keys (run none (freshStore 0) [.set "x" .null true]) = .ok ["x"] := by rfl
  have e2 : get none (run none (freshStore 0) [.set "x" .null true]) "x" = some .null := by
    rfl
  rw [e1] at hk
  cases hk
  obtain ⟨v, hv, hne⟩ := (hiff "x").1 (by simp)
  rw [e2] at hv
  cases hv
  exact hne rfl

/-! ## Claim C10: delete -/

/-- C10: when the index, an object, maps `k` to a chunk key whose chunk is physically
present and decodes to an object, `delete(k)` returns true, and afterwards `keys()` does
not list `k` and `get(k)` returns null. -/
theorem delete_removes (lz : Option Codec) (s : Store) (k : String)
    (idx ms : List (String × JSON)) (i : Nat) (hidx : getIndex s = .obj idx)
    (hk : JSON.lookup k idx = some (.str (chunkKeyOf i)))
    (hp : present (getItem s.ls (chunkKeyOf i)) = true)
    (hc : readChunk lz s (chunkKeyOf i) = some (.obj ms)) :
    (delete lz s k).2 = true ∧
    (∃ ks, keys (delete lz s k).1 = .ok ks ∧ k ∉ ks) ∧
    get lz (delete lz s k).1 k = some .null := by
  have hd : delete lz s k =
      ({ s with
        ls := setItem (setItem s.ls (chunkKeyOf i)
          (encode lz s.compressionEnabled (JSON.stringify (.obj (JSON.erase k ms))))) indexKey
          (JSON.stringify (.obj (JSON.erase k idx))) }, true) := by
    simp [delete, hidx, JSON.getProp, hk, JSON.truthyOpt, JSON.truthy,
      chunkKeyOf_ne_empty, JSON.toStrOpt, JSON.toStr, readChunk_present_eq lz s _ hp, hc,
      JSON.delProp, setIndex]
  rw [hd]
  have g1 : getIndex { s with
        ls := setItem (setItem s.ls (chunkKeyOf i)
          (encode lz s.compressionEnabled (JSON.stringify (.obj (JSON.erase k ms))))) indexKey
          (JSON.stringify (.obj (JSON.erase k idx))) } = .obj (JSON.erase k idx) :=
    getIndex_of_slot _ _ (getItem_setItem_same _ _ _)
  refine ⟨rfl, ⟨(JSON.erase k idx).map Prod.fst, by simp [keys, g1, JSON.objectKeys], ?_⟩, ?_⟩
  · rw [JSON.mem_keys_iff]
    simp [JSON.lookup_erase_same]
  · rw [get_eq, g1]
    simp [JSON.getProp, JSON.lookup_erase_same, JSON.truthyOpt]

/-- Witness of C10: deleting the key written by an immediate `set` on a fresh store. -/
theorem delete_removes_witness :
    getIndex (set none (freshStore 0) "a" (.num 1) true).1 =
      .obj [("a", .str (chunkKeyOf 0))] ∧
    (delete none (set none (freshStore 0) "a" (.num 1) true).1 "a").2 = true ∧
    (∃ ks, keys (delete none (set none (freshStore 0) "a" (.num 1) true).1 "a").1 = .ok ks ∧
      "a" ∉ ks) ∧
    get none (delete none (set none (freshStore 0) "a" (.num 1) true).1 "a").1 "a" =
      some .null :=
  ⟨by rfl,
    delete_removes none (set none (freshStore 0) "a" (.num 1) true).1 "a"
      [("a", .str (chunkKeyOf 0))] [("a", .num 1)] 0 (by rfl) (by rfl) (by rfl) (by rfl)⟩

end StorageManager

namespace StorageManager

/-! ## The log along a run (for claim C5) -/

theorem walInv_step (lz : Option Codec) (hz : Lawful lz) (s : Store)
    (hI : Inv (fun _ => True) lz s) (hW : WalInv s) (op : Op) (hc : op ≠ .clear)
    (hf : op = .flush → ∃ s1, flushWriteQueue lz s = .ok s1) : WalInv (step lz s op) := by
  obtain ⟨idx, hidx⟩ := hI.index
  cases op with
  | get k => exact hW
  | keys => exact hW
  | getStats => exact hW
  | tick dt => exact ⟨hW.mem, hW.slot⟩
  | clear => exact absurd rfl hc
  | delete k =>
    obtain ⟨-, -, -, d4, -, d6, d7, -⟩ := inv_delete _ lz hz s hI k idx hidx
    simp only [step]
    exact ⟨by rw [d7, d6]; exact hW.mem, by rw [d4, d6]; exact hW.slot⟩
  | flush =>
    obtain ⟨s1, hs1⟩ := hf rfl
    simp only [step, hs1]
    rcases inv_flush _ lz hz s hI idx hidx with ⟨-, h⟩ | ⟨-, h, -⟩ |
      ⟨s2, gs, -, h, -, -, -, -, -, -, -, -, -, f1, f2, f3, -⟩
    · rw [h] at hs1; cases hs1; exact hW
    · rw [h] at hs1; cases hs1
    · rw [h] at hs1; cases hs1
      exact ⟨by rw [f2, f3]; rfl, by rw [f1, f3]; rfl⟩
  | set k v im =>
    cases im with
    | true =>
      simp only [step, set, if_true]
      rcases inv_writeImmediate _ lz hz s hI k v trivial idx hidx with ⟨-, h⟩ |
        ⟨s1, i, -, -, h, -, -, -, -, -, w1, -, w2, w3, -⟩
      · rw [h]; exact hW
      · rw [h]
        exact ⟨by rw [w3, w2]; exact hW.mem, by rw [w1, w2]; exact hW.slot⟩
    | false =>
      have hq : (set lz s k v false).1 = { s with
          writeQueue := s.writeQueue ++ [⟨k, v, s.now⟩],
          wal := .arr (walOps (s.writeQueue ++ [⟨k, v, s.now⟩])),
          ls := setItem s.ls walKey
            (JSON.stringify (.arr (walOps (s.writeQueue ++ [⟨k, v, s.now⟩])))),
          writeTimer := true } := by
        simp [set, queueWrite, appendWAL, hW.mem, walOps]
      simp only [step, hq]
      exact ⟨rfl, by simp [getItem_setItem_same]⟩

theorem inv_walInv_run (lz : Option Codec) (hz : Lawful lz) (ops : List Op) :
    ∀ s, Inv (fun _ => True) lz s → WalInv s → Quiet lz s ops →
      Inv (fun _ => True) lz (run lz s ops) ∧ WalInv (run lz s ops) := by
  induction ops with
  | nil => intro s hI hW _; exact ⟨hI, hW⟩
  | cons op ops ih =>
    intro s hI hW hQ
    obtain ⟨q1, q2, q3⟩ := hQ
    simp only [run, List.foldl_cons]
    exact ih _ (inv_step _ lz hz s hI op (fun _ _ _ _ => trivial))
      (walInv_step lz hz s hI hW op q1 q2) q3

end StorageManager

namespace StorageManager

/-! ## Claim C9: chunk capacity -/

/-- Two queued writes of strings of `n1` and `n2` letters on a fresh store, with the
compression library not loaded: the flush puts both into the first chunk. -/
theorem flush_two_big (n1 n2 : Nat) :
    getItem (afterFlush none (run none (freshStore 0)
        [.set "a" (.str (bigText n1)) false, .set "b" (.str (bigText n2)) false])).ls
        (chunkKeyOf 0) =
      some (JSON.stringify (.obj [("a", .str (bigText n1)), ("b", .str (bigText n2))])) := by
  have hI := inv_run (fun _ => True) none none_lawful
    [.set "a" (.str (bigText n1)) false, .set "b" (.str (bigText n2)) false] _
    (inv_freshStore _ none 0) (fun _ _ _ _ => trivial)
  obtain ⟨sq, hsq⟩ : ∃ sq, sq = run none (freshStore 0)
      [.set "a" (.str (bigText n1)) false, .set "b" (.str (bigText n2)) false] := ⟨_, rfl⟩
  rw [← hsq] at hI ⊢
  have hqueue : sq.writeQueue =
      [⟨"a", .str (bigText n1), 0⟩, ⟨"b", .str (bigText n2), 0⟩] := by rw [hsq]; rfl
  have hce : sq.compressionEnabled = true := by rw [hsq]; rfl
  have hslot : getItem sq.ls (chunkKeyOf 0) = none := by rw [hsq]; rfl
  have habs : present (getItem sq.ls (chunkKeyOf 0)) = false := by rw [hslot]; rfl
  have hfind : ∀ k v, findOrCreateChunk sq k v = .ok (chunkKeyOf 0) :=
    fun k v => findOrCreateChunk_first sq k v habs
  have hqne : sq.writeQueue ≠ [] := by rw [hqueue]; simp
  obtain ⟨idx, hidx⟩ := hI.index
  rcases inv_flush _ none none_lawful sq hI idx hidx with ⟨h, -⟩ | ⟨-, -, w, -, hw⟩ |
    ⟨s1, gs, -, hfl, -⟩
  · exact absurd h hqne
  · rw [hfind] at hw; cases hw
  · obtain ⟨gs, idx1, m1, -, f1, f2, -, f4, -, -, -, -, -, -, -, -, -, -, -, -, f16, -⟩ :=
      flush_ok none sq s1 hqne hfl
    have haf : afterFlush none sq = s1 := by simp [afterFlush, step, hfl]
    rw [haf]
    obtain ⟨c, hc, hcmem⟩ := f4 ⟨"a", .str (bigText n1), 0⟩ (by rw [hqueue]; simp)
    rw [hfind] at hc
    cases hc
    obtain ⟨g, hg, hge⟩ := List.mem_map.1 hcmem
    obtain ⟨c, ws⟩ := g
    simp only at hge
    subst hge
    have hws : ws = [("a", .str (bigText n1)), ("b", .str (bigText n2))] := by
      rw [← groupOf_of_mem gs _ ws f1 hg, f2, hqueue]
      simp [routed, routedTo, hfind, List.filter_cons]
    obtain ⟨cd, cd1, e1, e2, e3⟩ := f16 _ ws hg
    have hload : loadChunk none sq (chunkKeyOf 0) = .ok (.obj []) := by
      simp [loadChunk, habs]
    rw [hload] at e1
    cases e1
    rw [hws, applyChunk_obj] at e2
    cases e2
    rw [e3, hce]
    simp [encode, compress, applyAll, JSON.upsert]

/-- C9, at the failing input: two queued writes whose entries both have a serialized size
below `chunkSize` are flushed into the same chunk, and the text persisted for that chunk
is longer than `chunkSize`. -/
theorem flush_overflows_chunk :
    jsLength (entryText "a" (some (.str (bigText 300000)))) < chunkSize ∧
    jsLength (entryText "b" (some (.str (bigText 300000)))) < chunkSize ∧
    ∃ text, getItem (afterFlush none (run none (freshStore 0)
        [.set "a" (.str (bigText 300000)) false, .set "b" (.str (bigText 300000)) false])).ls
        (chunkKeyOf 0) = some text ∧ chunkSize < jsLength text := by
  have ha : jsLength (String.mk (JSON.renderStr "a")) = 3 := by decide
  have hb : jsLength (String.mk (JSON.renderStr "b")) = 3 := by decide
  refine ⟨?_, ?_, _, flush_two_big 300000 300000, ?_⟩
  · rw [entryText, jsLength_entry_bigText, ha]; decide
  · rw [entryText, jsLength_entry_bigText, hb]; decide
  · rw [jsLength_two_bigText, ha, hb]; decide

end StorageManager

namespace StorageManager

theorem readChunk_some_present (lz : Option Codec) (s : Store) (c : String) (j : JSON)
    (h : readChunk lz s c = some j) : present (getItem s.ls c) = true := by
  unfold readChunk at h
  by_contra hp
  simp [hp] at h

/-- An update that no longer fits moves the key: after an immediate write of a string of
`n` letters under `a` and an immediate write of the empty string under `a`, both on a fresh
store without the compression library, the first chunk still holds the old member and the
second chunk holds the new one. -/
theorem update_leaves_copy (n : Nat) (hn : 499984 ≤ n) :
    readChunk none (run none (freshStore 0)
        [.set "a" (.str (bigText n)) true, .set "a" (.str "") true]) (chunkKeyOf 0) =
      some (.obj [("a", .str (bigText n))]) ∧
    readChunk none (run none (freshStore 0)
        [.set "a" (.str (bigText n)) true, .set "a" (.str "") true]) (chunkKeyOf 1) =
      some (.obj [("a", .str "")]) := by
  have hI0 := inv_freshStore (fun _ => True) none 0
  have habs0 : ∀ i, getItem (freshStore 0).ls (chunkKeyOf i) = none := fun i => by
    simp [freshStore, getItem, Ne.symm (chunkKeyOf_ne_metaKey i)]
  -- the first write goes to the first chunk
  have hf1 : findOrCreateChunk (freshStore 0) "a" (some (.str (bigText n))) =
      .ok (chunkKeyOf 0) := findOrCreateChunk_first _ _ _ (by rw [habs0]; rfl)
  rcases inv_writeImmediate _ none none_lawful _ hI0 "a" (.str (bigText n)) trivial []
      (getIndex_freshStore 0) with ⟨he, -⟩ | ⟨s1, i, -, hfi, hw1, hI1, hidx1, -, hm1, hoth1, -⟩
  · rw [hf1] at he; cases he
  rw [hf1] at hfi
  have hi := chunkKeyOf_injective _ _ (by simpa using hfi)
  subst hi
  obtain ⟨i, cd, cd1, idx1, -, g1, g2, g3, -, hce1, -, -, -, -, gslot, -⟩ :=
    writeImmediate_slots none _ s1 _ _ hw1
  rw [hf1] at g1
  have hi := chunkKeyOf_injective _ _ (by simpa using g1)
  subst hi
  have hload0 : loadChunk none (freshStore 0) (chunkKeyOf 0) = .ok (.obj []) := by
    simp [loadChunk, habs0, present]
  rw [hload0] at g2
  cases g2
  simp only [JSON.setProp, JSON.upsert, Except.ok.injEq] at g3
  subst g3
  have htext : getItem s1.ls (chunkKeyOf 0) =
      some (JSON.stringify (.obj [("a", .str (bigText n))])) := by
    rw [gslot]; rfl
  -- the second write does not fit there
  have hest : jsLength (entryText "a" (some (.str ""))) = 8 := by decide
  have hlen : jsLength (JSON.stringify (.obj [("a", .str (bigText n))])) = n + 8 := by
    rw [jsLength_entry_bigText]
    have : jsLength (String.mk (JSON.renderStr "a")) = 3 := by decide
    omega
  have hfit0 : chunkFits s1.ls (jsLength (entryText "a" (some (.str "")))) 0 = false := by
    rw [chunkFits_of_slot _ _ _ _ htext (stringify_ne_empty _), hest, hlen]
    simp [chunkSize]; omega
  have habs1 : present (getItem s1.ls (chunkKeyOf 1)) = false := by
    rw [hoth1 1 (by omega), habs0]; rfl
  have hf2 : findOrCreateChunk s1 "a" (some (.str "")) = .ok (chunkKeyOf 1) :=
    findOrCreateChunk_of_fits s1 _ _ 1 (by omega) (chunkFits_of_absent _ _ _ habs1)
      (fun j hj => by
        have : j = 0 := by omega
        subst this; exact hfit0)
  rcases inv_writeImmediate _ none none_lawful s1 hI1 "a" (.str "") trivial _ hidx1 with
    ⟨he, -⟩ | ⟨s2, i, -, hfi, hw2, hI2, -, hp2, hm2, hoth2, -, hce2, -⟩
  · rw [hf2] at he; cases he
  rw [hf2] at hfi
  have hi := chunkKeyOf_injective _ _ (by simpa using hfi)
  subst hi
  have hrun : run none (freshStore 0)
      [.set "a" (.str (bigText n)) true, .set "a" (.str "") true] = s2 := by
    simp [run, step, set, hw1, hw2]
  rw [hrun]
  constructor
  · rw [readChunk_congr none s1 s2 _ (hoth2 0 (by omega)) hce2]
    exact readChunk_of_slot none none_lawful s1 _ _ (by rw [htext, hce1]; rfl)
  · rw [(hI2.chunks 1 hp2).1, hm2, membersOf_absent none s1 _ habs1]
    rfl

/-- Counterexample to C8 as stated: after an update that no longer fits in the first
chunk, the key occurs both in the first and in the second chunk. -/
theorem chunk_keys_indexed_refuted :
    ¬ (∀ (lz : Option Codec), Lawful lz → ∀ (now : Nat) (ops : List Op) (i : Nat)
        (ms : List (String × JSON)) (k : String),
      readChunk lz (run lz (freshStore now) ops) (chunkKeyOf i) = some (.obj ms) →
      k ∈ ms.map Prod.fst →
      ∃ j, JSON.getProp (getIndex (run lz (freshStore now) ops)) k =
          .ok (some (.str (chunkKeyOf j))) ∧
        ∀ i2 ms2, readChunk lz (run lz (freshStore now) ops) (chunkKeyOf i2) =
            some (.obj ms2) → k ∈ ms2.map Prod.fst → i2 = j) := by
  intro h
  obtain ⟨h0, h1⟩ := update_leaves_copy 500000 (by decide)
  obtain ⟨j, -, hj⟩ := h none none_lawful 0 _ 0 _ "a" h0 (by simp)
  have e0 := hj 0 _ h0 (by simp)
  have e1 := hj 1 _ h1 (by simp)
  omega

end StorageManager

namespace StorageManager

/-! ## Claim C3: last write wins -/

theorem findOrCreateChunk_ls (s t : Store) (k : String) (v : Option JSON) (h : t.ls = s.ls) :
    findOrCreateChunk t k v = findOrCreateChunk s k v := by
  unfold findOrCreateChunk
  rw [h]

/-- Three queued writes to `x` (a short value, a string of `n` letters, a short value),
flushed on a store whose first chunk exists: the long value lands in the second chunk, whose
group is processed last, so `get` returns it instead of the value written last. -/
theorem flush_keeps_middle_write (n : Nat) (hn : 499985 ≤ n) :
    get none (afterFlush none (run none (freshStore 0)
      [.set "a" (.num 1) true, .set "x" (.str "v1") false, .set "x" (.str (bigText n)) false,
        .set "x" (.str "v2") false])) "x" = some (.str (bigText n)) := by
  have hI := inv_run (fun _ => True) none none_lawful
    [.set "a" (.num 1) true, .set "x" (.str "v1") false, .set "x" (.str (bigText n)) false,
      .set "x" (.str "v2") false] _ (inv_freshStore _ none 0) (fun _ _ _ _ => trivial)
  obtain ⟨sq, hsq⟩ : ∃ sq, sq = run none (freshStore 0)
      [.set "a" (.num 1) true, .set "x" (.str "v1") false, .set "x" (.str (bigText n)) false,
        .set "x" (.str "v2") false] := ⟨_, rfl⟩
  rw [← hsq] at hI ⊢
  have hqueue : sq.writeQueue =
      [⟨"x", .str "v1", 0⟩, ⟨"x", .str (bigText n), 0⟩, ⟨"x", .str "v2", 0⟩] := by
    rw [hsq]; rfl
  have hslot0 : getItem sq.ls (chunkKeyOf 0) = some (JSON.stringify (.obj [("a", .num 1)])) := by
    rw [hsq]; rfl
  have hslot1 : getItem sq.ls (chunkKeyOf 1) = none := by rw [hsq]; rfl
  have hidx : getIndex sq = .obj [("a", .str (chunkKeyOf 0))] := by rw [hsq]; rfl
  have habs1 : present (getItem sq.ls (chunkKeyOf 1)) = false := by rw [hslot1]; rfl
  have hlen0 : jsLength (JSON.stringify (.obj [("a", .num 1)])) = 7 := by decide
  -- where the allocator puts the three writes
  have hshort : ∀ v, jsLength (entryText "x" (some (.str v))) < 499993 →
      findOrCreateChunk sq "x" (some (.str v)) = .ok (chunkKeyOf 0) := by
    intro v hv
    apply findOrCreateChunk_of_fits sq _ _ 0 (by omega) _ (fun j hj => by omega)
    rw [chunkFits_of_slot _ _ _ _ hslot0 (stringify_ne_empty _), hlen0]
    simp [chunkSize]; omega
  have hf1 := hshort "v1" (by decide)
  have hf3 := hshort "v2" (by decide)
  have hf2 : findOrCreateChunk sq "x" (some (.str (bigText n))) = .ok (chunkKeyOf 1) := by
    apply findOrCreateChunk_of_fits sq _ _ 1 (by omega) (chunkFits_of_absent _ _ _ habs1)
    intro j hj
    have : j = 0 := by omega
    subst this
    have hx : jsLength (String.mk (JSON.renderStr "x")) = 3 := by decide
    rw [chunkFits_of_slot _ _ _ _ hslot0 (stringify_ne_empty _), hlen0, entryText,
      jsLength_entry_bigText, hx]
    simp [chunkSize]; omega
  have hqne : sq.writeQueue ≠ [] := by rw [hqueue]; simp
  rcases inv_flush _ none none_lawful sq hI _ hidx with ⟨h, -⟩ | ⟨-, -, w, hw, hwe⟩ |
    ⟨s1, gs, -, hfl, hI1, hgw, -, -, -, -, hidx1, hmem, -⟩
  · exact absurd h hqne
  · rw [hqueue] at hw
    simp at hw
    rcases hw with rfl | rfl | rfl
    · rw [hf1] at hwe; cases hwe
    · rw [hf2] at hwe; cases hwe
    · rw [hf3] at hwe; cases hwe
  · have h01 : chunkKeyOf 0 ≠ chunkKeyOf 1 := by decide
    have hgs : gs = [(chunkKeyOf 0, [("x", .str "v1"), ("x", .str "v2")]),
        (chunkKeyOf 1, [("x", .str (bigText n))])] := by
      rw [hqueue] at hgw
      have e : ∀ k v, findOrCreateChunk { sq with writeQueue := [] } k v =
          findOrCreateChunk sq k v := fun k v => findOrCreateChunk_ls sq _ k v rfl
      simp only [groupWrites, e, hf1, hf2, hf3, addToGroup,
        if_true, h01, if_false, Ne.symm h01, List.nil_append, List.cons_append,
        Except.ok.injEq] at hgw
      exact hgw.symm
    have haf : afterFlush none sq = s1 := by simp [afterFlush, step, hfl]
    rw [haf, get_of_inv _ none s1 hI1 _ hidx1, hgs, lookup_indexGroups]
    have hlg : lastGroup "x" [(chunkKeyOf 0, [("x", JSON.str "v1"), ("x", JSON.str "v2")]),
        (chunkKeyOf 1, [("x", JSON.str (bigText n))])] = some (chunkKeyOf 1) := by
      simp [lastGroup, lastWrite]
    rw [hlg]
    simp only
    have := (hmem 1 (by rw [hgs]; simp)).2
    rw [this, hgs, membersOf_absent none sq _ habs1]
    simp [groupOf, Ne.symm h01, applyAll, JSON.upsert, JSON.lookup]

/-- C3, at the failing input: with `vl_data_0` present, the queued writes
`set("x","v1")`, `set("x", <500000 letters>)`, `set("x","v2")` are flushed and `get("x")`
returns the second value, not the last one. -/
theorem flush_last_write_lost :
    get none (afterFlush none (run none (freshStore 0)
      [.set "a" (.num 1) true, .set "x" (.str "v1") false,
        .set "x" (.str (bigText 500000)) false, .set "x" (.str "v2") false])) "x" =
      some (.str (bigText 500000)) ∧
    JSON.str (bigText 500000) ≠ .str "v2" := by
  refine ⟨flush_keeps_middle_write 500000 (by decide), ?_⟩
  intro h
  have h2 := congrArg (fun j => match j with | JSON.str s => jsLength s | _ => 0) h
  simp only [bigText, jsLength_replicate] at h2
  revert h2
  decide

end StorageManager

namespace StorageManager

/-! ## Claim C4: recovery from the log -/

/-- An immediate write on a well-formed store makes the key readable and leaves every
other key as it was. -/
theorem inv_writeImmediate_get (P : JSON → Prop) (lz : Option Codec) (hz : Lawful lz)
    (s s1 : Store) (hI : Inv P lz s) (k : String) (v : JSON) (hv : P v)
    (hw : writeImmediate lz s k (some v) = .ok s1) :
    Inv P lz s1 ∧ get lz s1 k = some v ∧ ∀ k2, k2 ≠ k → get lz s1 k2 = get lz s k2 := by
  obtain ⟨idx, hidx⟩ := hI.index
  rcases inv_writeImmediate P lz hz s hI k v hv idx hidx with ⟨-, he⟩ |
    ⟨s2, i, -, -, hw2, hI1, hidx1, hp1, hm1, hoth, -, hce, -⟩
  · rw [he] at hw; cases hw
  rw [hw2] at hw
  cases hw
  refine ⟨hI1, ?_, ?_⟩
  · rw [get_of_inv P lz s1 hI1 _ hidx1, JSON.lookup_upsert_same]
    simp only
    rw [hm1, JSON.lookup_upsert_same]
  · intro k2 hk2
    rw [get_of_inv P lz s1 hI1 _ hidx1, get_of_inv P lz s hI _ hidx,
      JSON.lookup_upsert_ne _ _ _ _ hk2]
    cases hl : JSON.lookup k2 idx with
    | none => rfl
    | some cv =>
      obtain ⟨j, rfl, -, -⟩ := hI.sound idx k2 cv hidx hl
      simp only
      by_cases hj : j = i
      · subst hj
        rw [hm1, JSON.lookup_upsert_ne _ _ _ _ hk2]
      · rw [membersOf_congr lz s s1 _ (hoth j hj) hce]

theorem usedSlots_lt (ls : List (String × String)) (h : usedSlots ls < 100) :
    ∃ i, i < 100 ∧ present (getItem ls (chunkKeyOf i)) = false := by
  by_contra hne
  have hall : ∀ i ∈ List.range 100, present (getItem ls (chunkKeyOf i)) = true := by
    intro i hi
    by_contra hp
    exact hne ⟨i, by simpa using hi, by simpa using hp⟩
  have := List.filter_eq_self.2 hall
  unfold usedSlots at h
  rw [this] at h
  simp at h

theorem findOrCreateChunk_of_free (s : Store) (k : String) (v : Option JSON)
    (h : usedSlots s.ls < 100) : findOrCreateChunk s k v ≠ .error .limitReached := by
  obtain ⟨i, hi, hp⟩ := usedSlots_lt s.ls h
  unfold findOrCreateChunk
  cases hf : (List.range 100).find? (chunkFits s.ls (jsLength (entryText k v))) with
  | some j => simp
  | none =>
    have := List.find?_eq_none.1 hf i (by simpa using hi)
    rw [chunkFits_of_absent _ _ _ hp] at this
    simp at this

theorem filter_length_le (p q : Nat → Bool) (i : Nat) (l : List Nat) (hl : l.Nodup)
    (h : ∀ j, j ∈ l → j ≠ i → q j = p j) :
    (l.filter q).length ≤ (l.filter p).length + 1 := by
  induction l with
  | nil => simp
  | cons a l ih =>
    simp only [List.nodup_cons] at hl
    by_cases ha : a = i
    · subst ha
      have hrest : l.filter q = l.filter p := by
        apply List.filter_congr
        intro j hj
        exact h j (List.mem_cons_of_mem _ hj) (fun e => hl.1 (e ▸ hj))
      simp only [List.filter_cons, hrest]
      split_ifs <;> (try simp only [List.length_cons]) <;> omega
    · have := ih hl.2 (fun j hj hne => h j (List.mem_cons_of_mem _ hj) hne)
      have hqa := h a (List.mem_cons_self _ _) ha
      simp only [List.filter_cons, hqa]
      split_ifs <;> (try simp only [List.length_cons]) <;> omega

theorem usedSlots_write (ls ls1 : List (String × String)) (i : Nat)
    (h : ∀ j, j ≠ i → getItem ls1 (chunkKeyOf j) = getItem ls (chunkKeyOf j)) :
    usedSlots ls1 ≤ usedSlots ls + 1 := by
  unfold usedSlots
  apply filter_length_le _ _ i _ (List.nodup_range 100)
  intro j _ hj
  simp only [h j hj]

theorem replayOps_set (lz : Option Codec) (s s1 : Store) (k : String) (v : JSON)
    (rest : List JSON) (hw : writeImmediate lz s k (some v) = .ok s1) :
    replayOps lz (walOp k v :: rest) s = replayOps lz rest s1 := by
  simp [replayOps, walOp, JSON.getProp, JSON.lookup, JSON.toStrOpt, JSON.toStr, hw]

/-- Replaying the log records of well-formed writes on a well-formed store with enough
free chunk slots completes, and afterwards every replayed key reads as its last value. -/
theorem replayOps_ok (lz : Option Codec) (hz : Lawful lz) (ws : List (String × JSON)) :
    ∀ s, Inv (fun _ => True) lz s → usedSlots s.ls + ws.length ≤ 100 →
      ∃ s1, replayOps lz (ws.map (fun w => walOp w.1 w.2)) s = .ok s1 ∧
        Inv (fun _ => True) lz s1 ∧
        (∀ k v, lastWrite k ws = some v → get lz s1 k = some v) ∧
        (∀ k, lastWrite k ws = none → get lz s1 k = get lz s k) := by
  induction ws with
  | nil =>
    intro s hI _
    exact ⟨s, rfl, hI, fun k v h => by simp [lastWrite] at h, fun k _ => rfl⟩
  | cons w ws ih =>
    intro s hI hfree
    obtain ⟨k, v⟩ := w
    simp only [List.length_cons] at hfree
    obtain ⟨idx, hidx⟩ := hI.index
    rcases inv_writeImmediate _ lz hz s hI k v trivial idx hidx with ⟨he, -⟩ |
      ⟨s1, i, -, -, hw, hI1, -, -, -, hoth, -⟩
    · exact absurd he (findOrCreateChunk_of_free s k _ (by omega))
    obtain ⟨-, hg1, hg2⟩ := inv_writeImmediate_get _ lz hz s s1 hI k v trivial hw
    have hu := usedSlots_write s.ls s1.ls i hoth
    obtain ⟨s2, hr, hI2, hr1, hr2⟩ := ih s1 hI1 (by omega)
    refine ⟨s2, ?_, hI2, ?_, ?_⟩
    · rw [List.map_cons, replayOps_set lz s s1 k v _ hw, hr]
    · intro k2 v2 hl
      simp only [lastWrite] at hl
      cases hl2 : lastWrite k2 ws with
      | some r =>
        rw [hl2] at hl
        simp only [Option.some.injEq] at hl
        subst hl
        exact hr1 k2 r hl2
      | none =>
        rw [hl2] at hl
        simp only at hl
        split_ifs at hl with hk
        simp only [Option.some.injEq] at hl
        subst hl hk
        rw [hr2 _ hl2, hg1]
    · intro k2 hl
      simp only [lastWrite] at hl
      cases hl2 : lastWrite k2 ws with
      | some r => rw [hl2] at hl; simp at hl
      | none =>
        rw [hl2] at hl
        simp only at hl
        split_ifs at hl with hk
        rw [hr2 _ hl2, hg2 k2 (Ne.symm hk)]

theorem usedSlots_congr (ls ls1 : List (String × String))
    (h : ∀ j, getItem ls1 (chunkKeyOf j) = getItem ls (chunkKeyOf j)) :
    usedSlots ls1 = usedSlots ls := by
  unfold usedSlots
  simp only [h]

theorem runMigrations_obj (s : Store) (mm : List (String × JSON)) (hm : s.meta = .obj mm) :
    ∃ s1, runMigrations s = .ok s1 ∧ (∃ mm1, s1.meta = .obj mm1) ∧
      (∀ key, key ≠ metaKey → getItem s1.ls key = getItem s.ls key) ∧
      s1.compressionEnabled = s.compressionEnabled ∧ s1.writeQueue = s.writeQueue ∧
      s1.wal = s.wal := by
  unfold runMigrations
  rw [hm]
  simp only [JSON.getProp]
  split_ifs with hv
  · simp only [JSON.setProp]
    refine ⟨_, rfl, ⟨_, rfl⟩, ?_, rfl, rfl, rfl⟩
    intro key hk
    simp only [saveMeta]
    rw [getItem_setItem_ne _ _ _ _ hk]
  · exact ⟨s, rfl, ⟨mm, hm⟩, fun _ _ => rfl, rfl, rfl, rfl⟩

theorem loadMeta_ok (ls : List (String × String)) (now : Nat) (h : MetaSlotOk ls) :
    (∃ mm, (loadMeta ls now).1 = .obj mm) ∧
      ∀ key, key ≠ metaKey → getItem (loadMeta ls now).2 key = getItem ls key := by
  rcases h with h | ⟨mm, h⟩
  · have hp : JSON.parse "undefined" = none := by decide
    unfold loadMeta
    rw [h]
    simp only [hp]
    refine ⟨⟨_, rfl⟩, ?_⟩
    intro key hk
    simp only [ne_eq, String.reduceEq, not_false_eq_true, ↓reduceIte]
    rw [getItem_setItem_ne _ _ _ _ hk]
  · unfold loadMeta
    rw [h]
    simp only [ne_eq, stringify_ne_empty, not_false_eq_true, ↓reduceIte, JSON.parse_stringify]
    exact ⟨⟨mm, rfl⟩, fun _ _ => trivial⟩

theorem get_clearWAL (lz : Option Codec) (hz : Lawful lz) (s : Store)
    (hI : Inv (fun _ => True) lz s) (k : String) : get lz (clearWAL s) k = get lz s k := by
  have hf : ∀ key, key ≠ walKey → getItem (clearWAL s).ls key = getItem s.ls key := by
    intro key hk
    simp only [clearWAL]
    rw [getItem_removeItem_ne _ _ _ hk]
  have hI1 : Inv (fun _ => True) lz (clearWAL s) :=
    inv_congr _ lz hz s _ hI (hf _ indexKey_ne_walKey) (fun i => hf _ (chunkKeyOf_ne_walKey i))
      rfl hI.metaObj (fun _ _ => trivial)
  obtain ⟨idx, hidx⟩ := hI.index
  have hidx1 : getIndex (clearWAL s) = .obj idx := by
    rw [getIndex_congr s _ (hf _ indexKey_ne_walKey), hidx]
  rw [get_of_inv _ lz _ hI1 idx hidx1, get_of_inv _ lz s hI idx hidx]
  cases hl : JSON.lookup k idx with
  | none => rfl
  | some cv =>
    obtain ⟨j, rfl, -, -⟩ := hI.sound idx k cv hidx hl
    simp only
    rw [membersOf_congr lz s _ _ (hf _ (chunkKeyOf_ne_walKey j)) rfl]

/-- Construction over the storage of a well-formed store in which the log mirrors the
queue: the pending writes are replayed and the log is cleared. -/
theorem construct_recovers (lz : Option Codec) (hz : Lawful lz) (s : Store)
    (hI : Inv (fun _ => True) lz s) (hce : s.compressionEnabled = true)
    (hslot : getItem s.ls walKey =
      if s.writeQueue = [] then none else some (JSON.stringify (.arr (walOps s.writeQueue))))
    (hmeta : MetaSlotOk s.ls) (hfree : usedSlots s.ls + s.writeQueue.length ≤ 100)
    (now : Nat) :
    ∃ s1, construct lz s.ls now = .ok s1 ∧
      (∀ k v, lastWrite k (s.writeQueue.map (fun w => (w.key, w.value))) = some v →
        get lz s1 k = some v) ∧
      getItem s1.ls walKey = none ∧ s1.wal = .arr [] := by
  obtain ⟨⟨mm, hmm⟩, hlm⟩ := loadMeta_ok s.ls now hmeta
  obtain ⟨s1, hr, hm1, hls1, hce1, hq1, hw1⟩ :=
    runMigrations_obj
      { ls := (loadMeta s.ls now).2, now := now, compressionEnabled := true, writeQueue := [],
        writeTimer := false, meta := (loadMeta s.ls now).1, wal := .arr [] } mm hmm
  have hfr : ∀ key, key ≠ metaKey → getItem s1.ls key = getItem s.ls key := by
    intro key hk
    rw [hls1 key hk]
    exact hlm key hk
  have hI1 : Inv (fun _ => True) lz s1 :=
    inv_congr _ lz hz s s1 hI (hfr _ indexKey_ne_metaKey)
      (fun i => hfr _ (chunkKeyOf_ne_metaKey i)) (by rw [hce1, hce]) hm1
      (fun _ _ => trivial)
  have hc : construct lz s.ls now = .ok (loadWAL lz s1) := by
    simp only [construct, hr]
  refine ⟨_, hc, ?_⟩
  have hwk : getItem s1.ls walKey = getItem s.ls walKey :=
    hfr _ (Ne.symm metaKey_ne_walKey)
  by_cases hq : s.writeQueue = []
  · rw [if_pos hq] at hslot
    have hl : loadWAL lz s1 = s1 := by
      simp only [loadWAL, hwk, hslot]
    rw [hl]
    refine ⟨?_, by rw [hwk, hslot], hw1⟩
    intro k v h
    rw [hq] at h
    simp [lastWrite] at h
  · rw [if_neg hq] at hslot
    obtain ⟨w, q, hwq⟩ := List.exists_cons_of_ne_nil hq
    have hops : walOps s.writeQueue =
        (s.writeQueue.map (fun w => (w.key, w.value))).map (fun w => walOp w.1 w.2) := by
      simp [walOps, List.map_map, Function.comp_def]
    have hI2 : Inv (fun _ => True) lz { s1 with wal := .arr (walOps s.writeQueue) } :=
      inv_congr _ lz hz s1 _ hI1 rfl (fun _ => rfl) rfl hm1 (fun _ _ => trivial)
    have hu : usedSlots s1.ls = usedSlots s.ls :=
      usedSlots_congr _ _ (fun j => hfr _ (chunkKeyOf_ne_metaKey j))
    obtain ⟨s2, hrep, hIs2, hg, -⟩ :=
      replayOps_ok lz hz (s.writeQueue.map (fun w => (w.key, w.value)))
        { s1 with wal := .arr (walOps s.writeQueue) } hI2
        (by simp only [List.length_map]; rw [hu]; exact hfree)
    rw [← hops] at hrep
    have hl : loadWAL lz s1 = clearWAL s2 := by
      have hne : JSON.stringify (.arr (walOps s.writeQueue)) ≠ "" := stringify_ne_empty _
      simp only [loadWAL, hwk, hslot, ne_eq, hne, not_false_eq_true, ↓reduceIte,
        JSON.parse_stringify, replayWAL]
      rw [hwq] at hrep ⊢
      simp only [walOps, List.map_cons] at hrep ⊢
      simp only [hrep]
    rw [hl]
    refine ⟨?_, ?_, rfl⟩
    · intro k v h
      rw [get_clearWAL lz hz s2 hIs2, hg k v h]
    · simp only [clearWAL]
      rw [getItem_removeItem_same]

theorem step_queued_set (lz : Option Codec) (s : Store) (k : String) (v : JSON)
    (hw : s.wal = .arr (walOps s.writeQueue)) :
    (step lz s (.set k v false)).wal = .arr (walOps (step lz s (.set k v false)).writeQueue) ∧
    getItem (step lz s (.set k v false)).ls walKey =
      some (JSON.stringify (.arr (walOps (step lz s (.set k v false)).writeQueue))) := by
  simp [step, set, queueWrite, appendWAL, hw, walOps, getItem_setItem_same]

/-- State after a sequence of queued writes. -/
theorem run_queueSets (lz : Option Codec) (ws : List (String × JSON)) :
    ∀ s : Store, s.wal = .arr (walOps s.writeQueue) →
      (run lz s (queueSets ws)).writeQueue =
        s.writeQueue ++ ws.map (fun w => ⟨w.1, w.2, s.now⟩) ∧
      (run lz s (queueSets ws)).compressionEnabled = s.compressionEnabled ∧
      (run lz s (queueSets ws)).meta = s.meta ∧
      (∀ key, key ≠ walKey → getItem (run lz s (queueSets ws)).ls key = getItem s.ls key) ∧
      (getItem (run lz s (queueSets ws)).ls walKey =
        if ws = [] then getItem s.ls walKey
        else some (JSON.stringify (.arr (walOps (run lz s (queueSets ws)).writeQueue)))) := by
  induction ws with
  | nil =>
    intro s _
    simp [run, queueSets]
  | cons w ws ih =>
    intro s hw
    obtain ⟨k, v⟩ := w
    obtain ⟨e1, e2, e3, e4, e5⟩ := set_queued_effect lz s k v
    obtain ⟨f1, f2⟩ := step_queued_set lz s k v hw
    obtain ⟨g1, g2, g3, g4, g5⟩ := ih (step lz s (.set k v false)) f1
    have hs : step lz s (.set k v false) = (set lz s k v false).1 := rfl
    have hrun : run lz s (queueSets ((k, v) :: ws)) =
        run lz (step lz s (.set k v false)) (queueSets ws) := rfl
    rw [hrun]
    refine ⟨?_, ?_, ?_, ?_, ?_⟩
    · rw [g1, hs, e1, e4]
      simp
    · rw [g2, hs, e2]
    · rw [g3, hs, e3]
    · intro key hk
      rw [g4 key hk, hs, e5 key hk]
    · rw [g5, if_neg (List.cons_ne_nil _ _)]
      split_ifs with hws
      · subst hws
        exact f2
      · rfl

theorem lastWrite_of_mem (k : String) (ws : List (String × JSON))
    (h : k ∈ ws.map Prod.fst) : ∃ v, lastWrite k ws = some v := by
  by_contra hne
  have hn : lastWrite k ws = none := by
    cases hl : lastWrite k ws with
    | none => rfl
    | some v => exact absurd ⟨v, hl⟩ hne
  clear hne
  induction ws with
  | nil => simp at h
  | cons w ws ih =>
    obtain ⟨a, b⟩ := w
    simp only [lastWrite] at hn
    cases hl : lastWrite k ws with
    | some r => rw [hl] at hn; cases hn
    | none =>
      rw [hl] at hn
      simp only at hn
      split_ifs at hn with hk
      simp only [List.map_cons, List.mem_cons] at h
      rcases h with h | h
      · exact hk h.symm
      · exact ih h hl

/-- Counterexample to C4 as stated: a session that switched compression off wrote one
chunk as plain text and then queued a write. The new instance reads chunks with
compression on, so the replay raises on that chunk: the queued key is not retrievable and
the log stays in the storage. -/
theorem wal_recovery_refuted :
    ¬ (∀ (lz : Option Codec), Lawful lz → ∀ (s : Store), Inv (fun _ => True) lz s →
      WalInv s → s.writeQueue = [] → MetaSlotOk s.ls →
      ∀ (ws : List (String × JSON)) (now : Nat),
        ∃ s1, construct lz (run lz s (queueSets ws)).ls now = .ok s1 ∧
          (∀ k, k ∈ ws.map Prod.fst → ∃ v, lastWrite k ws = some v ∧ get lz s1 k = some v) ∧
          getItem s1.ls walKey = none ∧ s1.wal = .arr []) := by
  intro h
  have hI : Inv (fun _ => True) (some markCodec) uncompressedSession :=
    inv_run _ _ markCodec_lawful _ _
      (inv_of_empty _ _ { freshStore 0 with compressionEnabled := false } (by decide)
        (fun i => by
          simp only [freshStore, getItem, List.find?, Option.map]
          have := (chunkKeyOf_ne_metaKey i).symm
          simp [this])
        ⟨_, rfl⟩ (fun w hw => by simp [freshStore] at hw))
      (fun _ _ _ _ => trivial)
  obtain ⟨s1, hc, -, hw, -⟩ :=
    h (some markCodec) markCodec_lawful uncompressedSession hI ⟨by decide, by decide⟩
      (by decide)
      (Or.inr ⟨[("version", .str version), ("created", .num 0), ("updated", .num 0),
        ("chunks", .arr [])], by decide⟩)
      [("b", .num 2)] 0
  have hev : (match construct (some markCodec)
      (run (some markCodec) uncompressedSession (queueSets [("b", .num 2)])).ls 0 with
    | .ok t => decide (getItem t.ls walKey = none)
    | .error _ => false) = false := by decide
  rw [hc] at hev
  simp only [hw, decide_True] at hev
  cases hev

end StorageManager

namespace StorageManager

/-! ## Claims C11, C12, C13 and C17: delete of an absent key, clear, reads that degrade -/

theorem getItem_of_mem (ls : List (String × String)) (key : String)
    (h : key ∈ ls.map Prod.fst) : ∃ v, getItem ls key = some v := by
  induction ls with
  | nil => simp at h
  | cons p ls ih =>
    obtain ⟨a, b⟩ := p
    by_cases ha : a = key
    · exact ⟨b, by simp [getItem, ha]⟩
    · simp only [List.map_cons, List.mem_cons] at h
      rcases h with h | h
      · exact absurd h.symm ha
      · obtain ⟨v, hv⟩ := ih h
        exact ⟨v, by simp [getItem, ha, hv]⟩

/-- The loop of `getStats()` never raises, and it leaves `totalKeys` as it was. -/
theorem statsLoop_totalKeys (lz : Option Codec) (enabled : Bool)
    (all : List (String × String)) :
    ∀ (rest : List (String × String)) (stats : Stats),
      (∀ kv ∈ rest, kv.1 ∈ all.map Prod.fst) →
      ∃ st, statsLoop lz enabled all rest stats = .ok st ∧ st.totalKeys = stats.totalKeys := by
  intro rest
  induction rest with
  | nil => intro stats _; exact ⟨stats, rfl, rfl⟩
  | cons p rest ih =>
    intro stats hmem
    obtain ⟨a, b⟩ := p
    have hrest : ∀ kv ∈ rest, kv.1 ∈ all.map Prod.fst :=
      fun kv hkv => hmem kv (List.mem_cons_of_mem _ hkv)
    simp only [statsLoop]
    split_ifs with hc
    · obtain ⟨v, hv⟩ := getItem_of_mem all a (hmem (a, b) (List.mem_cons_self _ _))
      rw [hv]
      obtain ⟨st, h1, h2⟩ := ih (statsChunk lz enabled stats a v) hrest
      refine ⟨st, h1, ?_⟩
      rw [h2]
      unfold statsChunk
      split_ifs
      · cases decompress lz (some v) <;> rfl
      · rfl
    · exact ih stats hrest

/-- Whenever `keys()` returns, `getStats()` returns and counts those keys. -/
theorem getStats_totalKeys (lz : Option Codec) (s : Store) (ks : List String)
    (hk : keys s = .ok ks) : ∃ st, getStats lz s = .ok st ∧ st.totalKeys = ks.length := by
  obtain ⟨st, h1, h2⟩ := statsLoop_totalKeys lz s.compressionEnabled s.ls s.ls
    { version := version, totalKeys := ks.length, chunks := [], totalSize := 0,
      compressedSize := 0, compressionRatio := 0 } (fun kv hkv => List.mem_map_of_mem _ hkv)
  refine ⟨_, by simp only [getStats, hk, h1]; rfl, ?_⟩
  exact h2

/-- Deleting a key that is absent (claim C11), for the keys that name no inherited member:
when the index has no entry for `k`, that is when reading the index at `k` gives
`undefined`, `delete(k)` returns true and changes nothing: every physical storage entry is
as before, and so is what `keys()` returns. For a name of `JSON.inheritedNames` the read
in the code finds the inherited member, and the call returns false. -/
theorem delete_absent (lz : Option Codec) (s : Store) (k : String)
    (hk : k ∉ JSON.inheritedNames) (h : JSON.getProp (getIndex s) k = .ok none) :
    (delete lz s k).2 = true ∧ (delete lz s k).1.ls = s.ls ∧
      keys (delete lz s k).1 = keys s ∧ (delete lz s k).1 = s := by
  have hd : delete lz s k = (s, true) := by
    simp [delete, h, JSON.truthyOpt]
  rw [hd]
  exact ⟨rfl, rfl, rfl, rfl⟩

/-- On a fresh store the key `a` has no index entry and deleting it changes nothing. -/
theorem delete_absent_witness :
    "a" ∉ JSON.inheritedNames ∧ JSON.getProp (getIndex (freshStore 0)) "a" = .ok none ∧
    (delete none (freshStore 0) "a").2 = true ∧
    (delete none (freshStore 0) "a").1.ls = (freshStore 0).ls ∧
    keys (delete none (freshStore 0) "a").1 = keys (freshStore 0) ∧
    (delete none (freshStore 0) "a").1 = freshStore 0 :=
  ⟨by decide, rfl, delete_absent none (freshStore 0) "a" (by decide) rfl⟩

/-- Claim C12: in every store state `clear()` returns true, and afterwards `keys()` returns
`[]`, `getStats().totalKeys` is 0, and the only physical key that starts with the prefix is
the metadata key. -/
theorem clear_empties (lz : Option Codec) (s : Store) :
    (clear s).2 = true ∧ keys (clear s).1 = .ok [] ∧
    (∃ st, getStats lz (clear s).1 = .ok st ∧ st.totalKeys = 0) ∧
    ∀ kv ∈ (clear s).1.ls, startsWith kv.1 pfx = true → kv.1 = metaKey := by
  have hidx : getItem (clear s).1.ls indexKey = none := by
    simp only [clear, saveMeta]
    rw [getItem_setItem_ne _ _ _ _ indexKey_ne_metaKey]
    exact getItem_filter_startsWith _ _ indexKey_startsWith
  have hkeys : keys (clear s).1 = .ok [] := by
    simp [keys, getIndex, hidx, JSON.objectKeys]
  refine ⟨rfl, hkeys, getStats_totalKeys lz _ [] hkeys, ?_⟩
  intro kv hkv hp
  simp only [clear, saveMeta] at hkv
  generalize JSON.stringify (createDefaultMeta s.now) = text at hkv
  have hfil : ∀ kv ∈ s.ls.filter (fun kv => !(startsWith kv.1 pfx)), startsWith kv.1 pfx = false := by
    intro kv hkv
    simpa using (List.mem_filter.1 hkv).2
  generalize s.ls.filter (fun kv => !(startsWith kv.1 pfx)) = l at hkv hfil
  induction l with
  | nil =>
    simp only [setItem, List.mem_singleton] at hkv
    rw [hkv]
  | cons p l ih =>
    obtain ⟨a, b⟩ := p
    simp only [setItem] at hkv
    split_ifs at hkv with ha
    · simp only [List.mem_cons] at hkv
      rcases hkv with hkv | hkv
      · rw [hkv]; exact ha
      · have := hfil kv (List.mem_cons_of_mem _ hkv)
        rw [this] at hp; cases hp
    · simp only [List.mem_cons] at hkv
      rcases hkv with hkv | hkv
      · have := hfil kv (by rw [hkv]; exact List.mem_cons_self _ _)
        rw [this] at hp; cases hp
      · exact ih hkv (fun kv2 h2 => hfil kv2 (List.mem_cons_of_mem _ h2))

/-- Claim C13, at the failing input: after a queued `set("a", 1)` and `clear()` the
persisted log is gone but the in-memory log still holds the record of `a`, so the next
queued `set("b", 2)` persists a log of two records instead of one. -/
theorem clear_keeps_wal :
    getItem (run none (freshStore 0) [.set "a" (.num 1) false, .clear]).ls walKey = none ∧
    (run none (freshStore 0) [.set "a" (.num 1) false, .clear]).wal =
      .arr [walOp "a" (.num 1)] ∧
    getItem (run none (freshStore 0)
        [.set "a" (.num 1) false, .clear, .set "b" (.num 2) false]).ls walKey =
      some (JSON.stringify (.arr [walOp "a" (.num 1), walOp "b" (.num 2)])) ∧
    JSON.stringify (.arr [walOp "a" (.num 1), walOp "b" (.num 2)]) ≠
      JSON.stringify (.arr [walOp "b" (.num 2)]) := by
  decide

/-- Claim C17: `get(k)` ends with a value in every store state, also where a step inside
it raises: it returns null when the index has no entry for `k`, when the chunk that the
index names for `k` is missing from the physical storage, when reading the index raises,
and when the chunk cannot be parsed. -/
theorem get_degrades (lz : Option Codec) (s : Store) (k : String) :
    (JSON.getProp (getIndex s) k = .ok none → get lz s k = some .null) ∧
    (∀ c, JSON.getProp (getIndex s) k = .ok (some c) →
      getItem s.ls (JSON.toStr c) = none → get lz s k = some .null) ∧
    (∀ e, JSON.getProp (getIndex s) k = .error e → get lz s k = some .null) ∧
    (∀ c, JSON.getProp (getIndex s) k = .ok (some c) →
      JSON.parseArg (decode lz s.compressionEnabled (getItem s.ls (JSON.toStr c))) = none →
      get lz s k = some .null) := by
  refine ⟨?_, ?_, ?_, ?_⟩
  · intro h
    simp [get, h, JSON.truthyOpt]
  · intro c h hc
    simp [get, h, JSON.toStrOpt, hc, present]
  · intro e h
    simp [get, h]
  · intro c h hc
    simp only [get, h, JSON.toStrOpt, hc]
    split_ifs <;> rfl

/-- Witness of C17: on a store whose index names a chunk that does not exist, `get`
returns null. -/
theorem get_degrades_witness :
    JSON.getProp (getIndex (setIndex (freshStore 0) (.obj [("a", .str (chunkKeyOf 7))]))) "a" =
      .ok (some (.str (chunkKeyOf 7))) ∧
    getItem (setIndex (freshStore 0) (.obj [("a", .str (chunkKeyOf 7))])).ls (chunkKeyOf 7) =
      none ∧
    get none (setIndex (freshStore 0) (.obj [("a", .str (chunkKeyOf 7))])) "a" = some .null :=
  ⟨rfl, by decide,
    (get_degrades none (setIndex (freshStore 0) (.obj [("a", .str (chunkKeyOf 7))])) "a").2.1
      (.str (chunkKeyOf 7)) rfl (by decide)⟩

end StorageManager

namespace StorageManager

/-! ## Claims C14, C15 and C16: what `set` reports and what a queued `set` touches -/

theorem findOrCreateChunk_none (s : Store) (k : String) (v : Option JSON)
    (h : ∀ i, i < 100 → chunkFits s.ls (jsLength (entryText k v)) i = false) :
    findOrCreateChunk s k v = .error .limitReached := by
  unfold findOrCreateChunk
  have : (List.range 100).find? (chunkFits s.ls (jsLength (entryText k v))) = none := by
    rw [List.find?_eq_none]
    intro i hi
    rw [h i (by simpa using hi)]
    simp
  rw [this]

theorem findOrCreateChunk_error (s : Store) (k : String) (v : Option JSON) (e : JSError)
    (h : findOrCreateChunk s k v = .error e) :
    e = .limitReached ∧ ∀ i, i < 100 → chunkFits s.ls (jsLength (entryText k v)) i = false := by
  unfold findOrCreateChunk at h
  cases hf : (List.range 100).find? (chunkFits s.ls (jsLength (entryText k v))) with
  | some j => rw [hf] at h; cases h
  | none =>
    rw [hf] at h
    cases h
    refine ⟨rfl, ?_⟩
    intro i hi
    have := List.find?_eq_none.1 hf i (by simpa using hi)
    simpa using this

theorem chunkFits_full (ls : List (String × String)) (est i : Nat)
    (h : ∃ chunk, getItem ls (chunkKeyOf i) = some chunk ∧ chunk ≠ "" ∧
      chunkSize ≤ jsLength chunk + est) : chunkFits ls est i = false := by
  obtain ⟨chunk, h1, h2, h3⟩ := h
  rw [chunkFits_of_slot ls est i chunk h1 h2]
  simp only [decide_eq_false_iff_not, not_lt]
  exact h3

theorem writeImmediate_limit (lz : Option Codec) (s : Store) (k : String) (v : Option JSON)
    (h : findOrCreateChunk s k v = .error .limitReached) :
    writeImmediate lz s k v = .error (.limitReached, s) := by
  simp only [writeImmediate, h]

theorem set_limit (lz : Option Codec) (s : Store) (k : String) (v : JSON)
    (h : findOrCreateChunk s k (some v) = .error .limitReached) :
    set lz s k v true = (s, false) := by
  simp only [set, writeImmediate_limit lz s k _ h, if_true]

theorem flush_limit (lz : Option Codec) (s : Store) (w : QueuedWrite) (ws : List QueuedWrite)
    (hq : s.writeQueue = w :: ws)
    (h : findOrCreateChunk s w.key (some w.value) = .error .limitReached) :
    flushWriteQueue lz s = .error (.limitReached, { s with writeQueue := [] }) := by
  have e : findOrCreateChunk { s with writeQueue := [] } w.key (some w.value) =
      .error .limitReached := by
    rw [findOrCreateChunk_ls s { s with writeQueue := [] } _ _ rfl]; exact h
  simp only [flushWriteQueue, hq, groupWrites, e]

theorem getItem_map_chunks (t : String) (j : Nat) (l : List Nat) :
    getItem (l.map (fun i => (chunkKeyOf i, t))) (chunkKeyOf j) =
      if j ∈ l then some t else none := by
  induction l with
  | nil => rfl
  | cons a l ih =>
    simp only [List.map_cons, getItem, List.mem_cons]
    by_cases ha : a = j
    · subst ha
      simp
    · have hne : chunkKeyOf a ≠ chunkKeyOf j := fun e => ha (chunkKeyOf_injective _ _ e)
      rw [if_neg hne, ih]
      simp [Ne.symm ha]

theorem jsLength_bigText (n : Nat) : jsLength (bigText n) = n :=
  jsLength_replicate n

theorem bigText_ne_empty (n : Nat) (h : 0 < n) : bigText n ≠ "" := by
  intro e
  have := congrArg jsLength e
  rw [jsLength_bigText] at this
  have h0 : jsLength "" = 0 := rfl
  omega

theorem fullStore_slots (i : Nat) (hi : i < 100) :
    ∃ chunk, getItem fullStore.ls (chunkKeyOf i) = some chunk ∧ chunk ≠ "" ∧
      ∀ est, chunkSize ≤ jsLength chunk + est := by
  refine ⟨bigText 500000, ?_, bigText_ne_empty _ (by omega), ?_⟩
  · have : fullStore.ls = (List.range 100).map (fun i => (chunkKeyOf i, bigText 500000)) := rfl
    rw [this, getItem_map_chunks, if_pos (by simpa using hi)]
  · intro est
    rw [jsLength_bigText]
    simp only [chunkSize]
    omega

/-- Claim C14 (amended): when all hundred chunk slots exist and none has room for the new
entry, the allocator raises the capacity error and `_writeImmediate` lets it through, but
`set(k, v, true)` catches it: it returns false and leaves the store as it was. A flush
whose first queued write meets the same condition does raise the error. -/
theorem set_catches_exhaustion (lz : Option Codec) (s : Store) (k : String) (v : JSON)
    (h : ∀ i, i < 100 → ∃ chunk, getItem s.ls (chunkKeyOf i) = some chunk ∧ chunk ≠ "" ∧
      chunkSize ≤ jsLength chunk + jsLength (entryText k (some v))) :
    findOrCreateChunk s k (some v) = .error .limitReached ∧
    writeImmediate lz s k (some v) = .error (.limitReached, s) ∧
    set lz s k v true = (s, false) ∧
    ∀ ws t, s.writeQueue = ⟨k, v, t⟩ :: ws →
      flushWriteQueue lz s = .error (.limitReached, { s with writeQueue := [] }) := by
  have hf : findOrCreateChunk s k (some v) = .error .limitReached :=
    findOrCreateChunk_none s k _ (fun i hi => chunkFits_full _ _ _ (h i hi))
  have hw := writeImmediate_limit lz s k _ hf
  refine ⟨hf, hw, set_limit lz s k v hf, ?_⟩
  · intro ws t hq
    exact flush_limit lz s _ ws hq hf

/-- Witness of C14 (amended): the store whose hundred chunk slots are full. -/
theorem set_catches_exhaustion_witness :
    (∀ i, i < 100 → ∃ chunk, getItem fullStore.ls (chunkKeyOf i) = some chunk ∧ chunk ≠ "" ∧
      chunkSize ≤ jsLength chunk + jsLength (entryText "k" (some (.num 1)))) ∧
    findOrCreateChunk fullStore "k" (some (.num 1)) = .error .limitReached ∧
    writeImmediate none fullStore "k" (some (.num 1)) = .error (.limitReached, fullStore) ∧
    set none fullStore "k" (.num 1) true = (fullStore, false) ∧
    ∀ ws t, fullStore.writeQueue = ⟨"k", .num 1, t⟩ :: ws →
      flushWriteQueue none fullStore =
        .error (.limitReached, { fullStore with writeQueue := [] }) :=
  have h : ∀ i, i < 100 → ∃ chunk, getItem fullStore.ls (chunkKeyOf i) = some chunk ∧
      chunk ≠ "" ∧ chunkSize ≤ jsLength chunk + jsLength (entryText "k" (some (.num 1))) :=
    fun i hi => by
      obtain ⟨chunk, h1, h2, h3⟩ := fullStore_slots i hi
      exact ⟨chunk, h1, h2, h3 _⟩
  ⟨h, set_catches_exhaustion none fullStore "k" (.num 1) h⟩

/-- Counterexample to C14 as stated: on the store whose hundred chunk slots are full,
`set("k", 1, true)` ends normally with the flag false and an unchanged store; nothing is
raised to the caller. -/
theorem set_on_full_store :
    (∀ i, i < 100 → ∃ chunk, getItem fullStore.ls (chunkKeyOf i) = some chunk ∧ chunk ≠ "" ∧
      chunkSize ≤ jsLength chunk + jsLength (entryText "k" (some (.num 1)))) ∧
    set none fullStore "k" (.num 1) true = (fullStore, false) := by
  have h : ∀ i, i < 100 → ∃ chunk, getItem fullStore.ls (chunkKeyOf i) = some chunk ∧
      chunk ≠ "" ∧ chunkSize ≤ jsLength chunk + jsLength (entryText "k" (some (.num 1))) :=
    fun i hi => by
      obtain ⟨chunk, h1, h2, h3⟩ := fullStore_slots i hi
      exact ⟨chunk, h1, h2, h3 _⟩
  exact ⟨h, set_limit none fullStore "k" (.num 1)
    (findOrCreateChunk_none _ _ _ (fun i hi => chunkFits_full _ _ _ (h i hi)))⟩

/-- Claim C15: `set` always ends with true or false. With `immediate = true` it returns
false exactly when `_writeImmediate` raises; an allocation failure and an existing chunk
that cannot be parsed both make it raise; and on a well-formed store the allocation
failure is the only way for it to raise. -/
theorem set_returns_flag (lz : Option Codec) (s : Store) (k : String) (v : JSON) :
    (∀ im, (set lz s k v im).2 = true ∨ (set lz s k v im).2 = false) ∧
    ((set lz s k v true).2 = false ↔ ∃ e, writeImmediate lz s k (some v) = .error e) ∧
    ((set lz s k v true).2 = true ↔ ∃ s1, writeImmediate lz s k (some v) = .ok s1) ∧
    (findOrCreateChunk s k (some v) = .error .limitReached → (set lz s k v true).2 = false) ∧
    (∀ c, findOrCreateChunk s k (some v) = .ok c → loadChunk lz s c = .error .syntaxError →
      (set lz s k v true).2 = false) ∧
    (Lawful lz → Inv (fun _ => True) lz s →
      ((set lz s k v true).2 = false ↔
        findOrCreateChunk s k (some v) = .error .limitReached)) := by
  have hset : ∀ o, writeImmediate lz s k (some v) = o →
      (set lz s k v true).2 = (match o with | .ok _ => true | .error _ => false) := by
    intro o ho
    simp only [set, if_true, ho]
    cases o with
    | ok s1 => rfl
    | error e => rfl
  refine ⟨?_, ?_, ?_, ?_, ?_, ?_⟩
  · intro im
    cases (set lz s k v im).2
    · exact Or.inr rfl
    · exact Or.inl rfl
  · cases ho : writeImmediate lz s k (some v) with
    | ok s1 => rw [hset _ ho]; simp
    | error e => rw [hset _ ho]; simp
  · cases ho : writeImmediate lz s k (some v) with
    | ok s1 => rw [hset _ ho]; simp
    | error e => rw [hset _ ho]; simp
  · intro h
    rw [hset _ (writeImmediate_limit lz s k _ h)]
  · intro c hc hl
    have : writeImmediate lz s k (some v) = .error (.syntaxError, s) := by
      simp only [writeImmediate, hc, hl]
    rw [hset _ this]
  · intro hz hI
    obtain ⟨idx, hidx⟩ := hI.index
    rcases inv_writeImmediate _ lz hz s hI k v trivial idx hidx with ⟨he, hw⟩ |
      ⟨s1, i, -, hf, hw, -⟩
    · rw [hset _ hw]
      simp [he]
    · rw [hset _ hw, hf]
      simp

/-- Witness of C15: on the store whose chunk slots are all full `set` returns false, and
on a fresh store it returns true. -/
theorem set_returns_flag_witness :
    findOrCreateChunk fullStore "k" (some (.num 1)) = .error .limitReached ∧
    (set none fullStore "k" (.num 1) true).2 = false ∧
    (set none (freshStore 0) "k" (.num 1) true).2 = true :=
  have hf : findOrCreateChunk fullStore "k" (some (.num 1)) = .error .limitReached :=
    findOrCreateChunk_none _ _ _ (fun i hi => by
      obtain ⟨chunk, h1, h2, h3⟩ := fullStore_slots i hi
      exact chunkFits_full _ _ _ ⟨chunk, h1, h2, h3 _⟩)
  ⟨hf, (set_returns_flag none fullStore "k" (.num 1)).2.2.2.1 hf, by decide⟩

theorem get_congr (lz : Option Codec) (s t : Store) (k : String)
    (hidx : getItem t.ls indexKey = getItem s.ls indexKey)
    (hce : t.compressionEnabled = s.compressionEnabled)
    (hch : ∀ c, JSON.getProp (getIndex s) k = .ok c →
      getItem t.ls (JSON.toStrOpt c) = getItem s.ls (JSON.toStrOpt c)) :
    get lz t k = get lz s k := by
  have hgi : getIndex t = getIndex s := getIndex_congr s t hidx
  unfold get
  simp only [hgi, hce]
  cases hp : JSON.getProp (getIndex s) k with
  | error e => rfl
  | ok c =>
    simp only
    rw [hch c hp]

/-- Claim C16 (amended): on a store whose in-memory log is an array, a queued `set(k, v)`
returns true, appends to the queue, and changes no physical key other than `vl_wal`; so
the index, what `keys()` returns, and what `get` returns for every key that the index does
not send to `vl_wal` are as before. On a well-formed store that is every key. -/
theorem queued_set_frame (lz : Option Codec) (s : Store) (k : String) (v : JSON)
    (hw : ∃ ops, s.wal = .arr ops) :
    (set lz s k v false).2 = true ∧
    (set lz s k v false).1.writeQueue = s.writeQueue ++ [⟨k, v, s.now⟩] ∧
    (∀ key, key ≠ walKey → getItem (set lz s k v false).1.ls key = getItem s.ls key) ∧
    getIndex (set lz s k v false).1 = getIndex s ∧
    keys (set lz s k v false).1 = keys s ∧
    (∀ k2, (∀ c, JSON.getProp (getIndex s) k2 = .ok c → JSON.toStrOpt c ≠ walKey) →
      get lz (set lz s k v false).1 k2 = get lz s k2) ∧
    (Inv (fun _ => True) lz s → ∀ k2, get lz (set lz s k v false).1 k2 = get lz s k2) := by
  obtain ⟨ops, hops⟩ := hw
  obtain ⟨e1, e2, -, -, e5⟩ := set_queued_effect lz s k v
  have hgi : getIndex (set lz s k v false).1 = getIndex s :=
    getIndex_congr s _ (e5 _ indexKey_ne_walKey)
  have hget : ∀ k2, (∀ c, JSON.getProp (getIndex s) k2 = .ok c → JSON.toStrOpt c ≠ walKey) →
      get lz (set lz s k v false).1 k2 = get lz s k2 := fun k2 hk2 =>
    get_congr lz s _ k2 (e5 _ indexKey_ne_walKey) e2 (fun c hc => e5 _ (hk2 c hc))
  refine ⟨?_, e1, e5, hgi, ?_, hget, ?_⟩
  · simp [set, queueWrite, appendWAL, hops]
  · simp only [keys, hgi]
  · intro hI k2
    apply hget
    intro c hc
    obtain ⟨idx, hidx⟩ := hI.index
    rw [hidx] at hc
    simp only [JSON.getProp, Except.ok.injEq] at hc
    cases c with
    | none => decide
    | some cv =>
      obtain ⟨i, rfl, -, -⟩ := hI.sound idx k2 cv hidx hc
      exact chunkKeyOf_ne_walKey i

/-- Witness of C16 (amended): a queued write on a fresh store. -/
theorem queued_set_frame_witness :
    (∃ ops, (freshStore 0).wal = .arr ops) ∧
    (set none (freshStore 0) "k" (.num 1) false).2 = true ∧
    keys (set none (freshStore 0) "k" (.num 1) false).1 = keys (freshStore 0) ∧
    get none (set none (freshStore 0) "k" (.num 1) false).1 "k" = get none (freshStore 0) "k" :=
  have h := queued_set_frame none (freshStore 0) "k" (.num 1) ⟨[], rfl⟩
  ⟨⟨[], rfl⟩, h.1, h.2.2.2.2.1, h.2.2.2.2.2.1 "k" (fun c hc => by
    have h0 : JSON.getProp (getIndex (freshStore 0)) "k" = .ok none := rfl
    rw [h0] at hc
    cases hc
    decide)⟩

/-- Counterexample to C16 as stated: over a host storage whose `vl_wal` slot holds the text
`5` the constructor leaves a number as the in-memory log, and a queued `set` on that store
returns false. -/
theorem queued_set_frame_refuted :
    ¬ (∀ (lz : Option Codec) (s : Store) (k : String) (v : JSON),
      (set lz s k v false).2 = true ∧ keys (set lz s k v false).1 = keys s ∧
      ∀ k2, get lz (set lz s k v false).1 k2 = get lz s k2) := by
  intro h
  have h1 := (h none strayWalStore "k" (.num 1)).1
  revert h1
  decide

end StorageManager

namespace StorageManager

/-! ## Claim C18: the statistics -/

theorem startsWith_ne_empty (key p : String) (hp : p ≠ "") (h : startsWith key p = true) :
    key ≠ "" := by
  rintro rfl
  apply hp
  have hd : p.data = [] := by
    cases hpd : p.data with
    | nil => rfl
    | cons c cs => simp [startsWith, hpd] at h
  cases p
  simp only at hd
  subst hd
  rfl

theorem dataKeys_cons (a b : String) (rest : List (String × String)) :
    dataKeys ((a, b) :: rest) =
      if startsWith a (pfx ++ "data_") = true then a :: dataKeys rest else dataKeys rest := by
  simp only [dataKeys, List.map_cons, List.filter_cons]

/-- What the loop of `getStats()` adds to the statistics it starts from. -/
theorem statsLoop_spec (lz : Option Codec) (enabled : Bool) (all : List (String × String)) :
    ∀ (rest : List (String × String)) (stats : Stats),
      (∀ kv ∈ rest, kv.1 ∈ all.map Prod.fst) →
      ∃ st, statsLoop lz enabled all rest stats = .ok st ∧
        st.version = stats.version ∧ st.totalKeys = stats.totalKeys ∧
        st.chunks = stats.chunks ++
          (dataKeys rest).map (fun key => ChunkStat.mk key (2 * storedLength all key)) ∧
        st.compressedSize = stats.compressedSize +
          ((dataKeys rest).map (fun key => 2 * storedLength all key)).sum ∧
        (enabled = true → st.totalSize = stats.totalSize +
          ((dataKeys rest).map
            (fun key => sizeEstimateRef lz true ((getItem all key).getD ""))).sum) ∧
        (enabled = false → stats.totalSize = stats.compressedSize →
          st.totalSize = st.compressedSize) := by
  intro rest
  induction rest with
  | nil =>
    intro stats _
    exact ⟨stats, rfl, rfl, rfl, by simp [dataKeys], by simp [dataKeys],
      fun _ => by simp [dataKeys], fun _ h => h⟩
  | cons p rest ih =>
    intro stats hmem
    obtain ⟨a, b⟩ := p
    have hrest : ∀ kv ∈ rest, kv.1 ∈ all.map Prod.fst :=
      fun kv hkv => hmem kv (List.mem_cons_of_mem _ hkv)
    by_cases hc : startsWith a (pfx ++ "data_") = true
    · have hne : a ≠ "" := startsWith_ne_empty a _ (by decide) hc
      obtain ⟨v, hv⟩ := getItem_of_mem all a (hmem (a, b) (List.mem_cons_self _ _))
      obtain ⟨st, h1, h2, h3, h4, h5, h6, h7⟩ := ih (statsChunk lz enabled stats a v) hrest
      have hsl : storedLength all a = jsLength v := by simp [storedLength, hv]
      refine ⟨st, ?_, ?_, ?_, ?_, ?_, ?_, ?_⟩
      · simp only [statsLoop, hne, hc, ne_eq, not_false_eq_true, and_self, if_true, hv]
        exact h1
      · rw [h2]; unfold statsChunk
        split_ifs
        · cases decompress lz (some v) <;> rfl
        · rfl
      · rw [h3]; unfold statsChunk
        split_ifs
        · cases decompress lz (some v) <;> rfl
        · rfl
      · rw [h4, dataKeys_cons, if_pos hc, List.map_cons, hsl]
        have : (statsChunk lz enabled stats a v).chunks =
            stats.chunks ++ [ChunkStat.mk a (jsLength v * 2)] := by
          unfold statsChunk
          split_ifs
          · cases decompress lz (some v) <;> rfl
          · rfl
        rw [this, List.append_assoc, List.singleton_append, Nat.mul_comm]
      · rw [h5, dataKeys_cons, if_pos hc, List.map_cons, List.sum_cons, hsl]
        have : (statsChunk lz enabled stats a v).compressedSize =
            stats.compressedSize + jsLength v * 2 := by
          unfold statsChunk
          split_ifs
          · cases decompress lz (some v) <;> rfl
          · rfl
        rw [this]
        omega
      · intro he
        rw [h6 he, dataKeys_cons, if_pos hc, List.map_cons, List.sum_cons]
        have : (statsChunk lz enabled stats a v).totalSize =
            stats.totalSize + sizeEstimateRef lz true ((getItem all a).getD "") := by
          subst he
          simp only [statsChunk, sizeEstimateRef, if_true, hv, Option.getD_some]
          cases decompress lz (some v) with
          | none => simp only; omega
          | some d => simp only; omega
        rw [this]
        omega
      · intro he _
        apply h7 he
        subst he
        simp [statsChunk]
    · obtain ⟨st, h1, h2, h3, h4, h5, h6, h7⟩ := ih stats hrest
      have hc2 : ¬ (a ≠ "" ∧ startsWith a (pfx ++ "data_") = true) := fun h => hc h.2
      refine ⟨st, ?_, h2, h3, ?_, ?_, ?_, h7⟩
      · simp only [statsLoop, if_neg hc2]
        exact h1
      · rw [h4, dataKeys_cons, if_neg hc]
      · rw [h5, dataKeys_cons, if_neg hc]
      · intro he
        rw [h6 he, dataKeys_cons, if_neg hc]

theorem sum_estimate_off (lz : Option Codec) (all : List (String × String)) (l : List String) :
    (l.map (fun key => sizeEstimateRef lz false ((getItem all key).getD ""))).sum =
      (l.map (fun key => 2 * storedLength all key)).sum := by
  induction l with
  | nil => rfl
  | cons a l ih =>
    simp only [List.map_cons, List.sum_cons, ih]
    rfl

theorem writeImmediate_fresh (lz : Option Codec) (now : Nat) (k : String) (v : JSON) :
    ∃ s1, writeImmediate lz (freshStore now) k (some v) = .ok s1 ∧
      getIndex s1 = .obj [(k, .str (chunkKeyOf 0))] := by
  have habs : getItem (freshStore now).ls (chunkKeyOf 0) = none := by
    simp [freshStore, getItem, Ne.symm (chunkKeyOf_ne_metaKey 0)]
  have hf : findOrCreateChunk (freshStore now) k (some v) = .ok (chunkKeyOf 0) :=
    findOrCreateChunk_first _ _ _ (by rw [habs]; rfl)
  have hl : loadChunk lz (freshStore now) (chunkKeyOf 0) = .ok (.obj []) := by
    simp [loadChunk, habs, present]
  have hw : ∃ s1, writeImmediate lz (freshStore now) k (some v) = .ok s1 := by
    simp only [writeImmediate, hf, hl, JSON.setProp, getIndex_freshStore]
    exact ⟨_, rfl⟩
  obtain ⟨s1, hw⟩ := hw
  refine ⟨s1, hw, ?_⟩
  obtain ⟨i, cd, cd1, idx1, -, g1, -, -, g4, -, -, -, -, g9, -⟩ :=
    writeImmediate_slots lz _ s1 _ _ hw
  rw [hf] at g1
  have hi := chunkKeyOf_injective _ _ (by simpa using g1)
  subst hi
  rw [getIndex_freshStore] at g4
  simp only [JSON.setProp, JSON.upsert, Except.ok.injEq] at g4
  subst g4
  exact getIndex_of_slot s1 _ g9

/-- The statistics against their reference (claim C18): whenever `keys()` returns,
`getStats()` returns statistics in which `totalKeys` is the number of keys of the index,
`chunks` has one entry per physical key that starts with the prefix followed by `data_`,
holding twice the stored length, `compressedSize` is the sum of those sizes, `totalSize` is
the sum of the estimates, and `compressionRatio` follows the reference formula. After one
immediate `set` of a key other than `__proto__` on an empty store `totalKeys` is 1; for
`__proto__` the code indexes nothing and reports 0. -/
theorem getStats_reference (lz : Option Codec) (s : Store) (ks : List String)
    (hk : keys s = .ok ks) :
    (∃ st, getStats lz s = .ok st ∧ st.version = version ∧ st.totalKeys = ks.length ∧
      st.chunks =
        (dataKeys s.ls).map (fun key => ChunkStat.mk key (2 * storedLength s.ls key)) ∧
      st.compressedSize = (st.chunks.map ChunkStat.compressedSize).sum ∧
      st.totalSize = ((dataKeys s.ls).map (fun key =>
        sizeEstimateRef lz s.compressionEnabled ((getItem s.ls key).getD ""))).sum ∧
      st.compressionRatio = ratioRef st.compressedSize st.totalSize) ∧
    ∀ now k v, k ≠ "__proto__" →
      ∃ st1, getStats lz (set lz (freshStore now) k v true).1 = .ok st1 ∧
        st1.totalKeys = 1 := by
  constructor
  · obtain ⟨st, h1, h2, h3, h4, h5, h6, h7⟩ := statsLoop_spec lz s.compressionEnabled s.ls s.ls
      { version := version, totalKeys := ks.length, chunks := [], totalSize := 0,
        compressedSize := 0, compressionRatio := 0 } (fun kv hkv => List.mem_map_of_mem _ hkv)
    simp only [List.nil_append, Nat.zero_add] at h4 h5 h6
    refine ⟨{ st with
      compressionRatio :=
        if st.totalSize > 0 then
          (1 - (st.compressedSize : ℚ) / (st.totalSize : ℚ)) * 100
        else 0 }, by simp only [getStats, hk, h1], h2, h3, h4, ?_, ?_, rfl⟩
    · show st.compressedSize = (st.chunks.map ChunkStat.compressedSize).sum
      rw [h4, h5, List.map_map]
      rfl
    · show st.totalSize = _
      cases he : s.compressionEnabled with
      | true => rw [he] at h6; exact h6 rfl
      | false =>
        rw [he] at h7
        rw [h7 rfl rfl, h5, sum_estimate_off]
  · intro now k v _
    obtain ⟨s1, hw, hidx⟩ := writeImmediate_fresh lz now k v
    have hs : (set lz (freshStore now) k v true).1 = s1 := by
      simp only [set, if_true, hw]
    rw [hs]
    obtain ⟨st, h1, h2⟩ := getStats_totalKeys lz s1 [k] (by simp [keys, hidx, JSON.objectKeys])
    exact ⟨st, h1, h2⟩

/-- The statistics after one immediate write on a fresh store. -/
theorem getStats_reference_witness :
    keys (set none (freshStore 0) "k" (.num 1) true).1 = .ok ["k"] ∧
    ∃ st, getStats none (set none (freshStore 0) "k" (.num 1) true).1 = .ok st ∧
      st.totalKeys = 1 ∧ st.chunks = [ChunkStat.mk (chunkKeyOf 0) 14] ∧
      st.compressedSize = 14 ∧ st.totalSize = 14 ∧ st.compressionRatio = 0 := by
  have hk : keys (set none (freshStore 0) "k" (.num 1) true).1 = .ok ["k"] := rfl
  obtain ⟨⟨st, h1, -, h3, h4, h5, h6, h7⟩, -⟩ :=
    getStats_reference none (set none (freshStore 0) "k" (.num 1) true).1 ["k"] hk
  have e4 : (dataKeys (set none (freshStore 0) "k" (.num 1) true).1.ls).map
      (fun key => ChunkStat.mk key
        (2 * storedLength (set none (freshStore 0) "k" (.num 1) true).1.ls key)) =
      [ChunkStat.mk (chunkKeyOf 0) 14] := by decide
  have e6 : ((dataKeys (set none (freshStore 0) "k" (.num 1) true).1.ls).map (fun key =>
      sizeEstimateRef none (set none (freshStore 0) "k" (.num 1) true).1.compressionEnabled
        (((getItem (set none (freshStore 0) "k" (.num 1) true).1.ls key)).getD ""))).sum =
      14 := by decide
  rw [e4] at h4
  rw [e6] at h6
  have e5 : st.compressedSize = 14 := by rw [h5, h4]; rfl
  refine ⟨hk, st, h1, h3, h4, e5, h6, ?_⟩
  rw [h7, e5, h6]
  simp [ratioRef]

end StorageManager

namespace StorageManager

/-! ## Claims C19 and C20: the allocator, and where an update puts a key -/

theorem chunkFits_eq_stated (ls : List (String × String)) (est i : Nat)
    (hne : getItem ls (chunkKeyOf i) ≠ some "") :
    chunkFits ls est i = fitsAsStated ls est i := by
  unfold chunkFits fitsAsStated
  cases hg : getItem ls (chunkKeyOf i) with
  | none => rfl
  | some chunk =>
    have : chunk ≠ "" := fun e => hne (by rw [hg, e])
    simp [present, this]

/-- Claim C19 (amended): in a store state in which no chunk slot holds the empty string,
`_findOrCreateChunk` returns `vl_data_i` exactly for the least `i` below 100 whose chunk is
physically absent or has a stored length that, with the length of the text of the new
entry added, stays below `chunkSize`; it raises the capacity error, and no other error,
exactly when no `i` below 100 qualifies. -/
theorem first_fit (s : Store) (k : String) (v : JSON)
    (hne : ∀ i, i < 100 → getItem s.ls (chunkKeyOf i) ≠ some "") :
    (∀ c, findOrCreateChunk s k (some v) = .ok c ↔
      ∃ i, i < 100 ∧ c = chunkKeyOf i ∧
        fitsAsStated s.ls (jsLength (JSON.stringify (.obj [(k, v)]))) i = true ∧
        ∀ j, j < i → fitsAsStated s.ls (jsLength (JSON.stringify (.obj [(k, v)]))) j = false) ∧
    (findOrCreateChunk s k (some v) = .error .limitReached ↔
      ∀ i, i < 100 → fitsAsStated s.ls (jsLength (JSON.stringify (.obj [(k, v)]))) i = false) ∧
    ∀ e, findOrCreateChunk s k (some v) = .error e → e = .limitReached := by
  have hest : jsLength (entryText k (some v)) = jsLength (JSON.stringify (.obj [(k, v)])) := rfl
  have heq : ∀ i, i < 100 → chunkFits s.ls (jsLength (entryText k (some v))) i =
      fitsAsStated s.ls (jsLength (JSON.stringify (.obj [(k, v)]))) i := fun i hi => by
    rw [chunkFits_eq_stated _ _ _ (hne i hi), hest]
  refine ⟨?_, ?_, ?_⟩
  · intro c
    constructor
    · intro h
      obtain ⟨i, hi, hc, hfit, hmin⟩ := findOrCreateChunk_ok s k _ c h
      exact ⟨i, hi, hc, by rw [← heq i hi]; exact hfit,
        fun j hj => by rw [← heq j (by omega)]; exact hmin j hj⟩
    · rintro ⟨i, hi, rfl, hfit, hmin⟩
      exact findOrCreateChunk_of_fits s k _ i hi (by rw [heq i hi]; exact hfit)
        (fun j hj => by rw [heq j (by omega)]; exact hmin j hj)
  · constructor
    · intro h i hi
      rw [← heq i hi]
      exact (findOrCreateChunk_error s k _ _ h).2 i hi
    · intro h
      exact findOrCreateChunk_none s k _ (fun i hi => by rw [heq i hi]; exact h i hi)
  · intro e h
    exact (findOrCreateChunk_error s k _ e h).1

/-- Witness of C19 (amended): on a fresh store the first chunk is chosen. -/
theorem first_fit_witness :
    (∀ i, i < 100 → getItem (freshStore 0).ls (chunkKeyOf i) ≠ some "") ∧
    findOrCreateChunk (freshStore 0) "k" (some (.num 1)) = .ok (chunkKeyOf 0) :=
  have hne : ∀ i, i < 100 → getItem (freshStore 0).ls (chunkKeyOf i) ≠ some "" :=
    fun i _ => by
      simp [freshStore, getItem, Ne.symm (chunkKeyOf_ne_metaKey i)]
  ⟨hne, ((first_fit (freshStore 0) "k" (.num 1) hne).1 (chunkKeyOf 0)).2
    ⟨0, by omega, rfl, by decide, fun j hj => by omega⟩⟩

/-- Counterexample to C19 as stated: the first chunk slot holds the empty string and the
new entry is longer than `chunkSize`. The slot is present and has no room, so the stated
rule picks `vl_data_1`, while the code treats the empty slot as new and returns
`vl_data_0`. -/
theorem first_fit_refuted :
    ¬ (∀ (s : Store) (k : String) (v : JSON) (c : String),
      findOrCreateChunk s k (some v) = .ok c ↔
        ∃ i, i < 100 ∧ c = chunkKeyOf i ∧
          fitsAsStated s.ls (jsLength (JSON.stringify (.obj [(k, v)]))) i = true ∧
          ∀ j, j < i →
            fitsAsStated s.ls (jsLength (JSON.stringify (.obj [(k, v)]))) j = false) := by
  intro h
  have hcode : findOrCreateChunk emptySlotStore "k" (some (.str (bigText 500000))) =
      .ok (chunkKeyOf 0) := findOrCreateChunk_first _ _ _ (by decide)
  have hlen : jsLength (JSON.stringify (.obj [("k", .str (bigText 500000))])) = 500008 := by
    rw [jsLength_entry_bigText]
    have : jsLength (String.mk (JSON.renderStr "k")) = 3 := by decide
    omega
  have h0 : fitsAsStated emptySlotStore.ls 500008 0 = false := by decide
  have h1 : fitsAsStated emptySlotStore.ls 500008 1 = true := by
    have : getItem emptySlotStore.ls (chunkKeyOf 1) = none := by
      have hne : chunkKeyOf 0 ≠ chunkKeyOf 1 := fun e => by
        have := chunkKeyOf_injective _ _ e
        omega
      simp [emptySlotStore, getItem, hne]
    simp [fitsAsStated, this]
  have hstated := (h emptySlotStore "k" (.str (bigText 500000)) (chunkKeyOf 1)).2
    ⟨1, by omega, rfl, by rw [hlen]; exact h1, fun j hj => by
      have : j = 0 := by omega
      subst this
      rw [hlen]; exact h0⟩
  rw [hcode] at hstated
  have := chunkKeyOf_injective _ _ (by simpa using hstated)
  omega

theorem set_immediate_index (lz : Option Codec) (s : Store) (k : String) (v : JSON)
    (idx : List (String × JSON)) (hidx : getIndex s = .obj idx)
    (hset : (set lz s k v true).2 = true) :
    ∃ i, i < 100 ∧ findOrCreateChunk s k (some v) = .ok (chunkKeyOf i) ∧
      getIndex (set lz s k v true).1 = .obj (JSON.upsert k (.str (chunkKeyOf i)) idx) := by
  have hw := set_immediate_eq lz s k v hset
  obtain ⟨i, cd, cd1, idx1, hi, g1, -, -, g4, -, -, -, -, g9, -⟩ :=
    writeImmediate_slots lz s _ k _ hw
  rw [hidx] at g4
  simp only [JSON.setProp, Except.ok.injEq] at g4
  subst g4
  exact ⟨i, hi, g1, getIndex_of_slot _ _ g9⟩

theorem queued_flush_index (lz : Option Codec) (s s1 : Store) (k : String) (v : JSON)
    (idx : List (String × JSON)) (hidx : getIndex s = .obj idx)
    (hq : ∀ w ∈ s.writeQueue, w.key ≠ k)
    (hflush : flushWriteQueue lz (set lz s k v false).1 = .ok s1) :
    ∃ i, i < 100 ∧ findOrCreateChunk s k (some v) = .ok (chunkKeyOf i) ∧
      JSON.getProp (getIndex s1) k = .ok (some (.str (chunkKeyOf i))) := by
  obtain ⟨q1, q2, q3, q4, q5⟩ := set_queued_effect lz s k v
  generalize (set lz s k v false).1 = t at hflush q1 q2 q3 q4 q5
  have hslots : ∀ i, getItem t.ls (chunkKeyOf i) = getItem s.ls (chunkKeyOf i) :=
    fun i => q5 _ (chunkKeyOf_ne_walKey i)
  have hfind : ∀ k2 v2, findOrCreateChunk t k2 v2 = findOrCreateChunk s k2 v2 :=
    fun k2 v2 => findOrCreateChunk_congr s t k2 v2 hslots
  have hgi : getIndex t = .obj idx := by
    rw [getIndex_congr s t (q5 _ indexKey_ne_walKey), hidx]
  obtain ⟨gs, idx1, m1, -, f1, f2, f3, f4, -, -, -, -, -, -, f11, -, -, f14, -⟩ :=
    flush_ok lz t s1 (by rw [q1]; simp) hflush
  obtain ⟨c, hc, hcmem⟩ := f4 ⟨k, v, s.now⟩ (by rw [q1]; simp)
  simp only at hc
  obtain ⟨i, hi, rfl, -⟩ := f3 _ hcmem
  have hrt : routedTo t (chunkKeyOf i) ⟨k, v, s.now⟩ = true := by simp [routedTo, hc]
  have hlw : ∀ c2, lastWrite k (groupOf c2 gs) = if c2 = chunkKeyOf i then some v else none := by
    intro c2
    rw [f2 c2, q1, routed_append]
    have hnone : lastWrite k (routed t c2 s.writeQueue) = none := by
      apply lastWrite_none
      intro p hp
      obtain ⟨w, hw, hwk⟩ := routed_keys t c2 _ p hp
      rw [← hwk]; exact hq w hw
    by_cases h2 : c2 = chunkKeyOf i
    · subst h2
      simp only [hrt, if_true]
      rw [lastWrite_append]; simp
    · have : routedTo t c2 ⟨k, v, s.now⟩ = false := by simp [routedTo, hc, Ne.symm h2]
      simp [this, hnone, h2]
  have hlg : lastGroup k gs = some (chunkKeyOf i) := by
    cases hl : lastGroup k gs with
    | none =>
      have := lastGroup_none k gs f1 hl (chunkKeyOf i)
      rw [hlw] at this; simp at this
    | some r =>
      obtain ⟨-, h2⟩ := lastGroup_some k r gs f1 hl
      rw [hlw] at h2
      by_cases hr : r = chunkKeyOf i
      · rw [hr]
      · simp [hr] at h2
  have hidx1 := f14 idx hgi
  subst hidx1
  refine ⟨i, hi, by rw [← hfind]; exact hc, ?_⟩
  rw [getIndex_of_slot s1 _ f11]
  simp [JSON.getProp, lookup_indexGroups, hlg]

/-- Claim C20 (amended): in a store state whose index is an object that maps `k` to the
chunk `K`, a successful `set(k, v, true)`, and likewise a completed flush of a queued
`set(k, v)` with no other pending write to `k`, leaves the index entry of `k` equal to the
chunk that the first-fit allocator picks for the new entry; the entry is still `K` exactly
when that chunk is `K`. -/
theorem update_follows_allocator (lz : Option Codec) (s : Store) (k : String) (v : JSON)
    (K : String) (idx : List (String × JSON)) (hidx : getIndex s = .obj idx)
    (hK : JSON.lookup k idx = some (.str K)) :
    ((set lz s k v true).2 = true →
      ∃ c, findOrCreateChunk s k (some v) = .ok c ∧
        JSON.getProp (getIndex (set lz s k v true).1) k = .ok (some (.str c)) ∧
        (JSON.getProp (getIndex (set lz s k v true).1) k = .ok (some (.str K)) ↔ c = K)) ∧
    ∀ s1, (∀ w ∈ s.writeQueue, w.key ≠ k) →
      flushWriteQueue lz (set lz s k v false).1 = .ok s1 →
      ∃ c, findOrCreateChunk s k (some v) = .ok c ∧
        JSON.getProp (getIndex s1) k = .ok (some (.str c)) ∧
        (JSON.getProp (getIndex s1) k = .ok (some (.str K)) ↔ c = K) := by
  constructor
  · intro hset
    obtain ⟨i, -, hf, hgi⟩ := set_immediate_index lz s k v idx hidx hset
    have he : JSON.getProp (getIndex (set lz s k v true).1) k =
        .ok (some (.str (chunkKeyOf i))) := by
      rw [hgi]
      simp [JSON.getProp, JSON.lookup_upsert_same]
    refine ⟨_, hf, he, ?_⟩
    rw [he]
    constructor
    · intro h
      simpa using h
    · intro h
      rw [h]
  · intro s1 hq hflush
    obtain ⟨i, -, hf, he⟩ := queued_flush_index lz s s1 k v idx hidx hq hflush
    refine ⟨_, hf, he, ?_⟩
    rw [he]
    constructor
    · intro h
      simpa using h
    · intro h
      rw [h]

/-- After a first write of `n` letters under `a` the first chunk is nearly full, and a
second write under `a` is placed in the second chunk, where the index then points. -/
theorem update_moves_entry (n : Nat) (hn : 499984 ≤ n) :
    JSON.getProp (getIndex (run none (freshStore 0) [.set "a" (.str (bigText n)) true])) "a" =
      .ok (some (.str (chunkKeyOf 0))) ∧
    (set none (run none (freshStore 0) [.set "a" (.str (bigText n)) true])
      "a" (.str "") true).2 = true ∧
    JSON.getProp (getIndex (set none (run none (freshStore 0)
      [.set "a" (.str (bigText n)) true]) "a" (.str "") true).1) "a" =
      .ok (some (.str (chunkKeyOf 1))) := by
  have hI0 := inv_freshStore (fun _ => True) none 0
  have habs0 : ∀ i, getItem (freshStore 0).ls (chunkKeyOf i) = none := fun i => by
    simp [freshStore, getItem, Ne.symm (chunkKeyOf_ne_metaKey i)]
  have hf1 : findOrCreateChunk (freshStore 0) "a" (some (.str (bigText n))) =
      .ok (chunkKeyOf 0) := findOrCreateChunk_first _ _ _ (by rw [habs0]; rfl)
  rcases inv_writeImmediate _ none none_lawful _ hI0 "a" (.str (bigText n)) trivial []
      (getIndex_freshStore 0) with ⟨he, -⟩ | ⟨s1, i, -, hfi, hw1, hI1, hidx1, -, hm1, hoth1, -⟩
  · rw [hf1] at he; cases he
  rw [hf1] at hfi
  have hi := chunkKeyOf_injective _ _ (by simpa using hfi)
  subst hi
  obtain ⟨i, cd, cd1, idx1, -, g1, g2, g3, -, hce1, -, -, -, -, gslot, -⟩ :=
    writeImmediate_slots none _ s1 _ _ hw1
  rw [hf1] at g1
  have hi := chunkKeyOf_injective _ _ (by simpa using g1)
  subst hi
  have hload0 : loadChunk none (freshStore 0) (chunkKeyOf 0) = .ok (.obj []) := by
    simp [loadChunk, habs0, present]
  rw [hload0] at g2
  cases g2
  simp only [JSON.setProp, JSON.upsert, Except.ok.injEq] at g3
  subst g3
  have htext : getItem s1.ls (chunkKeyOf 0) =
      some (JSON.stringify (.obj [("a", .str (bigText n))])) := by
    rw [gslot]; rfl
  have hest : jsLength (entryText "a" (some (.str ""))) = 8 := by decide
  have hlen : jsLength (JSON.stringify (.obj [("a", .str (bigText n))])) = n + 8 := by
    rw [jsLength_entry_bigText]
    have : jsLength (String.mk (JSON.renderStr "a")) = 3 := by decide
    omega
  have hfit0 : chunkFits s1.ls (jsLength (entryText "a" (some (.str "")))) 0 = false := by
    rw [chunkFits_of_slot _ _ _ _ htext (stringify_ne_empty _), hest, hlen]
    simp [chunkSize]; omega
  have habs1 : present (getItem s1.ls (chunkKeyOf 1)) = false := by
    rw [hoth1 1 (by omega), habs0]; rfl
  have hf2 : findOrCreateChunk s1 "a" (some (.str "")) = .ok (chunkKeyOf 1) :=
    findOrCreateChunk_of_fits s1 _ _ 1 (by omega) (chunkFits_of_absent _ _ _ habs1)
      (fun j hj => by
        have : j = 0 := by omega
        subst this; exact hfit0)
  rcases inv_writeImmediate _ none none_lawful s1 hI1 "a" (.str "") trivial _ hidx1 with
    ⟨he, -⟩ | ⟨s2, i, -, hfi, hw2, -, hidx2, -⟩
  · rw [hf2] at he; cases he
  rw [hf2] at hfi
  have hi := chunkKeyOf_injective _ _ (by simpa using hfi)
  subst hi
  have hrun : run none (freshStore 0) [.set "a" (.str (bigText n)) true] = s1 := by
    simp [run, step, set, hw1]
  rw [hrun]
  have hset : set none s1 "a" (.str "") true = (s2, true) := by
    simp only [set, if_true, hw2]
  rw [hset, hidx1, hidx2]
  refine ⟨?_, rfl, ?_⟩
  · simp [JSON.getProp, JSON.upsert, JSON.lookup]
  · simp [JSON.getProp, JSON.upsert, JSON.lookup]

/-- Witness of C20 (amended): an update of a key of a one-chunk store stays in the first
chunk. -/
theorem update_follows_allocator_witness :
    getIndex (set none (freshStore 0) "k" (.num 1) true).1 =
      .obj [("k", .str (chunkKeyOf 0))] ∧
    (set none (set none (freshStore 0) "k" (.num 1) true).1 "k" (.num 2) true).2 = true ∧
    ∃ c, findOrCreateChunk (set none (freshStore 0) "k" (.num 1) true).1 "k" (some (.num 2)) =
        .ok c ∧
      JSON.getProp (getIndex
        (set none (set none (freshStore 0) "k" (.num 1) true).1 "k" (.num 2) true).1) "k" =
        .ok (some (.str c)) ∧
      (JSON.getProp (getIndex
        (set none (set none (freshStore 0) "k" (.num 1) true).1 "k" (.num 2) true).1) "k" =
        .ok (some (.str (chunkKeyOf 0))) ↔ c = chunkKeyOf 0) :=
  ⟨by decide, by decide,
    (update_follows_allocator none (set none (freshStore 0) "k" (.num 1) true).1 "k" (.num 2)
      (chunkKeyOf 0) [("k", .str (chunkKeyOf 0))] (by decide) (by decide)).1 (by decide)⟩

/-- Counterexample to C20 as stated: `a` is indexed in the first chunk, which its value
nearly fills; the update `set("a", "", true)` succeeds and the index entry of `a` moves to
the second chunk. -/
theorem update_follows_allocator_refuted :
    ¬ (∀ (lz : Option Codec), Lawful lz → ∀ (s : Store) (k K : String) (v : JSON),
      JSON.getProp (getIndex s) k = .ok (some (.str K)) →
      (set lz s k v true).2 = true →
      JSON.getProp (getIndex (set lz s k v true).1) k = .ok (some (.str K))) := by
  intro h
  obtain ⟨h1, h2, h3⟩ := update_moves_entry 499984 (by omega)
  have h4 := h none none_lawful _ "a" (chunkKeyOf 0) (.str "") h1 h2
  rw [h3] at h4
  have h5 : chunkKeyOf 1 = chunkKeyOf 0 := by simpa using h4
  have := chunkKeyOf_injective _ _ h5
  omega

end StorageManager

namespace StorageManager

/-! ## Claims C22, C24, C25 and C28 -/

theorem runMigrations_fresh (now : Nat) :
    runMigrations (freshStore now) = .ok (freshStore now) := by
  simp [runMigrations, freshStore, createDefaultMeta, JSON.getProp, JSON.lookup]

theorem loadWAL_fresh (lz : Option Codec) (now : Nat) :
    loadWAL lz (freshStore now) = freshStore now := by
  have hw : getItem (freshStore now).ls walKey = none := by
    simp [freshStore, getItem, metaKey_ne_walKey]
  simp only [loadWAL, hw]

theorem construct_empty (lz : Option Codec) (now : Nat) :
    construct lz [] now = .ok (freshStore now) := by
  have hl : loadMeta [] now = (createDefaultMeta now, [(metaKey, "undefined")]) := by
    simp [loadMeta, getItem, setItem]
  unfold construct
  rw [hl]
  show (match runMigrations (freshStore now) with
    | Except.error (e, _) => (Except.error e : Except JSError Store)
    | Except.ok s1 => Except.ok (loadWAL lz s1)) = _
  rw [runMigrations_fresh]
  simp only [loadWAL_fresh]

theorem construct_fresh_again (lz : Option Codec) (t1 t2 : Nat) :
    construct lz (freshStore t1).ls t2 = .ok (freshStore t2) := by
  have hp : JSON.parse "undefined" = none := by decide
  have hg : getItem (freshStore t1).ls metaKey = some "undefined" := rfl
  have hs : setItem (freshStore t1).ls metaKey "undefined" = [(metaKey, "undefined")] := by
    simp [freshStore, setItem]
  have hl : loadMeta (freshStore t1).ls t2 = (createDefaultMeta t2, [(metaKey, "undefined")]) := by
    simp [loadMeta, hg, hp, hs]
  unfold construct
  rw [hl]
  show (match runMigrations (freshStore t2) with
    | Except.error (e, _) => (Except.error e : Except JSError Store)
    | Except.ok s1 => Except.ok (loadWAL lz s1)) = _
  rw [runMigrations_fresh]
  simp only [loadWAL_fresh]

/-- Claim C24, at the failing input: the first construction over an empty host storage
creates the default metadata in memory but persists the text `undefined` under `vl_meta`,
which is no JSON text; a second construction at a later time therefore creates the default
metadata anew, with the later time as `created`. -/
theorem meta_not_persisted (lz : Option Codec) (t1 t2 : Nat) :
    ∃ s1 s2, construct lz [] t1 = .ok s1 ∧ s1.meta = createDefaultMeta t1 ∧
      getItem s1.ls metaKey = some "undefined" ∧ JSON.parse "undefined" = none ∧
      construct lz s1.ls t2 = .ok s2 ∧ s2.meta = createDefaultMeta t2 ∧
      metaField s2 "created" = some (.num t2) :=
  ⟨freshStore t1, freshStore t2, construct_empty lz t1, rfl, rfl, by decide,
    construct_fresh_again lz t1 t2, rfl, rfl⟩

/-- Claim C25, at the failing input: two entries of the same day are saved one after the
other and the queue is flushed. The second `saveEntry` reads the stored list, which does
not hold the first entry yet, so the list that the flush stores holds the second entry
only. -/
theorem saveEntry_loses_first :
    get none (afterFlush none
      (saveEntry none
        (saveEntry none (freshStore 0) (.obj [("id", .num 1), ("date", .str "d")]))
        (.obj [("id", .num 2), ("date", .str "d")]))) "entries_d" =
      some (.arr [.obj [("id", .num 2), ("date", .str "d")]]) ∧
    JSON.arr [.obj [("id", .num 2), ("date", .str "d")]] ≠
      .arr [.obj [("id", .num 1), ("date", .str "d")], .obj [("id", .num 2), ("date", .str "d")]] := by
  decide

theorem get_of_slot (lz : Option Codec) (s : Store) (k c : String)
    (hidx : JSON.getProp (getIndex s) k = .ok (some (.str c))) (hc : c ≠ "")
    (text : String) (ht : getItem s.ls c = some text) (hne : text ≠ "") :
    get lz s k =
      match JSON.parseArg (decode lz s.compressionEnabled (some text)) with
      | none => some .null
      | some chunkData =>
        match JSON.getProp chunkData k with
        | .error _ => some .null
        | .ok r => r := by
  simp only [get, hidx, JSON.truthyOpt, JSON.truthy, hc, JSON.toStrOpt, JSON.toStr, ht, present,
    hne, ne_eq, not_false_eq_true, decide_True, Bool.not_true, Bool.false_eq_true, if_false]
  all_goals
    cases JSON.parseArg (decode lz s.compressionEnabled (some text)) with
    | none => rfl
    | some cd =>
      simp only
      cases JSON.getProp cd k <;> rfl

/-- Claim C22 (amended): when the index maps `k` to a chunk whose stored string is the
text of a JSON object holding `k`, `get(k)` returns the value stored at `k` if the library
is not loaded or compression is switched off, so that the string is read as it is; if the
library is loaded, compression is on, and the library cannot decompress the string or
yields a text that is no JSON, `get(k)` returns null. -/
theorem get_raw_chunk (lz : Option Codec) (s : Store) (k c : String)
    (ms : List (String × JSON)) (v : JSON)
    (hidx : JSON.getProp (getIndex s) k = .ok (some (.str c))) (hc : c ≠ "")
    (ht : getItem s.ls c = some (JSON.stringify (.obj ms)))
    (hv : JSON.lookup k ms = some v) :
    (CompressionInactive lz s → get lz s k = some v) ∧
    (∀ codec, lz = some codec → s.compressionEnabled = true →
      (codec.decompress (JSON.stringify (.obj ms)) = none ∨
        ∃ d, codec.decompress (JSON.stringify (.obj ms)) = some d ∧ JSON.parse d = none) →
      get lz s k = some .null) := by
  have hg := get_of_slot lz s k c hidx hc _ ht (stringify_ne_empty _)
  constructor
  · intro hin
    have hd : decode lz s.compressionEnabled (some (JSON.stringify (.obj ms))) =
        some (JSON.stringify (.obj ms)) := by
      rcases hin with h | h
      · simp [decode, h]
      · subst h
        cases s.compressionEnabled <;> simp [decode, decompress]
    rw [hg, hd]
    simp [JSON.parseArg, JSON.parse_stringify, JSON.getProp, hv]
  · intro codec hlz hce hfail
    subst hlz
    rw [hg, hce]
    rcases hfail with h | ⟨d, h, hp⟩
    · have : JSON.parseArg (decode (some codec) true (some (JSON.stringify (.obj ms)))) =
          some .null := by
        simp only [decode, decompress, h, if_true]
        decide
      rw [this]
      rfl
    · have : JSON.parseArg (decode (some codec) true (some (JSON.stringify (.obj ms)))) =
          none := by
        simp only [decode, decompress, h, if_true, JSON.parseArg, Option.getD_some, hp]
      rw [this]

/-- Witness of C22 (amended): a chunk written with compression off is read back while
compression is off, and reads as null once compression is on. -/
theorem get_raw_chunk_witness :
    JSON.getProp (getIndex uncompressedSession) "a" = .ok (some (.str (chunkKeyOf 0))) ∧
    getItem uncompressedSession.ls (chunkKeyOf 0) =
      some (JSON.stringify (.obj [("a", .num 1)])) ∧
    CompressionInactive (some markCodec) uncompressedSession ∧
    get (some markCodec) uncompressedSession "a" = some (.num 1) ∧
    markCodec.decompress (JSON.stringify (.obj [("a", .num 1)])) = none ∧
    get (some markCodec) toggledSession "a" = some .null :=
  ⟨rfl, by decide, Or.inl rfl,
    (get_raw_chunk (some markCodec) uncompressedSession "a" (chunkKeyOf 0) [("a", .num 1)]
      (.num 1) rfl (chunkKeyOf_ne_empty 0) (by decide) (by decide)).1 (Or.inl rfl),
    by decide,
    (get_raw_chunk (some markCodec) toggledSession "a" (chunkKeyOf 0) [("a", .num 1)]
      (.num 1) rfl (chunkKeyOf_ne_empty 0) (by decide) (by decide)).2 markCodec rfl rfl
      (Or.inl (by decide))⟩

/-- Counterexample to C22 as stated: the chunk was written while compression was off and
is read after compression is switched on. The library cannot decompress the stored string,
which is the text of an object holding `a`, and `get("a")` returns null instead of the
stored value. -/
theorem get_raw_chunk_refuted :
    ¬ (∀ (lz : Option Codec), Lawful lz → ∀ (s : Store) (k c : String)
        (ms : List (String × JSON)) (v : JSON) (codec : Codec),
      JSON.getProp (getIndex s) k = .ok (some (.str c)) →
      getItem s.ls c = some (JSON.stringify (.obj ms)) → JSON.lookup k ms = some v →
      lz = some codec → s.compressionEnabled = true →
      codec.decompress (JSON.stringify (.obj ms)) = none →
      get lz s k = some v) := by
  intro h
  have := h (some markCodec) markCodec_lawful toggledSession "a" (chunkKeyOf 0)
    [("a", .num 1)] (.num 1) markCodec rfl (by decide) (by decide) rfl rfl (by decide)
  revert this
  decide

theorem groupWrites_ls (s t : Store) (h : t.ls = s.ls) (q : List QueuedWrite) :
    ∀ acc, groupWrites t q acc = groupWrites s q acc := by
  induction q with
  | nil => intro acc; rfl
  | cons w q ih =>
    intro acc
    simp only [groupWrites, findOrCreateChunk_ls s t _ _ h]
    cases findOrCreateChunk s w.key (some w.value) with
    | error e => rfl
    | ok c => exact ih _

/-- Claim C28: in a store state in which `_findOrCreateChunk` fails for a write, an
immediate `set` of that write returns false and leaves the whole store as it was; and a
flush whose grouping phase fails raises, leaving every physical key as it was, so every
chunk, the index and the persisted log, which still reads as all the pending writes when
it did so before. -/
theorem capacity_failure_atomic (lz : Option Codec) (s : Store) :
    (∀ k v, findOrCreateChunk s k (some v) = .error .limitReached →
      set lz s k v true = (s, false)) ∧
    (∀ e, s.writeQueue ≠ [] → groupWrites s s.writeQueue [] = .error e →
      flushWriteQueue lz s = .error (e, { s with writeQueue := [] }) ∧
      (afterFlush lz s).ls = s.ls ∧
      (∀ i, getItem (afterFlush lz s).ls (chunkKeyOf i) = getItem s.ls (chunkKeyOf i)) ∧
      getIndex (afterFlush lz s) = getIndex s ∧
      (WalInv s → ∃ text, getItem (afterFlush lz s).ls walKey = some text ∧
        JSON.parse text = some (.arr (walOps s.writeQueue)))) := by
  refine ⟨fun k v h => set_limit lz s k v h, ?_⟩
  intro e hq hg
  obtain ⟨w, ws, hws⟩ := List.exists_cons_of_ne_nil hq
  have hg0 : groupWrites { s with writeQueue := [] } (w :: ws) [] = .error e := by
    rw [groupWrites_ls s { s with writeQueue := [] } rfl, ← hws]
    exact hg
  have hf : flushWriteQueue lz s = .error (e, { s with writeQueue := [] }) := by
    simp only [flushWriteQueue, hws, hg0]
  have ha : afterFlush lz s = { s with writeQueue := [] } := by
    simp only [afterFlush, step, hf]
  refine ⟨hf, by rw [ha], fun i => by rw [ha], by rw [ha]; rfl, ?_⟩
  intro hW
  have := hW.slot
  rw [if_neg hq] at this
  exact ⟨_, by rw [ha]; exact this, JSON.parse_stringify _⟩

theorem queued_grouping_fails (lz : Option Codec) (s : Store) (k : String) (v : JSON)
    (hq : s.writeQueue = [])
    (hf : findOrCreateChunk s k (some v) = .error .limitReached) :
    (set lz s k v false).1.writeQueue ≠ [] ∧
    groupWrites (set lz s k v false).1 (set lz s k v false).1.writeQueue [] =
      .error .limitReached := by
  obtain ⟨q1, -, -, -, q5⟩ := set_queued_effect lz s k v
  have hf2 : findOrCreateChunk (set lz s k v false).1 k (some v) = .error .limitReached := by
    rw [findOrCreateChunk_congr s _ _ _ (fun i => q5 _ (chunkKeyOf_ne_walKey i))]
    exact hf
  constructor
  · rw [q1]; simp
  · rw [q1, hq]
    simp only [List.nil_append, groupWrites, hf2]

theorem fullStore_limit (k : String) (v : JSON) :
    findOrCreateChunk fullStore k (some v) = .error .limitReached :=
  findOrCreateChunk_none _ _ _ (fun i hi => by
    obtain ⟨chunk, h1, h2, h3⟩ := fullStore_slots i hi
    exact chunkFits_full _ _ _ ⟨chunk, h1, h2, h3 _⟩)

/-- Witness of C28: a write queued on the store whose hundred chunk slots are full makes
the grouping phase of the flush fail. -/
theorem capacity_failure_atomic_witness :
    (set none fullStore "k" (.num 1) false).1.writeQueue ≠ [] ∧
    groupWrites (set none fullStore "k" (.num 1) false).1
      (set none fullStore "k" (.num 1) false).1.writeQueue [] = .error .limitReached ∧
    (afterFlush none (set none fullStore "k" (.num 1) false).1).ls =
      (set none fullStore "k" (.num 1) false).1.ls :=
  have h := queued_grouping_fails none fullStore "k" (.num 1) rfl (fullStore_limit "k" (.num 1))
  ⟨h.1, h.2,
    ((capacity_failure_atomic none (set none fullStore "k" (.num 1) false).1).2
      .limitReached h.1 h.2).2.1⟩

end StorageManager

namespace StorageManager

/-! ## The timestamps along a run (for claim C23) -/

theorem timesOk_obj (s : Store) (h : TimesOk s) : ∃ mm, s.meta = .obj mm := by
  obtain ⟨c, u, h1, -⟩ := h
  unfold metaField at h1
  cases hm : s.meta with
  | obj mm => exact ⟨mm, rfl⟩
  | null => rw [hm] at h1; cases h1
  | bool b => rw [hm] at h1; cases h1
  | num n => rw [hm] at h1; cases h1
  | str t => rw [hm] at h1; cases h1
  | arr l => rw [hm] at h1; cases h1

theorem timesOk_congr (s t : Store) (h : TimesOk s) (hm : t.meta = s.meta)
    (hn : s.now ≤ t.now) : TimesOk t := by
  obtain ⟨c, u, h1, h2, h3, h4⟩ := h
  refine ⟨c, u, ?_, ?_, h3, ?_⟩
  · simpa only [metaField, hm] using h1
  · simpa only [metaField, hm] using h2
  · have : (s.now : Int) ≤ (t.now : Int) := by exact_mod_cast hn
    omega

/-- What the assignment `this.meta.updated = Date.now()` does to metadata that is an
object. -/
theorem touch_meta (s t : Store) (m1 : JSON) (h : TimesOk s)
    (hs : JSON.setProp s.meta "updated" (some (.num s.now)) = .ok m1) (hm : t.meta = m1)
    (hn : t.now = s.now) :
    TimesOk t ∧ metaField t "updated" = some (.num s.now) ∧
      metaField t "created" = metaField s "created" ∧
      metaField t "version" = metaField s "version" := by
  obtain ⟨mm, hmm⟩ := timesOk_obj s h
  obtain ⟨c, u, h1, h2, h3, h4⟩ := h
  rw [hmm] at hs
  simp only [JSON.setProp, Except.ok.injEq] at hs
  subst hs
  have hu : metaField t "updated" = some (.num s.now) := by
    simp only [metaField, hm, JSON.lookup_upsert_same]
  have hc : metaField t "created" = metaField s "created" := by
    simp only [metaField, hm, hmm]
    exact JSON.lookup_upsert_ne _ _ _ _ (by decide)
  have hv : metaField t "version" = metaField s "version" := by
    simp only [metaField, hm, hmm]
    exact JSON.lookup_upsert_ne _ _ _ _ (by decide)
  refine ⟨⟨c, s.now, by rw [hc]; exact h1, hu, by omega, by rw [hn]⟩, hu, hc, hv⟩

theorem timesOk_freshStore (now : Nat) : TimesOk (freshStore now) :=
  ⟨now, now, rfl, rfl, le_refl _, le_refl _⟩

theorem timesOk_step (lz : Option Codec) (hz : Lawful lz) (s : Store)
    (hI : Inv (fun _ => True) lz s) (hT : TimesOk s) (op : Op) : TimesOk (step lz s op) := by
  obtain ⟨idx, hidx⟩ := hI.index
  cases op with
  | get k => exact hT
  | keys => exact hT
  | getStats => exact hT
  | tick dt => exact timesOk_congr s _ hT rfl (Nat.le_add_right _ _)
  | clear =>
    exact ⟨s.now, s.now, rfl, rfl, le_refl _, le_refl _⟩
  | delete k =>
    obtain ⟨-, -, -, -, -, -, -, d8, -⟩ := inv_delete _ lz hz s hI k idx hidx
    have hn : (delete lz s k).1.now = s.now := by
      unfold delete
      simp only
      split
      · rfl
      · split_ifs
        · rfl
        · split
          · rfl
          · split
            · rfl
            · split <;> rfl
    exact timesOk_congr s _ hT d8 (le_of_eq hn.symm)
  | flush =>
    rcases inv_flush _ lz hz s hI idx hidx with ⟨-, h⟩ | ⟨-, h, -⟩ |
      ⟨s2, gs, hq, h, -⟩
    · simp only [step, h]; exact hT
    · simp only [step, h]
      exact timesOk_congr s _ hT rfl (le_refl _)
    · simp only [step, h]
      obtain ⟨gs, idx1, m1, -, -, -, -, -, -, -, -, f9, f10, f11, -⟩ := flush_ok lz s s2 hq h
      exact (touch_meta s s2 m1 hT f11 f10 f9).1
  | set k v im =>
    cases im with
    | true =>
      simp only [step, set, if_true]
      rcases inv_writeImmediate _ lz hz s hI k v trivial idx hidx with ⟨-, h⟩ |
        ⟨s1, i, -, -, h, -, -, -, -, -, -, -, -, -, w4, -⟩
      · rw [h]; exact hT
      · rw [h]
        obtain ⟨i, cd, cd1, idx1, m1, -, -, -, -, -, g5, g6⟩ := writeImmediate_ok lz s s1 k _ h
        exact (touch_meta s s1 m1 hT g5 (by rw [g6]) w4).1
    | false =>
      obtain ⟨-, -, e3, e4, -⟩ := set_queued_effect lz s k v
      exact timesOk_congr s _ hT e3 (le_of_eq e4.symm)

theorem inv_timesOk_run (lz : Option Codec) (hz : Lawful lz) (ops : List Op) :
    ∀ s, Inv (fun _ => True) lz s → TimesOk s →
      Inv (fun _ => True) lz (run lz s ops) ∧ TimesOk (run lz s ops) := by
  induction ops with
  | nil => intro s hI hT; exact ⟨hI, hT⟩
  | cons op ops ih =>
    intro s hI hT
    exact ih (step lz s op) (inv_step _ lz hz s hI op (fun _ _ _ _ => trivial))
      (timesOk_step lz hz s hI hT op)

end StorageManager

namespace StorageManager

/-! ## Claim C30: the size of a chunk after an uncompressed immediate write -/

theorem jsLength_member (k : String) (v : JSON) (t : List Char) :
    jsLength (String.mk (JSON.renderStr k ++ ':' :: (JSON.render v ++ t))) =
      jsLength (String.mk (JSON.renderStr k)) + 1 + jsLength (String.mk (JSON.render v)) +
        jsLength (String.mk t) := by
  rw [jsLength_mk_append, jsLength_mk_small _ _ (by decide), jsLength_mk_append]
  omega

theorem jsLength_membersTail_cons (k : String) (v : JSON) (ms : List (String × JSON)) :
    jsLength (String.mk (JSON.renderMembersTail ((k, v) :: ms))) =
      1 + (jsLength (String.mk (JSON.renderStr k)) + 1 + jsLength (String.mk (JSON.render v))) +
        jsLength (String.mk (JSON.renderMembersTail ms)) := by
  rw [JSON.renderMembersTail, jsLength_mk_small _ _ (by decide), jsLength_member]
  omega

theorem jsLength_members_cons (k : String) (v : JSON) (ms : List (String × JSON)) :
    jsLength (String.mk (JSON.renderMembers ((k, v) :: ms))) =
      (jsLength (String.mk (JSON.renderStr k)) + 1 + jsLength (String.mk (JSON.render v))) +
        jsLength (String.mk (JSON.renderMembersTail ms)) := by
  rw [JSON.renderMembers, jsLength_member]

theorem jsLength_obj (ms : List (String × JSON)) :
    jsLength (JSON.stringify (.obj ms)) = 2 + jsLength (String.mk (JSON.renderMembers ms)) := by
  simp only [JSON.stringify, JSON.render]
  rw [jsLength_mk_small _ _ (by decide), jsLength_mk_append, jsLength_mk_small _ _ (by decide),
    jsLength_mk_nil]
  omega

theorem jsLength_membersTail_upsert (k : String) (v : JSON) :
    ∀ ms, jsLength (String.mk (JSON.renderMembersTail (JSON.upsert k v ms))) ≤
      jsLength (String.mk (JSON.renderMembersTail ms)) + 1 +
        (jsLength (String.mk (JSON.renderStr k)) + 1 + jsLength (String.mk (JSON.render v))) := by
  intro ms
  induction ms with
  | nil =>
    simp only [JSON.upsert]
    rw [jsLength_membersTail_cons]
    simp only [JSON.renderMembersTail, jsLength_mk_nil]
    omega
  | cons p ms ih =>
    obtain ⟨a, w⟩ := p
    simp only [JSON.upsert]
    split_ifs with h
    · subst h
      rw [jsLength_membersTail_cons, jsLength_membersTail_cons]
      omega
    · rw [jsLength_membersTail_cons, jsLength_membersTail_cons]
      omega

theorem jsLength_members_upsert (k : String) (v : JSON) (ms : List (String × JSON)) :
    jsLength (String.mk (JSON.renderMembers (JSON.upsert k v ms))) ≤
      jsLength (String.mk (JSON.renderMembers ms)) + 1 +
        (jsLength (String.mk (JSON.renderStr k)) + 1 + jsLength (String.mk (JSON.render v))) := by
  cases ms with
  | nil =>
    simp only [JSON.upsert]
    rw [jsLength_members_cons]
    simp only [JSON.renderMembers, JSON.renderMembersTail, jsLength_mk_nil]
    omega
  | cons p ms =>
    obtain ⟨a, w⟩ := p
    simp only [JSON.upsert]
    split_ifs with h
    · subst h
      rw [jsLength_members_cons, jsLength_members_cons]
      omega
    · rw [jsLength_members_cons, jsLength_members_cons]
      have := jsLength_membersTail_upsert k v ms
      omega

/-- The text of an object after `o[k] = v` is shorter than the text before plus the text
of the single entry. -/
theorem jsLength_upsert (k : String) (v : JSON) (ms : List (String × JSON)) :
    jsLength (JSON.stringify (.obj (JSON.upsert k v ms))) <
      jsLength (JSON.stringify (.obj ms)) + jsLength (JSON.stringify (.obj [(k, v)])) := by
  rw [jsLength_obj, jsLength_obj, jsLength_obj, jsLength_members_cons]
  have := jsLength_members_upsert k v ms
  simp only [JSON.renderMembersTail, jsLength_mk_nil]
  omega

theorem encode_inactive (lz : Option Codec) (s : Store) (h : CompressionInactive lz s)
    (text : String) : encode lz s.compressionEnabled text = text := by
  rcases h with h | h
  · simp [encode, h]
  · subst h
    cases s.compressionEnabled <;> simp [encode, compress]

theorem decode_inactive (lz : Option Codec) (s : Store) (h : CompressionInactive lz s)
    (text : Option String) : decode lz s.compressionEnabled text = text := by
  rcases h with h | h
  · simp [decode, h]
  · subst h
    cases s.compressionEnabled <;> simp [decode, decompress]

/-- Claim C30: while compression is inactive, in a store state whose chunks are texts of
JSON objects, a successful `set(key, value, true)` of a pair whose entry text is shorter
than `chunkSize` leaves in the target chunk a string that is shorter than `chunkSize`. -/
theorem uncompressed_write_bounded (lz : Option Codec) (s : Store) (k : String) (v : JSON)
    (hin : CompressionInactive lz s) (hobj : ChunksAreObjects s)
    (hsize : jsLength (JSON.stringify (.obj [(k, v)])) < chunkSize)
    (hset : (set lz s k v true).2 = true) :
    ∃ i text, i < 100 ∧ findOrCreateChunk s k (some v) = .ok (chunkKeyOf i) ∧
      getItem (set lz s k v true).1.ls (chunkKeyOf i) = some text ∧
      jsLength text < chunkSize := by
  have hw := set_immediate_eq lz s k v hset
  generalize (set lz s k v true).1 = s1 at hw
  obtain ⟨i, cd, cd1, idx1, hi, g1, g2, g3, -, -, -, -, -, -, g10, -⟩ :=
    writeImmediate_slots lz s s1 k _ hw
  rw [encode_inactive lz s hin] at g10
  refine ⟨i, _, hi, g1, g10, ?_⟩
  obtain ⟨j, -, hj, hfit, -⟩ := findOrCreateChunk_ok s k _ _ g1
  have hij := chunkKeyOf_injective _ _ hj
  subst hij
  have hest : jsLength (entryText k (some v)) = jsLength (JSON.stringify (.obj [(k, v)])) := rfl
  by_cases hp : present (getItem s.ls (chunkKeyOf i)) = true
  · cases hg : getItem s.ls (chunkKeyOf i) with
    | none => rw [hg] at hp; cases hp
    | some chunk =>
      have hne : chunk ≠ "" := by
        rw [hg] at hp
        simpa [present] using hp
      obtain ⟨ms, rfl⟩ := hobj i chunk hg hne
      have hcd : cd = .obj ms := by
        have : loadChunk lz s (chunkKeyOf i) = .ok (.obj ms) := by
          have hp2 : present (some (JSON.stringify (.obj ms))) = true := by rw [← hg]; exact hp
          simp only [loadChunk, decode_inactive lz s hin, hg, JSON.parseArg,
            Option.getD_some, JSON.parse_stringify, hp2, if_true]
        rw [this] at g2
        cases g2
        rfl
      subst hcd
      simp only [JSON.setProp, Except.ok.injEq] at g3
      subst g3
      rw [chunkFits_of_slot _ _ _ _ hg hne, hest] at hfit
      have hlt := jsLength_upsert k v ms
      have := of_decide_eq_true hfit
      omega
  · have hcd : cd = .obj [] := by
      have : loadChunk lz s (chunkKeyOf i) = .ok (.obj []) := by
        simp only [loadChunk, hp]
        rfl
      rw [this] at g2
      cases g2
      rfl
    subst hcd
    simp only [JSON.setProp, JSON.upsert, Except.ok.injEq] at g3
    subst g3
    exact hsize

/-- Witness of C30: a second write into the first chunk of a store without the library. -/
theorem uncompressed_write_bounded_witness :
    CompressionInactive none (run none (freshStore 0) [.set "a" (.num 1) true]) ∧
    ChunksAreObjects (run none (freshStore 0) [.set "a" (.num 1) true]) ∧
    jsLength (JSON.stringify (.obj [("b", .num 2)])) < chunkSize ∧
    (set none (run none (freshStore 0) [.set "a" (.num 1) true]) "b" (.num 2) true).2 = true ∧
    ∃ i text, i < 100 ∧
      findOrCreateChunk (run none (freshStore 0) [.set "a" (.num 1) true]) "b" (some (.num 2)) =
        .ok (chunkKeyOf i) ∧
      getItem (set none (run none (freshStore 0) [.set "a" (.num 1) true]) "b"
        (.num 2) true).1.ls (chunkKeyOf i) = some text ∧
      jsLength text < chunkSize :=
  have hobj : ChunksAreObjects (run none (freshStore 0) [.set "a" (.num 1) true]) := by
    intro i chunk hg hne
    have hls : (run none (freshStore 0) [.set "a" (.num 1) true]).ls =
        [(metaKey, JSON.stringify (.obj [("version", .str version), ("created", .num 0),
            ("updated", .num 0), ("chunks", .arr [])])),
          (chunkKeyOf 0, JSON.stringify (.obj [("a", .num 1)])),
          (indexKey, JSON.stringify (.obj [("a", .str (chunkKeyOf 0))]))] := by decide
    rw [hls] at hg
    simp only [getItem, Ne.symm (chunkKeyOf_ne_metaKey i), Ne.symm (chunkKeyOf_ne_indexKey i),
      if_false] at hg
    split_ifs at hg with h0
    · exact ⟨_, (Option.some.inj hg).symm⟩
  ⟨Or.inr rfl, hobj, by decide, by decide,
    uncompressed_write_bounded none _ "b" (.num 2) (Or.inr rfl) hobj (by decide) (by decide)⟩

end StorageManager

namespace StorageManager

/-! ## Claim C29: a write to one key leaves the other keys alone -/

theorem map_fst_upsert (k : String) (v : JSON) (ms : List (String × JSON)) :
    (JSON.upsert k v ms).map Prod.fst =
      if k ∈ ms.map Prod.fst then ms.map Prod.fst else ms.map Prod.fst ++ [k] := by
  induction ms with
  | nil => simp [JSON.upsert]
  | cons p ms ih =>
    obtain ⟨a, w⟩ := p
    simp only [JSON.upsert]
    by_cases h : a = k
    · subst h
      simp
    · rw [if_neg h, List.map_cons, ih]
      by_cases hm : k ∈ ms.map Prod.fst
      · have : k ∈ ((a, w) :: ms).map Prod.fst := by
          rw [List.map_cons]; exact List.mem_cons_of_mem _ hm
        rw [if_pos hm, if_pos this]
        rfl
      · have : k ∉ ((a, w) :: ms).map Prod.fst := by
          rw [List.map_cons, List.mem_cons]
          rintro (h1 | h1)
          · exact h h1.symm
          · exact hm h1
        rw [if_neg hm, if_neg this]
        rfl

theorem map_fst_erase (k : String) (ms : List (String × JSON)) :
    (JSON.erase k ms).map Prod.fst = (ms.map Prod.fst).filter (fun x => x ≠ k) := by
  induction ms with
  | nil => rfl
  | cons p ms ih =>
    obtain ⟨a, w⟩ := p
    simp only [JSON.erase]
    by_cases h : a = k
    · subst h
      simp [ih]
    · rw [if_neg h, List.map_cons, ih, List.map_cons, List.filter_cons]
      simp [h]

/-- Reading a key on two stores whose indexes agree on the key and whose chunks agree on
it, the first store satisfying the index invariant. -/
theorem get_sound_frame (lz : Option Codec) (s t : Store) (k2 : String)
    (idx idx1 : List (String × JSON)) (hidx : getIndex s = .obj idx)
    (hS : ∀ k cv, JSON.lookup k idx = some cv →
      ∃ i ms, cv = .str (chunkKeyOf i) ∧ present (getItem s.ls (chunkKeyOf i)) = true ∧
        readChunk lz s (chunkKeyOf i) = some (.obj ms) ∧ k ∈ ms.map Prod.fst)
    (hidx1 : getIndex t = .obj idx1) (hl : JSON.lookup k2 idx1 = JSON.lookup k2 idx)
    (hch : ∀ j ms, readChunk lz s (chunkKeyOf j) = some (.obj ms) →
      ∃ ms1, readChunk lz t (chunkKeyOf j) = some (.obj ms1) ∧
        JSON.lookup k2 ms1 = JSON.lookup k2 ms) :
    get lz t k2 = get lz s k2 := by
  rw [get_eq, get_eq, hidx, hidx1]
  simp only [JSON.getProp, hl]
  cases hk : JSON.lookup k2 idx with
  | none => rfl
  | some cv =>
    obtain ⟨i, ms, rfl, -, hr, -⟩ := hS k2 cv hk
    obtain ⟨ms1, hr1, hl1⟩ := hch i ms hr
    simp only [JSON.truthyOpt, JSON.truthy, JSON.toStrOpt, JSON.toStr, hr, hr1, JSON.getProp, hl1]

theorem delete_sound_eq (lz : Option Codec) (s : Store) (k : String)
    (idx ms : List (String × JSON)) (i : Nat) (hidx : getIndex s = .obj idx)
    (hk : JSON.lookup k idx = some (.str (chunkKeyOf i)))
    (hp : present (getItem s.ls (chunkKeyOf i)) = true)
    (hr : readChunk lz s (chunkKeyOf i) = some (.obj ms)) :
    delete lz s k =
      (setIndex { s with
        ls := setItem s.ls (chunkKeyOf i)
          (encode lz s.compressionEnabled (JSON.stringify (.obj (JSON.erase k ms)))) }
        (.obj (JSON.erase k idx)), true) := by
  have hpa := readChunk_present_eq lz s _ hp
  rw [hr] at hpa
  simp [delete, hidx, JSON.getProp, hk, JSON.truthyOpt, JSON.truthy, chunkKeyOf_ne_empty,
    JSON.toStrOpt, JSON.toStr, hpa, JSON.delProp]

/-- Claim C29: in a store state that satisfies the index invariant, a successful
`set(k, v, true)` and a successful `delete(k)` leave `get` of every other key as it was;
after the `set`, `keys()` is the list it was with `k` added at the end unless it was there,
and after the `delete` it is the list it was without `k`. -/
theorem write_frame (lz : Option Codec) (hz : Lawful lz) (s : Store) (hS : IndexSound lz s)
    (k : String) (ks : List String) (hks : keys s = .ok ks) :
    (∀ v, (set lz s k v true).2 = true →
      (∀ k2, k2 ≠ k → get lz (set lz s k v true).1 k2 = get lz s k2) ∧
      keys (set lz s k v true).1 = .ok (if k ∈ ks then ks else ks ++ [k])) ∧
    ((delete lz s k).2 = true →
      (∀ k2, k2 ≠ k → get lz (delete lz s k).1 k2 = get lz s k2) ∧
      keys (delete lz s k).1 = .ok (ks.filter (fun x => x ≠ k))) := by
  obtain ⟨idx, hidx, hsound⟩ := hS
  have hks2 : ks = idx.map Prod.fst := by
    simp only [keys, hidx, JSON.objectKeys, Except.ok.injEq] at hks
    exact hks.symm
  subst hks2
  constructor
  · intro v hset
    have hw := set_immediate_eq lz s k v hset
    generalize (set lz s k v true).1 = s1 at hw
    obtain ⟨i, cd, cd1, idx1, hi, g1, g2, g3, g4, g5, -, -, -, g9, g10, g11⟩ :=
      writeImmediate_slots lz s s1 k _ hw
    rw [hidx] at g4
    simp only [JSON.setProp, Except.ok.injEq] at g4
    subst g4
    have hidx1 : getIndex s1 = .obj (JSON.upsert k (.str (chunkKeyOf i)) idx) :=
      getIndex_of_slot s1 _ g9
    constructor
    · intro k2 hk2
      apply get_sound_frame lz s s1 k2 idx _ hidx hsound hidx1
        (JSON.lookup_upsert_ne _ _ _ _ hk2)
      intro j ms hr
      by_cases hj : j = i
      · subst hj
        have hp : present (getItem s.ls (chunkKeyOf j)) = true := by
          by_contra hnp
          simp only [readChunk, hnp] at hr
          cases hr
        rw [loadChunk_eq, if_pos hp, hr] at g2
        cases g2
        simp only [JSON.setProp, Except.ok.injEq] at g3
        subst g3
        refine ⟨_, readChunk_of_slot lz hz s1 _ _ (by rw [g10, g5]), ?_⟩
        exact JSON.lookup_upsert_ne _ _ _ _ hk2
      · refine ⟨ms, ?_, rfl⟩
        have hne : chunkKeyOf j ≠ chunkKeyOf i := fun e => hj (chunkKeyOf_injective _ _ e)
        rw [readChunk_congr lz s s1 _ (g11 _ hne (chunkKeyOf_ne_indexKey j)
          (chunkKeyOf_ne_metaKey j)) g5]
        exact hr
    · simp only [keys, hidx1, JSON.objectKeys, map_fst_upsert]
  · intro hdel
    cases hk : JSON.lookup k idx with
    | none =>
      have hd : delete lz s k = (s, true) := by
        simp [delete, hidx, JSON.getProp, hk, JSON.truthyOpt]
      rw [hd]
      refine ⟨fun _ _ => rfl, ?_⟩
      simp only [keys, hidx, JSON.objectKeys, Except.ok.injEq]
      symm
      rw [List.filter_eq_self]
      intro a ha
      have : a ≠ k := by
        rintro rfl
        obtain ⟨w, hw⟩ := (JSON.mem_keys_iff _ _).1 ha
        rw [hk] at hw
        cases hw
      simpa using this
    | some cv =>
      obtain ⟨i, ms, rfl, hp, hr, -⟩ := hsound k cv hk
      rw [delete_sound_eq lz s k idx ms i hidx hk hp hr]
      have hidx1 : getIndex (setIndex { s with
          ls := setItem s.ls (chunkKeyOf i)
            (encode lz s.compressionEnabled (JSON.stringify (.obj (JSON.erase k ms)))) }
          (.obj (JSON.erase k idx))) = .obj (JSON.erase k idx) :=
        getIndex_of_slot _ _ (by simp only [setIndex]; exact getItem_setItem_same _ _ _)
      constructor
      · intro k2 hk2
        apply get_sound_frame lz s _ k2 idx _ hidx hsound hidx1
          (JSON.lookup_erase_ne _ _ _ hk2)
        intro j ms2 hr2
        by_cases hj : j = i
        · subst hj
          rw [hr] at hr2
          cases hr2
          refine ⟨_, readChunk_of_slot lz hz _ _ _ ?_, JSON.lookup_erase_ne _ _ _ hk2⟩
          simp only [setIndex]
          rw [getItem_setItem_ne _ _ _ _ (chunkKeyOf_ne_indexKey j), getItem_setItem_same]
        · refine ⟨ms2, ?_, rfl⟩
          have hne : chunkKeyOf j ≠ chunkKeyOf i := fun e => hj (chunkKeyOf_injective _ _ e)
          refine (readChunk_congr lz s _ (chunkKeyOf j) ?_ ?_).trans hr2
          · simp only [setIndex]
            rw [getItem_setItem_ne _ _ _ _ (chunkKeyOf_ne_indexKey j),
              getItem_setItem_ne _ _ _ _ hne]
          · rfl
      · simp only [keys, hidx1, JSON.objectKeys, map_fst_erase]

/-- Witness of C29: on a store holding `a` and `b`, a write to `a` and a delete of `a`
leave `b` as it was. -/
theorem write_frame_witness :
    Lawful (some markCodec) ∧
    keys (run (some markCodec) (freshStore 0) [.set "a" (.num 1) true, .set "b" (.num 2) true]) =
      .ok ["a", "b"] ∧
    get (some markCodec) (set (some markCodec) (run (some markCodec) (freshStore 0)
      [.set "a" (.num 1) true, .set "b" (.num 2) true]) "a" (.num 3) true).1 "b" =
      get (some markCodec) (run (some markCodec) (freshStore 0)
        [.set "a" (.num 1) true, .set "b" (.num 2) true]) "b" ∧
    keys (delete (some markCodec) (run (some markCodec) (freshStore 0)
      [.set "a" (.num 1) true, .set "b" (.num 2) true]) "a").1 =
      .ok (["a", "b"].filter (fun x => x ≠ "a")) := by
  have hI := inv_run (fun _ => True) (some markCodec) markCodec_lawful
    [.set "a" (.num 1) true, .set "b" (.num 2) true] _ (inv_freshStore _ _ 0)
    (fun _ _ _ _ => trivial)
  have hS : IndexSound (some markCodec) (run (some markCodec) (freshStore 0)
      [.set "a" (.num 1) true, .set "b" (.num 2) true]) := by
    obtain ⟨idx, hidx⟩ := hI.index
    refine ⟨idx, hidx, ?_⟩
    intro k cv hl
    obtain ⟨i, rfl, hp, hm⟩ := hI.sound idx k cv hidx hl
    refine ⟨i, _, rfl, hp, (hI.chunks i hp).1, ?_⟩
    rw [JSON.mem_keys_iff]
    exact Option.isSome_iff_exists.1 hm
  have hks : keys (run (some markCodec) (freshStore 0)
      [.set "a" (.num 1) true, .set "b" (.num 2) true]) = .ok ["a", "b"] := rfl
  have h := write_frame (some markCodec) markCodec_lawful _ hS "a" ["a", "b"] hks
  exact ⟨markCodec_lawful, hks, (h.1 (.num 3) (by decide)).1 "b" (by decide),
    (h.2 (by decide)).2⟩

end StorageManager

namespace StorageManager

/-! ## Claims C21 and C26: what a flush writes, and pending writes after immediate calls -/

theorem processGroupsLog_ok (lz : Option Codec) (gs : List WriteGroup) :
    ∀ (s : Store) (idx : JSON) (r : Store × JSON), processGroups lz gs s idx = .ok r →
      processGroupsLog lz gs s idx = gs.map Prod.fst := by
  induction gs with
  | nil => intro s idx r _; rfl
  | cons g gs ih =>
    intro s idx r h
    obtain ⟨c, ws⟩ := g
    simp only [processGroups] at h
    simp only [processGroupsLog]
    cases hl : loadChunk lz s c with
    | error e => rw [hl] at h; cases h
    | ok cd =>
      rw [hl] at h
      simp only at h ⊢
      cases ha : applyWrites c ws cd idx with
      | error e => rw [ha] at h; cases h
      | ok p =>
        obtain ⟨cd1, idx1⟩ := p
        rw [ha] at h
        simp only at h ⊢
        rw [ih _ _ r h]
        rfl

/-- A flush of a non-empty queue that completes writes each chunk that has a group once,
in the order of the groups, then the index once, then the metadata once. -/
theorem flushLog_ok (lz : Option Codec) (s s1 : Store) (hq : s.writeQueue ≠ [])
    (h : flushWriteQueue lz s = .ok s1) :
    ∃ gs, groupWrites { s with writeQueue := [] } s.writeQueue [] = .ok gs ∧
      (gs.map Prod.fst).Nodup ∧ flushLog lz s = gs.map Prod.fst ++ [indexKey, metaKey] := by
  obtain ⟨w, ws, hws⟩ := List.exists_cons_of_ne_nil hq
  simp only [flushWriteQueue, hws] at h
  simp only [flushLog, hws]
  cases hg : groupWrites { s with writeQueue := [] } (w :: ws) [] with
  | error e => rw [hg] at h; cases h
  | ok gs =>
    rw [hg] at h
    simp only at h ⊢
    have hnd : (gs.map Prod.fst).Nodup :=
      (groupWrites_ok _ _ [] gs hg).1 (by simp)
    refine ⟨gs, rfl, hnd, ?_⟩
    cases hp : processGroups lz gs { s with writeQueue := [] }
        (getIndex { s with writeQueue := [] }) with
    | error e => rw [hp] at h; cases h
    | ok r =>
      obtain ⟨s2, idx1⟩ := r
      rw [hp] at h
      simp only at h ⊢
      rw [processGroupsLog_ok lz gs _ _ _ hp]
      cases hm : JSON.setProp (clearWAL (setIndex s2 idx1)).meta "updated"
          (some (.num (clearWAL (setIndex s2 idx1)).now)) with
      | error e => rw [hm] at h; cases h
      | ok m1 => rfl

/-- The store after one immediate write and three queued writes to `x`, the second of
them a string of `n` letters: it is well formed, the index holds `a` only, the short
values are placed in the first chunk and the long one in the second, and the flush
completes with these two groups. -/
theorem three_writes (n : Nat) (hn : 499985 ≤ n) :
    Inv (fun _ => True) none (run none (freshStore 0)
      [.set "a" (.num 1) true, .set "x" (.str "v1") false, .set "x" (.str (bigText n)) false,
        .set "x" (.str "v2") false]) ∧
    getIndex (run none (freshStore 0)
      [.set "a" (.num 1) true, .set "x" (.str "v1") false, .set "x" (.str (bigText n)) false,
        .set "x" (.str "v2") false]) = .obj [("a", .str (chunkKeyOf 0))] ∧
    (∃ s1, flushWriteQueue none (run none (freshStore 0)
      [.set "a" (.num 1) true, .set "x" (.str "v1") false, .set "x" (.str (bigText n)) false,
        .set "x" (.str "v2") false]) = .ok s1) ∧
    groupWrites { run none (freshStore 0)
      [.set "a" (.num 1) true, .set "x" (.str "v1") false, .set "x" (.str (bigText n)) false,
        .set "x" (.str "v2") false] with writeQueue := [] }
      (run none (freshStore 0)
        [.set "a" (.num 1) true, .set "x" (.str "v1") false, .set "x" (.str (bigText n)) false,
          .set "x" (.str "v2") false]).writeQueue [] =
      .ok [(chunkKeyOf 0, [("x", .str "v1"), ("x", .str "v2")]),
        (chunkKeyOf 1, [("x", .str (bigText n))])] := by
  have hI := inv_run (fun _ => True) none none_lawful
    [.set "a" (.num 1) true, .set "x" (.str "v1") false, .set "x" (.str (bigText n)) false,
      .set "x" (.str "v2") false] _ (inv_freshStore _ none 0) (fun _ _ _ _ => trivial)
  obtain ⟨sq, hsq⟩ : ∃ sq, sq = run none (freshStore 0)
      [.set "a" (.num 1) true, .set "x" (.str "v1") false, .set "x" (.str (bigText n)) false,
        .set "x" (.str "v2") false] := ⟨_, rfl⟩
  rw [← hsq] at hI ⊢
  have hqueue : sq.writeQueue =
      [⟨"x", .str "v1", 0⟩, ⟨"x", .str (bigText n), 0⟩, ⟨"x", .str "v2", 0⟩] := by
    rw [hsq]; rfl
  have hslot0 : getItem sq.ls (chunkKeyOf 0) = some (JSON.stringify (.obj [("a", .num 1)])) := by
    rw [hsq]; rfl
  have hslot1 : getItem sq.ls (chunkKeyOf 1) = none := by rw [hsq]; rfl
  have hidx : getIndex sq = .obj [("a", .str (chunkKeyOf 0))] := by rw [hsq]; rfl
  have habs1 : present (getItem sq.ls (chunkKeyOf 1)) = false := by rw [hslot1]; rfl
  have hlen0 : jsLength (JSON.stringify (.obj [("a", .num 1)])) = 7 := by decide
  have hshort : ∀ v, jsLength (entryText "x" (some (.str v))) < 499993 →
      findOrCreateChunk sq "x" (some (.str v)) = .ok (chunkKeyOf 0) := by
    intro v hv
    apply findOrCreateChunk_of_fits sq _ _ 0 (by omega) _ (fun j hj => by omega)
    rw [chunkFits_of_slot _ _ _ _ hslot0 (stringify_ne_empty _), hlen0]
    simp [chunkSize]; omega
  have hf1 := hshort "v1" (by decide)
  have hf3 := hshort "v2" (by decide)
  have hf2 : findOrCreateChunk sq "x" (some (.str (bigText n))) = .ok (chunkKeyOf 1) := by
    apply findOrCreateChunk_of_fits sq _ _ 1 (by omega) (chunkFits_of_absent _ _ _ habs1)
    intro j hj
    have : j = 0 := by omega
    subst this
    have hx : jsLength (String.mk (JSON.renderStr "x")) = 3 := by decide
    rw [chunkFits_of_slot _ _ _ _ hslot0 (stringify_ne_empty _), hlen0, entryText,
      jsLength_entry_bigText, hx]
    simp [chunkSize]; omega
  have hqne : sq.writeQueue ≠ [] := by rw [hqueue]; simp
  have h01 : chunkKeyOf 0 ≠ chunkKeyOf 1 := by decide
  have hgs : groupWrites { sq with writeQueue := [] } sq.writeQueue [] =
      .ok [(chunkKeyOf 0, [("x", .str "v1"), ("x", .str "v2")]),
        (chunkKeyOf 1, [("x", .str (bigText n))])] := by
    rw [hqueue]
    have e : ∀ k v, findOrCreateChunk { sq with writeQueue := [] } k v =
        findOrCreateChunk sq k v := fun k v => findOrCreateChunk_ls sq _ k v rfl
    simp only [groupWrites, e, hf1, hf2, hf3, addToGroup,
      if_true, h01, if_false, Ne.symm h01, List.nil_append, List.cons_append]
  refine ⟨hI, hidx, ?_, hgs⟩
  rcases inv_flush _ none none_lawful sq hI _ hidx with ⟨h, -⟩ | ⟨-, -, w, hw, hwe⟩ |
    ⟨s1, gs, -, hfl, -⟩
  · exact absurd h hqne
  · rw [hqueue] at hw
    simp at hw
    rcases hw with rfl | rfl | rfl
    · rw [hf1] at hwe; cases hwe
    · rw [hf2] at hwe; cases hwe
    · rw [hf3] at hwe; cases hwe
  · exact ⟨s1, hfl⟩

/-- Claim C21, at the failing input: three queued writes, all to the key `x`, are flushed
on a store whose first chunk exists. The flush writes two chunks, `vl_data_0` and
`vl_data_1`, then the index and the metadata: two chunk writes for one key. -/
theorem flush_writes_two_chunks :
    (∀ w ∈ (run none (freshStore 0)
      [.set "a" (.num 1) true, .set "x" (.str "v1") false,
        .set "x" (.str (bigText 500000)) false, .set "x" (.str "v2") false]).writeQueue,
      w.key = "x") ∧
    flushLog none (run none (freshStore 0)
      [.set "a" (.num 1) true, .set "x" (.str "v1") false,
        .set "x" (.str (bigText 500000)) false, .set "x" (.str "v2") false]) =
      [chunkKeyOf 0, chunkKeyOf 1, indexKey, metaKey] := by
  obtain ⟨-, -, ⟨s1, hfl⟩, hgs⟩ := three_writes 500000 (by omega)
  constructor
  · intro w hw
    have hqueue : (run none (freshStore 0)
        [.set "a" (.num 1) true, .set "x" (.str "v1") false,
          .set "x" (.str (bigText 500000)) false, .set "x" (.str "v2") false]).writeQueue =
        [⟨"x", .str "v1", 0⟩, ⟨"x", .str (bigText 500000), 0⟩, ⟨"x", .str "v2", 0⟩] := rfl
    rw [hqueue] at hw
    simp only [List.mem_cons, List.mem_singleton, List.not_mem_nil, or_false] at hw
    rcases hw with rfl | rfl | rfl <;> rfl
  · have hqne : (run none (freshStore 0)
        [.set "a" (.num 1) true, .set "x" (.str "v1") false,
          .set "x" (.str (bigText 500000)) false, .set "x" (.str "v2") false]).writeQueue ≠
        [] := by
      intro h
      rw [h] at hgs
      simp [groupWrites] at hgs
    obtain ⟨gs, h1, -, h3⟩ := flushLog_ok none _ s1 hqne hfl
    rw [hgs] at h1
    cases h1
    rw [h3]
    rfl

end StorageManager

namespace StorageManager

/-! ## Claim C26: a pending write and later immediate calls -/

/-- On a well-formed store whose queue ends with a write to `k` and holds no other write
to `k`, a flush that completes leaves `k` indexed and readable with the queued value. -/
theorem flush_pending (lz : Option Codec) (hz : Lawful lz) (t s1 : Store)
    (q : List QueuedWrite) (k : String) (v : JSON) (ts : Nat)
    (hI : Inv (fun _ => True) lz t) (hq : t.writeQueue = q ++ [⟨k, v, ts⟩])
    (hno : ∀ w ∈ q, w.key ≠ k) (hflush : flushWriteQueue lz t = .ok s1) :
    get lz s1 k = some v ∧ ∃ ks, keys s1 = .ok ks ∧ k ∈ ks := by
  obtain ⟨idx, hidx⟩ := hI.index
  have hqne : t.writeQueue ≠ [] := by rw [hq]; simp
  rcases inv_flush _ lz hz t hI idx hidx with ⟨h, -⟩ | ⟨-, h, -⟩ |
    ⟨s2, gs, -, hfl, hI1, -, f1, f2, f3, f4, hidx1, hmem, -⟩
  · exact absurd h hqne
  · rw [h] at hflush; cases hflush
  rw [hfl] at hflush
  cases hflush
  obtain ⟨c, hc, hcmem⟩ := f4 ⟨k, v, ts⟩ (by rw [hq]; simp)
  simp only at hc
  obtain ⟨i, -, rfl, -⟩ := f3 _ hcmem
  have hrt : routedTo t (chunkKeyOf i) ⟨k, v, ts⟩ = true := by simp [routedTo, hc]
  have hlw : ∀ c2, lastWrite k (groupOf c2 gs) = if c2 = chunkKeyOf i then some v else none := by
    intro c2
    rw [f2 c2, hq, routed_append]
    have hnone : lastWrite k (routed t c2 q) = none := by
      apply lastWrite_none
      intro p hp
      obtain ⟨w, hw, hwk⟩ := routed_keys t c2 _ p hp
      rw [← hwk]; exact hno w hw
    by_cases h2 : c2 = chunkKeyOf i
    · subst h2
      simp only [hrt, if_true]
      rw [lastWrite_append]; simp
    · have : routedTo t c2 ⟨k, v, ts⟩ = false := by simp [routedTo, hc, Ne.symm h2]
      simp [this, hnone, h2]
  have hlg : lastGroup k gs = some (chunkKeyOf i) := by
    cases hl : lastGroup k gs with
    | none =>
      have := lastGroup_none k gs f1 hl (chunkKeyOf i)
      rw [hlw] at this; simp at this
    | some r =>
      obtain ⟨-, h2⟩ := lastGroup_some k r gs f1 hl
      rw [hlw] at h2
      by_cases hr : r = chunkKeyOf i
      · rw [hr]
      · simp [hr] at h2
  have hlk : JSON.lookup k (indexGroups gs idx) = some (.str (chunkKeyOf i)) := by
    rw [lookup_indexGroups, hlg]
  constructor
  · rw [get_of_inv _ lz s1 hI1 _ hidx1, hlk]
    simp only
    rw [(hmem i hcmem).2, lookup_applyAll, hlw, if_pos rfl]
  · refine ⟨(indexGroups gs idx).map Prod.fst, by simp only [keys, hidx1, JSON.objectKeys], ?_⟩
    rw [JSON.mem_keys_iff]
    exact ⟨_, hlk⟩

/-- Claim C26 (amended): on a well-formed store whose queue holds no write to `k`, for a
key `k` other than `__proto__`, after a queued `set(k, v1)` followed by `set(k, v2, true)`
or by `delete(k)`, a flush that completes leaves `k` in `keys()` and `get(k)` returns
`v1`. -/
theorem pending_write_survives (lz : Option Codec) (hz : Lawful lz) (s : Store)
    (hI : Inv (fun _ => True) lz s) (k : String) (v1 v2 : JSON) (hk : k ≠ "__proto__")
    (hno : ∀ w ∈ s.writeQueue, w.key ≠ k) :
    (∀ s1, flushWriteQueue lz (set lz (set lz s k v1 false).1 k v2 true).1 = .ok s1 →
      get lz s1 k = some v1 ∧ ∃ ks, keys s1 = .ok ks ∧ k ∈ ks) ∧
    (∀ s1, flushWriteQueue lz (delete lz (set lz s k v1 false).1 k).1 = .ok s1 →
      get lz s1 k = some v1 ∧ ∃ ks, keys s1 = .ok ks ∧ k ∈ ks) := by
  obtain ⟨q1, -⟩ := set_queued_effect lz s k v1
  have hIq : Inv (fun _ => True) lz (set lz s k v1 false).1 :=
    inv_step _ lz hz s hI (.set k v1 false) (fun _ _ _ _ => trivial)
  generalize (set lz s k v1 false).1 = sq at q1 hIq
  obtain ⟨idx, hidx⟩ := hIq.index
  constructor
  · intro s1 hf
    have hIt : Inv (fun _ => True) lz (set lz sq k v2 true).1 :=
      inv_step _ lz hz sq hIq (.set k v2 true) (fun _ _ _ _ => trivial)
    have hqt : (set lz sq k v2 true).1.writeQueue = s.writeQueue ++ [⟨k, v1, s.now⟩] := by
      simp only [set, if_true]
      rcases inv_writeImmediate _ lz hz sq hIq k v2 trivial idx hidx with ⟨-, h⟩ |
        ⟨s2, i, -, -, h, -, -, -, -, -, -, -, w2, -⟩
      · rw [h]; exact q1
      · rw [h]; exact w2.trans q1
    exact flush_pending lz hz _ s1 _ k v1 s.now hIt hqt hno hf
  · intro s1 hf
    obtain ⟨-, hIt, -, -, -, d6, -⟩ := inv_delete _ lz hz sq hIq k idx hidx
    exact flush_pending lz hz _ s1 _ k v1 s.now hIt (d6.trans q1) hno hf

/-- Witness of C26 (amended): on a fresh store a queued write of 1 under `k`, an immediate
write of 2, and a flush leave 1. -/
theorem pending_write_survives_witness :
    Lawful (some markCodec) ∧ "k" ≠ "__proto__" ∧
    (∀ w ∈ (freshStore 0).writeQueue, w.key ≠ "k") ∧
    flushWriteQueue (some markCodec)
      (set (some markCodec) (set (some markCodec) (freshStore 0) "k" (.num 1) false).1
        "k" (.num 2) true).1 =
      .ok (afterFlush (some markCodec)
        (set (some markCodec) (set (some markCodec) (freshStore 0) "k" (.num 1) false).1
          "k" (.num 2) true).1) ∧
    get (some markCodec) (afterFlush (some markCodec)
      (set (some markCodec) (set (some markCodec) (freshStore 0) "k" (.num 1) false).1
        "k" (.num 2) true).1) "k" = some (.num 1) :=
  ⟨markCodec_lawful, (by decide), (fun w hw => by simp [freshStore] at hw), by rfl,
    ((pending_write_survives (some markCodec) markCodec_lawful (freshStore 0)
      (inv_freshStore _ _ 0) "k" (.num 1) (.num 2) (by decide)
      (fun w hw => by simp [freshStore] at hw)).1 _ (by rfl)).1⟩

/-- Counterexample to C26 as stated: the store already holds two pending writes to `x`,
a short one and one of 500000 letters. After a queued `set("x", "v2")`, `delete("x")` and
the flush, `get("x")` returns the long value, not `"v2"`. -/
theorem pending_write_survives_refuted :
    ¬ (∀ (lz : Option Codec), Lawful lz → ∀ (s : Store) (k : String) (v1 : JSON),
      get lz (afterFlush lz (delete lz (set lz s k v1 false).1 k).1) k = some v1) := by
  intro h
  have h1 := h none none_lawful (run none (freshStore 0)
    [.set "a" (.num 1) true, .set "x" (.str "v1") false,
      .set "x" (.str (bigText 500000)) false]) "x" (.str "v2")
  have hrun : (set none (run none (freshStore 0)
      [.set "a" (.num 1) true, .set "x" (.str "v1") false,
        .set "x" (.str (bigText 500000)) false]) "x" (.str "v2") false).1 =
      run none (freshStore 0)
        [.set "a" (.num 1) true, .set "x" (.str "v1") false,
          .set "x" (.str (bigText 500000)) false, .set "x" (.str "v2") false] := rfl
  rw [hrun] at h1
  obtain ⟨-, hidx, -, -⟩ := three_writes 500000 (by omega)
  have hdel : delete none (run none (freshStore 0)
      [.set "a" (.num 1) true, .set "x" (.str "v1") false,
        .set "x" (.str (bigText 500000)) false, .set "x" (.str "v2") false]) "x" =
      (run none (freshStore 0)
        [.set "a" (.num 1) true, .set "x" (.str "v1") false,
          .set "x" (.str (bigText 500000)) false, .set "x" (.str "v2") false], true) := by
    simp [delete, hidx, JSON.getProp, JSON.lookup, JSON.truthyOpt]
  rw [hdel, flush_keeps_middle_write 500000 (by omega)] at h1
  have h2 := congrArg (fun o => match o with | some (JSON.str t) => jsLength t | _ => 0) h1
  simp only [bigText, jsLength_replicate] at h2
  revert h2
  decide

end StorageManager

namespace StorageManager

/-! ## Claim C27: recovery and flush -/

theorem lastWrite_ne_of_none (k : String) (ws : List (String × JSON))
    (h : lastWrite k ws = none) : ∀ p ∈ ws, p.1 ≠ k := by
  intro p hp hk
  obtain ⟨v, hv⟩ := lastWrite_of_mem k ws (List.mem_map.2 ⟨p, hp, hk⟩)
  rw [h] at hv
  cases hv

theorem routed_cons (t : Store) (c : String) (w : QueuedWrite) (q : List QueuedWrite) :
    routed t c (w :: q) =
      (if routedTo t c w = true then [(w.key, w.value)] else []) ++ routed t c q := by
  unfold routed
  by_cases h : routedTo t c w = true
  · simp [List.filter_cons, h]
  · simp [List.filter_cons, h]

/-- When all queued writes to `k` are placed in the chunk `c0`, the last write to `k`
among the writes placed in a chunk is the last queued write to `k` for `c0`, and there is
none for any other chunk. -/
theorem lastWrite_routed (t : Store) (c0 k : String) (q : List QueuedWrite)
    (h : ∀ w ∈ q, w.key = k → findOrCreateChunk t w.key (some w.value) = .ok c0) (c : String) :
    lastWrite k (routed t c q) =
      if c = c0 then lastWrite k (q.map (fun w => (w.key, w.value))) else none := by
  induction q with
  | nil => simp [routed, lastWrite]
  | cons w q ih =>
    have ih2 := ih (fun w2 hw2 => h w2 (List.mem_cons_of_mem _ hw2))
    have hw := h w (List.mem_cons_self _ _)
    rw [routed_cons, List.map_cons]
    by_cases hr : routedTo t c w = true
    · rw [if_pos hr, List.singleton_append, lastWrite, lastWrite, ih2]
      by_cases hc : c = c0
      · simp only [if_pos hc]
      · simp only [if_neg hc]
        have hk : w.key ≠ k := by
          intro hk
          have h1 := hw hk
          simp only [routedTo, h1, decide_eq_true_eq] at hr
          exact hc hr.symm
        simp [hk]
    · rw [if_neg hr, List.nil_append, ih2, lastWrite]
      by_cases hc : c = c0
      · simp only [if_pos hc]
        cases hl : lastWrite k (q.map (fun w => (w.key, w.value))) with
        | some r => rfl
        | none =>
          simp only
          have hk : w.key ≠ k := by
            intro hk
            have h1 := hw hk
            apply hr
            simp [routedTo, h1, hc]
          simp [hk]
      · simp only [if_neg hc]

/-- What can be read after a flush that completes on a well-formed store in which all
queued writes to one key are placed in the same chunk: every queued key reads as its last
queued value, every other key reads as before, and the indexed keys are those indexed
before together with the queued ones. -/
theorem flush_reads (lz : Option Codec) (hz : Lawful lz) (t sF : Store)
    (hI : Inv (fun _ => True) lz t) (hroute : SameRoute t)
    (hF : flushWriteQueue lz t = .ok sF) (idx : List (String × JSON))
    (hidx : getIndex t = .obj idx) :
    (∀ k, get lz sF k =
      match lastWrite k (t.writeQueue.map (fun w => (w.key, w.value))) with
      | some v => some v
      | none => get lz t k) ∧
    ∃ idxF, getIndex sF = .obj idxF ∧
      ∀ k, k ∈ idxF.map Prod.fst ↔
        (k ∈ idx.map Prod.fst ∨ k ∈ (t.writeQueue.map (fun w => (w.key, w.value))).map Prod.fst) := by
  rcases inv_flush _ lz hz t hI idx hidx with ⟨hq, h⟩ | ⟨-, h, -⟩ |
    ⟨s2, gs, hqne, hfl, hI1, -, f1, f2, f3, f4, hidx1, hmem, hoth, -, -, -, hce, -⟩
  · rw [h] at hF
    cases hF
    rw [hq]
    exact ⟨fun k => rfl, idx, hidx, fun k => by simp⟩
  · rw [h] at hF; cases hF
  rw [hfl] at hF
  cases hF
  -- the last write to a key within each group
  have hgroup : ∀ k, (lastWrite k (t.writeQueue.map (fun w => (w.key, w.value))) = none ∧
        lastGroup k gs = none ∧ ∀ c, lastWrite k (groupOf c gs) = none) ∨
      ∃ v i, lastWrite k (t.writeQueue.map (fun w => (w.key, w.value))) = some v ∧
        chunkKeyOf i ∈ gs.map Prod.fst ∧ lastGroup k gs = some (chunkKeyOf i) ∧
        lastWrite k (groupOf (chunkKeyOf i) gs) = some v := by
    intro k
    cases hl : lastWrite k (t.writeQueue.map (fun w => (w.key, w.value))) with
    | none =>
      left
      have hnone : ∀ c, lastWrite k (groupOf c gs) = none := by
        intro c
        rw [f2 c]
        apply lastWrite_none
        intro p hp
        obtain ⟨w, hw, hwk⟩ := routed_keys t c _ p hp
        rw [← hwk]
        exact lastWrite_ne_of_none k _ hl (w.key, w.value) (List.mem_map.2 ⟨w, hw, rfl⟩)
      refine ⟨rfl, ?_, hnone⟩
      cases hlg : lastGroup k gs with
      | none => rfl
      | some r =>
        obtain ⟨-, h2⟩ := lastGroup_some k r gs f1 hlg
        rw [hnone] at h2
        cases h2
    | some v =>
      right
      have hmemq := lastWrite_mem k v _ hl
      obtain ⟨w0, hw0, hw0e⟩ := List.mem_map.1 hmemq
      have hk0 : w0.key = k := by
        have := congrArg Prod.fst hw0e
        exact this
      obtain ⟨c, hc, hcmem⟩ := f4 w0 hw0
      obtain ⟨i, -, rfl, -⟩ := f3 _ hcmem
      have hall : ∀ w ∈ t.writeQueue, w.key = k →
          findOrCreateChunk t w.key (some w.value) = .ok (chunkKeyOf i) := by
        intro w hw hwk
        rw [hroute w hw w0 hw0 (hwk.trans hk0.symm)]
        exact hc
      have hlw : ∀ c2, lastWrite k (groupOf c2 gs) =
          if c2 = chunkKeyOf i then some v else none := by
        intro c2
        rw [f2 c2, lastWrite_routed t (chunkKeyOf i) k _ hall c2, hl]
      refine ⟨v, i, rfl, hcmem, ?_, by rw [hlw, if_pos rfl]⟩
      cases hlg : lastGroup k gs with
      | none =>
        have := lastGroup_none k gs f1 hlg (chunkKeyOf i)
        rw [hlw, if_pos rfl] at this
        cases this
      | some r =>
        obtain ⟨-, h2⟩ := lastGroup_some k r gs f1 hlg
        rw [hlw] at h2
        by_cases hr : r = chunkKeyOf i
        · rw [hr]
        · simp [hr] at h2
  constructor
  · intro k
    rw [get_of_inv _ lz sF hI1 _ hidx1, lookup_indexGroups]
    rcases hgroup k with ⟨h1, h2, h3⟩ | ⟨v, i, h1, h2, h3, h4⟩
    · rw [h1, h2, get_of_inv _ lz t hI idx hidx]
      simp only
      cases hk : JSON.lookup k idx with
      | none => rfl
      | some cv =>
        obtain ⟨j, rfl, -, -⟩ := hI.sound idx k cv hidx hk
        simp only
        by_cases hj : chunkKeyOf j ∈ gs.map Prod.fst
        · rw [(hmem j hj).2, lookup_applyAll, h3]
        · rw [membersOf_congr lz t sF _ (hoth j hj) hce]
    · rw [h1, h3]
      simp only
      rw [(hmem i h2).2, lookup_applyAll, h4]
  · refine ⟨_, hidx1, ?_⟩
    intro k
    rw [JSON.mem_keys_iff, JSON.mem_keys_iff, lookup_indexGroups]
    rcases hgroup k with ⟨h1, h2, -⟩ | ⟨v, i, h1, -, h3, -⟩
    · rw [h2]
      simp only
      constructor
      · intro h; exact Or.inl h
      · rintro (h | h)
        · exact h
        · obtain ⟨p, hp, hpk⟩ := List.mem_map.1 h
          exact absurd hpk (lastWrite_ne_of_none k _ h1 p hp)
    · rw [h3]
      simp only
      constructor
      · intro _
        right
        exact List.mem_map.2 ⟨(k, v), lastWrite_mem k v _ h1, rfl⟩
      · intro _
        exact ⟨_, rfl⟩

/-- The index after a replay of log records: the keys indexed before and the replayed
keys. -/
theorem replayOps_index (lz : Option Codec) (hz : Lawful lz) (ws : List (String × JSON)) :
    ∀ s s1, Inv (fun _ => True) lz s →
      replayOps lz (ws.map (fun w => walOp w.1 w.2)) s = .ok s1 →
      ∀ idx, getIndex s = .obj idx →
        ∃ idx1, getIndex s1 = .obj idx1 ∧
          ∀ k, k ∈ idx1.map Prod.fst ↔ (k ∈ idx.map Prod.fst ∨ k ∈ ws.map Prod.fst) := by
  induction ws with
  | nil =>
    intro s s1 _ h idx hidx
    simp only [List.map_nil, replayOps, Except.ok.injEq] at h
    subst h
    exact ⟨idx, hidx, fun k => by simp⟩
  | cons w ws ih =>
    intro s s1 hI h idx hidx
    obtain ⟨k0, v0⟩ := w
    rcases inv_writeImmediate _ lz hz s hI k0 v0 trivial idx hidx with ⟨-, he⟩ |
      ⟨s2, i, -, -, hw, hI2, hidx2, -⟩
    · exfalso
      rw [List.map_cons] at h
      simp [replayOps, walOp, JSON.getProp, JSON.lookup, JSON.toStrOpt, JSON.toStr, he] at h
    · rw [List.map_cons, replayOps_set lz s s2 k0 v0 _ hw] at h
      obtain ⟨idx1, h1, h2⟩ := ih s2 s1 hI2 h _ hidx2
      refine ⟨idx1, h1, ?_⟩
      intro k
      rw [h2 k, map_fst_upsert]
      simp only [List.map_cons, List.mem_cons]
      by_cases hm : k0 ∈ idx.map Prod.fst
      · rw [if_pos hm]
        constructor
        · rintro (h | h)
          · exact Or.inl h
          · exact Or.inr (Or.inr h)
        · rintro (h | h | h)
          · exact Or.inl h
          · subst h; exact Or.inl hm
          · exact Or.inr h
      · rw [if_neg hm, List.mem_append, List.mem_singleton]
        constructor
        · rintro ((h | h) | h)
          · exact Or.inl h
          · exact Or.inr (Or.inl h)
          · exact Or.inr (Or.inr h)
        · rintro (h | h | h)
          · exact Or.inl (Or.inl h)
          · exact Or.inl (Or.inr h)
          · exact Or.inr h

/-- A construction over the storage of a well-formed store in which the log mirrors the
queue: it completes, and its result reads as the result of replaying the log records on a
well-formed store that reads as the given one. -/
theorem construct_replay (lz : Option Codec) (hz : Lawful lz) (s : Store)
    (hI : Inv (fun _ => True) lz s) (hce : s.compressionEnabled = true)
    (hslot : getItem s.ls walKey =
      if s.writeQueue = [] then none else some (JSON.stringify (.arr (walOps s.writeQueue))))
    (hmeta : MetaSlotOk s.ls) (hfree : usedSlots s.ls + s.writeQueue.length ≤ 100)
    (now : Nat) :
    ∃ s0 s2 sR, construct lz s.ls now = .ok sR ∧ Inv (fun _ => True) lz s0 ∧
      getIndex s0 = getIndex s ∧ (∀ k, get lz s0 k = get lz s k) ∧
      replayOps lz ((s.writeQueue.map (fun w => (w.key, w.value))).map
        (fun w => walOp w.1 w.2)) s0 = .ok s2 ∧
      Inv (fun _ => True) lz s2 ∧ getIndex sR = getIndex s2 ∧
      (∀ k, get lz sR k = get lz s2 k) ∧
      (∀ k, get lz s2 k =
        match lastWrite k (s.writeQueue.map (fun w => (w.key, w.value))) with
        | some v => some v
        | none => get lz s0 k) := by
  obtain ⟨idx, hidx⟩ := hI.index
  obtain ⟨⟨mm, hmm⟩, hlm⟩ := loadMeta_ok s.ls now hmeta
  obtain ⟨s1, hr, hm1, hls1, hce1, hq1, hw1⟩ :=
    runMigrations_obj
      { ls := (loadMeta s.ls now).2, now := now, compressionEnabled := true, writeQueue := [],
        writeTimer := false, meta := (loadMeta s.ls now).1, wal := .arr [] } mm hmm
  have hfr : ∀ key, key ≠ metaKey → getItem s1.ls key = getItem s.ls key := by
    intro key hk
    rw [hls1 key hk]
    exact hlm key hk
  have hces : s1.compressionEnabled = s.compressionEnabled := by rw [hce1, hce]
  have hI1 : Inv (fun _ => True) lz s1 :=
    inv_congr _ lz hz s s1 hI (hfr _ indexKey_ne_metaKey)
      (fun i => hfr _ (chunkKeyOf_ne_metaKey i)) hces hm1 (fun _ _ => trivial)
  have hidxs1 : getIndex s1 = getIndex s := getIndex_congr s s1 (hfr _ indexKey_ne_metaKey)
  have hget1 : ∀ k, get lz s1 k = get lz s k := by
    intro k
    apply get_congr lz s s1 k (hfr _ indexKey_ne_metaKey) hces
    intro c hc
    apply hfr
    rw [hidx] at hc
    simp only [JSON.getProp, Except.ok.injEq] at hc
    cases c with
    | none => decide
    | some cv =>
      obtain ⟨i, rfl, -, -⟩ := hI.sound idx k cv hidx hc
      exact chunkKeyOf_ne_metaKey i
  have hc : construct lz s.ls now = .ok (loadWAL lz s1) := by
    simp only [construct, hr]
  have hwk : getItem s1.ls walKey = getItem s.ls walKey :=
    hfr _ (Ne.symm metaKey_ne_walKey)
  by_cases hq : s.writeQueue = []
  · rw [if_pos hq] at hslot
    have hl : loadWAL lz s1 = s1 := by
      simp only [loadWAL, hwk, hslot]
    rw [hl] at hc
    rw [hq]
    exact ⟨s1, s1, s1, hc, hI1, hidxs1, hget1, rfl, hI1, rfl, fun _ => rfl, fun _ => rfl⟩
  · rw [if_neg hq] at hslot
    obtain ⟨w, q, hwq⟩ := List.exists_cons_of_ne_nil hq
    have hops : walOps s.writeQueue =
        (s.writeQueue.map (fun w => (w.key, w.value))).map (fun w => walOp w.1 w.2) := by
      simp [walOps, List.map_map, Function.comp_def]
    have hI2 : Inv (fun _ => True) lz { s1 with wal := .arr (walOps s.writeQueue) } :=
      inv_congr _ lz hz s1 _ hI1 rfl (fun _ => rfl) rfl hm1 (fun _ _ => trivial)
    have hu : usedSlots s1.ls = usedSlots s.ls :=
      usedSlots_congr _ _ (fun j => hfr _ (chunkKeyOf_ne_metaKey j))
    obtain ⟨s2, hrep, hIs2, hg, hg2⟩ :=
      replayOps_ok lz hz (s.writeQueue.map (fun w => (w.key, w.value)))
        { s1 with wal := .arr (walOps s.writeQueue) } hI2
        (by simp only [List.length_map]; rw [hu]; exact hfree)
    have hrep0 := hrep
    rw [← hops] at hrep
    have hl : loadWAL lz s1 = clearWAL s2 := by
      have hne : JSON.stringify (.arr (walOps s.writeQueue)) ≠ "" := stringify_ne_empty _
      simp only [loadWAL, hwk, hslot, ne_eq, hne, not_false_eq_true, ↓reduceIte,
        JSON.parse_stringify, replayWAL]
      rw [hwq] at hrep ⊢
      simp only [walOps, List.map_cons] at hrep ⊢
      simp only [hrep]
    rw [hl] at hc
    refine ⟨{ s1 with wal := .arr (walOps s.writeQueue) }, s2, clearWAL s2, hc, hI2,
      (getIndex_congr s1 _ rfl).trans hidxs1,
      fun k => (get_congr lz s1 _ k rfl rfl (fun _ _ => rfl)).trans (hget1 k), hrep0, hIs2, ?_,
      fun k => get_clearWAL lz hz s2 hIs2 k, ?_⟩
    · apply getIndex_congr s2 (clearWAL s2)
      simp only [clearWAL]
      rw [getItem_removeItem_ne _ _ _ indexKey_ne_walKey]
    · intro k
      cases hlw : lastWrite k (s.writeQueue.map (fun w => (w.key, w.value))) with
      | some v => exact hg k v hlw
      | none => exact hg2 k hlw

/-- Counterexample to C27 as stated: three writes to `x` are pending, a short one, one of
500000 letters and a short one. The flush leaves `get("x")` at the long value, while the
recovery by a new instance leaves it at the last value. -/
theorem recovery_matches_flush_refuted :
    ¬ (∀ (lz : Option Codec), Lawful lz → ∀ (t sF sR : Store) (now : Nat),
      Inv (fun _ => True) lz t → WalInv t → flushWriteQueue lz t = .ok sF →
      construct lz t.ls now = .ok sR → ∀ k, get lz sR k = get lz sF k) := by
  intro h
  obtain ⟨hI, hidx, ⟨sF, hF⟩, -⟩ := three_writes 500000 (by omega)
  have hquiet : Quiet none (freshStore 0)
      [.set "a" (.num 1) true, .set "x" (.str "v1") false,
        .set "x" (.str (bigText 500000)) false, .set "x" (.str "v2") false] := by
    simp [Quiet]
  have hW := (inv_walInv_run none none_lawful _ (freshStore 0) (inv_freshStore _ _ 0)
    ⟨rfl, by decide⟩ hquiet).2
  have hFget := flush_keeps_middle_write 500000 (by omega)
  obtain ⟨sq, hsq⟩ : ∃ sq, sq = run none (freshStore 0)
      [.set "a" (.num 1) true, .set "x" (.str "v1") false,
        .set "x" (.str (bigText 500000)) false, .set "x" (.str "v2") false] := ⟨_, rfl⟩
  rw [← hsq] at hI hidx hF hW hFget
  have hqueue : sq.writeQueue =
      [⟨"x", .str "v1", 0⟩, ⟨"x", .str (bigText 500000), 0⟩, ⟨"x", .str "v2", 0⟩] := by
    rw [hsq]; rfl
  have hmeta : MetaSlotOk sq.ls :=
    Or.inr ⟨[("version", .str version), ("created", .num 0), ("updated", .num 0),
      ("chunks", .arr [])], by rw [hsq]; rfl⟩
  have hused : usedSlots sq.ls = 1 := by rw [hsq]; rfl
  obtain ⟨sR, hc, hg, -⟩ := construct_recovers none none_lawful sq hI (by rw [hsq]; rfl)
    hW.slot hmeta (by rw [hused, hqueue]; decide) 0
  have hR : get none sR "x" = some (.str "v2") := by
    apply hg
    rw [hqueue]
    simp [lastWrite]
  have hsame := h none none_lawful sq sF sR 0 hI hW hF hc "x"
  have haf : afterFlush none sq = sF := by simp [afterFlush, step, hF]
  rw [haf] at hFget
  rw [hR, hFget] at hsame
  have h2 := congrArg (fun o => match o with | some (JSON.str t) => jsLength t | _ => 0) hsame
  simp only [bigText, jsLength_replicate] at h2
  revert h2
  decide

end StorageManager

namespace StorageManager

/-! ## The order of the keys after a flush and after a recovery -/

/-- The keys of the index after a replay of log records: each replayed key that is not
yet listed is added at the end, in the order of the records. -/
theorem replayOps_keys_order (lz : Option Codec) (hz : Lawful lz) (ws : List (String × JSON)) :
    ∀ s s1, Inv (fun _ => True) lz s →
      replayOps lz (ws.map (fun w => walOp w.1 w.2)) s = .ok s1 →
      ∀ idx, getIndex s = .obj idx →
        ∃ idx1, getIndex s1 = .obj idx1 ∧
          idx1.map Prod.fst =
            ws.foldl (fun ks w => if w.1 ∈ ks then ks else ks ++ [w.1]) (idx.map Prod.fst) := by
  induction ws with
  | nil =>
    intro s s1 _ h idx hidx
    simp only [List.map_nil, replayOps, Except.ok.injEq] at h
    subst h
    exact ⟨idx, hidx, rfl⟩
  | cons w ws ih =>
    intro s s1 hI h idx hidx
    obtain ⟨k0, v0⟩ := w
    rcases inv_writeImmediate _ lz hz s hI k0 v0 trivial idx hidx with ⟨-, he⟩ |
      ⟨s2, i, -, -, hw, hI2, hidx2, -⟩
    · exfalso
      rw [List.map_cons] at h
      simp [replayOps, walOp, JSON.getProp, JSON.lookup, JSON.toStrOpt, JSON.toStr, he] at h
    · rw [List.map_cons, replayOps_set lz s s2 k0 v0 _ hw] at h
      obtain ⟨idx1, h1, h2⟩ := ih s2 s1 hI2 h _ hidx2
      refine ⟨idx1, h1, ?_⟩
      rw [h2, map_fst_upsert, List.foldl_cons]

/-- The store after one immediate write and queued writes to `x`, `y` and `z`, where `x`
and `z` hold `n` letters: the flush lists the keys group by group, the recovery in the
order of the queue. -/
theorem keys_order_differs (n : Nat) (hn : 499985 ≤ n) :
    keys (afterFlush none (run none (freshStore 0)
      [.set "a" (.num 1) true, .set "x" (.str (bigText n)) false, .set "y" (.num 2) false,
        .set "z" (.str (bigText n)) false])) = .ok ["a", "x", "z", "y"] ∧
    ∃ sR, construct none (run none (freshStore 0)
      [.set "a" (.num 1) true, .set "x" (.str (bigText n)) false, .set "y" (.num 2) false,
        .set "z" (.str (bigText n)) false]).ls 0 = .ok sR ∧
      keys sR = .ok ["a", "x", "y", "z"] := by
  have hI := inv_run (fun _ => True) none none_lawful
    [.set "a" (.num 1) true, .set "x" (.str (bigText n)) false, .set "y" (.num 2) false,
      .set "z" (.str (bigText n)) false] _ (inv_freshStore _ none 0) (fun _ _ _ _ => trivial)
  have hquiet : Quiet none (freshStore 0)
      [.set "a" (.num 1) true, .set "x" (.str (bigText n)) false, .set "y" (.num 2) false,
        .set "z" (.str (bigText n)) false] := by
    simp [Quiet]
  have hW := (inv_walInv_run none none_lawful _ (freshStore 0) (inv_freshStore _ _ 0)
    ⟨rfl, by decide⟩ hquiet).2
  obtain ⟨sq, hsq⟩ : ∃ sq, sq = run none (freshStore 0)
      [.set "a" (.num 1) true, .set "x" (.str (bigText n)) false, .set "y" (.num 2) false,
        .set "z" (.str (bigText n)) false] := ⟨_, rfl⟩
  rw [← hsq] at hI hW ⊢
  have hqueue : sq.writeQueue =
      [⟨"x", .str (bigText n), 0⟩, ⟨"y", .num 2, 0⟩, ⟨"z", .str (bigText n), 0⟩] := by
    rw [hsq]; rfl
  have hslot0 : getItem sq.ls (chunkKeyOf 0) = some (JSON.stringify (.obj [("a", .num 1)])) := by
    rw [hsq]; rfl
  have hslot1 : getItem sq.ls (chunkKeyOf 1) = none := by rw [hsq]; rfl
  have hidx : getIndex sq = .obj [("a", .str (chunkKeyOf 0))] := by rw [hsq]; rfl
  have habs1 : present (getItem sq.ls (chunkKeyOf 1)) = false := by rw [hslot1]; rfl
  have hlen0 : jsLength (JSON.stringify (.obj [("a", .num 1)])) = 7 := by decide
  have hfy : findOrCreateChunk sq "y" (some (.num 2)) = .ok (chunkKeyOf 0) := by
    apply findOrCreateChunk_of_fits sq _ _ 0 (by omega) _ (fun j hj => by omega)
    rw [chunkFits_of_slot _ _ _ _ hslot0 (stringify_ne_empty _), hlen0]
    decide
  have hbig : ∀ k, jsLength (String.mk (JSON.renderStr k)) = 3 →
      findOrCreateChunk sq k (some (.str (bigText n))) = .ok (chunkKeyOf 1) := by
    intro k hk
    apply findOrCreateChunk_of_fits sq _ _ 1 (by omega) (chunkFits_of_absent _ _ _ habs1)
    intro j hj
    have : j = 0 := by omega
    subst this
    rw [chunkFits_of_slot _ _ _ _ hslot0 (stringify_ne_empty _), hlen0, entryText,
      jsLength_entry_bigText, hk]
    simp [chunkSize]; omega
  have hfx := hbig "x" (by decide)
  have hfz := hbig "z" (by decide)
  have hqne : sq.writeQueue ≠ [] := by rw [hqueue]; simp
  have h01 : chunkKeyOf 0 ≠ chunkKeyOf 1 := by decide
  constructor
  · rcases inv_flush _ none none_lawful sq hI _ hidx with ⟨h, -⟩ | ⟨-, -, w, hw, hwe⟩ |
      ⟨s1, gs, -, hfl, -, hgw, -, -, -, -, hidx1, -⟩
    · exact absurd h hqne
    · rw [hqueue] at hw
      simp at hw
      rcases hw with rfl | rfl | rfl
      · rw [hfx] at hwe; cases hwe
      · rw [hfy] at hwe; cases hwe
      · rw [hfz] at hwe; cases hwe
    · have hgs : gs = [(chunkKeyOf 1, [("x", .str (bigText n)), ("z", .str (bigText n))]),
          (chunkKeyOf 0, [("y", .num 2)])] := by
        rw [hqueue] at hgw
        have e : ∀ k v, findOrCreateChunk { sq with writeQueue := [] } k v =
            findOrCreateChunk sq k v := fun k v => findOrCreateChunk_ls sq _ k v rfl
        simp only [groupWrites, e, hfx, hfy, hfz, addToGroup,
          if_true, h01, if_false, Ne.symm h01, List.nil_append, List.cons_append,
          Except.ok.injEq] at hgw
        exact hgw.symm
      have haf : afterFlush none sq = s1 := by simp [afterFlush, step, hfl]
      rw [haf]
      simp only [keys, hidx1, hgs, JSON.objectKeys]
      simp [indexGroups, indexGroup, JSON.upsert]
  · have hmeta : MetaSlotOk sq.ls :=
      Or.inr ⟨[("version", .str version), ("created", .num 0), ("updated", .num 0),
        ("chunks", .arr [])], by rw [hsq]; rfl⟩
    have hused : usedSlots sq.ls = 1 := by rw [hsq]; rfl
    obtain ⟨s0, s2, sR, hc, hI0, hidx0, -, hrep, -, hidxR, -⟩ :=
      construct_replay none none_lawful sq hI (by rw [hsq]; rfl) hW.slot hmeta
        (by rw [hused, hqueue]; simp) 0
    rw [hidx] at hidx0
    obtain ⟨idx1, h1, h2⟩ := replayOps_keys_order none none_lawful _ s0 s2 hI0 hrep _ hidx0
    refine ⟨sR, hc, ?_⟩
    simp only [keys, hidxR, h1, JSON.objectKeys, h2, hqueue]
    simp

end StorageManager
namespace StorageManager

/-! ## Claims C4 and C27: what a recovery restores -/

theorem replayOps_limit (lz : Option Codec) (s : Store) (k : String) (v : JSON)
    (rest : List JSON) (hw : writeImmediate lz s k (some v) = .error (.limitReached, s)) :
    replayOps lz (walOp k v :: rest) s = .error (.limitReached, s) := by
  simp [replayOps, walOp, JSON.getProp, JSON.lookup, JSON.toStrOpt, JSON.toStr, hw]

/-- Replaying the log records of writes on a well-formed store either completes, and then
every replayed key reads as its last value, or stops at a write for which the allocator
finds no room. -/
theorem replayOps_total (lz : Option Codec) (hz : Lawful lz) (ws : List (String × JSON)) :
    ∀ s, Inv (fun _ => True) lz s →
      (∃ s1, replayOps lz (ws.map (fun w => walOp w.1 w.2)) s = .ok s1 ∧
        Inv (fun _ => True) lz s1 ∧ s1.writeQueue = s.writeQueue ∧
        (∀ k v, lastWrite k ws = some v → get lz s1 k = some v) ∧
        (∀ k, lastWrite k ws = none → get lz s1 k = get lz s k)) ∨
      (∃ s1, replayOps lz (ws.map (fun w => walOp w.1 w.2)) s = .error (.limitReached, s1) ∧
        Inv (fun _ => True) lz s1 ∧ s1.writeQueue = s.writeQueue ∧ NoRoom s1 ws) := by
  induction ws with
  | nil =>
    intro s hI
    exact Or.inl ⟨s, rfl, hI, rfl, fun k v h => by simp [lastWrite] at h, fun k _ => rfl⟩
  | cons w ws ih =>
    intro s hI
    obtain ⟨k, v⟩ := w
    obtain ⟨idx, hidx⟩ := hI.index
    rcases inv_writeImmediate _ lz hz s hI k v trivial idx hidx with ⟨he, hw⟩ |
      ⟨s1, i, -, -, hw, hI1, -, -, -, -, -, -, hq1, -⟩
    · right
      refine ⟨s, ?_, hI, rfl, ⟨(k, v), List.mem_cons_self _ _, he⟩⟩
      rw [List.map_cons]
      exact replayOps_limit lz s k v _ hw
    obtain ⟨-, hg1, hg2⟩ := inv_writeImmediate_get _ lz hz s s1 hI k v trivial hw
    rcases ih s1 hI1 with ⟨s2, hr, hI2, hq2, hr1, hr2⟩ | ⟨s2, hr, hI2, hq2, w, hwm, hwf⟩
    · left
      refine ⟨s2, ?_, hI2, hq2.trans hq1, ?_, ?_⟩
      · rw [List.map_cons, replayOps_set lz s s1 k v _ hw, hr]
      · intro k2 v2 hl
        simp only [lastWrite] at hl
        cases hl2 : lastWrite k2 ws with
        | some r =>
          rw [hl2] at hl
          simp only [Option.some.injEq] at hl
          subst hl
          exact hr1 k2 r hl2
        | none =>
          rw [hl2] at hl
          simp only at hl
          split_ifs at hl with hk
          simp only [Option.some.injEq] at hl
          subst hl hk
          rw [hr2 _ hl2, hg1]
      · intro k2 hl
        simp only [lastWrite] at hl
        cases hl2 : lastWrite k2 ws with
        | some r => rw [hl2] at hl; simp at hl
        | none =>
          rw [hl2] at hl
          simp only at hl
          split_ifs at hl with hk
          rw [hr2 _ hl2, hg2 k2 (Ne.symm hk)]
    · right
      refine ⟨s2, ?_, hI2, hq2.trans hq1, ⟨w, List.mem_cons_of_mem _ hwm, hwf⟩⟩
      rw [List.map_cons, replayOps_set lz s s1 k v _ hw, hr]

/-- The part of the constructor that precedes `_loadWAL`, over the storage of a well-formed
store: it leaves a well-formed store with an empty queue and an empty log in memory, whose
storage differs from the given one in the metadata slot at most. -/
theorem construct_front (lz : Option Codec) (hz : Lawful lz) (s : Store)
    (hI : Inv (fun _ => True) lz s) (hce : s.compressionEnabled = true)
    (hmeta : MetaSlotOk s.ls) (now : Nat) :
    ∃ s1, construct lz s.ls now = .ok (loadWAL lz s1) ∧ Inv (fun _ => True) lz s1 ∧
      (∀ key, key ≠ metaKey → getItem s1.ls key = getItem s.ls key) ∧
      s1.compressionEnabled = true ∧ s1.writeQueue = [] ∧ s1.wal = .arr [] ∧
      getIndex s1 = getIndex s ∧ (∀ k, get lz s1 k = get lz s k) := by
  obtain ⟨idx, hidx⟩ := hI.index
  obtain ⟨⟨mm, hmm⟩, hlm⟩ := loadMeta_ok s.ls now hmeta
  obtain ⟨s1, hr, hm1, hls1, hce1, hq1, hw1⟩ :=
    runMigrations_obj
      { ls := (loadMeta s.ls now).2, now := now, compressionEnabled := true, writeQueue := [],
        writeTimer := false, meta := (loadMeta s.ls now).1, wal := .arr [] } mm hmm
  have hfr : ∀ key, key ≠ metaKey → getItem s1.ls key = getItem s.ls key := by
    intro key hk
    rw [hls1 key hk]
    exact hlm key hk
  have hces : s1.compressionEnabled = s.compressionEnabled := by rw [hce1, hce]
  have hI1 : Inv (fun _ => True) lz s1 :=
    inv_congr _ lz hz s s1 hI (hfr _ indexKey_ne_metaKey)
      (fun i => hfr _ (chunkKeyOf_ne_metaKey i)) hces hm1 (fun _ _ => trivial)
  have hidxs1 : getIndex s1 = getIndex s := getIndex_congr s s1 (hfr _ indexKey_ne_metaKey)
  have hget1 : ∀ k, get lz s1 k = get lz s k := by
    intro k
    apply get_congr lz s s1 k (hfr _ indexKey_ne_metaKey) hces
    intro c hc
    apply hfr
    rw [hidx] at hc
    simp only [JSON.getProp, Except.ok.injEq] at hc
    cases c with
    | none => decide
    | some cv =>
      obtain ⟨i, rfl, -, -⟩ := hI.sound idx k cv hidx hc
      exact chunkKeyOf_ne_metaKey i
  have hc : construct lz s.ls now = .ok (loadWAL lz s1) := by
    simp only [construct, hr]
  exact ⟨s1, hc, hI1, hfr, hce1, hq1, hw1, hidxs1, hget1⟩

/-- What `_loadWAL` does with a log that mirrors a non-empty queue: it replays the records,
and clears the log when the replay completes. -/
theorem loadWAL_replay (lz : Option Codec) (s1 : Store) (q : List QueuedWrite) (hq : q ≠ [])
    (hslot : getItem s1.ls walKey = some (JSON.stringify (.arr (walOps q)))) :
    loadWAL lz s1 =
      match replayOps lz ((q.map (fun w => (w.key, w.value))).map (fun w => walOp w.1 w.2))
          { s1 with wal := .arr (walOps q) } with
      | .ok s2 => clearWAL s2
      | .error (_, s2) => s2 := by
  obtain ⟨w, q1, hwq⟩ := List.exists_cons_of_ne_nil hq
  have hops : walOps q = (q.map (fun w => (w.key, w.value))).map (fun w => walOp w.1 w.2) := by
    simp [walOps, List.map_map, Function.comp_def]
  have hne : JSON.stringify (.arr (walOps q)) ≠ "" := stringify_ne_empty _
  rw [← hops]
  simp only [loadWAL, hslot, ne_eq, hne, not_false_eq_true, ↓reduceIte, JSON.parse_stringify,
    replayWAL]
  rw [hwq]
  simp only [walOps, List.map_cons]
  cases replayOps lz (walOp w.key w.value :: List.map (fun w => walOp w.key w.value) q1)
      { s1 with
        wal := .arr (walOp w.key w.value :: List.map (fun w => walOp w.key w.value) q1) } with
  | ok s2 => rfl
  | error e => rfl

/-- A construction over the storage of a well-formed store in which the log mirrors the
queue completes and gives a well-formed store with an empty queue. Either the replay
stopped at a write for which the allocator finds no room, or every key reads as its last
queued value, or as before when none was queued, the indexed keys are those indexed before
together with the queued ones, and the log is gone. -/
theorem construct_total (lz : Option Codec) (hz : Lawful lz) (s : Store)
    (hI : Inv (fun _ => True) lz s) (hce : s.compressionEnabled = true)
    (hslot : getItem s.ls walKey =
      if s.writeQueue = [] then none else some (JSON.stringify (.arr (walOps s.writeQueue))))
    (hmeta : MetaSlotOk s.ls) (now : Nat) (idx : List (String × JSON))
    (hidx : getIndex s = .obj idx) :
    ∃ sR, construct lz s.ls now = .ok sR ∧ Inv (fun _ => True) lz sR ∧ sR.writeQueue = [] ∧
      (NoRoom sR (s.writeQueue.map (fun w => (w.key, w.value))) ∨
        ((∀ k, get lz sR k =
          match lastWrite k (s.writeQueue.map (fun w => (w.key, w.value))) with
          | some v => some v
          | none => get lz s k) ∧
        getItem sR.ls walKey = none ∧ sR.wal = .arr [] ∧
        ∃ idxR, getIndex sR = .obj idxR ∧
          ∀ k, k ∈ idxR.map Prod.fst ↔
            (k ∈ idx.map Prod.fst ∨
              k ∈ (s.writeQueue.map (fun w => (w.key, w.value))).map Prod.fst))) := by
  obtain ⟨s1, hc, hI1, hfr, hce1, hq10, hw1, hidxs1, hget1⟩ :=
    construct_front lz hz s hI hce hmeta now
  have hwk : getItem s1.ls walKey = getItem s.ls walKey :=
    hfr _ (Ne.symm metaKey_ne_walKey)
  by_cases hq : s.writeQueue = []
  · rw [if_pos hq] at hslot
    have hl : loadWAL lz s1 = s1 := by
      simp only [loadWAL, hwk, hslot]
    rw [hl] at hc
    rw [hq]
    refine ⟨s1, hc, hI1, hq10, Or.inr ⟨fun k => hget1 k, by rw [hwk, hslot], hw1, idx,
      hidxs1.trans hidx, fun k => by simp⟩⟩
  · rw [if_neg hq] at hslot
    have hI2 : Inv (fun _ => True) lz { s1 with wal := .arr (walOps s.writeQueue) } :=
      inv_congr _ lz hz s1 _ hI1 rfl (fun _ => rfl) rfl hI1.metaObj (fun _ _ => trivial)
    have hl := loadWAL_replay lz s1 s.writeQueue hq (hwk.trans hslot)
    rcases replayOps_total lz hz (s.writeQueue.map (fun w => (w.key, w.value)))
        { s1 with wal := .arr (walOps s.writeQueue) } hI2 with
      ⟨s2, hrep, hIs2, hqs2, hg, hg2⟩ | ⟨s2, hrep, hIs2, hqs2, hroom⟩
    · rw [hrep] at hl
      simp only at hl
      rw [hl] at hc
      have hfc : ∀ key, key ≠ walKey → getItem (clearWAL s2).ls key = getItem s2.ls key := by
        intro key hk
        simp only [clearWAL]
        rw [getItem_removeItem_ne _ _ _ hk]
      have hIc : Inv (fun _ => True) lz (clearWAL s2) :=
        inv_congr _ lz hz s2 _ hIs2 (hfc _ indexKey_ne_walKey)
          (fun i => hfc _ (chunkKeyOf_ne_walKey i)) rfl hIs2.metaObj (fun _ _ => trivial)
      obtain ⟨idx2, hidx2, hkeys2⟩ :=
        replayOps_index lz hz _ _ s2 hI2 hrep idx
          ((getIndex_congr s1 _ rfl).trans (hidxs1.trans hidx))
      refine ⟨clearWAL s2, hc, hIc, hqs2.trans hq10, Or.inr ⟨?_, ?_, rfl, idx2, ?_, hkeys2⟩⟩
      · intro k
        rw [get_clearWAL lz hz s2 hIs2 k]
        cases hlw : lastWrite k (s.writeQueue.map (fun w => (w.key, w.value))) with
        | some v => exact hg k v hlw
        | none =>
          rw [hg2 k hlw]
          exact (get_congr lz s1 _ k rfl rfl (fun _ _ => rfl)).trans (hget1 k)
      · simp only [clearWAL]
        rw [getItem_removeItem_same]
      · rw [getIndex_congr s2 (clearWAL s2) (hfc _ indexKey_ne_walKey)]
        exact hidx2
    · rw [hrep] at hl
      simp only at hl
      rw [hl] at hc
      exact ⟨s2, hc, hIs2, hqs2.trans hq10, Or.inl hroom⟩

/-- Claim C4 (amended): on a well-formed store with compression switched on, an empty
queue, a log that mirrors it and a metadata slot as a session leaves it, after any
sequence of non-immediate `set` calls the construction of a new instance over the same
host storage completes. Unless the replay stops at a write for which `_findOrCreateChunk`
finds no room among the hundred chunks, every queued key other than `__proto__` reads as
the last value queued for it, the `vl_wal` slot is absent and the in-memory log is `[]`. -/
theorem wal_recovery (lz : Option Codec) (hz : Lawful lz) (s : Store)
    (hI : Inv (fun _ => True) lz s) (hce : s.compressionEnabled = true) (hW : WalInv s)
    (hq : s.writeQueue = []) (hmeta : MetaSlotOk s.ls) (ws : List (String × JSON))
    (now : Nat) :
    ∃ s1, construct lz (run lz s (queueSets ws)).ls now = .ok s1 ∧
      (NoRoom s1 ws ∨
        ((∀ k, k ∈ ws.map Prod.fst → k ≠ "__proto__" →
            ∃ v, lastWrite k ws = some v ∧ get lz s1 k = some v) ∧
          getItem s1.ls walKey = none ∧ s1.wal = .arr [])) := by
  have hwm : s.wal = .arr (walOps s.writeQueue) := hW.mem
  obtain ⟨r1, r2, r3, r4, r5⟩ := run_queueSets lz ws s hwm
  have hIt : Inv (fun _ => True) lz (run lz s (queueSets ws)) :=
    inv_run _ lz hz _ s hI (fun _ _ _ _ => trivial)
  have hqt : (run lz s (queueSets ws)).writeQueue = ws.map (fun w => ⟨w.1, w.2, s.now⟩) := by
    rw [r1, hq, List.nil_append]
  have hpairs : (run lz s (queueSets ws)).writeQueue.map (fun w => (w.key, w.value)) = ws := by
    rw [hqt, List.map_map]
    exact List.map_id _
  have hslot : getItem (run lz s (queueSets ws)).ls walKey =
      if (run lz s (queueSets ws)).writeQueue = [] then none
      else some (JSON.stringify (.arr (walOps (run lz s (queueSets ws)).writeQueue))) := by
    rw [r5]
    by_cases hws : ws = []
    · subst hws
      have h0 := hW.slot
      rw [if_pos hq] at h0
      rw [if_pos rfl, h0, if_pos (by rw [hqt]; rfl)]
    · rw [if_neg hws, if_neg (by rw [hqt]; simpa using hws)]
  have hmt : MetaSlotOk (run lz s (queueSets ws)).ls := by
    unfold MetaSlotOk
    rw [r4 _ metaKey_ne_walKey]
    exact hmeta
  obtain ⟨idx, hidx⟩ := hIt.index
  obtain ⟨s1, hc, -, -, h⟩ :=
    construct_total lz hz (run lz s (queueSets ws)) hIt (by rw [r2, hce]) hslot hmt now idx hidx
  rw [hpairs] at h
  refine ⟨s1, hc, ?_⟩
  rcases h with h | ⟨hg, hw1, hw2, -⟩
  · exact Or.inl h
  · refine Or.inr ⟨?_, hw1, hw2⟩
    intro k hk _
    obtain ⟨v, hv⟩ := lastWrite_of_mem k ws hk
    refine ⟨v, hv, ?_⟩
    rw [hg k, hv]

/-- Witness of C4 (amended): three writes queued on a fresh store, two of them under the
same key, are recovered by a new instance, which reads the later value. -/
theorem wal_recovery_witness :
    Lawful (some markCodec) ∧ (freshStore 0).compressionEnabled = true ∧
    (freshStore 0).writeQueue = [] ∧
    ∃ s1, construct (some markCodec) (run (some markCodec) (freshStore 0)
        (queueSets [("k", .num 1), ("j", .num 2), ("k", .num 3)])).ls 7 = .ok s1 ∧
      get (some markCodec) s1 "k" = some (.num 3) ∧
      get (some markCodec) s1 "j" = some (.num 2) ∧
      getItem s1.ls walKey = none ∧ s1.wal = .arr [] := by
  obtain ⟨s1, hc, h⟩ :=
    wal_recovery (some markCodec) markCodec_lawful (freshStore 0) (inv_freshStore _ _ 0) rfl
      ⟨rfl, by decide⟩ rfl (Or.inl (by decide))
      [("k", .num 1), ("j", .num 2), ("k", .num 3)] 7
  have hev : (match construct (some markCodec) (run (some markCodec) (freshStore 0)
      (queueSets [("k", .num 1), ("j", .num 2), ("k", .num 3)])).ls 7 with
    | .ok t =>
      [("k", JSON.num 1), ("j", JSON.num 2), ("k", JSON.num 3)].all (fun w =>
        match findOrCreateChunk t w.1 (some w.2) with
        | .ok _ => true
        | .error _ => false)
    | .error _ => false) = true := by decide
  rw [hc] at hev
  simp only at hev
  refine ⟨markCodec_lawful, rfl, rfl, s1, hc, ?_⟩
  rcases h with ⟨w, hw, hf⟩ | ⟨hg, hw1, hw2⟩
  · exfalso
    have := List.all_eq_true.1 hev w hw
    rw [hf] at this
    cases this
  · obtain ⟨v, hv, hgk⟩ := hg "k" (by decide) (by decide)
    obtain ⟨v2, hv2, hgj⟩ := hg "j" (by decide) (by decide)
    have e1 : lastWrite "k" [("k", JSON.num 1), ("j", JSON.num 2), ("k", JSON.num 3)] =
        some (.num 3) := by decide
    have e2 : lastWrite "j" [("k", JSON.num 1), ("j", JSON.num 2), ("k", JSON.num 3)] =
        some (.num 2) := by decide
    rw [e1] at hv
    rw [e2] at hv2
    cases hv
    cases hv2
    exact ⟨hgk, hgj, hw1, hw2⟩

/-- Claim C27 (amended): on a well-formed store with compression on, a log that mirrors
the queue, and a queue in which all writes to one key are placed in the same chunk,
whenever the flush completes, the construction of a new instance over the same host
storage completes too. Unless its replay stops at a write for which `_findOrCreateChunk`
finds no room among the hundred chunks, the two resulting stores return the same `get(k)`
for every key and list the same keys in `keys()`. -/
theorem recovery_matches_flush (lz : Option Codec) (hz : Lawful lz) (t sF : Store)
    (hI : Inv (fun _ => True) lz t) (hce : t.compressionEnabled = true) (hW : WalInv t)
    (hmeta : MetaSlotOk t.ls) (hroute : SameRoute t) (hF : flushWriteQueue lz t = .ok sF)
    (now : Nat) :
    ∃ sR, construct lz t.ls now = .ok sR ∧
      (NoRoom sR (t.writeQueue.map (fun w => (w.key, w.value))) ∨
        ((∀ k, get lz sR k = get lz sF k) ∧
          ∃ ksR ksF, keys sR = .ok ksR ∧ keys sF = .ok ksF ∧ ∀ k, k ∈ ksR ↔ k ∈ ksF)) := by
  obtain ⟨idx, hidx⟩ := hI.index
  obtain ⟨hgF, idxF, hidxF, hkF⟩ := flush_reads lz hz t sF hI hroute hF idx hidx
  obtain ⟨sR, hc, -, -, h⟩ := construct_total lz hz t hI hce hW.slot hmeta now idx hidx
  refine ⟨sR, hc, ?_⟩
  rcases h with h | ⟨hgR, -, -, idxR, hidxR, hkR⟩
  · exact Or.inl h
  · refine Or.inr ⟨fun k => by
        rw [hgR, hgF]
        all_goals cases lastWrite k (t.writeQueue.map (fun w => (w.key, w.value))) <;> rfl,
      idxR.map Prod.fst, idxF.map Prod.fst,
      by simp only [keys, hidxR, JSON.objectKeys], by simp only [keys, hidxF, JSON.objectKeys],
      ?_⟩
    intro k
    rw [hkR, hkF]

/-- Witness of C27 (amended): two writes queued on a fresh store; the flush and the
recovery by a new instance give stores that read alike. -/
theorem recovery_matches_flush_witness :
    Lawful (some markCodec) ∧
    flushWriteQueue (some markCodec) (run (some markCodec) (freshStore 0)
        [.set "k" (.num 1) false, .set "j" (.num 2) false]) =
      .ok (afterFlush (some markCodec) (run (some markCodec) (freshStore 0)
        [.set "k" (.num 1) false, .set "j" (.num 2) false])) ∧
    ∃ sR, construct (some markCodec) (run (some markCodec) (freshStore 0)
        [.set "k" (.num 1) false, .set "j" (.num 2) false]).ls 9 = .ok sR ∧
      (∀ k, get (some markCodec) sR k =
        get (some markCodec) (afterFlush (some markCodec) (run (some markCodec) (freshStore 0)
          [.set "k" (.num 1) false, .set "j" (.num 2) false])) k) ∧
      ∃ ksR ksF, keys sR = .ok ksR ∧
        keys (afterFlush (some markCodec) (run (some markCodec) (freshStore 0)
          [.set "k" (.num 1) false, .set "j" (.num 2) false])) = .ok ksF ∧
        ∀ k, k ∈ ksR ↔ k ∈ ksF := by
  have hflush : flushWriteQueue (some markCodec) (run (some markCodec) (freshStore 0)
        [.set "k" (.num 1) false, .set "j" (.num 2) false]) =
      .ok (afterFlush (some markCodec) (run (some markCodec) (freshStore 0)
        [.set "k" (.num 1) false, .set "j" (.num 2) false])) := by rfl
  have hqueue : (run (some markCodec) (freshStore 0)
      [.set "k" (.num 1) false, .set "j" (.num 2) false]).writeQueue =
      [⟨"k", .num 1, 0⟩, ⟨"j", .num 2, 0⟩] := rfl
  obtain ⟨sR, hc, h⟩ :=
    recovery_matches_flush (some markCodec) markCodec_lawful _ _
      (inv_run _ _ markCodec_lawful [.set "k" (.num 1) false, .set "j" (.num 2) false] _
        (inv_freshStore _ _ 0) (fun _ _ _ _ => trivial))
      rfl ⟨rfl, by decide⟩ (Or.inl (by decide))
      (fun w1 h1 w2 h2 hk => by
        rw [hqueue] at h1 h2
        simp only [List.mem_cons, List.mem_singleton, List.not_mem_nil, or_false] at h1 h2
        rcases h1 with rfl | rfl <;> rcases h2 with rfl | rfl <;>
          first
          | rfl
          | (exfalso; revert hk; decide))
      hflush 9
  have hev : (match construct (some markCodec) (run (some markCodec) (freshStore 0)
      [.set "k" (.num 1) false, .set "j" (.num 2) false]).ls 9 with
    | .ok t =>
      [("k", JSON.num 1), ("j", JSON.num 2)].all (fun w =>
        match findOrCreateChunk t w.1 (some w.2) with
        | .ok _ => true
        | .error _ => false)
    | .error _ => false) = true := by decide
  rw [hc] at hev
  simp only at hev
  refine ⟨markCodec_lawful, hflush, sR, hc, ?_⟩
  rcases h with ⟨w, hw, hf⟩ | h
  · exfalso
    rw [hqueue] at hw
    have := List.all_eq_true.1 hev w hw
    rw [hf] at this
    cases this
  · exact h

end StorageManager
namespace StorageManager

/-! ## Claim C5: the log mirrors the queue -/

/-- Whether it returns or raises, `_writeImmediate` touches neither the queue, nor the log
in memory, nor the log slot of the storage. -/
theorem writeImmediate_frame (lz : Option Codec) (s : Store) (k : String) (v : Option JSON) :
    (stateOf (writeImmediate lz s k v)).writeQueue = s.writeQueue ∧
    (stateOf (writeImmediate lz s k v)).wal = s.wal ∧
    getItem (stateOf (writeImmediate lz s k v)).ls walKey = getItem s.ls walKey := by
  unfold writeImmediate
  simp only
  cases hf : findOrCreateChunk s k v with
  | error e => exact ⟨rfl, rfl, rfl⟩
  | ok c =>
    obtain ⟨i, -, rfl, -, -⟩ := findOrCreateChunk_ok s k v c hf
    simp only
    cases loadChunk lz s (chunkKeyOf i) with
    | error e => exact ⟨rfl, rfl, rfl⟩
    | ok cd =>
      simp only
      cases JSON.setProp cd k v with
      | error e => exact ⟨rfl, rfl, rfl⟩
      | ok cd1 =>
        simp only
        cases JSON.setProp (getIndex s) k (some (.str (chunkKeyOf i))) with
        | error e =>
          refine ⟨rfl, rfl, ?_⟩
          simp only [stateOf]
          rw [getItem_setItem_ne _ _ _ _ (Ne.symm (chunkKeyOf_ne_walKey i))]
        | ok idx1 =>
          simp only [setIndex]
          split
          · refine ⟨rfl, rfl, ?_⟩
            simp only [stateOf]
            rw [getItem_setItem_ne _ _ _ _ (Ne.symm indexKey_ne_walKey),
              getItem_setItem_ne _ _ _ _ (Ne.symm (chunkKeyOf_ne_walKey i))]
          · refine ⟨rfl, rfl, ?_⟩
            simp only [stateOf, saveMeta]
            rw [getItem_setItem_ne _ _ _ _ (Ne.symm metaKey_ne_walKey),
              getItem_setItem_ne _ _ _ _ (Ne.symm indexKey_ne_walKey),
              getItem_setItem_ne _ _ _ _ (Ne.symm (chunkKeyOf_ne_walKey i))]

/-- Whether it completes or raises, the replay of log records touches neither the queue,
nor the log in memory, nor the log slot of the storage. -/
theorem replayOps_frame (lz : Option Codec) (ops : List JSON) :
    ∀ s, (stateOf (replayOps lz ops s)).writeQueue = s.writeQueue ∧
      (stateOf (replayOps lz ops s)).wal = s.wal ∧
      getItem (stateOf (replayOps lz ops s)).ls walKey = getItem s.ls walKey := by
  induction ops with
  | nil => intro s; exact ⟨rfl, rfl, rfl⟩
  | cons op ops ih =>
    intro s
    unfold replayOps
    cases JSON.getProp op "type" with
    | error e => exact ⟨rfl, rfl, rfl⟩
    | ok type =>
      simp only
      split_ifs with ht
      · cases JSON.getProp op "key" with
        | error e => exact ⟨rfl, rfl, rfl⟩
        | ok key =>
          cases JSON.getProp op "value" with
          | error e => exact ⟨rfl, rfl, rfl⟩
          | ok value =>
            simp only
            have hf := writeImmediate_frame lz s (JSON.toStrOpt key) value
            cases hw : writeImmediate lz s (JSON.toStrOpt key) value with
            | error e =>
              rw [hw] at hf
              exact hf
            | ok s1 =>
              rw [hw] at hf
              simp only [stateOf] at hf
              obtain ⟨a, b, c⟩ := ih s1
              exact ⟨a.trans hf.1, b.trans hf.2.1, c.trans hf.2.2⟩
      · exact ih s

/-- What `_loadWAL` leaves on an instance that has just been created: the queue is empty,
and when the log slot is absent afterwards the log in memory is `[]`. -/
theorem loadWAL_frame (lz : Option Codec) (s : Store) (hq : s.writeQueue = [])
    (hw : s.wal = .arr []) :
    (loadWAL lz s).writeQueue = [] ∧
      (getItem (loadWAL lz s).ls walKey = none → (loadWAL lz s).wal = .arr []) := by
  unfold loadWAL
  cases hg : getItem s.ls walKey with
  | none => exact ⟨hq, fun _ => hw⟩
  | some walStr =>
    simp only
    split_ifs with hne
    · cases hp : JSON.parse walStr with
      | none => exact ⟨hq, fun h => by rw [hg] at h; cases h⟩
      | some wal =>
        simp only
        have hstay : ({ s with wal := wal } : Store).writeQueue = [] ∧
            (getItem ({ s with wal := wal } : Store).ls walKey = none →
              ({ s with wal := wal } : Store).wal = .arr []) :=
          ⟨hq, fun h => by rw [hg] at h; cases h⟩
        cases wal with
        | null => exact hstay
        | bool b => exact hstay
        | num n => exact hstay
        | str t => exact hstay
        | obj ms => exact hstay
        | arr items =>
          cases items with
          | nil => exact hstay
          | cons op ops =>
            simp only [replayWAL]
            obtain ⟨f1, f2, f3⟩ := replayOps_frame lz (op :: ops) { s with wal := .arr (op :: ops) }
            cases hr : replayOps lz (op :: ops) { s with wal := .arr (op :: ops) } with
            | ok s2 =>
              rw [hr] at f1
              simp only [stateOf] at f1
              exact ⟨f1.trans hq, fun _ => rfl⟩
            | error e =>
              rw [hr] at f1 f3
              obtain ⟨e1, s2⟩ := e
              simp only [stateOf] at f1 f3
              refine ⟨f1.trans hq, fun h => ?_⟩
              simp only at h
              rw [f3, hg] at h
              cases h
    · exact ⟨hq, fun h => by rw [hg] at h; cases h⟩

/-- A new instance whose log slot is absent after its construction has an empty queue and
an empty log in memory: its log mirrors its queue. -/
theorem construct_walInv (lz : Option Codec) (ls : List (String × String)) (now : Nat)
    (s0 : Store) (hc : construct lz ls now = .ok s0) (hlog : getItem s0.ls walKey = none) :
    WalInv s0 := by
  unfold construct at hc
  simp only at hc
  cases hr : runMigrations
      { ls := (loadMeta ls now).2, now := now, compressionEnabled := true, writeQueue := [],
        writeTimer := false, meta := (loadMeta ls now).1, wal := .arr [] } with
  | error e => rw [hr] at hc; obtain ⟨e1, s2⟩ := e; cases hc
  | ok s1 =>
    rw [hr] at hc
    simp only [Except.ok.injEq] at hc
    have hs1 : s1.writeQueue = [] ∧ s1.wal = .arr [] := by
      unfold runMigrations at hr
      simp only at hr
      split at hr
      · cases hr
      · split_ifs at hr
        · split at hr
          · cases hr
          · simp only [Except.ok.injEq] at hr
            subst hr
            exact ⟨rfl, rfl⟩
        · simp only [Except.ok.injEq] at hr
          subst hr
          exact ⟨rfl, rfl⟩
    obtain ⟨l1, l2⟩ := loadWAL_frame lz s1 hs1.1 hs1.2
    rw [hc] at l1 l2
    refine ⟨?_, ?_⟩
    · rw [l1, l2 hlog]
      rfl
    · rw [hlog, if_pos l1]

theorem inv_indexNames (P : JSON → Prop) (lz : Option Codec) (s : Store) (hI : Inv P lz s) :
    IndexNamesChunks s := by
  obtain ⟨idx, hidx⟩ := hI.index
  refine ⟨idx, hidx, ?_⟩
  intro k cv hl
  obtain ⟨i, hi, -⟩ := hI.sound idx k cv hidx hl
  exact ⟨i, hi⟩

theorem indexNames_congr (s t : Store) (h : IndexNamesChunks s)
    (hidx : getItem t.ls indexKey = getItem s.ls indexKey) : IndexNamesChunks t := by
  obtain ⟨idx, hi, hn⟩ := h
  exact ⟨idx, (getIndex_congr s t hidx).trans hi, hn⟩

theorem names_upsert (idx : List (String × JSON)) (k : String) (i : Nat)
    (hn : ∀ k2 cv, JSON.lookup k2 idx = some cv → ∃ j, cv = .str (chunkKeyOf j)) :
    ∀ k2 cv, JSON.lookup k2 (JSON.upsert k (.str (chunkKeyOf i)) idx) = some cv →
      ∃ j, cv = .str (chunkKeyOf j) := by
  intro k2 cv hl
  by_cases hk : k2 = k
  · subst hk
    rw [JSON.lookup_upsert_same] at hl
    cases hl
    exact ⟨i, rfl⟩
  · rw [JSON.lookup_upsert_ne _ _ _ _ hk] at hl
    exact hn k2 cv hl

theorem names_erase (idx : List (String × JSON)) (k : String)
    (hn : ∀ k2 cv, JSON.lookup k2 idx = some cv → ∃ j, cv = .str (chunkKeyOf j)) :
    ∀ k2 cv, JSON.lookup k2 (JSON.erase k idx) = some cv → ∃ j, cv = .str (chunkKeyOf j) := by
  intro k2 cv hl
  by_cases hk : k2 = k
  · subst hk
    rw [JSON.lookup_erase_same] at hl
    cases hl
  · rw [JSON.lookup_erase_ne _ _ _ hk] at hl
    exact hn k2 cv hl

/-- Whether it returns or raises, `_writeImmediate` leaves an index whose entries name data
chunks. -/
theorem writeImmediate_indexNames (lz : Option Codec) (s : Store) (k : String)
    (v : Option JSON) (h : IndexNamesChunks s) :
    IndexNamesChunks (stateOf (writeImmediate lz s k v)) := by
  obtain ⟨idx, hidx, hn⟩ := h
  unfold writeImmediate
  simp only
  cases hf : findOrCreateChunk s k v with
  | error e => exact ⟨idx, hidx, hn⟩
  | ok c =>
    obtain ⟨i, -, rfl, -, -⟩ := findOrCreateChunk_ok s k v c hf
    simp only
    cases loadChunk lz s (chunkKeyOf i) with
    | error e => exact ⟨idx, hidx, hn⟩
    | ok cd =>
      simp only
      cases JSON.setProp cd k v with
      | error e => exact ⟨idx, hidx, hn⟩
      | ok cd1 =>
        simp only [hidx, JSON.setProp, setIndex]
        split
        · refine ⟨_, getIndex_of_slot _ _ ?_, names_upsert idx k i hn⟩
          simp only [stateOf]
          rw [getItem_setItem_same]
        · refine ⟨_, getIndex_of_slot _ _ ?_, names_upsert idx k i hn⟩
          simp only [stateOf, saveMeta]
          rw [getItem_setItem_ne _ _ _ _ indexKey_ne_metaKey, getItem_setItem_same]

/-- On a store whose index names data chunks, `delete` touches neither the queue, nor the
log in memory, nor the log slot, and leaves an index whose entries name data chunks. -/
theorem delete_frame (lz : Option Codec) (s : Store) (k : String) (h : IndexNamesChunks s) :
    IndexNamesChunks (delete lz s k).1 ∧ (delete lz s k).1.writeQueue = s.writeQueue ∧
      (delete lz s k).1.wal = s.wal ∧
      getItem (delete lz s k).1.ls walKey = getItem s.ls walKey := by
  obtain ⟨idx, hidx, hn⟩ := h
  have hsame : IndexNamesChunks s := ⟨idx, hidx, hn⟩
  unfold delete
  simp only [hidx, JSON.getProp]
  cases hl : JSON.lookup k idx with
  | none => exact ⟨hsame, rfl, rfl, rfl⟩
  | some cv =>
    obtain ⟨i, rfl⟩ := hn k cv hl
    simp only [JSON.truthyOpt, JSON.truthy, JSON.toStrOpt, JSON.toStr, chunkKeyOf_ne_empty,
      ne_eq, not_false_eq_true, decide_True, Bool.not_true, Bool.false_eq_true, ↓reduceIte]
    cases JSON.parseArg (decode lz s.compressionEnabled (getItem s.ls (chunkKeyOf i))) with
    | none => exact ⟨hsame, rfl, rfl, rfl⟩
    | some cd =>
      simp only
      cases JSON.delProp cd k with
      | error e => exact ⟨hsame, rfl, rfl, rfl⟩
      | ok cd1 =>
        simp only [JSON.delProp, setIndex]
        refine ⟨⟨_, getIndex_of_slot _ _ (getItem_setItem_same _ _ _), names_erase idx k hn⟩,
          trivial, trivial, ?_⟩
        rw [getItem_setItem_ne _ _ _ _ (Ne.symm indexKey_ne_walKey),
          getItem_setItem_ne _ _ _ _ (Ne.symm (chunkKeyOf_ne_walKey i))]

/-- A flush that completes on a store whose index names data chunks leaves such an index,
and a log that mirrors the queue when it did before. -/
theorem flush_frame (lz : Option Codec) (s s1 : Store) (h : IndexNamesChunks s)
    (hW : WalInv s) (hf : flushWriteQueue lz s = .ok s1) :
    IndexNamesChunks s1 ∧ WalInv s1 := by
  by_cases hq : s.writeQueue = []
  · have : flushWriteQueue lz s = .ok s := by simp [flushWriteQueue, hq]
    rw [this] at hf
    cases hf
    exact ⟨h, hW⟩
  · obtain ⟨idx, hidx, hn⟩ := h
    obtain ⟨gs, idx1, m1, -, f1, -, f3, -, -, f6, f7, -, -, -, f11, f12, -, f14, -⟩ :=
      flush_ok lz s s1 hq hf
    have hidx1 := f14 idx hidx
    subst hidx1
    refine ⟨⟨_, getIndex_of_slot _ _ f11, ?_⟩, ⟨by rw [f7, f6]; rfl, by rw [f12, f6]; rfl⟩⟩
    intro k cv hl
    rw [lookup_indexGroups] at hl
    cases hlg : lastGroup k gs with
    | none =>
      rw [hlg] at hl
      exact hn k cv hl
    | some c =>
      rw [hlg] at hl
      simp only [Option.some.injEq] at hl
      subst hl
      obtain ⟨hc, -⟩ := lastGroup_some k c gs f1 hlg
      obtain ⟨i, -, rfl, -⟩ := f3 c hc
      exact ⟨i, rfl⟩

/-- One call other than `clear()`, with a flush that completes, keeps the log in step with
the queue on any storage whose index names data chunks. -/
theorem log_step (lz : Option Codec) (s : Store) (hN : IndexNamesChunks s) (hW : WalInv s)
    (op : Op) (hc : op ≠ .clear) (hf : op = .flush → ∃ s1, flushWriteQueue lz s = .ok s1) :
    IndexNamesChunks (step lz s op) ∧ WalInv (step lz s op) := by
  cases op with
  | get k => exact ⟨hN, hW⟩
  | keys => exact ⟨hN, hW⟩
  | getStats => exact ⟨hN, hW⟩
  | tick dt => exact ⟨indexNames_congr s _ hN rfl, ⟨hW.mem, hW.slot⟩⟩
  | clear => exact absurd rfl hc
  | delete k =>
    obtain ⟨d1, d2, d3, d4⟩ := delete_frame lz s k hN
    simp only [step]
    exact ⟨d1, ⟨by rw [d3, d2]; exact hW.mem, by rw [d4, d2]; exact hW.slot⟩⟩
  | flush =>
    obtain ⟨s1, hs1⟩ := hf rfl
    simp only [step, hs1]
    exact flush_frame lz s s1 hN hW hs1
  | set k v im =>
    cases im with
    | true =>
      have hs : step lz s (.set k v true) = stateOf (writeImmediate lz s k (some v)) := by
        simp only [step, set, if_true, stateOf]
        cases writeImmediate lz s k (some v) with
        | ok s1 => rfl
        | error e => rfl
      rw [hs]
      obtain ⟨w1, w2, w3⟩ := writeImmediate_frame lz s k (some v)
      exact ⟨writeImmediate_indexNames lz s k _ hN,
        ⟨by rw [w2, w1]; exact hW.mem, by rw [w3, w1]; exact hW.slot⟩⟩
    | false =>
      have hq : (set lz s k v false).1 = { s with
          writeQueue := s.writeQueue ++ [⟨k, v, s.now⟩],
          wal := .arr (walOps (s.writeQueue ++ [⟨k, v, s.now⟩])),
          ls := setItem s.ls walKey
            (JSON.stringify (.arr (walOps (s.writeQueue ++ [⟨k, v, s.now⟩])))),
          writeTimer := true } := by
        simp [set, queueWrite, appendWAL, hW.mem, walOps]
      simp only [step, hq]
      refine ⟨indexNames_congr s _ hN ?_, ⟨rfl, by simp [getItem_setItem_same]⟩⟩
      simp only
      rw [getItem_setItem_ne _ _ _ _ indexKey_ne_walKey]

theorem log_run (lz : Option Codec) (ops : List Op) :
    ∀ s, IndexNamesChunks s → WalInv s → Quiet lz s ops →
      IndexNamesChunks (run lz s ops) ∧ WalInv (run lz s ops) := by
  induction ops with
  | nil => intro s hN hW _; exact ⟨hN, hW⟩
  | cons op ops ih =>
    intro s hN hW hQ
    obtain ⟨q1, q2, q3⟩ := hQ
    obtain ⟨n1, w1⟩ := log_step lz s hN hW op q1 q2
    simp only [run, List.foldl_cons]
    exact ih _ n1 w1 q3

/-- C5 (amended): take a new instance over host storage whose index names data chunks and
whose log slot is absent after the construction, because there was no log or because it
was replayed. In every state reached from it by calls other than `clear()` whose flushes
complete, the persisted log is absent when no write is pending, and otherwise reads back as
exactly the pending writes in enqueue order. -/
theorem wal_mirrors_queue (lz : Option Codec) (ls : List (String × String))
    (now : Nat) (s0 : Store) (hc : construct lz ls now = .ok s0)
    (hN : IndexNamesChunks s0) (hlog : getItem s0.ls walKey = none) (ops : List Op)
    (hq : Quiet lz s0 ops) :
    ((run lz s0 ops).writeQueue = [] → getItem (run lz s0 ops).ls walKey = none) ∧
    ((run lz s0 ops).writeQueue ≠ [] →
      ∃ text, getItem (run lz s0 ops).ls walKey = some text ∧
        JSON.parse text = some (.arr (walOps (run lz s0 ops).writeQueue))) := by
  have hW0 : WalInv s0 := construct_walInv lz ls now s0 hc hlog
  obtain ⟨-, hW⟩ := log_run lz ops _ hN hW0 hq
  generalize run lz s0 ops = s at hW
  constructor
  · intro h; rw [hW.slot]; simp [h]
  · intro h
    exact ⟨_, by rw [hW.slot]; simp [h], JSON.parse_stringify _⟩

/-- The construction over the storage of `crashedSession` gives `recoveredStore`, which is
well formed and has no log slot left. -/
theorem crashedSession_recovered :
    construct (some markCodec) crashedSession.ls 3 = .ok recoveredStore ∧
    Inv (fun _ => True) (some markCodec) recoveredStore ∧
    getItem recoveredStore.ls walKey = none := by
  have hI : Inv (fun _ => True) (some markCodec) crashedSession :=
    inv_run _ _ markCodec_lawful _ _ (inv_freshStore _ _ 0) (fun _ _ _ _ => trivial)
  obtain ⟨idx, hidx⟩ := hI.index
  obtain ⟨sR, hc, hIR, -, -⟩ :=
    construct_total (some markCodec) markCodec_lawful crashedSession hI rfl (by decide)
      (Or.inr ⟨[("version", .str version), ("created", .num 0), ("updated", .num 0),
        ("chunks", .arr [])], by decide⟩) 3 idx hidx
  have he : recoveredStore = sR := by
    unfold recoveredStore
    rw [hc]
  rw [he]
  refine ⟨hc, hIR, ?_⟩
  rw [← he]
  decide

/-- Witness of C5 (amended): a new instance over the storage of a session that ended with
a pending write replays it; a queued write, a flush, a delete and two more queued writes
later, the persisted log holds the two pending writes. -/
theorem wal_mirrors_queue_witness :
    construct (some markCodec) crashedSession.ls 3 = .ok recoveredStore ∧
    IndexNamesChunks recoveredStore ∧
    getItem recoveredStore.ls walKey = none ∧
    Quiet (some markCodec) recoveredStore
      [.set "c" (.num 3) false, .flush, .delete "a", .set "d" (.num 4) false,
        .set "e" (.num 5) false] ∧
    (run (some markCodec) recoveredStore
      [.set "c" (.num 3) false, .flush, .delete "a", .set "d" (.num 4) false,
        .set "e" (.num 5) false]).writeQueue = [⟨"d", .num 4, 3⟩, ⟨"e", .num 5, 3⟩] ∧
    ∃ text, getItem (run (some markCodec) recoveredStore
        [.set "c" (.num 3) false, .flush, .delete "a", .set "d" (.num 4) false,
          .set "e" (.num 5) false]).ls walKey = some text ∧
      JSON.parse text = some (.arr (walOps (run (some markCodec) recoveredStore
        [.set "c" (.num 3) false, .flush, .delete "a", .set "d" (.num 4) false,
          .set "e" (.num 5) false]).writeQueue)) :=
  have hq : Quiet (some markCodec) recoveredStore
      [.set "c" (.num 3) false, .flush, .delete "a", .set "d" (.num 4) false,
        .set "e" (.num 5) false] :=
    ⟨(by decide), (fun h => by cases h),
      (by decide), fun _ => ⟨afterFlush (some markCodec)
        (step (some markCodec) recoveredStore (.set "c" (.num 3) false)), by rfl⟩,
      (by decide), (fun h => by cases h),
      (by decide), (fun h => by cases h),
      (by decide), (fun h => by cases h), trivial⟩
  ⟨crashedSession_recovered.1, inv_indexNames _ _ _ crashedSession_recovered.2.1,
    crashedSession_recovered.2.2, hq, by rfl,
    (wal_mirrors_queue (some markCodec) crashedSession.ls 3 recoveredStore
      crashedSession_recovered.1 (inv_indexNames _ _ _ crashedSession_recovered.2.1)
      crashedSession_recovered.2.2 _ hq).2 (by decide)⟩

/-- Counterexample to C5 as stated: a session that switched compression off wrote one
chunk as plain text and then queued a write. The new instance cannot replay the log, so
right after its construction no write is pending while the persisted log is still there. -/
theorem wal_mirrors_queue_refuted :
    ¬ (∀ (lz : Option Codec), Lawful lz → ∀ (ls : List (String × String)) (now : Nat)
        (s0 : Store), construct lz ls now = .ok s0 → ∀ (ops : List Op),
      ((run lz s0 ops).writeQueue = [] → getItem (run lz s0 ops).ls walKey = none) ∧
      ((run lz s0 ops).writeQueue ≠ [] →
        ∃ text, getItem (run lz s0 ops).ls walKey = some text ∧
          JSON.parse text = some (.arr (walOps (run lz s0 ops).writeQueue)))) := by
  intro h
  have hev : (match construct (some markCodec)
      (run (some markCodec) uncompressedSession (queueSets [("b", .num 2)])).ls 0 with
    | .ok t => decide (t.writeQueue = [] ∧ getItem t.ls walKey ≠ none)
    | .error _ => false) = true := by decide
  cases hc : construct (some markCodec)
      (run (some markCodec) uncompressedSession (queueSets [("b", .num 2)])).ls 0 with
  | error e =>
    rw [hc] at hev
    cases hev
  | ok s0 =>
    rw [hc] at hev
    simp only [decide_eq_true_eq] at hev
    obtain ⟨h1, -⟩ := h (some markCodec) markCodec_lawful _ 0 s0 hc []
    exact hev.2 (h1 hev.1)

end StorageManager
namespace StorageManager

/-! ## Claim C23: the timestamps of the metadata -/

theorem run_append (lz : Option Codec) (s : Store) (a b : List Op) :
    run lz s (a ++ b) = run lz (run lz s a) b := by
  simp [run, List.foldl_append]

theorem run_tick_set (lz : Option Codec) (s : Store) (dt : Nat) (k : String) (v : JSON) :
    run lz s [.tick dt, .set k v false] = (set lz { s with now := s.now + dt } k v false).1 :=
  rfl

theorem filledStore_succ (n : Nat) :
    filledStore (n + 1) = run none (filledStore n) [Op.set "k" (.str (bigText 500000)) true] := by
  unfold filledStore fillOps
  rw [List.replicate_succ', run_append]

/-- The store after `n ≤ 100` writes of `fillOps`: the first `n` chunk slots hold more than
500000 characters each, the other slots are absent, nothing is queued, the log is empty,
the metadata still shows the time 0, and `k` is the only key that the index can hold. -/
theorem fill_slots (n : Nat) (hn : n ≤ 100) :
    Inv (fun _ => True) none (filledStore n) ∧
    (∀ i, i < n → ∃ chunk, getItem (filledStore n).ls (chunkKeyOf i) = some chunk ∧
      chunk ≠ "" ∧ ∀ est, chunkSize ≤ jsLength chunk + est) ∧
    (∀ i, n ≤ i → getItem (filledStore n).ls (chunkKeyOf i) = none) ∧
    (filledStore n).now = 0 ∧ (filledStore n).writeQueue = [] ∧ TimesOk (filledStore n) ∧
    metaField (filledStore n) "updated" = some (.num 0) ∧
    (filledStore n).compressionEnabled = true ∧ WalInv (filledStore n) ∧
    MetaSlotOk (filledStore n).ls ∧
    ∃ idx, getIndex (filledStore n) = .obj idx ∧ ∀ k2, k2 ≠ "k" → JSON.lookup k2 idx = none := by
  induction n with
  | zero =>
    refine ⟨inv_freshStore _ none 0, fun i hi => absurd hi (Nat.not_lt_zero i), ?_, rfl, rfl,
      timesOk_freshStore 0, rfl, rfl, ⟨rfl, by decide⟩, Or.inl (by decide), [],
      getIndex_freshStore 0, fun _ _ => rfl⟩
    intro i _
    simp [filledStore, fillOps, run, freshStore, getItem, Ne.symm (chunkKeyOf_ne_metaKey i)]
  | succ n ih =>
    obtain ⟨hI, hfull, hfree, hnow, hq, hT, hupd, hce, hW, hmeta, idx, hidx, hkeys⟩ :=
      ih (by omega)
    rw [filledStore_succ]
    generalize filledStore n = s at hI hfull hfree hnow hq hT hupd hce hW hmeta hidx
    have habs : present (getItem s.ls (chunkKeyOf n)) = false := by
      rw [hfree n (le_refl n)]; rfl
    have hf : findOrCreateChunk s "k" (some (.str (bigText 500000))) = .ok (chunkKeyOf n) :=
      findOrCreateChunk_of_fits s _ _ n (by omega) (chunkFits_of_absent _ _ _ habs)
        (fun j hj => by
          obtain ⟨chunk, h1, h2, h3⟩ := hfull j hj
          exact chunkFits_full _ _ _ ⟨chunk, h1, h2, h3 _⟩)
    rcases inv_writeImmediate _ none none_lawful s hI "k" (.str (bigText 500000)) trivial idx
        hidx with ⟨he, -⟩ |
      ⟨s1, i, -, hfi, hw, hI1, hidx1, -, -, hoth, hwal1, hce1, hq1, hw1, hnow1, -⟩
    · rw [hf] at he; cases he
    rw [hf] at hfi
    have hi := chunkKeyOf_injective _ _ (by simpa using hfi)
    subst hi
    obtain ⟨i, cd, cd1, idx1, -, g1, g2, g3, -, -, -, -, -, -, gslot, -⟩ :=
      writeImmediate_slots none s s1 _ _ hw
    rw [hf] at g1
    have hi := chunkKeyOf_injective _ _ (by simpa using g1)
    subst hi
    have hload : loadChunk none s (chunkKeyOf n) = .ok (.obj []) := by
      simp [loadChunk, habs]
    rw [hload] at g2
    cases g2
    simp only [JSON.setProp, JSON.upsert, Except.ok.injEq] at g3
    subst g3
    have henc : ∀ b t, encode none b t = t := by
      intro b t
      cases b <;> rfl
    rw [henc] at gslot
    obtain ⟨i, cd, cd1, idx1, m1, -, -, -, -, -, g5, g6⟩ := writeImmediate_ok none s s1 "k" _ hw
    obtain ⟨hT1, hu1, -, -⟩ := touch_meta s s1 m1 hT g5 (by rw [g6]) hnow1
    obtain ⟨mm1, hmm1⟩ := timesOk_obj s1 hT1
    have hmslot : getItem s1.ls metaKey = some (JSON.stringify s1.meta) := by
      rw [g6]
      exact getItem_setItem_same _ _ _
    have hrun : run none s [Op.set "k" (.str (bigText 500000)) true] = s1 := by
      simp [run, step, set, hw]
    rw [hrun]
    refine ⟨hI1, ?_, ?_, by rw [hnow1, hnow], by rw [hq1, hq], hT1, by rw [hu1, hnow]; rfl,
      by rw [hce1, hce], ⟨by rw [hw1, hq1]; exact hW.mem, by rw [hwal1, hq1]; exact hW.slot⟩,
      Or.inr ⟨mm1, by rw [hmslot, hmm1]⟩, _, hidx1, ?_⟩
    · intro j hj
      by_cases hjn : j = n
      · subst hjn
        refine ⟨_, gslot, stringify_ne_empty _, ?_⟩
        intro est
        rw [jsLength_entry_bigText]
        simp only [chunkSize]
        omega
      · rw [hoth j hjn]
        exact hfull j (by omega)
    · intro j hj
      rw [hoth j (by omega)]
      exact hfree j (by omega)
    · intro k2 hk2
      rw [JSON.lookup_upsert_ne _ _ _ _ hk2]
      exact hkeys k2 hk2

/-- On a store whose hundred chunk slots are full and whose queue is empty, after the
clock has moved on and a write has been queued, the flush raises and leaves the metadata
as it was. -/
theorem full_flush_keeps_meta (s : Store) (dt : Nat)
    (hfull : ∀ i, i < 100 → ∃ chunk,
      getItem s.ls (chunkKeyOf i) = some chunk ∧ chunk ≠ "" ∧
        ∀ est, chunkSize ≤ jsLength chunk + est)
    (hq : s.writeQueue = []) :
    (run none s [.tick dt, .set "q" (.num 1) false]).writeQueue ≠ [] ∧
    (run none s [.tick dt, .set "q" (.num 1) false]).now = s.now + dt ∧
    metaField (afterFlush none (run none s [.tick dt, .set "q" (.num 1) false])) "updated" =
      metaField s "updated" := by
  rw [run_tick_set]
  obtain ⟨q1, -, q3, q4, q5⟩ := set_queued_effect none { s with now := s.now + dt } "q" (.num 1)
  have hlim : findOrCreateChunk (set none { s with now := s.now + dt } "q" (.num 1) false).1
      "q" (some (.num 1)) = .error .limitReached := by
    apply findOrCreateChunk_none
    intro i hi
    obtain ⟨chunk, c1, c2, c3⟩ := hfull i hi
    exact chunkFits_full _ _ _ ⟨chunk, by rw [q5 _ (chunkKeyOf_ne_walKey i)]; exact c1, c2, c3 _⟩
  have hqueue : (set none { s with now := s.now + dt } "q" (.num 1) false).1.writeQueue =
      [⟨"q", .num 1, s.now + dt⟩] := by
    rw [q1]
    simp only [hq, List.nil_append]
  have hfl := flush_limit none _ _ _ hqueue hlim
  refine ⟨by rw [hqueue]; simp, q4, ?_⟩
  simp only [afterFlush, step, hfl, metaField]
  rw [q3]

/-- Counterexample to C23 as stated: once a hundred immediate writes have filled the
hundred chunk slots, a queued write makes the flush raise in `_findOrCreateChunk`; the flush of the non-empty queue then
leaves `meta.updated` at 0 although the clock shows 5. -/
theorem meta_timestamps_refuted :
    ¬ (∀ (lz : Option Codec), Lawful lz → ∀ (s0 : Store), Inv (fun _ => True) lz s0 →
      s0.meta = createDefaultMeta s0.now → ∀ (ops : List Op),
      (run lz s0 ops).writeQueue ≠ [] →
      metaField (afterFlush lz (run lz s0 ops)) "updated" =
        some (.num (run lz s0 ops).now)) := by
  intro h
  have h1 := h none none_lawful (freshStore 0) (inv_freshStore _ none 0) rfl
    (fillOps 100 ++ [.tick 5, .set "q" (.num 1) false])
  obtain ⟨-, hfull, -, hnow, hq, -, hupd, -⟩ := fill_slots 100 (le_refl 100)
  rw [run_append] at h1
  obtain ⟨e1, e2, e3⟩ := full_flush_keeps_meta (filledStore 100) 5 hfull hq
  have h2 := h1 e1
  have e2b : (run none (run none (freshStore 0) (fillOps 100))
      [.tick 5, .set "q" (.num 1) false]).now = (filledStore 100).now + 5 := e2
  have e3b : metaField (afterFlush none (run none (run none (freshStore 0) (fillOps 100))
      [.tick 5, .set "q" (.num 1) false])) "updated" = metaField (filledStore 100) "updated" :=
    e3
  rw [e2b, e3b, hupd, hnow] at h2
  revert h2
  decide

/-- Claim C23 (amended): start from a well-formed store whose metadata is the freshly
created default. After every sequence of calls, with a clock that never runs backwards,
the metadata has `created ≤ updated`. Every successful immediate write sets `updated` to
the current clock value, leaves `created` and `version` as they were, and persists the
metadata. A flush of a non-empty queue completes unless `_findOrCreateChunk` finds no room
for one of the queued writes, and every such flush that completes does the same to the
metadata. -/
theorem meta_timestamps (lz : Option Codec) (hz : Lawful lz) (s0 : Store)
    (hI0 : Inv (fun _ => True) lz s0) (hm : s0.meta = createDefaultMeta s0.now)
    (ops : List Op) :
    TimesOk (run lz s0 ops) ∧
    (∀ k v, (set lz (run lz s0 ops) k v true).2 = true →
      metaField (set lz (run lz s0 ops) k v true).1 "updated" =
        some (.num (run lz s0 ops).now) ∧
      metaField (set lz (run lz s0 ops) k v true).1 "created" =
        metaField (run lz s0 ops) "created" ∧
      metaField (set lz (run lz s0 ops) k v true).1 "version" =
        metaField (run lz s0 ops) "version" ∧
      getItem (set lz (run lz s0 ops) k v true).1.ls metaKey =
        some (JSON.stringify (set lz (run lz s0 ops) k v true).1.meta)) ∧
    ((run lz s0 ops).writeQueue ≠ [] →
      ((∃ s1, flushWriteQueue lz (run lz s0 ops) = .ok s1) ∨
        ∃ w ∈ (run lz s0 ops).writeQueue,
          findOrCreateChunk (run lz s0 ops) w.key (some w.value) = .error .limitReached) ∧
      ∀ s1, flushWriteQueue lz (run lz s0 ops) = .ok s1 →
        metaField s1 "updated" = some (.num (run lz s0 ops).now) ∧
        metaField s1 "created" = metaField (run lz s0 ops) "created" ∧
        metaField s1 "version" = metaField (run lz s0 ops) "version" ∧
        getItem s1.ls metaKey = some (JSON.stringify s1.meta)) := by
  have hT0 : TimesOk s0 :=
    ⟨s0.now, s0.now, by simp [metaField, hm, createDefaultMeta, JSON.lookup],
      by simp [metaField, hm, createDefaultMeta, JSON.lookup], le_refl _, le_refl _⟩
  obtain ⟨hI, hT⟩ := inv_timesOk_run lz hz ops s0 hI0 hT0
  generalize run lz s0 ops = s at hI hT
  refine ⟨hT, ?_, ?_⟩
  · intro k v hset
    have hw := set_immediate_eq lz s k v hset
    generalize (set lz s k v true).1 = s1 at hw
    obtain ⟨i, cd, cd1, idx1, m1, -, -, -, -, -, g5, g6⟩ := writeImmediate_ok lz s s1 k _ hw
    have hm : s1.meta = m1 := by rw [g6]
    have hn : s1.now = s.now := by rw [g6]
    obtain ⟨-, t1, t2, t3⟩ := touch_meta s s1 m1 hT g5 hm hn
    refine ⟨t1, t2, t3, ?_⟩
    rw [hm]
    rw [g6]
    exact getItem_setItem_same _ _ _
  · intro hq
    constructor
    · obtain ⟨idx, hidx⟩ := hI.index
      rcases inv_flush _ lz hz s hI idx hidx with ⟨h, -⟩ | ⟨-, -, w, hw, hf⟩ | ⟨s2, gs, -, h, -⟩
      · exact absurd h hq
      · exact Or.inr ⟨w, hw, hf⟩
      · exact Or.inl ⟨s2, h⟩
    · intro s1 hf
      obtain ⟨gs, idx1, m1, -, -, -, -, -, -, -, -, f9, f10, f11, -, -, f14, -⟩ :=
        flush_ok lz s s1 hq hf
      obtain ⟨-, t1, t2, t3⟩ := touch_meta s s1 m1 hT f11 f10 f9
      refine ⟨t1, t2, t3, ?_⟩
      rw [f10]
      exact f14

/-- Witness of C23 (amended): after an immediate write at time 0, a tick of 5 and a queued
write, the flush completes, sets `updated` to 5, leaves `created` at 0 and persists the
metadata; an immediate write in the same state does the same. -/
theorem meta_timestamps_witness :
    Lawful (some markCodec) ∧ (freshStore 0).meta = createDefaultMeta (freshStore 0).now ∧
    (run (some markCodec) (freshStore 0)
      [.set "a" (.num 1) true, .tick 5, .set "b" (.num 2) false]).writeQueue ≠ [] ∧
    flushWriteQueue (some markCodec) (run (some markCodec) (freshStore 0)
        [.set "a" (.num 1) true, .tick 5, .set "b" (.num 2) false]) =
      .ok (afterFlush (some markCodec) (run (some markCodec) (freshStore 0)
        [.set "a" (.num 1) true, .tick 5, .set "b" (.num 2) false])) ∧
    metaField (afterFlush (some markCodec) (run (some markCodec) (freshStore 0)
      [.set "a" (.num 1) true, .tick 5, .set "b" (.num 2) false])) "updated" = some (.num 5) ∧
    metaField (afterFlush (some markCodec) (run (some markCodec) (freshStore 0)
      [.set "a" (.num 1) true, .tick 5, .set "b" (.num 2) false])) "created" = some (.num 0) ∧
    getItem (afterFlush (some markCodec) (run (some markCodec) (freshStore 0)
      [.set "a" (.num 1) true, .tick 5, .set "b" (.num 2) false])).ls metaKey =
      some (JSON.stringify (afterFlush (some markCodec) (run (some markCodec) (freshStore 0)
        [.set "a" (.num 1) true, .tick 5, .set "b" (.num 2) false])).meta) ∧
    metaField (set (some markCodec) (run (some markCodec) (freshStore 0)
      [.set "a" (.num 1) true, .tick 5, .set "b" (.num 2) false]) "c" (.num 3) true).1
      "updated" = some (.num 5) :=
  have h := meta_timestamps (some markCodec) markCodec_lawful (freshStore 0)
    (inv_freshStore _ _ 0) rfl [.set "a" (.num 1) true, .tick 5, .set "b" (.num 2) false]
  have hq : (run (some markCodec) (freshStore 0)
      [.set "a" (.num 1) true, .tick 5, .set "b" (.num 2) false]).writeQueue ≠ [] := by decide
  have hf : flushWriteQueue (some markCodec) (run (some markCodec) (freshStore 0)
        [.set "a" (.num 1) true, .tick 5, .set "b" (.num 2) false]) =
      .ok (afterFlush (some markCodec) (run (some markCodec) (freshStore 0)
        [.set "a" (.num 1) true, .tick 5, .set "b" (.num 2) false])) := by rfl
  ⟨markCodec_lawful, rfl, hq, hf, ((h.2.2 hq).2 _ hf).1,
    ((h.2.2 hq).2 _ hf).2.1.trans (by decide), ((h.2.2 hq).2 _ hf).2.2.2,
    (h.2.1 "c" (.num 3) (by decide)).1⟩

end StorageManager
namespace StorageManager

/-! ## Claim C8: chunk content against the index -/

theorem held_congr (lz : Option Codec) (key : String) (s t : Store)
    (hH : HeldWhereIndexed lz key s)
    (hidx : getItem t.ls indexKey = getItem s.ls indexKey)
    (hch : ∀ i, getItem t.ls (chunkKeyOf i) = getItem s.ls (chunkKeyOf i))
    (hce : t.compressionEnabled = s.compressionEnabled) : HeldWhereIndexed lz key t := by
  intro idx i hi hm
  rw [getIndex_congr s t hidx] at hi
  rw [membersOf_congr lz s t _ (hch i) hce] at hm
  exact hH idx i hi hm

theorem held_of_empty (lz : Option Codec) (key : String) (s : Store)
    (hch : ∀ i, getItem s.ls (chunkKeyOf i) = none) : HeldWhereIndexed lz key s := by
  intro idx i _ hm
  rw [membersOf_absent lz s _ (by rw [hch i]; rfl)] at hm
  simp [JSON.lookup] at hm

/-- The writes to one key among the groups of a flush, when all the queued writes to the
key are placed in the same chunk: either the key is not queued and no group writes it, or
one group holds all its writes and is the last one seen for the key. -/
theorem flush_key_groups (s : Store) (key : String) (gs : List WriteGroup)
    (f1 : (gs.map Prod.fst).Nodup) (f2 : ∀ c, groupOf c gs = routed s c s.writeQueue)
    (f3 : ∀ c, c ∈ gs.map Prod.fst → ∃ i, i < 100 ∧ c = chunkKeyOf i ∧
      ∃ w, w ∈ s.writeQueue ∧ findOrCreateChunk s w.key (some w.value) = .ok c)
    (f4 : ∀ w, w ∈ s.writeQueue → ∃ c, findOrCreateChunk s w.key (some w.value) = .ok c ∧
      c ∈ gs.map Prod.fst)
    (hsame : ∀ w1 ∈ s.writeQueue, ∀ w2 ∈ s.writeQueue, w1.key = key → w2.key = key →
      findOrCreateChunk s w1.key (some w1.value) = findOrCreateChunk s w2.key (some w2.value)) :
    (lastGroup key gs = none ∧ ∀ c, lastWrite key (groupOf c gs) = none) ∨
    ∃ w0 ∈ s.writeQueue, w0.key = key ∧ ∃ i v,
      findOrCreateChunk s key (some w0.value) = .ok (chunkKeyOf i) ∧
      lastGroup key gs = some (chunkKeyOf i) ∧
      ∀ c, lastWrite key (groupOf c gs) = if c = chunkKeyOf i then some v else none := by
  cases hl : lastWrite key (s.writeQueue.map (fun w => (w.key, w.value))) with
  | none =>
    left
    have hnone : ∀ c, lastWrite key (groupOf c gs) = none := by
      intro c
      rw [f2 c]
      apply lastWrite_none
      intro p hp
      obtain ⟨w, hw, hwk⟩ := routed_keys s c _ p hp
      rw [← hwk]
      exact lastWrite_ne_of_none key _ hl (w.key, w.value) (List.mem_map.2 ⟨w, hw, rfl⟩)
    refine ⟨?_, hnone⟩
    cases hlg : lastGroup key gs with
    | none => rfl
    | some r =>
      obtain ⟨-, h2⟩ := lastGroup_some key r gs f1 hlg
      rw [hnone] at h2
      cases h2
  | some v =>
    right
    have hmemq := lastWrite_mem key v _ hl
    obtain ⟨w0, hw0, hw0e⟩ := List.mem_map.1 hmemq
    have hk0 : w0.key = key := congrArg Prod.fst hw0e
    obtain ⟨c, hc, hcmem⟩ := f4 w0 hw0
    obtain ⟨i, -, rfl, -⟩ := f3 _ hcmem
    have hall : ∀ w ∈ s.writeQueue, w.key = key →
        findOrCreateChunk s w.key (some w.value) = .ok (chunkKeyOf i) := by
      intro w hw hwk
      rw [hsame w hw w0 hw0 hwk hk0]
      exact hc
    have hlw : ∀ c2, lastWrite key (groupOf c2 gs) =
        if c2 = chunkKeyOf i then some v else none := by
      intro c2
      rw [f2 c2, lastWrite_routed s (chunkKeyOf i) key _ hall c2, hl]
    refine ⟨w0, hw0, hk0, i, v, by rw [← hk0]; exact hc, ?_, hlw⟩
    cases hlg : lastGroup key gs with
    | none =>
      have := lastGroup_none key gs f1 hlg (chunkKeyOf i)
      rw [hlw, if_pos rfl] at this
      cases this
    | some r =>
      obtain ⟨-, h2⟩ := lastGroup_some key r gs f1 hlg
      rw [hlw] at h2
      by_cases hr : r = chunkKeyOf i
      · rw [hr]
      · simp [hr] at h2

/-- A call that does not re-route the key keeps every copy of the key in the chunk that the
index names for it. -/
theorem held_step (lz : Option Codec) (hz : Lawful lz) (key : String) (s : Store)
    (hI : Inv (fun _ => True) lz s) (hH : HeldWhereIndexed lz key s) (op : Op)
    (hk : KeepsKey s key op) : HeldWhereIndexed lz key (step lz s op) := by
  obtain ⟨idx, hidx⟩ := hI.index
  cases op with
  | get k => exact hH
  | keys => exact hH
  | getStats => exact hH
  | tick dt => exact held_congr lz key s _ hH rfl (fun _ => rfl) rfl
  | clear =>
    simp only [step, clear, saveMeta]
    apply held_of_empty
    intro i
    simp only
    rw [getItem_setItem_ne _ _ _ _ (chunkKeyOf_ne_metaKey i),
      getItem_filter_startsWith _ _ (chunkKeyOf_startsWith i)]
  | delete k =>
    obtain ⟨-, -, d3, -, d5, -, -, -, d9⟩ := inv_delete _ lz hz s hI k idx hidx
    simp only [step]
    generalize (delete lz s k).1 = s1 at d3 d5 d9
    intro idx1 j hi1 hm
    rw [d3] at hi1
    cases hi1
    rcases d9 with ⟨hl, hsame⟩ | ⟨i, hl, hp1, hm1, hsame⟩
    · rw [membersOf_congr lz s s1 _ (hsame j) d5] at hm
      have h0 := hH idx j hidx hm
      have hne : key ≠ k := by
        rintro rfl
        rw [hl] at h0
        cases h0
      rw [JSON.lookup_erase_ne _ _ _ hne]
      exact h0
    · by_cases hj : j = i
      · subst hj
        rw [hm1] at hm
        have hne : key ≠ k := by
          rintro rfl
          rw [JSON.lookup_erase_same] at hm
          cases hm
        rw [JSON.lookup_erase_ne _ _ _ hne] at hm ⊢
        exact hH idx j hidx hm
      · rw [membersOf_congr lz s s1 _ (hsame j hj) d5] at hm
        have h0 := hH idx j hidx hm
        have hne : key ≠ k := by
          rintro rfl
          rw [hl] at h0
          simp only [Option.some.injEq, JSON.str.injEq] at h0
          exact hj (chunkKeyOf_injective _ _ h0).symm
        rw [JSON.lookup_erase_ne _ _ _ hne]
        exact h0
  | flush =>
    simp only [step]
    rcases inv_flush _ lz hz s hI idx hidx with ⟨-, h⟩ | ⟨-, h, -⟩ |
      ⟨s1, gs, hq, h, -, -, f1, f2, f3, f4, f5, f6, f7, -, -, -, f11, -⟩
    · rw [h]; exact hH
    · rw [h]; exact held_congr lz key s _ hH rfl (fun _ => rfl) rfl
    · rw [h]
      show HeldWhereIndexed lz key s1
      obtain ⟨hkA, hkB⟩ := hk
      intro idx1 j hi1 hm
      rw [f5] at hi1
      cases hi1
      rw [lookup_indexGroups]
      have hmem : JSON.lookup key (membersOf lz s1 (chunkKeyOf j)) =
          match lastWrite key (groupOf (chunkKeyOf j) gs) with
          | some r => some r
          | none => JSON.lookup key (membersOf lz s (chunkKeyOf j)) := by
        by_cases hj : chunkKeyOf j ∈ gs.map Prod.fst
        · rw [(f6 j hj).2, lookup_applyAll]
          all_goals cases lastWrite key (groupOf (chunkKeyOf j) gs) <;> rfl
        · rw [membersOf_congr lz s s1 _ (f7 j hj) f11, groupOf_eq_nil gs _ hj]
          rfl
      rw [hmem] at hm
      rcases flush_key_groups s key gs f1 f2 f3 f4 hkB with ⟨h2, h3⟩ |
        ⟨w0, hw0, hw0k, i, v, hfc, h2, h3⟩
      · rw [h2]
        rw [h3] at hm
        exact hH idx j hidx hm
      · rw [h2]
        simp only
        by_cases hji : chunkKeyOf j = chunkKeyOf i
        · rw [hji]
        · exfalso
          rw [h3, if_neg hji] at hm
          have h0 := hH idx j hidx hm
          have h1 := hkA w0 hw0 hw0k (chunkKeyOf i) idx _ hfc hidx h0
          simp only [JSON.str.injEq] at h1
          exact hji h1
  | set k v im =>
    cases im with
    | true =>
      simp only [step, set, if_true]
      rcases inv_writeImmediate _ lz hz s hI k v trivial idx hidx with ⟨-, h⟩ |
        ⟨s1, i, -, hf, h, -, w5, w6, w7, w8, -, w10, -⟩
      · rw [h]; exact hH
      · rw [h]
        show HeldWhereIndexed lz key s1
        intro idx1 j hi1 hm
        rw [w5] at hi1
        cases hi1
        by_cases hkk : key = k
        · subst hkk
          rw [JSON.lookup_upsert_same]
          by_cases hj : j = i
          · rw [hj]
          · exfalso
            rw [membersOf_congr lz s s1 _ (w8 j hj) w10] at hm
            have h0 := hH idx j hidx hm
            have h1 := hk rfl (chunkKeyOf i) idx _ hf hidx h0
            simp only [JSON.str.injEq] at h1
            exact hj (chunkKeyOf_injective _ _ h1)
        · rw [JSON.lookup_upsert_ne _ _ _ _ hkk]
          by_cases hj : j = i
          · subst hj
            rw [w7, JSON.lookup_upsert_ne _ _ _ _ hkk] at hm
            exact hH idx j hidx hm
          · rw [membersOf_congr lz s s1 _ (w8 j hj) w10] at hm
            exact hH idx j hidx hm
    | false =>
      obtain ⟨-, q2, -, -, q5⟩ := set_queued_effect lz s k v
      simp only [step]
      exact held_congr lz key s _ hH (q5 _ indexKey_ne_walKey)
        (fun i => q5 _ (chunkKeyOf_ne_walKey i)) q2

theorem held_clear (lz : Option Codec) (key : String) (s : Store) :
    HeldWhereIndexed lz key (step lz s .clear) := by
  simp only [step, clear, saveMeta]
  apply held_of_empty
  intro i
  simp only
  rw [getItem_setItem_ne _ _ _ _ (chunkKeyOf_ne_metaKey i),
    getItem_filter_startsWith _ _ (chunkKeyOf_startsWith i)]

/-- Along a sequence of calls that never re-routes the key, every copy of the key stays in
the chunk that the index names for it; a `clear()` makes this hold whatever came
before. -/
theorem held_run (lz : Option Codec) (hz : Lawful lz) (key : String) (ops : List Op) :
    ∀ s, Inv (fun _ => True) lz s → (HeldWhereIndexed lz key s ∨ Op.clear ∈ ops) →
      NeverRerouted lz key s ops →
      Inv (fun _ => True) lz (run lz s ops) ∧ HeldWhereIndexed lz key (run lz s ops) := by
  induction ops with
  | nil =>
    intro s hI hH _
    rcases hH with hH | hH
    · exact ⟨hI, hH⟩
    · cases hH
  | cons op ops ih =>
    intro s hI hH hN
    obtain ⟨n1, n2⟩ := hN
    have hI1 := inv_step _ lz hz s hI op (fun _ _ _ _ => trivial)
    simp only [run, List.foldl_cons]
    apply ih _ hI1 _ n2
    by_cases hc : Op.clear ∈ ops
    · exact Or.inr hc
    · left
      rcases n1 with n1 | n1
      · exact absurd n1 hc
      rcases hH with hH | hH
      · exact held_step lz hz key s hI hH op n1
      · simp only [List.mem_cons] at hH
        rcases hH with hH | hH
        · rw [← hH]
          exact held_clear lz key s
        · exact absurd hH hc

/-- The run of `twoChunkOps` on a fresh store: `b` is never re-routed, the first chunk holds
`a` and the second chunk holds `b` with its last value. -/
theorem twoChunkOps_run :
    NeverRerouted none "b" (freshStore 0) twoChunkOps ∧
    readChunk none (run none (freshStore 0) twoChunkOps) (chunkKeyOf 0) =
      some (.obj [("a", .str (bigText 500000))]) ∧
    readChunk none (run none (freshStore 0) twoChunkOps) (chunkKeyOf 1) =
      some (.obj [("b", .num 2)]) := by
  have hI0 := inv_freshStore (fun _ => True) none 0
  have habs0 : ∀ i, getItem (freshStore 0).ls (chunkKeyOf i) = none := fun i => by
    simp [freshStore, getItem, Ne.symm (chunkKeyOf_ne_metaKey i)]
  have henc : ∀ b t, encode none b t = t := by
    intro b t
    cases b <;> rfl
  -- the first write goes to the first chunk
  have hf1 : findOrCreateChunk (freshStore 0) "a" (some (.str (bigText 500000))) =
      .ok (chunkKeyOf 0) := findOrCreateChunk_first _ _ _ (by rw [habs0]; rfl)
  rcases inv_writeImmediate _ none none_lawful _ hI0 "a" (.str (bigText 500000)) trivial []
      (getIndex_freshStore 0) with ⟨he, -⟩ | ⟨s1, i, -, hfi, hw1, hI1, hidx1, -, -, hoth1, -⟩
  · rw [hf1] at he; cases he
  rw [hf1] at hfi
  have hi := chunkKeyOf_injective _ _ (by simpa using hfi)
  subst hi
  obtain ⟨i, cd, cd1, idx1, -, g1, g2, g3, -, hce1, -, -, -, -, gslot, -⟩ :=
    writeImmediate_slots none _ s1 _ _ hw1
  rw [hf1] at g1
  have hi := chunkKeyOf_injective _ _ (by simpa using g1)
  subst hi
  have hload0 : loadChunk none (freshStore 0) (chunkKeyOf 0) = .ok (.obj []) := by
    simp [loadChunk, habs0, present]
  rw [hload0] at g2
  cases g2
  simp only [JSON.setProp, JSON.upsert, Except.ok.injEq] at g3
  subst g3
  rw [henc] at gslot
  have hfull0 : ∀ (t : Store) (est : Nat), getItem t.ls (chunkKeyOf 0) = getItem s1.ls (chunkKeyOf 0) →
      chunkFits t.ls est 0 = false := by
    intro t est ht
    apply chunkFits_full
    refine ⟨_, ht.trans gslot, stringify_ne_empty _, ?_⟩
    rw [jsLength_entry_bigText]
    simp only [chunkSize]
    omega
  -- the second write goes to the second chunk
  have habs1 : present (getItem s1.ls (chunkKeyOf 1)) = false := by
    rw [hoth1 1 (by omega), habs0]; rfl
  have hf2 : findOrCreateChunk s1 "b" (some (.num 1)) = .ok (chunkKeyOf 1) :=
    findOrCreateChunk_of_fits s1 _ _ 1 (by omega) (chunkFits_of_absent _ _ _ habs1)
      (fun j hj => by
        have : j = 0 := by omega
        subst this
        exact hfull0 s1 _ rfl)
  rcases inv_writeImmediate _ none none_lawful s1 hI1 "b" (.num 1) trivial _ hidx1 with
    ⟨he, -⟩ | ⟨s2, i, -, hfi, hw2, hI2, hidx2, -, hm2, hoth2, -⟩
  · rw [hf2] at he; cases he
  rw [hf2] at hfi
  have hi := chunkKeyOf_injective _ _ (by simpa using hfi)
  subst hi
  obtain ⟨i, cd, cd1, idx1, -, g1, g2, g3, -, hce2, -, -, -, -, gslot2, -⟩ :=
    writeImmediate_slots none _ s2 _ _ hw2
  rw [hf2] at g1
  have hi := chunkKeyOf_injective _ _ (by simpa using g1)
  subst hi
  have hload1 : loadChunk none s1 (chunkKeyOf 1) = .ok (.obj []) := by
    simp [loadChunk, habs1]
  rw [hload1] at g2
  cases g2
  simp only [JSON.setProp, JSON.upsert, Except.ok.injEq] at g3
  subst g3
  rw [henc] at gslot2
  -- the update of b stays in the second chunk
  have hfit1 : chunkFits s2.ls (jsLength (entryText "b" (some (.num 2)))) 1 = true := by
    rw [chunkFits_of_slot _ _ _ _ gslot2 (stringify_ne_empty _)]
    decide
  have hf3 : findOrCreateChunk s2 "b" (some (.num 2)) = .ok (chunkKeyOf 1) :=
    findOrCreateChunk_of_fits s2 _ _ 1 (by omega) hfit1
      (fun j hj => by
        have : j = 0 := by omega
        subst this
        exact hfull0 s2 _ (hoth2 0 (by omega)))
  rcases inv_writeImmediate _ none none_lawful s2 hI2 "b" (.num 2) trivial _ hidx2 with
    ⟨he, -⟩ | ⟨s3, i, -, hfi, hw3, hI3, -, hp3, hm3, hoth3, -, hce3, -⟩
  · rw [hf3] at he; cases he
  rw [hf3] at hfi
  have hi := chunkKeyOf_injective _ _ (by simpa using hfi)
  subst hi
  have hs1 : step none (freshStore 0) (.set "a" (.str (bigText 500000)) true) = s1 := by
    simp [step, set, hw1]
  have hs2 : step none s1 (.set "b" (.num 1) true) = s2 := by
    simp [step, set, hw2]
  have hs3 : step none s2 (.set "b" (.num 2) true) = s3 := by
    simp [step, set, hw3]
  have hrun : run none (freshStore 0) twoChunkOps = s3 := by
    simp only [twoChunkOps, run, List.foldl_cons, List.foldl_nil, hs1, hs2, hs3]
  have hms2 : membersOf none s2 (chunkKeyOf 1) = [("b", .num 1)] :=
    (membersOf_of_slot none none_lawful s2 _ _ (by rw [gslot2, henc])).2.2
  rw [hrun]
  refine ⟨?_, ?_, ?_⟩
  · refine ⟨Or.inr (fun (h : "a" = "b") => absurd h (by decide)), ?_⟩
    rw [hs1]
    refine ⟨Or.inr (fun _ c idx cv _ hi hl => ?_), ?_⟩
    · rw [hidx1] at hi
      cases hi
      revert hl
      simp [JSON.upsert, JSON.lookup]
    rw [hs2]
    refine ⟨Or.inr (fun _ c idx cv hc hi hl => ?_), trivial⟩
    rw [hf3] at hc
    rw [hidx2] at hi
    cases hi
    cases hc
    rw [JSON.lookup_upsert_same] at hl
    cases hl
    rfl
  · rw [readChunk_congr none s2 s3 _ (hoth3 0 (by omega)) hce3,
      readChunk_congr none s1 s2 _ (hoth2 0 (by omega)) hce2]
    exact readChunk_of_slot none none_lawful s1 _ _ (by rw [gslot, henc])
  · rw [(hI3.chunks 1 hp3).1, hm3, hms2]
    rfl

/-- C8 (amended): take a sequence of `set`, `delete`, `clear` and flush calls on an empty
store in which no `set` uses the key `__proto__`, and a key of which no write is re-routed,
that is placed in another chunk than the one the index names for it. In the state reached,
every chunk whose object holds the key is the chunk that the index names for the key, so
the key occurs in one chunk only; and after a successful `delete` of the key no chunk
holds it. -/
theorem chunk_keys_indexed (lz : Option Codec) (hz : Lawful lz) (now : Nat) (ops : List Op)
    (k : String) (hplain : PlainKeys ops) (hkeep : NeverRerouted lz k (freshStore now) ops) :
    (∀ i ms, readChunk lz (run lz (freshStore now) ops) (chunkKeyOf i) = some (.obj ms) →
      k ∈ ms.map Prod.fst →
      JSON.getProp (getIndex (run lz (freshStore now) ops)) k =
          .ok (some (.str (chunkKeyOf i))) ∧
        ∀ j ms2, readChunk lz (run lz (freshStore now) ops) (chunkKeyOf j) =
            some (.obj ms2) → k ∈ ms2.map Prod.fst → j = i) ∧
    ((delete lz (run lz (freshStore now) ops) k).2 = true →
      ∀ i ms, readChunk lz (delete lz (run lz (freshStore now) ops) k).1 (chunkKeyOf i) =
        some (.obj ms) → k ∉ ms.map Prod.fst) := by
  have hH0 : HeldWhereIndexed lz k (freshStore now) :=
    held_of_empty lz k _ (fun i => by
      simp [freshStore, getItem, Ne.symm (chunkKeyOf_ne_metaKey i)])
  obtain ⟨hI, hH⟩ := held_run lz hz k ops _ (inv_freshStore _ lz now) (Or.inl hH0) hkeep
  generalize run lz (freshStore now) ops = s at hI hH
  obtain ⟨idx, hidx⟩ := hI.index
  have key_fact : ∀ (t : Store) (idxt : List (String × JSON)), getIndex t = .obj idxt →
      HeldWhereIndexed lz k t → ∀ i ms, readChunk lz t (chunkKeyOf i) = some (.obj ms) →
      k ∈ ms.map Prod.fst → JSON.lookup k idxt = some (.str (chunkKeyOf i)) := by
    intro t idxt hidxt hHt i ms hc hmem
    apply hHt idxt i hidxt
    have : membersOf lz t (chunkKeyOf i) = ms := by simp [membersOf, hc]
    rw [this]
    obtain ⟨v, hv⟩ := (JSON.mem_keys_iff k ms).1 hmem
    simp [hv]
  constructor
  · intro i ms hc hmem
    have h1 := key_fact s idx hidx hH i ms hc hmem
    refine ⟨by rw [hidx]; simp only [JSON.getProp]; rw [h1], ?_⟩
    intro j ms2 hc2 hmem2
    have h2 := key_fact s idx hidx hH j ms2 hc2 hmem2
    rw [h1] at h2
    simp only [Option.some.injEq, JSON.str.injEq] at h2
    exact (chunkKeyOf_injective _ _ h2).symm
  · obtain ⟨-, d2, d3, -⟩ := inv_delete _ lz hz s hI k idx hidx
    intro _ i ms hc hmem
    have hHd : HeldWhereIndexed lz k (delete lz s k).1 :=
      held_step lz hz k s hI hH (.delete k) trivial
    have h1 := key_fact _ _ d3 hHd i ms hc hmem
    rw [JSON.lookup_erase_same] at h1
    cases h1

/-- Witness of C8 (amended): after the three writes of `twoChunkOps` two chunks are in use,
`b` was updated in place in the second chunk, and the index names that chunk for it. -/
theorem chunk_keys_indexed_witness :
    Lawful none ∧ PlainKeys twoChunkOps ∧
    NeverRerouted none "b" (freshStore 0) twoChunkOps ∧
    readChunk none (run none (freshStore 0) twoChunkOps) (chunkKeyOf 1) =
      some (.obj [("b", .num 2)]) ∧
    JSON.getProp (getIndex (run none (freshStore 0) twoChunkOps)) "b" =
      .ok (some (.str (chunkKeyOf 1))) :=
  have hplain : PlainKeys twoChunkOps := by
    intro key value immediate hmem
    simp only [twoChunkOps, List.mem_cons, Op.set.injEq, List.mem_singleton,
      List.not_mem_nil, or_false] at hmem
    rcases hmem with ⟨rfl, -⟩ | ⟨rfl, -⟩ | ⟨rfl, -⟩ <;> decide
  ⟨none_lawful, hplain, twoChunkOps_run.1, twoChunkOps_run.2.2,
    ((chunk_keys_indexed none none_lawful 0 twoChunkOps "b" hplain twoChunkOps_run.1).1 1 _
      twoChunkOps_run.2.2 (by simp)).1⟩

end StorageManager
namespace StorageManager

/-! ## A replay that runs out of room where the flush completes -/

theorem run_lastSlotOps (lz : Option Codec) (s : Store) :
    run lz s lastSlotOps =
      (set lz (set lz s "a" (.str (bigText 300000)) false).1 "b"
        (.str (bigText 300000)) false).1 :=
  rfl

theorem quiet_lastSlotOps (lz : Option Codec) (s : Store) : Quiet lz s lastSlotOps :=
  ⟨by decide, (fun h => by cases h), by decide, (fun h => by cases h), trivial⟩

/-- With one chunk slot left, two writes of 300000 letters are queued. The flush places
both in the free chunk and completes; the replay by a new instance writes the first, finds
no room for the second and stops, so the second key is readable after the flush and not
after the recovery. -/
theorem replay_runs_out :
    Inv (fun _ => True) none (run none (filledStore 99) lastSlotOps) ∧
    (run none (filledStore 99) lastSlotOps).compressionEnabled = true ∧
    WalInv (run none (filledStore 99) lastSlotOps) ∧
    MetaSlotOk (run none (filledStore 99) lastSlotOps).ls ∧
    SameRoute (run none (filledStore 99) lastSlotOps) ∧
    ∃ sF sR, flushWriteQueue none (run none (filledStore 99) lastSlotOps) = .ok sF ∧
      construct none (run none (filledStore 99) lastSlotOps).ls 0 = .ok sR ∧
      NoRoom sR ((run none (filledStore 99) lastSlotOps).writeQueue.map
        (fun w => (w.key, w.value))) ∧
      get none sF "b" = some (.str (bigText 300000)) ∧ get none sR "b" = some .null ∧
      getItem sR.ls walKey ≠ none := by
  obtain ⟨hI, hfull, hfree, hnow, hq, -, -, hce, hW, hmeta, idx, hidx, hkeys⟩ :=
    fill_slots 99 (by omega)
  generalize filledStore 99 = s at hI hfull hfree hnow hq hce hW hmeta hidx
  -- the two queued writes
  obtain ⟨hIt, hWt⟩ :=
    inv_walInv_run none none_lawful lastSlotOps s hI hW (quiet_lastSlotOps none s)
  obtain ⟨a1, a2, a3, a4, a5⟩ := set_queued_effect none s "a" (.str (bigText 300000))
  obtain ⟨b1, b2, b3, b4, b5⟩ :=
    set_queued_effect none (set none s "a" (.str (bigText 300000)) false).1 "b"
      (.str (bigText 300000))
  rw [← run_lastSlotOps none s] at b1 b2 b3 b4 b5
  generalize run none s lastSlotOps = t at hIt hWt b1 b2 b3 b4 b5
  have hls : ∀ key, key ≠ walKey → getItem t.ls key = getItem s.ls key := by
    intro key hk
    rw [b5 key hk, a5 key hk]
  have hqueue : t.writeQueue =
      [⟨"a", .str (bigText 300000), 0⟩, ⟨"b", .str (bigText 300000), 0⟩] := by
    rw [b1, a1, a4, hq, hnow]
    rfl
  have hcet : t.compressionEnabled = true := by rw [b2, a2, hce]
  have hmt : MetaSlotOk t.ls := by
    unfold MetaSlotOk
    rw [hls _ metaKey_ne_walKey]
    exact hmeta
  have hidxt : getIndex t = .obj idx := by
    rw [getIndex_congr s t (hls _ indexKey_ne_walKey)]
    exact hidx
  -- where the allocator places a write of 300000 letters while the last slot is free
  have hest : ∀ key, jsLength (entryText key (some (.str (bigText 300000)))) =
      jsLength (String.mk (JSON.renderStr key)) + 300005 := by
    intro key
    show jsLength (JSON.stringify (.obj [(key, .str (bigText 300000))])) = _
    rw [jsLength_entry_bigText]
  have hroute : ∀ (u : Store) key,
      (∀ i, getItem u.ls (chunkKeyOf i) = getItem s.ls (chunkKeyOf i)) →
      findOrCreateChunk u key (some (.str (bigText 300000))) = .ok (chunkKeyOf 99) := by
    intro u key hu
    apply findOrCreateChunk_of_fits u _ _ 99 (by omega)
    · apply chunkFits_of_absent
      rw [hu 99, hfree 99 (le_refl _)]
      rfl
    · intro j hj
      obtain ⟨chunk, h1, h2, h3⟩ := hfull j hj
      exact chunkFits_full _ _ _ ⟨chunk, by rw [hu j]; exact h1, h2, h3 _⟩
  have hslots_t : ∀ i, getItem t.ls (chunkKeyOf i) = getItem s.ls (chunkKeyOf i) :=
    fun i => hls _ (chunkKeyOf_ne_walKey i)
  have hsame : SameRoute t := by
    intro w1 h1 w2 h2 _
    rw [hqueue] at h1 h2
    simp only [List.mem_cons, List.mem_singleton, List.not_mem_nil, or_false] at h1 h2
    rcases h1 with rfl | rfl <;> rcases h2 with rfl | rfl <;>
      simp only [hroute t _ hslots_t]
  refine ⟨hIt, hcet, hWt, hmt, hsame, ?_⟩
  -- the flush completes
  obtain ⟨sF, hF⟩ : ∃ sF, flushWriteQueue none t = .ok sF := by
    rcases inv_flush _ none none_lawful t hIt idx hidxt with ⟨h, -⟩ | ⟨-, -, w, hw, hf⟩ |
      ⟨s2, gs, -, h, -⟩
    · rw [hqueue] at h; cases h
    · exfalso
      rw [hqueue] at hw
      simp only [List.mem_cons, List.mem_singleton, List.not_mem_nil, or_false] at hw
      rcases hw with rfl | rfl <;>
        · simp only [hroute t _ hslots_t] at hf
          cases hf
    · exact ⟨s2, h⟩
  obtain ⟨hgF, -⟩ := flush_reads none none_lawful t sF hIt hsame hF idx hidxt
  have hgetF : get none sF "b" = some (.str (bigText 300000)) := by
    rw [hgF "b", hqueue]
    simp [lastWrite]
  -- the recovery
  obtain ⟨s1, hc, hI1, hfr, hce1, hq1, hw1, hidx1, -⟩ :=
    construct_front none none_lawful t hIt hcet hmt 0
  have hslot1 : getItem s1.ls walKey = some (JSON.stringify (.arr (walOps t.writeQueue))) := by
    rw [hfr _ (Ne.symm metaKey_ne_walKey), hWt.slot, if_neg (by rw [hqueue]; simp)]
  have hl := loadWAL_replay none s1 t.writeQueue (by rw [hqueue]; simp) hslot1
  have hI1w : Inv (fun _ => True) none { s1 with wal := .arr (walOps t.writeQueue) } :=
    inv_congr _ none none_lawful s1 _ hI1 rfl (fun _ => rfl) rfl hI1.metaObj
      (fun _ _ => trivial)
  have hslots1 : ∀ i, getItem ({ s1 with wal := .arr (walOps t.writeQueue) } : Store).ls
      (chunkKeyOf i) = getItem s.ls (chunkKeyOf i) := by
    intro i
    show getItem s1.ls (chunkKeyOf i) = _
    rw [hfr _ (chunkKeyOf_ne_metaKey i), hslots_t i]
  have hidx1w : getIndex ({ s1 with wal := .arr (walOps t.writeQueue) } : Store) = .obj idx :=
    (getIndex_congr s1 _ rfl).trans (hidx1.trans hidxt)
  rcases inv_writeImmediate _ none none_lawful _ hI1w "a" (.str (bigText 300000)) trivial idx
      hidx1w with ⟨he, -⟩ |
    ⟨s2, i, -, hfi, hw, hI2, hidx2, -, -, hoth, hwal2, -⟩
  · rw [hroute _ _ hslots1] at he; cases he
  rw [hroute _ _ hslots1] at hfi
  have hi := chunkKeyOf_injective _ _ (by simpa using hfi)
  subst hi
  obtain ⟨i, cd, cd1, idx1, -, g1, g2, g3, -, -, -, -, -, -, gslot, -⟩ :=
    writeImmediate_slots none _ s2 _ _ hw
  rw [hroute _ _ hslots1] at g1
  have hi := chunkKeyOf_injective _ _ (by simpa using g1)
  subst hi
  have habs : present (getItem ({ s1 with wal := .arr (walOps t.writeQueue) } : Store).ls
      (chunkKeyOf 99)) = false := by
    rw [hslots1 99, hfree 99 (le_refl _)]
    rfl
  have hload : loadChunk none { s1 with wal := .arr (walOps t.writeQueue) } (chunkKeyOf 99) =
      .ok (.obj []) := by
    simp [loadChunk, habs]
  rw [hload] at g2
  cases g2
  simp only [JSON.setProp, JSON.upsert, Except.ok.injEq] at g3
  subst g3
  have henc : ∀ b u, encode none b u = u := by
    intro b u
    cases b <;> rfl
  rw [henc] at gslot
  have hlimit : findOrCreateChunk s2 "b" (some (.str (bigText 300000))) =
      .error .limitReached := by
    apply findOrCreateChunk_none
    intro j hj
    by_cases hj99 : j = 99
    · subst hj99
      apply chunkFits_full
      refine ⟨_, gslot, stringify_ne_empty _, ?_⟩
      rw [jsLength_entry_bigText, hest]
      simp only [chunkSize]
      omega
    · obtain ⟨chunk, h1, h2, h3⟩ := hfull j (by omega)
      exact chunkFits_full _ _ _ ⟨chunk, by rw [hoth j hj99, hslots1 j]; exact h1, h2, h3 _⟩
  have hrep : replayOps none
      ((t.writeQueue.map (fun w => (w.key, w.value))).map (fun w => walOp w.1 w.2))
      { s1 with wal := .arr (walOps t.writeQueue) } = .error (.limitReached, s2) := by
    have hpairs : (t.writeQueue.map (fun w => (w.key, w.value))).map
        (fun w => walOp w.1 w.2) =
        [walOp "a" (.str (bigText 300000)), walOp "b" (.str (bigText 300000))] := by
      rw [hqueue]
      simp only [List.map_cons, List.map_nil]
    rw [hpairs, replayOps_set none _ s2 "a" _ _ hw]
    exact replayOps_limit none s2 "b" _ _ (writeImmediate_limit none s2 "b" _ hlimit)
  rw [hrep] at hl
  simp only at hl
  rw [hl] at hc
  refine ⟨sF, s2, hF, hc, ⟨("b", .str (bigText 300000)), by rw [hqueue]; simp, hlimit⟩, hgetF,
    ?_, ?_⟩
  · rw [get_of_inv _ none s2 hI2 _ hidx2, JSON.lookup_upsert_ne _ _ _ _ (by decide),
      hkeys "b" (by decide)]
  · rw [hwal2]
    show getItem s1.ls walKey ≠ none
    rw [hslot1]
    simp

end StorageManager
